import Mathlib

/-!
# A shallow embedding of the sequential CDS descriptor-processing parser

The definitions follow `components/descriptor.cpp`, `components/epn.cpp`,
`components/grammar.cpp`, `components/parser.cpp`,
`parsers/sequential/sequential_parser.cpp` and `utilities/checks.cpp`.

Modelling conventions.

* `std::string` is `String`, `std::vector<T>` is `List T`.
* `std::unordered_set<T, hash>` is a `List T` that never holds two elements
  equal under the C++ `operator==` of `T` (`set_insert` keeps it so); `count`,
  `insert` and `erase` go through that `operator==`.  The order of the list is the
  iteration order of the container, about which C++ promises nothing, so the
  element a loop takes with `*worklist.begin()` is chosen by a scheduler argument
  `pick`, over which the theorems quantify.
* `unsigned int` extents and the `int` counters are `Nat` (no input of `2^32`
  tokens is considered).
* `std::vector::at` past the end throws `std::out_of_range`; `operator[]` past the
  end is undefined behaviour.  Both are results of type `Fault`.  What an
  out-of-range `input[i]` yields is given by an argument `mem : Memory`
  (a value read from whatever lies behind the vector, or a fault); the theorems
  quantify over it.
* The `while` loop is unrolled `fuel` times; `none` means the fuel ran out.
* Timer and printing (`print_data`) are not modelled.
-/

namespace CDS

/-! ## Faults and raw reads -/

/-- Abnormal results: `out_of_range` is the exception thrown by `std::vector::at`,
`undefined_read i` is an evaluation of `v[i]` with `i ≥ v.size()`. -/
inductive Fault where
  | out_of_range : Fault
  | undefined_read : Nat → Fault
deriving DecidableEq

/-- The result of evaluating `input[i]` for an index `i` outside the vector. -/
abbrev Memory := Nat → Except Fault String

/-- The memory in which every out-of-range read is a fault. -/
def Memory.strict : Memory := fun i => Except.error (Fault.undefined_read i)

/-- The memory in which every out-of-range read yields the string `s`. -/
def Memory.const (s : String) : Memory := fun _ => Except.ok s

/-- Unchecked indexing, `v[i]` of `std::vector<std::string>`. -/
def vector_index (mem : Memory) (v : List String) (i : Nat) : Except Fault String :=
  match v[i]? with
  | some x => Except.ok x
  | none => mem i

/-! ## Hash sets (`std::unordered_set`) -/

/-- Number-of-occurrences test, `s.count(x)` (nonzero or zero). -/
def set_count {α : Type} (eq : α → α → Bool) (s : List α) (x : α) : Bool :=
  s.any (fun y => eq y x)

/-- Insertion, `s.insert(x)`: no effect when an equal element is present. -/
def set_insert {α : Type} (eq : α → α → Bool) (s : List α) (x : α) : List α :=
  if set_count eq s x then s else s ++ [x]

/-- Removal by value, `s.erase(x)`. -/
def set_erase {α : Type} (eq : α → α → Bool) (s : List α) (x : α) : List α :=
  s.filter (fun y => !(eq y x))

/-! ## Descriptors (`components/descriptor.cpp`) -/

abbrev production_rule_t := String × List String

structure Descriptor where
  lhs : String
  rhs : List String
  dot_position : Nat
  left_extent : Nat
  right_extent : Nat
  force_process : Bool
deriving DecidableEq

namespace Descriptor

/-- Five-argument constructor `Descriptor(k, v, d, l, r)`: `force_process` is false. -/
def make (k : String) (v : List String) (d l r : Nat) : Descriptor :=
  { lhs := k, rhs := v, dot_position := d, left_extent := l, right_extent := r,
    force_process := false }

def is_completed (d : Descriptor) : Bool := d.dot_position == d.rhs.length

def is_empty (d : Descriptor) : Bool := d.rhs.length == 0

/-- Next symbol `rhs.at(dot_position)`; throws when the dot is past the end. -/
def get_next_symbol (d : Descriptor) : Except Fault String :=
  match d.rhs[d.dot_position]? with
  | some s => Except.ok s
  | none => Except.error Fault.out_of_range

def advance (d : Descriptor) : Descriptor :=
  { d with dot_position := d.dot_position + 1 }

def copy_and_advance (d : Descriptor) : Descriptor := d.advance

def copy_and_force (d : Descriptor) : Descriptor :=
  { d with force_process := true }

/-- The free `operator==` on descriptors: `force_process` is not compared. -/
def eq (first second : Descriptor) : Bool :=
  let result := first.lhs == second.lhs
    && first.rhs.length == second.rhs.length
    && first.dot_position == second.dot_position
    && first.left_extent == second.left_extent
    && first.right_extent == second.right_extent
  if result then
    (List.range first.rhs.length).foldl
      (fun result i => result && (first.rhs[i]? == second.rhs[i]?)) result
  else result

end Descriptor

abbrev descriptor_set_t := List Descriptor

/-! ## Extended packed nodes (`components/epn.cpp`) -/

structure EPN where
  lhs : String
  rhs : List String
  dot_position : Nat
  left_extent : Nat
  pivot : Nat
  right_extent : Nat
deriving DecidableEq

namespace EPN

/-- Constructor `EPN(const Descriptor& d)`: the pivot is the right extent. -/
def of_descriptor (d : Descriptor) : EPN :=
  { lhs := d.lhs, rhs := d.rhs, dot_position := d.dot_position,
    left_extent := d.left_extent, pivot := d.right_extent, right_extent := d.right_extent }

/-- Constructor `EPN(const Descriptor& d, unsigned int p)`. -/
def of_descriptor_pivot (d : Descriptor) (p : Nat) : EPN :=
  { lhs := d.lhs, rhs := d.rhs, dot_position := d.dot_position,
    left_extent := d.left_extent, pivot := p, right_extent := d.right_extent }

/-- The free `operator==` on EPNs. -/
def eq (first second : EPN) : Bool :=
  let result := first.lhs == second.lhs
    && first.rhs.length == second.rhs.length
    && first.dot_position == second.dot_position
    && first.left_extent == second.left_extent
    && first.pivot == second.pivot
    && first.right_extent == second.right_extent
  if result then
    (List.range first.rhs.length).foldl
      (fun result i => result && (first.rhs[i]? == second.rhs[i]?)) result
  else result

end EPN

abbrev epn_set_t := List EPN

/-! ## Grammars (`components/grammar.cpp`) -/

structure Grammar where
  symbols : List String
  terminals : List String
  nonterminals : List String
  production_rules : List production_rule_t
  start_symbol : String
  has_start_symbol : Bool

namespace Grammar

/-- All rules whose left-hand side is `lhs` (`equal_range` on the multimap). -/
def get_production_rules (g : Grammar) (lhs : String) : List production_rule_t :=
  g.production_rules.filter (fun elem => elem.1 == lhs)

end Grammar

/-! ## The sequential parser (`parsers/sequential/sequential_parser.cpp`) -/

structure SequentialParser where
  input : List String
  grammar : Grammar
  worklist : descriptor_set_t
  descriptor_set : descriptor_set_t
  epn_set : epn_set_t
  num_descriptors : Nat
  num_match : Nat
  num_descend : Nat
  num_ascend : Nat
  num_skip : Nat

namespace SequentialParser

/-- Constructor `SequentialParser(Grammar g)`: empty containers, `num_descriptors = 0`.
The four action counters are not initialised by the constructor; `loop` resets them
before they are used, and they are 0 here. -/
def fresh (g : Grammar) : SequentialParser :=
  { input := [], grammar := g, worklist := [], descriptor_set := [], epn_set := [],
    num_descriptors := 0, num_match := 0, num_descend := 0, num_ascend := 0, num_skip := 0 }

def add_to_worklist (p : SequentialParser) (descriptor : Descriptor) : SequentialParser :=
  if !(set_count Descriptor.eq p.descriptor_set descriptor) then
    { p with worklist := set_insert Descriptor.eq p.worklist descriptor }
  else p

def extend_worklist (p : SequentialParser) (rules : List production_rule_t)
    (left_extent right_extent : Nat) : SequentialParser :=
  rules.foldl
    (fun p rule => p.add_to_worklist (Descriptor.make rule.1 rule.2 0 left_extent right_extent))
    p

/-- The action `match`. -/
def match_ (mem : Memory) (p : SequentialParser) (descriptor : Descriptor) :
    Except Fault SequentialParser :=
  let p := { p with num_match := p.num_match + 1 }
  match descriptor.get_next_symbol with
  | Except.error f => Except.error f
  | Except.ok terminal =>
    if p.input.length > 0 then
      match vector_index mem p.input descriptor.right_extent with
      | Except.error f => Except.error f
      | Except.ok x =>
        if terminal == x then
          let d := descriptor.copy_and_advance
          let d := { d with right_extent := d.right_extent + 1 }
          let p := p.add_to_worklist d
          let e := EPN.of_descriptor_pivot d descriptor.right_extent
          Except.ok { p with epn_set := set_insert EPN.eq p.epn_set e }
        else Except.ok p
    else Except.ok p

def descend (p : SequentialParser) (symbol : String) (pivot : Nat) : SequentialParser :=
  let p := { p with num_descend := p.num_descend + 1 }
  p.extend_worklist (p.grammar.get_production_rules symbol) pivot pivot

def skip (p : SequentialParser) (descriptor : Descriptor) (right_extents : List Nat) :
    SequentialParser :=
  let p := { p with num_skip := p.num_skip + 1 }
  right_extents.foldl
    (fun p right_extent =>
      let new_descriptor := { descriptor with right_extent := right_extent }
      let p := p.add_to_worklist new_descriptor
      let e := EPN.of_descriptor_pivot new_descriptor descriptor.right_extent
      { p with epn_set := set_insert EPN.eq p.epn_set e })
    p

def ascend (p : SequentialParser) (descriptors : descriptor_set_t) (right_extent : Nat) :
    SequentialParser :=
  let p := { p with num_ascend := p.num_ascend + 1 }
  descriptors.foldl
    (fun p descriptor =>
      let new_descriptor := { descriptor with right_extent := right_extent }
      let p := p.add_to_worklist new_descriptor
      let e := EPN.of_descriptor_pivot new_descriptor descriptor.right_extent
      { p with epn_set := set_insert EPN.eq p.epn_set e })
    p

/-- The first loop of `process_descriptor`: right extents of the completed
descriptors for `symbol` that start at `right_extent`. -/
def collect_right_extents (symbol : String) (right_extent : Nat) :
    descriptor_set_t → List Nat → List Nat
  | [], right_extents => right_extents
  | d :: rest, right_extents =>
    if d.lhs == symbol && d.left_extent == right_extent && d.is_completed then
      collect_right_extents symbol right_extent rest
        (set_insert (fun a b => a == b) right_extents d.right_extent)
    else collect_right_extents symbol right_extent rest right_extents

/-- The second loop of `process_descriptor`: advanced copies of the descriptors
waiting for `descriptor.lhs` at `descriptor.left_extent`. -/
def collect_descriptors (descriptor : Descriptor) :
    descriptor_set_t → descriptor_set_t → Except Fault descriptor_set_t
  | [], descriptors => Except.ok descriptors
  | d :: rest, descriptors =>
    if !d.is_completed then
      match d.get_next_symbol with
      | Except.error f => Except.error f
      | Except.ok s =>
        if s == descriptor.lhs && d.right_extent == descriptor.left_extent then
          collect_descriptors descriptor rest
            (set_insert Descriptor.eq descriptors d.copy_and_advance)
        else collect_descriptors descriptor rest descriptors
    else collect_descriptors descriptor rest descriptors

def process_descriptor (mem : Memory) (p : SequentialParser) (descriptor : Descriptor) :
    Except Fault SequentialParser :=
  if !descriptor.is_completed then
    match descriptor.get_next_symbol with
    | Except.error f => Except.error f
    | Except.ok symbol =>
      if symbol ∈ p.grammar.terminals then
        match_ mem p descriptor
      else
        let right_extents :=
          collect_right_extents symbol descriptor.right_extent p.descriptor_set []
        if right_extents.length == 0 then
          Except.ok (p.descend symbol descriptor.right_extent)
        else
          Except.ok (p.skip descriptor.copy_and_advance right_extents)
  else
    match collect_descriptors descriptor p.descriptor_set [] with
    | Except.error f => Except.error f
    | Except.ok descriptors =>
      let p := p.ascend descriptors descriptor.right_extent
      if descriptor.is_empty then
        Except.ok { p with epn_set := set_insert EPN.eq p.epn_set (EPN.of_descriptor descriptor) }
      else Except.ok p

/-- One iteration of the `while` loop of `loop` on the picked descriptor `d`. -/
def loop_body (mem : Memory) (p : SequentialParser) (d : Descriptor) :
    Except Fault SequentialParser :=
  let p := { p with descriptor_set := set_insert Descriptor.eq p.descriptor_set d }
  match process_descriptor mem p d with
  | Except.error f => Except.error f
  | Except.ok p =>
    let p := { p with num_descriptors := p.num_descriptors + 1 }
    Except.ok { p with worklist := set_erase Descriptor.eq p.worklist d }

/-- The element `*worklist.begin()` of a non-empty worklist `x :: xs`, as chosen by
the scheduler `pick`. -/
def begin_ (pick : SequentialParser → Nat) (p : SequentialParser) (x : Descriptor)
    (xs : List Descriptor) : Descriptor :=
  (x :: xs).getD (pick p % (xs.length + 1)) x

/-- The `while (!worklist.empty())` loop, unrolled at most `fuel` times. -/
def while_loop (mem : Memory) (pick : SequentialParser → Nat) :
    Nat → SequentialParser → Except Fault (Option SequentialParser)
  | 0, p => if p.worklist.isEmpty then Except.ok (some p) else Except.ok none
  | fuel + 1, p =>
    match p.worklist with
    | [] => Except.ok (some p)
    | x :: xs =>
      match loop_body mem p (begin_ pick p x xs) with
      | Except.error f => Except.error f
      | Except.ok p => while_loop mem pick fuel p

/-- The member function `loop`; the returned tuple is
`(descriptor_set, epn_set)` of the resulting parser. -/
def loop (mem : Memory) (pick : SequentialParser → Nat) (fuel : Nat) (p : SequentialParser) :
    Except Fault (Option SequentialParser) :=
  let p := { p with num_ascend := 0, num_descend := 0, num_match := 0, num_skip := 0 }
  let p := p.extend_worklist (p.grammar.get_production_rules p.grammar.start_symbol) 0 0
  while_loop mem pick fuel p

/-- The member function `parse` (through `Parser::parse`): set the input, run `loop`. -/
def parse (mem : Memory) (pick : SequentialParser → Nat) (fuel : Nat) (p : SequentialParser)
    (input_sequence : List String) : Except Fault (Option SequentialParser) :=
  loop mem pick fuel { p with input := input_sequence }

/-- The tuple `std::make_tuple(descriptor_set, epn_set)` a run returns. -/
def result (p : SequentialParser) : descriptor_set_t × epn_set_t :=
  (p.descriptor_set, p.epn_set)

end SequentialParser

end CDS

namespace CDS

/-! ## The correctness checker (`utilities/checks.cpp`) -/

/-- The global `is_correct` of `checks.cpp`, and the items reported as missing on
standard output, in order. -/
structure CheckerState where
  is_correct : Bool
  missing : List (Descriptor ⊕ EPN)

/-- The state of the checker when the program starts: `bool is_correct = true`. -/
def CheckerState.initial : CheckerState := { is_correct := true, missing := [] }

/-- The overload `check_if_exists(EPN, epn_set_t)`. -/
def check_if_exists_epn (st : CheckerState) (epn : EPN) (epns : epn_set_t) :
    CheckerState × Bool :=
  if !(set_count EPN.eq epns epn) then
    ({ is_correct := false, missing := st.missing ++ [Sum.inr epn] }, false)
  else (st, true)

/-- The overload `check_if_exists(Descriptor, descriptor_set_t)`. -/
def check_if_exists_descriptor (st : CheckerState) (descriptor : Descriptor)
    (descriptors : descriptor_set_t) : CheckerState × Bool :=
  if !(set_count Descriptor.eq descriptors descriptor) then
    ({ is_correct := false, missing := st.missing ++ [Sum.inl descriptor] }, false)
  else (st, true)

/-- The loop of `check_correctness` over the start rules, requirement R(1). -/
def check_start_rules (grammar : Grammar) (descriptors : descriptor_set_t) :
    List production_rule_t → CheckerState → CheckerState
  | [], st => st
  | rule :: rest, st =>
    check_start_rules grammar descriptors rest
      (check_if_exists_descriptor st
        (Descriptor.make grammar.start_symbol rule.2 0 0 0) descriptors).1

/-- The loop of `check_correctness` over the rules of `symbol`, requirement R(3). -/
def check_rules (symbol : String) (right_extent : Nat) (descriptors : descriptor_set_t) :
    List production_rule_t → CheckerState → CheckerState
  | [], st => st
  | rule :: rest, st =>
    check_rules symbol right_extent descriptors rest
      (check_if_exists_descriptor st
        (Descriptor.make symbol rule.2 0 right_extent right_extent) descriptors).1

/-- The inner loop of `check_correctness` over the descriptors, requirements R(4)
and P(2). -/
def check_neighbours (descriptor : Descriptor) (symbol : String)
    (descriptors : descriptor_set_t) (epns : epn_set_t) :
    List Descriptor → CheckerState → CheckerState
  | [], st => st
  | d :: rest, st =>
    if d.lhs == symbol && d.is_completed && d.left_extent == descriptor.right_extent then
      let d_new := { descriptor.copy_and_advance with right_extent := d.right_extent }
      let st := (check_if_exists_descriptor st d_new descriptors).1
      let st := (check_if_exists_epn st
        (EPN.of_descriptor_pivot d_new descriptor.right_extent) epns).1
      check_neighbours descriptor symbol descriptors epns rest st
    else check_neighbours descriptor symbol descriptors epns rest st

/-- The `else` branch taken for a descriptor whose next symbol did not match. -/
def check_unmatched (grammar : Grammar) (descriptors : descriptor_set_t) (epns : epn_set_t)
    (descriptor : Descriptor) (symbol : String) (st : CheckerState) : CheckerState :=
  let st := check_rules symbol descriptor.right_extent descriptors
    (grammar.get_production_rules symbol) st
  check_neighbours descriptor symbol descriptors epns descriptors st

/-- The body of the outer loop of `check_correctness` for one descriptor. -/
def check_descriptor (mem : Memory) (grammar : Grammar) (input : List String)
    (descriptors : descriptor_set_t) (epns : epn_set_t) (descriptor : Descriptor)
    (st : CheckerState) : Except Fault CheckerState :=
  if !descriptor.is_completed then
    match descriptor.get_next_symbol with
    | Except.error f => Except.error f
    | Except.ok symbol =>
      if symbol ∈ grammar.terminals then
        match vector_index mem input descriptor.right_extent with
        | Except.error f => Except.error f
        | Except.ok x =>
          if symbol == x then
            let d := descriptor.copy_and_advance
            let d := { d with right_extent := d.right_extent + 1 }
            let r := check_if_exists_descriptor st d descriptors
            if r.2 then
              Except.ok (check_if_exists_epn r.1
                (EPN.of_descriptor_pivot d descriptor.right_extent) epns).1
            else Except.ok r.1
          else Except.ok (check_unmatched grammar descriptors epns descriptor symbol st)
      else Except.ok (check_unmatched grammar descriptors epns descriptor symbol st)
  else if descriptor.is_empty then
    Except.ok (check_if_exists_epn st (EPN.of_descriptor descriptor) epns).1
  else Except.ok st

/-- The outer loop of `check_correctness` over the descriptors. -/
def check_descriptors (mem : Memory) (grammar : Grammar) (input : List String)
    (descriptors : descriptor_set_t) (epns : epn_set_t) :
    List Descriptor → CheckerState → Except Fault CheckerState
  | [], st => Except.ok st
  | descriptor :: rest, st =>
    match check_descriptor mem grammar input descriptors epns descriptor st with
    | Except.error f => Except.error f
    | Except.ok st => check_descriptors mem grammar input descriptors epns rest st

/-- The function `check_correctness`: the new checker state and the returned value,
which is the global `is_correct`. -/
def check_correctness (mem : Memory) (st : CheckerState) (descriptors : descriptor_set_t)
    (epns : epn_set_t) (grammar : Grammar) (input : List String) :
    Except Fault (CheckerState × Bool) :=
  let start_symbol_rules := grammar.get_production_rules grammar.start_symbol
  let st := check_start_rules grammar descriptors start_symbol_rules st
  match check_descriptors mem grammar input descriptors epns descriptors st with
  | Except.error f => Except.error f
  | Except.ok st => Except.ok (st, st.is_correct)

/-- The positions at which `check_correctness` evaluates `input[...]`: the right
extents of the descriptors that are not completed and have a terminal after the
dot. -/
def checker_reads (grammar : Grammar) (descriptors : descriptor_set_t) : List Nat :=
  (descriptors.filter (fun d =>
    match d.rhs[d.dot_position]? with
    | some symbol => decide (symbol ∈ grammar.terminals)
    | none => false)).map Descriptor.right_extent

/-! ## Specification-level notions -/

/-- The descriptor `x` follows from `d` by the action `match`: the symbol after the
dot is a terminal, the input is not empty and evaluating `input[d.right_extent]`
yields that terminal. -/
def MatchStep (G : Grammar) (w : List String) (mem : Memory) (d x : Descriptor) : Prop :=
  ∃ a, d.rhs[d.dot_position]? = some a ∧ a ∈ G.terminals ∧ 0 < w.length ∧
    vector_index mem w d.right_extent = Except.ok a ∧
    x = { d with dot_position := d.dot_position + 1, right_extent := d.right_extent + 1 }

/-- The descriptor `x` follows from `d` by the action `descend`. -/
def DescendStep (G : Grammar) (d x : Descriptor) : Prop :=
  ∃ X β, d.rhs[d.dot_position]? = some X ∧ X ∉ G.terminals ∧
    (X, β) ∈ G.production_rules ∧
    x = Descriptor.make X β 0 d.right_extent d.right_extent

/-- The descriptor `x` follows from `d` and the completed `d0` by `skip` or
`ascend`. -/
def SkipStep (G : Grammar) (d d0 x : Descriptor) : Prop :=
  ∃ X, d.rhs[d.dot_position]? = some X ∧ X ∉ G.terminals ∧ d0.lhs = X ∧
    d0.is_completed = true ∧ d0.left_extent = d.right_extent ∧
    x = { d with dot_position := d.dot_position + 1, right_extent := d0.right_extent }

/-- The least set of descriptors that holds the start descriptors and is closed
under the four actions. -/
inductive Reach (G : Grammar) (w : List String) (mem : Memory) : Descriptor → Prop
  | start (β : List String) :
      (G.start_symbol, β) ∈ G.production_rules →
      Reach G w mem (Descriptor.make G.start_symbol β 0 0 0)
  | by_match (d x : Descriptor) :
      Reach G w mem d → MatchStep G w mem d x → Reach G w mem x
  | by_descend (d x : Descriptor) :
      Reach G w mem d → DescendStep G d x → Reach G w mem x
  | by_skip (d d0 x : Descriptor) :
      Reach G w mem d → Reach G w mem d0 → SkipStep G d d0 x → Reach G w mem x

/-- The EPNs that the actions emit for the descriptors in `S`. -/
def Emits (G : Grammar) (w : List String) (mem : Memory) (S : Descriptor → Prop)
    (e : EPN) : Prop :=
  (∃ d x, S d ∧ MatchStep G w mem d x ∧ e = EPN.of_descriptor_pivot x d.right_extent) ∨
  (∃ d d0 x, S d ∧ S d0 ∧ SkipStep G d d0 x ∧
    e = EPN.of_descriptor_pivot x d.right_extent) ∨
  (∃ d, S d ∧ d.is_completed = true ∧ d.is_empty = true ∧ e = EPN.of_descriptor d)

/-- The CDS requirements R(1)–R(4) and P(1)–P(3) on an output `(S, E)`; membership
is `count`. -/
structure Requirements (G : Grammar) (input : List String) (S : descriptor_set_t)
    (E : epn_set_t) : Prop where
  R1 : ∀ β, (G.start_symbol, β) ∈ G.production_rules →
    set_count Descriptor.eq S (Descriptor.make G.start_symbol β 0 0 0) = true
  R2_P1 : ∀ d ∈ S, ∀ a, d.rhs[d.dot_position]? = some a → a ∈ G.terminals →
    input[d.right_extent]? = some a →
    set_count Descriptor.eq S
      (Descriptor.make d.lhs d.rhs (d.dot_position + 1) d.left_extent (d.right_extent + 1))
      = true ∧
    set_count EPN.eq E
      { lhs := d.lhs, rhs := d.rhs, dot_position := d.dot_position + 1,
        left_extent := d.left_extent, pivot := d.right_extent,
        right_extent := d.right_extent + 1 } = true
  R3 : ∀ d ∈ S, ∀ X, d.rhs[d.dot_position]? = some X → X ∉ G.terminals →
    ∀ β, (X, β) ∈ G.production_rules →
    set_count Descriptor.eq S (Descriptor.make X β 0 d.right_extent d.right_extent) = true
  R4_P2 : ∀ d ∈ S, ∀ X, d.rhs[d.dot_position]? = some X → X ∉ G.terminals →
    ∀ d0 ∈ S, d0.is_completed = true → d0.lhs = X → d0.left_extent = d.right_extent →
    set_count Descriptor.eq S
      (Descriptor.make d.lhs d.rhs (d.dot_position + 1) d.left_extent d0.right_extent)
      = true ∧
    set_count EPN.eq E
      { lhs := d.lhs, rhs := d.rhs, dot_position := d.dot_position + 1,
        left_extent := d.left_extent, pivot := d.right_extent,
        right_extent := d0.right_extent } = true
  P3 : ∀ d ∈ S, d.is_completed = true → d.is_empty = true →
    set_count EPN.eq E (EPN.of_descriptor d) = true

/-- One rewriting step of the grammar: a symbol with a rule is replaced by the
right-hand side of that rule. -/
inductive Grammar.Produces (G : Grammar) : List String → List String → Prop
  | rewrite (u v : List String) (X : String) (β : List String) :
      (X, β) ∈ G.production_rules → Grammar.Produces G (u ++ X :: v) (u ++ β ++ v)

/-- Derivation in zero or more rewriting steps. -/
def Grammar.Derives (G : Grammar) : List String → List String → Prop :=
  Relation.ReflTransGen G.Produces

/-- The sentence `w` is in the language of the grammar: it is derivable from the
start symbol and consists of terminals. -/
def Grammar.Derivable (G : Grammar) (w : List String) : Prop :=
  G.Derives [G.start_symbol] w ∧ ∀ t ∈ w, t ∈ G.terminals

/-- The symbols `α` derive the input between the positions `i` and `j`. -/
inductive Spans (G : Grammar) (w : List String) : List String → Nat → Nat → Prop
  | nil (i : Nat) : i ≤ w.length → Spans G w [] i i
  | terminal (a : String) (rest : List String) (i j : Nat) :
      a ∈ G.terminals → w[i]? = some a → Spans G w rest (i + 1) j →
      Spans G w (a :: rest) i j
  | nonterminal (X : String) (β rest : List String) (i m j : Nat) :
      X ∉ G.terminals → (X, β) ∈ G.production_rules → Spans G w β i m →
      Spans G w rest m j → Spans G w (X :: rest) i j

end CDS

namespace CDS

/-! ## Effects of the actions on the parser state -/

/-- The parser `p2` arises from `p1` by offering the descriptors `offered` to
`add_to_worklist` and inserting the EPNs `emitted` into `epn_set`; nothing else
changes except the action counters. -/
structure Extends (p1 p2 : SequentialParser) (offered : Descriptor → Prop)
    (emitted : EPN → Prop) : Prop where
  input_eq : p2.input = p1.input
  grammar_eq : p2.grammar = p1.grammar
  descriptor_set_eq : p2.descriptor_set = p1.descriptor_set
  num_descriptors_eq : p2.num_descriptors = p1.num_descriptors
  worklist_sound : ∀ x ∈ p2.worklist,
    x ∈ p1.worklist ∨ (offered x ∧ set_count Descriptor.eq p1.descriptor_set x = false)
  worklist_mono : ∀ x ∈ p1.worklist, x ∈ p2.worklist
  worklist_complete : ∀ x, offered x →
    set_count Descriptor.eq p1.descriptor_set x = true ∨
    set_count Descriptor.eq p2.worklist x = true
  epn_iff : ∀ e, e ∈ p2.epn_set ↔ e ∈ p1.epn_set ∨ emitted e

/-- The descriptor `x` follows from the waiting descriptor `d0` when the completed
descriptor `d` is processed (`ascend`). -/
def AscendStep (d0 d x : Descriptor) : Prop :=
  d.is_completed = true ∧ d0.rhs[d0.dot_position]? = some d.lhs ∧
    d0.right_extent = d.left_extent ∧
    x = { d0 with dot_position := d0.dot_position + 1, right_extent := d.right_extent }

/-- The descriptor set holds a completed descriptor for `X` that starts at `r`. -/
def HasCompleted (S : descriptor_set_t) (X : String) (r : Nat) : Prop :=
  ∃ d0 ∈ S, d0.lhs = X ∧ d0.left_extent = r ∧ d0.is_completed = true

/-- The descriptors that `process_descriptor` offers to the worklist for `d`. -/
def Offered (mem : Memory) (p : SequentialParser) (d x : Descriptor) : Prop :=
  MatchStep p.grammar p.input mem d x ∨
  (DescendStep p.grammar d x ∧
    ∀ X, d.rhs[d.dot_position]? = some X → ¬ HasCompleted p.descriptor_set X d.right_extent) ∨
  (∃ d0 ∈ p.descriptor_set, SkipStep p.grammar d d0 x) ∨
  (∃ d0 ∈ p.descriptor_set, AscendStep d0 d x)

/-- The EPNs that `process_descriptor` inserts for `d`. -/
def Emitted (mem : Memory) (p : SequentialParser) (d : Descriptor) (e : EPN) : Prop :=
  (∃ x, MatchStep p.grammar p.input mem d x ∧ e = EPN.of_descriptor_pivot x d.right_extent) ∨
  (∃ d0 ∈ p.descriptor_set, ∃ x, SkipStep p.grammar d d0 x ∧
    e = EPN.of_descriptor_pivot x d.right_extent) ∨
  (∃ d0 ∈ p.descriptor_set, ∃ x, AscendStep d0 d x ∧
    e = EPN.of_descriptor_pivot x d0.right_extent) ∨
  (d.is_completed = true ∧ d.is_empty = true ∧ e = EPN.of_descriptor d)

/-! ## Loop invariants -/

/-- The descriptor is in the worklist or in the descriptor set. -/
def Known (p : SequentialParser) (x : Descriptor) : Prop :=
  x ∈ p.worklist ∨ x ∈ p.descriptor_set

/-- The invariant of the `while` loop of `loop`: every consequence of the
descriptors already in `descriptor_set` is in the worklist or in `descriptor_set`,
and its EPN is in `epn_set`. -/
structure Inv (mem : Memory) (p : SequentialParser) : Prop where
  plain : ∀ d, Known p d → d.force_process = false
  disjoint : ∀ d ∈ p.worklist, d ∉ p.descriptor_set
  alternatives : ∀ d, Known p d → ∀ β, (d.lhs, β) ∈ p.grammar.production_rules →
    Known p (Descriptor.make d.lhs β 0 d.left_extent d.left_extent)
  by_match : ∀ d ∈ p.descriptor_set, ∀ x, MatchStep p.grammar p.input mem d x →
    Known p x ∧ EPN.of_descriptor_pivot x d.right_extent ∈ p.epn_set
  by_descend : ∀ d ∈ p.descriptor_set, ∀ x, DescendStep p.grammar d x → Known p x
  by_skip : ∀ d ∈ p.descriptor_set, ∀ d0 ∈ p.descriptor_set, ∀ x,
    SkipStep p.grammar d d0 x →
    Known p x ∧ EPN.of_descriptor_pivot x d.right_extent ∈ p.epn_set
  by_empty : ∀ d ∈ p.descriptor_set, d.is_completed = true → d.is_empty = true →
    EPN.of_descriptor d ∈ p.epn_set

/-- Every start descriptor is in the worklist or in the descriptor set. -/
def HasStart (p : SequentialParser) : Prop :=
  ∀ β, (p.grammar.start_symbol, β) ∈ p.grammar.production_rules →
    Known p (Descriptor.make p.grammar.start_symbol β 0 0 0)

/-- Everything the parser holds is justified by the actions. -/
structure Sound (mem : Memory) (p : SequentialParser) : Prop where
  descriptors : ∀ d, Known p d → Reach p.grammar p.input mem d
  epns : ∀ e ∈ p.epn_set,
    Emits p.grammar p.input mem (fun d => d ∈ p.descriptor_set) e

/-! ## Derivation trees over strings -/

/-- The symbols `α` yield the terminal string `u` through derivation trees in which
terminals stay and every other symbol is expanded by one of its rules. -/
inductive Yields (G : Grammar) : List String → List String → Prop
  | nil : Yields G [] []
  | terminal (a : String) (rest u : List String) :
      a ∈ G.terminals → Yields G rest u → Yields G (a :: rest) (a :: u)
  | nonterminal (X : String) (β rest u1 u2 : List String) :
      X ∉ G.terminals → (X, β) ∈ G.production_rules → Yields G β u1 →
      Yields G rest u2 → Yields G (X :: rest) (u1 ++ u2)

/-! ## Termination -/

/-- The descriptor is a dotted rule of the grammar with extents inside the input. -/
def WellFormed (G : Grammar) (w : List String) (d : Descriptor) : Prop :=
  (d.lhs, d.rhs) ∈ G.production_rules ∧ d.dot_position ≤ d.rhs.length ∧
    d.left_extent ≤ d.right_extent ∧ d.right_extent ≤ w.length ∧ d.force_process = false

/-- The distinct descriptors `(rule, dot ≤ |rhs|, L ≤ R ≤ |input|)`. -/
def descriptor_universe (G : Grammar) (w : List String) : Finset Descriptor :=
  G.production_rules.toFinset.biUnion (fun r =>
    ((Finset.range (r.2.length + 1) ×ˢ Finset.range (w.length + 1) ×ˢ
        Finset.range (w.length + 1)).filter (fun t => t.2.1 ≤ t.2.2)).image
      (fun t => Descriptor.make r.1 r.2 t.1 t.2.1 t.2.2))

/-- No read past the end of the input yields a terminal of the grammar. -/
def Memory.NoTerminal (mem : Memory) (G : Grammar) : Prop :=
  ∀ i a, mem i = Except.ok a → a ∉ G.terminals

/-- No read past the end of the input is a fault. -/
def Memory.NoFault (mem : Memory) : Prop :=
  ∀ i, ∃ a, mem i = Except.ok a

/-- The invariant of the loop that bounds the number of iterations. -/
structure Bounded (p : SequentialParser) : Prop where
  known : ∀ d, Known p d → WellFormed p.grammar p.input d
  nodup : p.descriptor_set.Nodup
  disjoint : ∀ d ∈ p.worklist, d ∉ p.descriptor_set

/-- The state after one iteration of the loop on a descriptor `d` of the worklist. -/
structure StepFacts (mem : Memory) (p p3 : SequentialParser) (d : Descriptor) : Prop where
  input_eq : p3.input = p.input
  grammar_eq : p3.grammar = p.grammar
  num_descriptors_eq : p3.num_descriptors = p.num_descriptors + 1
  set_eq : p3.descriptor_set = p.descriptor_set ++ [d]
  known_mono : ∀ x, Known p x → Known p3 x
  known_new : ∀ x, Known p3 x → Known p x ∨
    Offered mem { p with descriptor_set := p.descriptor_set ++ [d] } d x
  offered_known : ∀ x,
    Offered mem { p with descriptor_set := p.descriptor_set ++ [d] } d x → Known p3 x
  worklist_new : ∀ x ∈ p3.worklist, x ≠ d ∧ (x ∈ p.worklist ∨
    (Offered mem { p with descriptor_set := p.descriptor_set ++ [d] } d x ∧
      x ∉ p.descriptor_set))
  epn_iff : ∀ e, e ∈ p3.epn_set ↔ e ∈ p.epn_set ∨
    Emitted mem { p with descriptor_set := p.descriptor_set ++ [d] } d e

end CDS

namespace CDS

/-! ## Example grammars -/

/-- The grammar `S ::= a`. -/
def single_terminal : Grammar :=
  { symbols := ["S", "a"]
    terminals := ["a"]
    nonterminals := ["S"]
    production_rules := [("S", ["a"])]
    start_symbol := "S"
    has_start_symbol := true }

/-- The grammar `S ::= S a | a`. -/
def left_recursive : Grammar :=
  { symbols := ["S", "a"]
    terminals := ["a"]
    nonterminals := ["S"]
    production_rules := [("S", ["S", "a"]), ("S", ["a"])]
    start_symbol := "S"
    has_start_symbol := true }

/-- The grammar built by `Grammar g; g.add_terminal(""); g.add_production_rule("", {""});
g.add_production_rule("", {});`: no start symbol was set, so `start_symbol` is the
empty string, which is also a terminal. -/
def unset_start : Grammar :=
  { symbols := [""]
    terminals := [""]
    nonterminals := []
    production_rules := [("", [""]), ("", [])]
    start_symbol := ""
    has_start_symbol := false }

end CDS

namespace CDS

/-! ## Grammar construction (`components/grammar.cpp`, `utilities/argparse.cpp`) -/

/-- Insertion into a `std::unordered_set<std::string>`: the new set and the `.second`
of the returned pair, true when the element was not present. -/
def insert_string (s : List String) (x : String) : List String × Bool :=
  if x ∈ s then (s, false) else (s ++ [x], true)

namespace Grammar

/-- The defaulted constructor `Grammar()`: empty containers, `start_symbol` the empty
string, `has_start_symbol = false`. -/
def default_constructed : Grammar :=
  { symbols := [], terminals := [], nonterminals := [], production_rules := [],
    start_symbol := "", has_start_symbol := false }

/-- The member function `add_terminal`; the message on standard error is not
modelled. -/
def add_terminal (g : Grammar) (symbol : String) : Grammar × Bool :=
  if !(decide (symbol ∈ g.nonterminals)) then
    let r := insert_string g.terminals symbol
    let g := { g with terminals := r.1 }
    if r.2 then
      let r2 := insert_string g.symbols symbol
      ({ g with symbols := r2.1 }, r2.2)
    else (g, false)
  else (g, false)

/-- The member function `add_nonterminal`. -/
def add_nonterminal (g : Grammar) (symbol : String) : Grammar × Bool :=
  if !(decide (symbol ∈ g.terminals)) then
    let r := insert_string g.nonterminals symbol
    let g := { g with nonterminals := r.1 }
    if r.2 then
      let r2 := insert_string g.symbols symbol
      ({ g with symbols := r2.1 }, r2.2)
    else (g, false)
  else (g, false)

/-- The member function `set_start_symbol`. -/
def set_start_symbol (g : Grammar) (symbol : String) : Grammar × Bool :=
  if symbol ∈ g.nonterminals then
    ({ g with start_symbol := symbol, has_start_symbol := true }, true)
  else (g, false)

/-- The member function `add_production_rule(lhs, rhs)`. -/
def add_production_rule (g : Grammar) (lhs : String) (rhs : List String) : Grammar :=
  { g with production_rules := g.production_rules ++ [(lhs, rhs)] }

/-- The constructor `Grammar(std::string start)`. -/
def with_start (start : String) : Grammar :=
  ((default_constructed.add_nonterminal start).1.set_start_symbol start).1

end Grammar

/-- A call of one of the four mutators of `Grammar`. -/
inductive GrammarCall where
  | add_terminal (symbol : String) : GrammarCall
  | add_nonterminal (symbol : String) : GrammarCall
  | set_start_symbol (symbol : String) : GrammarCall
  | add_production_rule (lhs : String) (rhs : List String) : GrammarCall

/-- The grammar after one call. -/
def GrammarCall.apply (g : Grammar) : GrammarCall → Grammar
  | GrammarCall.add_terminal symbol => (g.add_terminal symbol).1
  | GrammarCall.add_nonterminal symbol => (g.add_nonterminal symbol).1
  | GrammarCall.set_start_symbol symbol => (g.set_start_symbol symbol).1
  | GrammarCall.add_production_rule lhs rhs => g.add_production_rule lhs rhs

/-- The grammar after a sequence of calls. -/
def Grammar.after (g : Grammar) (calls : List GrammarCall) : Grammar :=
  calls.foldl GrammarCall.apply g

/-- The start symbol, once set, is a nonterminal. -/
def Grammar.StartSet (g : Grammar) : Prop :=
  g.has_start_symbol = true → g.start_symbol ∈ g.nonterminals

/-- The body of the reading loop of `get_grammar` for a line with left-hand side
`lhs` and right-hand side `rhs`: the left-hand side becomes a nonterminal, the first
one the start symbol, and the rule is added. -/
def read_line (grammar : Grammar) (lhs : String) (rhs : List String) : Grammar :=
  let grammar := (grammar.add_nonterminal lhs).1
  let grammar :=
    if !grammar.has_start_symbol then (grammar.set_start_symbol lhs).1 else grammar
  grammar.add_production_rule lhs rhs

/-- The reading loop of `get_grammar` over the lines of the file, each line given
by its whitespace-separated tokens: `ss >> lhs` leaves `lhs` empty on a line without
tokens (as does the failed `getline` after the last line), which ends the loop. -/
def read_lines : List (List String) → Grammar → List String → Grammar × List String
  | [], grammar, rhs_symbols => (grammar, rhs_symbols)
  | line :: rest, grammar, rhs_symbols =>
    let lhs := line.headD ""
    if lhs == "" then (grammar, rhs_symbols)
    else
      let rhs := line.tail
      read_lines rest (read_line grammar lhs rhs) (rhs_symbols ++ rhs)

/-- The last loop of `get_grammar`: the right-hand-side symbols without a rule become
terminals. -/
def add_terminals : List String → Grammar → Grammar
  | [], grammar => grammar
  | symbol :: rest, grammar =>
    if !(grammar.production_rules.any (fun r => r.1 == symbol))
        && !(decide (symbol ∈ grammar.terminals)) then
      add_terminals rest (grammar.add_terminal symbol).1
    else add_terminals rest grammar

/-- The function `get_grammar` on the lines of the grammar file. -/
def get_grammar (lines : List (List String)) : Grammar :=
  let r := read_lines lines Grammar.default_constructed []
  add_terminals r.2 r.1

/-- The lines that `get_grammar` parses: those before the first line without
tokens. -/
def parsed_lines (lines : List (List String)) : List (List String) :=
  lines.takeWhile (fun line => !(line.headD "" == ""))

/-- The invariant of the symbol sets: terminals and nonterminals are disjoint and
`symbols` is their union. -/
def Grammar.Partitioned (g : Grammar) : Prop :=
  (∀ s, s ∈ g.terminals → s ∉ g.nonterminals) ∧
  (∀ s, s ∈ g.symbols ↔ s ∈ g.terminals ∨ s ∈ g.nonterminals)

/-! ## Hashing (`utilities/hash_custom.hpp`) -/

/-- The hash functions of the standard library that `hash_custom::hash<T>` falls back
to, `std::hash<std::string>` and `std::hash<unsigned int>`; the standard leaves
their values to the implementation. -/
structure StdHash where
  string : String → Nat
  uint : Nat → Nat

/-- The step of `hash_combine` on a 64-bit `size_t`:
`seed ^= h + 0x9e3779b9 + (seed << 6) + (seed >> 2)`, with `h` the hash of the value. -/
def hash_combine (seed h : Nat) : Nat :=
  Nat.xor seed ((h + 0x9e3779b9 + (seed <<< 6) % 2 ^ 64 + (seed >>> 2)) % 2 ^ 64) % 2 ^ 64

/-- The specialisation `hash<std::vector<...>>` on a vector of strings. -/
def hash_vector (H : StdHash) (vec : List String) : Nat :=
  vec.foldl (fun seed i => hash_combine seed (H.string i)) vec.length

/-- The member function `Descriptor::hash`. -/
def Descriptor.hash (H : StdHash) (d : Descriptor) : Nat :=
  let seed := 17
  let seed := hash_combine seed (H.string d.lhs)
  let seed := hash_combine seed (hash_vector H d.rhs)
  let seed := hash_combine seed (H.uint d.dot_position)
  let seed := hash_combine seed (H.uint d.left_extent)
  hash_combine seed (H.uint d.right_extent)

/-- The member function `EPN::hash`. -/
def EPN.hash (H : StdHash) (e : EPN) : Nat :=
  let seed := 17
  let seed := hash_combine seed (H.string e.lhs)
  let seed := hash_combine seed (hash_vector H e.rhs)
  let seed := hash_combine seed (H.uint e.dot_position)
  let seed := hash_combine seed (H.uint e.left_extent)
  let seed := hash_combine seed (H.uint e.pivot)
  hash_combine seed (H.uint e.right_extent)

/-! ## Loop heads and monotonicity -/

/-- The state of the parser when `loop` first tests `worklist.empty()`: the action
counters are reset and the start descriptors have been offered. -/
def SequentialParser.loop_entry (p : SequentialParser) : SequentialParser :=
  let p := { p with num_ascend := 0, num_descend := 0, num_match := 0, num_skip := 0 }
  p.extend_worklist (p.grammar.get_production_rules p.grammar.start_symbol) 0 0

/-- The parser `q` is at the head of the `while` loop of `loop` started on `p`, and
`t` lists the descriptors processed so far, in order. -/
inductive LoopHead (mem : Memory) (pick : SequentialParser → Nat) (p : SequentialParser) :
    List Descriptor → SequentialParser → Prop
  | entry : LoopHead mem pick p [] p.loop_entry
  | iteration (t : List Descriptor) (q q2 : SequentialParser) (x : Descriptor)
      (xs : List Descriptor) :
      LoopHead mem pick p t q → q.worklist = x :: xs →
      SequentialParser.loop_body mem q (SequentialParser.begin_ pick q x xs) = Except.ok q2 →
      LoopHead mem pick p (t ++ [SequentialParser.begin_ pick q x xs]) q2

/-- The grammar `S ::= ε`. -/
def empty_rule : Grammar :=
  { symbols := ["S"]
    terminals := []
    nonterminals := ["S"]
    production_rules := [("S", [])]
    start_symbol := "S"
    has_start_symbol := true }

/-- Both sets of `p2` hold every element the sets of `p1` hold. -/
def Superset (p1 p2 : SequentialParser) : Prop :=
  (∀ d ∈ p1.descriptor_set, d ∈ p2.descriptor_set) ∧ (∀ e ∈ p1.epn_set, e ∈ p2.epn_set)

end CDS

namespace CDS

/-! ## Further notions for the checker, duplicate rules and the scenarios -/

/-- The requirements R(2)–R(4) and P(1)–P(3) on an output `(S, E)` for the single
descriptor `d` of `S`. -/
structure RequirementsAt (G : Grammar) (input : List String) (S : descriptor_set_t)
    (E : epn_set_t) (d : Descriptor) : Prop where
  R2_P1 : ∀ a, d.rhs[d.dot_position]? = some a → a ∈ G.terminals →
    input[d.right_extent]? = some a →
    set_count Descriptor.eq S
      (Descriptor.make d.lhs d.rhs (d.dot_position + 1) d.left_extent (d.right_extent + 1))
      = true ∧
    set_count EPN.eq E
      { lhs := d.lhs, rhs := d.rhs, dot_position := d.dot_position + 1,
        left_extent := d.left_extent, pivot := d.right_extent,
        right_extent := d.right_extent + 1 } = true
  R3 : ∀ X, d.rhs[d.dot_position]? = some X → X ∉ G.terminals →
    ∀ β, (X, β) ∈ G.production_rules →
    set_count Descriptor.eq S (Descriptor.make X β 0 d.right_extent d.right_extent) = true
  R4_P2 : ∀ X, d.rhs[d.dot_position]? = some X → X ∉ G.terminals →
    ∀ d0 ∈ S, d0.is_completed = true → d0.lhs = X → d0.left_extent = d.right_extent →
    set_count Descriptor.eq S
      (Descriptor.make d.lhs d.rhs (d.dot_position + 1) d.left_extent d0.right_extent)
      = true ∧
    set_count EPN.eq E
      { lhs := d.lhs, rhs := d.rhs, dot_position := d.dot_position + 1,
        left_extent := d.left_extent, pivot := d.right_extent,
        right_extent := d0.right_extent } = true
  P3 : d.is_completed = true → d.is_empty = true →
    set_count EPN.eq E (EPN.of_descriptor d) = true

/-- The parser `p` with the grammar `g` in place of its own. -/
def SequentialParser.with_grammar (p : SequentialParser) (g : Grammar) : SequentialParser :=
  { p with grammar := g }

/-- The grammar `E ::= E E | a`. -/
def ambiguous : Grammar :=
  { symbols := ["E", "a"]
    terminals := ["a"]
    nonterminals := ["E"]
    production_rules := [("E", ["E", "E"]), ("E", ["a"])]
    start_symbol := "E"
    has_start_symbol := true }

end CDS

namespace CDS

/-! ## The thread-pool engine (`parsers/parallel_pool/parallel_pool.cpp`, built with
`OPTIMISATION_POOL_QUEUES` only, as shipped) -/

/-- The constant `#define NUM_THREADS 16`. -/
def NUM_THREADS : Nat := 16

/-- The parser object with the variables of the anonymous namespace that the engine
works on; the locks, the threads and the counters of working threads are left out. -/
structure ThreadPoolParser where
  input : List String
  grammar : Grammar
  descriptor_set : descriptor_set_t
  epn_set : epn_set_t
  num_descriptors : Nat
  worklists : List descriptor_set_t
  global_worklist : descriptor_set_t
  rr_thread_id : Nat

namespace ThreadPoolParser

def add_to_worklist (q : ThreadPoolParser) (descriptor : Descriptor) : ThreadPoolParser :=
  let count := set_count Descriptor.eq q.descriptor_set descriptor
  if !count then
    { q with global_worklist := set_insert Descriptor.eq q.global_worklist descriptor }
  else q

def extend_worklist (q : ThreadPoolParser) (rules : List production_rule_t)
    (left_extent right_extent : Nat) : ThreadPoolParser :=
  rules.foldl
    (fun q rule => q.add_to_worklist (Descriptor.make rule.1 rule.2 0 left_extent right_extent))
    q

/-- The action `match` of the pool engine. -/
def match_ (mem : Memory) (q : ThreadPoolParser) (descriptor : Descriptor) :
    Except Fault ThreadPoolParser :=
  match descriptor.get_next_symbol with
  | Except.error f => Except.error f
  | Except.ok terminal =>
    if q.input.length > 0 then
      match vector_index mem q.input descriptor.right_extent with
      | Except.error f => Except.error f
      | Except.ok x =>
        if terminal == x then
          let d := descriptor.copy_and_advance
          let d := { d with right_extent := d.right_extent + 1 }
          let q := q.add_to_worklist d
          let e := EPN.of_descriptor_pivot d descriptor.right_extent
          Except.ok { q with epn_set := set_insert EPN.eq q.epn_set e }
        else Except.ok q
    else Except.ok q

def descend (q : ThreadPoolParser) (symbol : String) (pivot : Nat) : ThreadPoolParser :=
  q.extend_worklist (q.grammar.get_production_rules symbol) pivot pivot

def skip (q : ThreadPoolParser) (descriptor : Descriptor) (right_extents : List Nat) :
    ThreadPoolParser :=
  right_extents.foldl
    (fun q right_extent =>
      let new_descriptor := { descriptor with right_extent := right_extent }
      let q := q.add_to_worklist new_descriptor
      let e := EPN.of_descriptor_pivot new_descriptor descriptor.right_extent
      { q with epn_set := set_insert EPN.eq q.epn_set e })
    q

def ascend (q : ThreadPoolParser) (descriptors : descriptor_set_t) (right_extent : Nat) :
    ThreadPoolParser :=
  descriptors.foldl
    (fun q descriptor =>
      let new_descriptor := { descriptor with right_extent := right_extent }
      let q := q.add_to_worklist new_descriptor
      let e := EPN.of_descriptor_pivot new_descriptor descriptor.right_extent
      { q with epn_set := set_insert EPN.eq q.epn_set e })
    q

/-- The member function `ThreadPoolParser::process_descriptor`, run without
interference: the two loops over `descriptor_set` are those of the sequential
engine. -/
def process_descriptor (mem : Memory) (q : ThreadPoolParser) (descriptor : Descriptor) :
    Except Fault ThreadPoolParser :=
  if !descriptor.is_completed then
    match descriptor.get_next_symbol with
    | Except.error f => Except.error f
    | Except.ok symbol =>
      if symbol ∈ q.grammar.terminals then
        match_ mem q descriptor
      else
        let right_extents :=
          SequentialParser.collect_right_extents symbol descriptor.right_extent q.descriptor_set []
        if right_extents.length == 0 then
          Except.ok (q.descend symbol descriptor.right_extent)
        else
          Except.ok (q.skip descriptor.copy_and_advance right_extents)
  else
    match SequentialParser.collect_descriptors descriptor q.descriptor_set [] with
    | Except.error f => Except.error f
    | Except.ok descriptors =>
      let q := q.ascend descriptors descriptor.right_extent
      if descriptor.is_empty then
        Except.ok { q with epn_set := set_insert EPN.eq q.epn_set (EPN.of_descriptor descriptor) }
      else Except.ok q

/-- The body of the loop over `global_worklist` in `loop`:
`worklists[rr_thread_id++].insert(item); rr_thread_id %= num_threads;`. -/
def distribute_item (num_threads : Nat) (q : ThreadPoolParser) (item : Descriptor) :
    Except Fault ThreadPoolParser :=
  match q.worklists[q.rr_thread_id]? with
  | none => Except.error (Fault.undefined_read q.rr_thread_id)
  | some local_worklist =>
    let local_worklist := set_insert Descriptor.eq local_worklist item
    let worklists := q.worklists.set q.rr_thread_id local_worklist
    let q := { q with worklists := worklists }
    Except.ok { q with rr_thread_id := (q.rr_thread_id + 1) % num_threads }

/-- The loop `for (auto item : global_worklist)` of `loop`. -/
def distribute (num_threads : Nat) : List Descriptor → ThreadPoolParser →
    Except Fault ThreadPoolParser
  | [], q => Except.ok q
  | item :: rest, q =>
    match distribute_item num_threads q item with
    | Except.error f => Except.error f
    | Except.ok q => distribute num_threads rest q

/-- One drain step of the coordinator in `loop`, taken when the global worklist is
not empty: distribute its items, then `global_worklist.clear()`. -/
def drain (num_threads : Nat) (q : ThreadPoolParser) : Except Fault ThreadPoolParser :=
  match distribute num_threads q.global_worklist q with
  | Except.error f => Except.error f
  | Except.ok q => Except.ok { q with global_worklist := [] }

/-- The pool state that holds what the sequential parser `p` holds, the worklist as
global worklist, and the rest from `base`. -/
def of_sequential (base : ThreadPoolParser) (p : SequentialParser) : ThreadPoolParser :=
  { base with
    input := p.input
    grammar := p.grammar
    descriptor_set := p.descriptor_set
    epn_set := p.epn_set
    global_worklist := p.worklist }

/-- The sequential parser that holds what the pool state holds, the global worklist
as worklist. -/
def to_sequential (q : ThreadPoolParser) : SequentialParser :=
  { input := q.input
    grammar := q.grammar
    worklist := q.global_worklist
    descriptor_set := q.descriptor_set
    epn_set := q.epn_set
    num_descriptors := q.num_descriptors
    num_match := 0
    num_descend := 0
    num_ascend := 0
    num_skip := 0 }

end ThreadPoolParser

/-- A state of the pool engine on `S ::= a` and the input `a`: sixteen empty local
queues, the cursor at the last of them, two descriptors in the global queue. -/
def drain_example : ThreadPoolParser :=
  { input := ["a"]
    grammar := single_terminal
    descriptor_set := []
    epn_set := []
    num_descriptors := 0
    worklists := List.replicate NUM_THREADS []
    global_worklist := [Descriptor.make "S" ["a"] 0 0 0, Descriptor.make "S" ["a"] 1 0 1]
    rr_thread_id := 15 }

/-! ## The thread-tree engine (`parsers/parallel_tree/parallel_tree.cpp`) -/

/-- The constant `#define WORKLIST_SIZE_THRESHOLD 32`. -/
def WORKLIST_SIZE_THRESHOLD : Nat := 32

/-- The macros that decide what a worker does with a picked descriptor. -/
structure TreeConfig where
  future : Bool
  cost_reduction_global_descriptors : Bool
  correctness_fix : Bool

/-- The build as shipped: `optimisations.hpp` defines no macro and `CORRECTNESS_FIX`
is commented out. -/
def TreeConfig.shipped : TreeConfig :=
  { future := false, cost_reduction_global_descriptors := false, correctness_fix := false }

/-- One worker of the tree engine: the parser object, the thread-local `worklist`,
`descriptor_set` and `threads`, and the global descriptor set. A thread is recorded
by the arguments it was started with. -/
structure ThreadTreeParser where
  input : List String
  grammar : Grammar
  epn_set : epn_set_t
  num_descriptors : Nat
  num_threads : Nat
  worklist : descriptor_set_t
  descriptor_set : descriptor_set_t
  threads : List (Descriptor × descriptor_set_t)
  descriptor_set_global : descriptor_set_t

namespace ThreadTreeParser

def add_thread (s : ThreadTreeParser) (descriptor : Descriptor) : ThreadTreeParser :=
  let s := { s with threads := s.threads ++ [(descriptor, s.descriptor_set)] }
  { s with num_threads := s.num_threads + 1 }

/-- The value of `worklist.size() - WORKLIST_SIZE_THRESHOLD + 1` in `size_t`
arithmetic. -/
def spawn_bound (size : Nat) : Nat :=
  (size % 2 ^ 64 + (2 ^ 64 - WORKLIST_SIZE_THRESHOLD) + 1) % 2 ^ 64

/-- The loop `for (size_t i = 0; i < worklist.size() - WORKLIST_SIZE_THRESHOLD + 1; i++)`
of `thread_function`, from the counter `i` and the position `worklist_begin` of the
iterator, given by the elements from it on. -/
def spawn_loop : Nat → List Descriptor → ThreadTreeParser →
    Except Fault (List Descriptor × ThreadTreeParser)
  | i, [], s =>
    if i < spawn_bound s.worklist.length then Except.error (Fault.undefined_read i)
    else Except.ok ([], s)
  | i, d :: worklist_begin, s =>
    if i < spawn_bound s.worklist.length then
      let s := s.add_thread d
      spawn_loop (i + 1) worklist_begin
        { s with worklist := set_erase Descriptor.eq s.worklist d }
    else Except.ok (d :: worklist_begin, s)

/-- The spawn step at the head of an iteration of the worker loop; the result holds
the position of the iterator `worklist_begin`. -/
def spawn_step (s : ThreadTreeParser) : Except Fault (List Descriptor × ThreadTreeParser) :=
  if s.worklist.length ≥ WORKLIST_SIZE_THRESHOLD then spawn_loop 0 s.worklist s
  else Except.ok (s.worklist, s)

/-- The member function `add_to_worklist` of the shipped build: the count is taken in
the thread-local descriptor set, and the descriptor is inserted with the force flag. -/
def add_to_worklist (s : ThreadTreeParser) (descriptor : Descriptor) : ThreadTreeParser :=
  let count := set_count Descriptor.eq s.descriptor_set descriptor
  if !count then
    { s with worklist := set_insert Descriptor.eq s.worklist descriptor.copy_and_force }
  else s

def extend_worklist (s : ThreadTreeParser) (rules : List production_rule_t)
    (left_extent right_extent : Nat) : ThreadTreeParser :=
  rules.foldl
    (fun s rule => s.add_to_worklist (Descriptor.make rule.1 rule.2 0 left_extent right_extent))
    s

def match_ (mem : Memory) (s : ThreadTreeParser) (descriptor : Descriptor) :
    Except Fault ThreadTreeParser :=
  match descriptor.get_next_symbol with
  | Except.error f => Except.error f
  | Except.ok terminal =>
    if s.input.length > 0 then
      match vector_index mem s.input descriptor.right_extent with
      | Except.error f => Except.error f
      | Except.ok x =>
        if terminal == x then
          let d := descriptor.copy_and_advance
          let d := { d with right_extent := d.right_extent + 1 }
          let s := s.add_to_worklist d
          let e := EPN.of_descriptor_pivot d descriptor.right_extent
          Except.ok { s with epn_set := set_insert EPN.eq s.epn_set e }
        else Except.ok s
    else Except.ok s

def descend (s : ThreadTreeParser) (symbol : String) (pivot : Nat) : ThreadTreeParser :=
  s.extend_worklist (s.grammar.get_production_rules symbol) pivot pivot

def skip (s : ThreadTreeParser) (descriptor : Descriptor) (right_extents : List Nat) :
    ThreadTreeParser :=
  right_extents.foldl
    (fun s right_extent =>
      let new_descriptor := { descriptor with right_extent := right_extent }
      let s := s.add_to_worklist new_descriptor
      let e := EPN.of_descriptor_pivot new_descriptor descriptor.right_extent
      { s with epn_set := set_insert EPN.eq s.epn_set e })
    s

def ascend (s : ThreadTreeParser) (descriptors : descriptor_set_t) (right_extent : Nat) :
    ThreadTreeParser :=
  descriptors.foldl
    (fun s descriptor =>
      let new_descriptor := { descriptor with right_extent := right_extent }
      let s := s.add_to_worklist new_descriptor
      let e := EPN.of_descriptor_pivot new_descriptor descriptor.right_extent
      { s with epn_set := set_insert EPN.eq s.epn_set e })
    s

/-- The member function `ThreadTreeParser::process_descriptor` of the shipped build:
the two loops run over the thread-local `descriptor_set`. -/
def process_descriptor (mem : Memory) (s : ThreadTreeParser) (descriptor : Descriptor) :
    Except Fault ThreadTreeParser :=
  if !descriptor.is_completed then
    match descriptor.get_next_symbol with
    | Except.error f => Except.error f
    | Except.ok symbol =>
      if symbol ∈ s.grammar.terminals then
        match_ mem s descriptor
      else
        let right_extents :=
          SequentialParser.collect_right_extents symbol descriptor.right_extent s.descriptor_set []
        if right_extents.length == 0 then
          Except.ok (s.descend symbol descriptor.right_extent)
        else
          Except.ok (s.skip descriptor.copy_and_advance right_extents)
  else
    match SequentialParser.collect_descriptors descriptor s.descriptor_set [] with
    | Except.error f => Except.error f
    | Except.ok descriptors =>
      let s := s.ascend descriptors descriptor.right_extent
      if descriptor.is_empty then
        Except.ok { s with epn_set := set_insert EPN.eq s.epn_set (EPN.of_descriptor descriptor) }
      else Except.ok s

/-- The end of an iteration of the worker loop: `process_descriptor(d)`,
`num_descriptors.fetch_add(1)`, `worklist.erase(d)`. -/
def process_and_erase
    (process : Memory → ThreadTreeParser → Descriptor → Except Fault ThreadTreeParser)
    (mem : Memory) (s : ThreadTreeParser) (d : Descriptor) : Except Fault ThreadTreeParser :=
  match process mem s d with
  | Except.error f => Except.error f
  | Except.ok s =>
    let s := { s with num_descriptors := s.num_descriptors + 1 }
    Except.ok { s with worklist := set_erase Descriptor.eq s.worklist d }

/-- An iteration of the worker loop of `thread_function` from `d = *worklist_begin`
on, under the macros `cfg`; `process` is the member function `process_descriptor` of
the build. -/
def thread_iteration (cfg : TreeConfig)
    (process : Memory → ThreadTreeParser → Descriptor → Except Fault ThreadTreeParser)
    (mem : Memory) (s : ThreadTreeParser) (d : Descriptor) : Except Fault ThreadTreeParser :=
  let s := { s with descriptor_set := set_insert Descriptor.eq s.descriptor_set d }
  if !cfg.future then
    if cfg.cost_reduction_global_descriptors then
      let success := !(set_count Descriptor.eq s.descriptor_set_global d)
      let g := set_insert Descriptor.eq s.descriptor_set_global d
      let s := { s with descriptor_set_global := g }
      if !success && !(cfg.correctness_fix && d.force_process) then
        Except.ok { s with worklist := set_erase Descriptor.eq s.worklist d }
      else process_and_erase process mem s d
    else
      let g := set_insert Descriptor.eq s.descriptor_set_global d
      process_and_erase process mem { s with descriptor_set_global := g } d
  else process_and_erase process mem s d

end ThreadTreeParser

/-- The grammar `S ::= A`, `A ::= a^i` for `i < 33`. -/
def wide : Grammar :=
  { symbols := ["S", "A", "a"]
    terminals := ["a"]
    nonterminals := ["S", "A"]
    production_rules :=
      ("S", ["A"]) :: (List.range 33).map (fun i => ("A", List.replicate i "a"))
    start_symbol := "S"
    has_start_symbol := true }

/-- The worker that `loop` starts for `wide`, at the head of its first iteration:
`add_to_worklist` stored the start descriptor with the force flag, and the worker got
the descriptor and the descriptor set that holds it. -/
def spawn_root : ThreadTreeParser :=
  { input := []
    grammar := wide
    epn_set := []
    num_descriptors := 0
    num_threads := 1
    worklist := [(Descriptor.make "S" ["A"] 0 0 0).copy_and_force]
    descriptor_set := [(Descriptor.make "S" ["A"] 0 0 0).copy_and_force]
    threads := []
    descriptor_set_global := [] }

/-- The worker of `spawn_root` at the head of its second iteration: the descent into
`A` has left 33 descriptors in its worklist. -/
def spawn_example : ThreadTreeParser :=
  { input := []
    grammar := wide
    epn_set := []
    num_descriptors := 1
    num_threads := 1
    worklist :=
      (List.range 33).map
        (fun i => (Descriptor.make "A" (List.replicate i "a") 0 0 0).copy_and_force)
    descriptor_set := [(Descriptor.make "S" ["A"] 0 0 0).copy_and_force]
    threads := []
    descriptor_set_global := [(Descriptor.make "S" ["A"] 0 0 0).copy_and_force] }

/-! ## Descriptors and EPNs that the sequential engine holds -/

/-- The descriptor is a dotted rule of the grammar with ordered extents. -/
def Shaped (G : Grammar) (d : Descriptor) : Prop :=
  (d.lhs, d.rhs) ∈ G.production_rules ∧ d.dot_position ≤ d.rhs.length ∧
    d.left_extent ≤ d.right_extent

/-- What holds of the descriptors and EPNs of a parser at every head of the loop. -/
structure Tidy (mem : Memory) (G : Grammar) (w : List String) (q : SequentialParser) :
    Prop where
  shaped : ∀ d, Known q d → Shaped G d
  inside : mem.NoTerminal G → ∀ d, Known q d → d.right_extent ≤ w.length
  epns : ∀ e ∈ q.epn_set,
    Known q (Descriptor.make e.lhs e.rhs e.dot_position e.left_extent e.right_extent) ∧
      e.left_extent ≤ e.pivot ∧ e.pivot ≤ e.right_extent

/-- The grammar `S ::= a a`. -/
def double_terminal : Grammar :=
  { symbols := ["S", "a"]
    terminals := ["a"]
    nonterminals := ["S"]
    production_rules := [("S", ["a", "a"])]
    start_symbol := "S"
    has_start_symbol := true }

end CDS

namespace CDS

/-! ## Runs of the thread-tree engine (shipped build)

In the shipped build a worker reads the parser's input and grammar and its own
thread-local `worklist`, `descriptor_set` and `threads`; to `epn_set`,
`descriptor_set_global` and the two counters it only adds. A run is therefore given
by the order in which the iterations of the worker loops follow one another. -/

/-- Constructor `ThreadTreeParser(Grammar g)` with the global and thread-local
containers as they are when the program starts. -/
def ThreadTreeParser.fresh (g : Grammar) : ThreadTreeParser :=
  { input := []
    grammar := g
    epn_set := []
    num_descriptors := 0
    num_threads := 0
    worklist := []
    descriptor_set := []
    threads := []
    descriptor_set_global := [] }

/-- The thread-local variables `worklist`, `descriptor_set` and `threads` of one
thread. -/
structure TreeLocal where
  worklist : descriptor_set_t
  descriptor_set : descriptor_set_t
  threads : List (Descriptor × descriptor_set_t)

/-- The head of `thread_function(descriptor, descriptors_parent)` in a new thread:
`worklist.insert(descriptor); descriptor_set = descriptors_parent;`. -/
def TreeLocal.entry (a : Descriptor × descriptor_set_t) : TreeLocal :=
  { worklist := set_insert Descriptor.eq [] a.1
    descriptor_set := a.2
    threads := [] }

/-- The thread-local variables of the thread that `s` stands for. -/
def ThreadTreeParser.local_ (s : ThreadTreeParser) : TreeLocal :=
  { worklist := s.worklist
    descriptor_set := s.descriptor_set
    threads := s.threads }

/-- The parser as seen by the thread with the thread-local variables `l`. -/
def ThreadTreeParser.with_local (s : ThreadTreeParser) (l : TreeLocal) : ThreadTreeParser :=
  { s with
    worklist := l.worklist
    descriptor_set := l.descriptor_set
    threads := l.threads }

/-- The member function `loop` up to the joins: the start descriptors go to the
worklist and the descriptor set of the main thread, and one thread is started for
each of them. -/
def ThreadTreeParser.loop_start (s : ThreadTreeParser) : ThreadTreeParser :=
  let s := s.extend_worklist (s.grammar.get_production_rules s.grammar.start_symbol) 0 0
  let s := s.worklist.foldl
    (fun s descriptor =>
      { s with descriptor_set := set_insert Descriptor.eq s.descriptor_set descriptor })
    s
  s.descriptor_set.foldl (fun s descriptor => s.add_thread descriptor) s

/-- One iteration of the `while` loop of `thread_function` in the shipped build:
the spawn step, then `d = *worklist_begin` and the rest of the iteration. -/
def ThreadTreeParser.worker_iteration (mem : Memory) (s : ThreadTreeParser) :
    Except Fault ThreadTreeParser :=
  match s.spawn_step with
  | Except.error f => Except.error f
  | Except.ok (worklist_begin, s) =>
    match worklist_begin with
    | [] => Except.error (Fault.undefined_read 0)
    | d :: _ =>
      ThreadTreeParser.thread_iteration TreeConfig.shipped ThreadTreeParser.process_descriptor
        mem s d

/-- The parser object with the global variables and the thread-local variables of
the main thread, and the thread-local variables of the workers started so far. -/
structure TreeWorld where
  parser : ThreadTreeParser
  workers : List TreeLocal

namespace TreeWorld

/-- The state in which `parse(input_sequence)` on a new parser waits for its
threads. -/
def start (g : Grammar) (input_sequence : List String) : TreeWorld :=
  let s := ThreadTreeParser.loop_start
    { ThreadTreeParser.fresh g with input := input_sequence }
  { parser := s, workers := s.threads.map TreeLocal.entry }

/-- Worker `i` runs one iteration of its loop; `order` is the order in which its
worklist is iterated. A worker that has left its loop, and an index that is no
worker, do nothing. The threads that the iteration starts become workers. -/
def step (mem : Memory) (order : List Descriptor → List Descriptor) (W : TreeWorld)
    (i : Nat) : Except Fault TreeWorld :=
  match W.workers[i]? with
  | none => Except.ok W
  | some l =>
    if l.worklist.isEmpty then Except.ok W
    else
      match ThreadTreeParser.worker_iteration mem
          (W.parser.with_local { l with worklist := order l.worklist }) with
      | Except.error f => Except.error f
      | Except.ok s =>
        let started := s.threads.drop l.threads.length
        Except.ok
          { parser := s.with_local W.parser.local_
            workers := W.workers.set i s.local_ ++ started.map TreeLocal.entry }

/-- The run in which the iterations of the workers follow one another as the
schedule lists them. -/
def run (mem : Memory) (order : List Descriptor → List Descriptor) :
    List Nat → TreeWorld → Except Fault TreeWorld
  | [], W => Except.ok W
  | i :: schedule, W =>
    match W.step mem order i with
    | Except.error f => Except.error f
    | Except.ok W => run mem order schedule W

/-- Every worker has left its loop: the joins of `loop` return. -/
def finished (W : TreeWorld) : Bool :=
  W.workers.all (fun l => l.worklist.isEmpty)

/-- The tuple `std::make_tuple(descriptor_set_global, epn_set)` that `loop`
returns. -/
def result (W : TreeWorld) : descriptor_set_t × epn_set_t :=
  (W.parser.descriptor_set_global, W.parser.epn_set)

end TreeWorld

/-- Every descriptor in the worklist of a worker carries the force flag. -/
def TreeWorld.Forced (W : TreeWorld) : Prop :=
  ∀ l ∈ W.workers, ∀ d ∈ l.worklist, d.force_process = true

/-- What a call of a member function of the tree engine leaves of the thread-local
variables and the global descriptor set: the descriptors it adds to the worklist carry
the force flag. -/
structure TreeGrows (s s2 : ThreadTreeParser) : Prop where
  worklist : ∀ x ∈ s2.worklist, x ∈ s.worklist ∨ x.force_process = true
  threads : s2.threads = s.threads
  descriptor_set : s2.descriptor_set = s.descriptor_set
  descriptor_set_global : s2.descriptor_set_global = s.descriptor_set_global
  input : s2.input = s.input
  grammar : s2.grammar = s.grammar

/-- The grammar `S ::= A | a | ε`, `A ::= S b`. -/
def tree_gap : Grammar :=
  { symbols := ["S", "A", "a", "b"]
    terminals := ["a", "b"]
    nonterminals := ["S", "A"]
    production_rules := [("S", ["A"]), ("S", ["a"]), ("S", []), ("A", ["S", "b"])]
    start_symbol := "S"
    has_start_symbol := true }

/-- A descriptor as `add_to_worklist` of the tree engine stores it. -/
def forced (k : String) (v : List String) (d l r : Nat) : Descriptor :=
  (Descriptor.make k v d l r).copy_and_force

/-- The descriptor set that `loop` hands to the three workers for `tree_gap`. -/
def gap_parent : descriptor_set_t :=
  [forced "S" ["A"] 0 0 0, forced "S" ["a"] 0 0 0, forced "S" [] 0 0 0]

/-- The thread-local variables that the workers for `tree_gap` on `a b z` have at the
heads of their loops, the started threads left out: the worklist and the
descriptors added to the parent set. -/
def gap_locals : List (descriptor_set_t × descriptor_set_t) :=
  [([forced "S" ["A"] 0 0 0], []),
   ([forced "A" ["S", "b"] 0 0 0], []),
   ([forced "A" ["S", "b"] 1 0 0], [forced "A" ["S", "b"] 0 0 0]),
   ([], [forced "A" ["S", "b"] 0 0 0, forced "A" ["S", "b"] 1 0 0]),
   ([forced "S" ["a"] 0 0 0], []),
   ([forced "S" ["a"] 1 0 1], []),
   ([], [forced "S" ["a"] 1 0 1]),
   ([forced "S" [] 0 0 0], []),
   ([], [])]

/-- The descriptors that the workers for `tree_gap` on `a b z` process. -/
def gap_processed : descriptor_set_t :=
  [forced "S" ["A"] 0 0 0, forced "A" ["S", "b"] 0 0 0, forced "A" ["S", "b"] 1 0 0,
   forced "S" ["a"] 0 0 0, forced "S" ["a"] 1 0 1, forced "S" [] 0 0 0]

/-- What holds in every state of a run of the tree engine for `tree_gap` on `a b z`:
each worker is at one of the heads `gap_locals`, and the global descriptor set holds
processed descriptors only. -/
def GapInv (W : TreeWorld) : Prop :=
  W.parser.input = ["a", "b", "z"] ∧ W.parser.grammar = tree_gap ∧
  (∀ l ∈ W.workers, ∃ a ∈ gap_locals,
    l.worklist = a.1 ∧ l.descriptor_set = gap_parent ++ a.2 ∧ l.threads = []) ∧
  (∀ d ∈ W.parser.descriptor_set_global, d ∈ gap_processed)

end CDS

namespace CDS

/-! ## Hash-set lemmas -/

theorem set_count_iff {α : Type} (eq : α → α → Bool) (s : List α) (x : α) :
    set_count eq s x = true ↔ ∃ y ∈ s, eq y x = true := by
  simp [set_count, List.any_eq_true]

theorem set_count_eq_false_iff {α : Type} (eq : α → α → Bool) (s : List α) (x : α) :
    set_count eq s x = false ↔ ∀ y ∈ s, eq y x = false := by
  simp [set_count, List.any_eq_false]

theorem mem_set_insert {α : Type} (eq : α → α → Bool) (s : List α) (x y : α) :
    y ∈ set_insert eq s x ↔ y ∈ s ∨ (y = x ∧ set_count eq s x = false) := by
  unfold set_insert
  by_cases h : set_count eq s x = true
  · simp [h]
  · simp [h]

theorem mem_set_insert_of_mem {α : Type} (eq : α → α → Bool) (s : List α) (x y : α)
    (h : y ∈ s) : y ∈ set_insert eq s x :=
  (mem_set_insert eq s x y).2 (Or.inl h)

theorem mem_set_erase {α : Type} (eq : α → α → Bool) (s : List α) (x y : α) :
    y ∈ set_erase eq s x ↔ y ∈ s ∧ eq y x = false := by
  simp [set_erase, List.mem_filter]

theorem set_count_insert_self {α : Type} (eq : α → α → Bool) (hrefl : ∀ a, eq a a = true)
    (s : List α) (x : α) : set_count eq (set_insert eq s x) x = true := by
  by_cases h : set_count eq s x = true
  · simp [set_insert, h]
  · rw [set_count_iff]
    exact ⟨x, (mem_set_insert eq s x x).2 (Or.inr ⟨rfl, by simpa using h⟩), hrefl x⟩

theorem set_count_mono {α : Type} (eq : α → α → Bool) (s t : List α) (x : α)
    (hst : ∀ y ∈ s, y ∈ t) (h : set_count eq s x = true) : set_count eq t x = true := by
  rw [set_count_iff] at h ⊢
  obtain ⟨y, hy, hxy⟩ := h
  exact ⟨y, hst y hy, hxy⟩

/-! ## The equality operators -/

theorem foldl_and_get?_eq_true (l1 l2 : List String) (n : Nat) (b : Bool) :
    (List.range n).foldl (fun result i => result && (l1[i]? == l2[i]?)) b = true ↔
      b = true ∧ ∀ i < n, l1[i]? = l2[i]? := by
  induction n with
  | zero => simp
  | succ n ih =>
    rw [List.range_succ, List.foldl_append]
    simp only [List.foldl_cons, List.foldl_nil, Bool.and_eq_true, ih, beq_iff_eq]
    constructor
    · rintro ⟨⟨hb, h⟩, hn⟩
      refine ⟨hb, fun i hi => ?_⟩
      rcases Nat.lt_succ_iff_lt_or_eq.1 hi with h1 | h1
      · exact h i h1
      · rw [h1]; exact hn
    · rintro ⟨hb, h⟩
      exact ⟨⟨hb, fun i hi => h i (Nat.lt_succ_of_lt hi)⟩, h n (Nat.lt_succ_self n)⟩

theorem list_eq_of_get?_eq (l1 l2 : List String) (hlen : l1.length = l2.length)
    (h : ∀ i < l1.length, l1[i]? = l2[i]?) : l1 = l2 := by
  apply List.ext_getElem? 
  intro i
  by_cases hi : i < l1.length
  · exact h i hi
  · have h1 : l1.length ≤ i := Nat.le_of_not_lt hi
    have h2 : l2.length ≤ i := hlen ▸ h1
    rw [List.getElem?_eq_none h1, List.getElem?_eq_none h2]

theorem Descriptor.eq_iff_fields (a b : Descriptor) :
    Descriptor.eq a b = true ↔
      a.lhs = b.lhs ∧ a.rhs = b.rhs ∧ a.dot_position = b.dot_position ∧
      a.left_extent = b.left_extent ∧ a.right_extent = b.right_extent := by
  unfold Descriptor.eq
  simp only []
  split
  · rename_i h
    rw [foldl_and_get?_eq_true]
    simp only [Bool.and_eq_true, beq_iff_eq] at h ⊢
    constructor
    · rintro ⟨-, hget⟩
      obtain ⟨⟨⟨⟨h1, h2⟩, h3⟩, h4⟩, h5⟩ := h
      exact ⟨h1, list_eq_of_get?_eq _ _ h2 hget, h3, h4, h5⟩
    · rintro ⟨h1, h2, h3, h4, h5⟩
      exact ⟨h, fun i _ => by rw [h2]⟩
  · rename_i h
    simp only [Bool.and_eq_true, beq_iff_eq] at h ⊢
    constructor
    · intro h'; exact absurd h' h
    · rintro ⟨h1, h2, h3, h4, h5⟩
      exact absurd ⟨⟨⟨⟨h1, by rw [h2]⟩, h3⟩, h4⟩, h5⟩ h

theorem EPN.eq_iff_eq (a b : EPN) : EPN.eq a b = true ↔ a = b := by
  unfold EPN.eq
  simp only []
  split
  · rename_i h
    rw [foldl_and_get?_eq_true]
    simp only [Bool.and_eq_true, beq_iff_eq] at h ⊢
    constructor
    · rintro ⟨-, hget⟩
      obtain ⟨⟨⟨⟨⟨h1, h2⟩, h3⟩, h4⟩, h5⟩, h6⟩ := h
      have h2' := list_eq_of_get?_eq _ _ h2 hget
      cases a; cases b; simp_all
    · intro hab
      subst hab
      exact ⟨h, fun i _ => rfl⟩
  · rename_i h
    simp only [Bool.and_eq_true, beq_iff_eq] at h ⊢
    constructor
    · intro h'; exact absurd h' h
    · intro hab
      subst hab
      exact absurd ⟨⟨⟨⟨⟨rfl, rfl⟩, rfl⟩, rfl⟩, rfl⟩, rfl⟩ h

theorem Descriptor.eq_refl (a : Descriptor) : Descriptor.eq a a = true :=
  (Descriptor.eq_iff_fields a a).2 ⟨rfl, rfl, rfl, rfl, rfl⟩

theorem Descriptor.eq_symm (a b : Descriptor) (h : Descriptor.eq a b = true) :
    Descriptor.eq b a = true := by
  rw [Descriptor.eq_iff_fields] at h ⊢
  obtain ⟨h1, h2, h3, h4, h5⟩ := h
  exact ⟨h1.symm, h2.symm, h3.symm, h4.symm, h5.symm⟩

theorem Descriptor.eq_trans (a b c : Descriptor) (h : Descriptor.eq a b = true)
    (h' : Descriptor.eq b c = true) : Descriptor.eq a c = true := by
  rw [Descriptor.eq_iff_fields] at h h' ⊢
  obtain ⟨h1, h2, h3, h4, h5⟩ := h
  obtain ⟨g1, g2, g3, g4, g5⟩ := h'
  exact ⟨h1.trans g1, h2.trans g2, h3.trans g3, h4.trans g4, h5.trans g5⟩

/-- Two descriptors with equal force flags are `==` exactly when they are equal. -/
theorem Descriptor.eq_iff_of_force (a b : Descriptor)
    (hf : a.force_process = b.force_process) : Descriptor.eq a b = true ↔ a = b := by
  rw [Descriptor.eq_iff_fields]
  constructor
  · rintro ⟨h1, h2, h3, h4, h5⟩
    cases a; cases b; simp_all
  · intro h; subst h; exact ⟨rfl, rfl, rfl, rfl, rfl⟩

theorem set_count_descriptor_congr (s : List Descriptor) (x y : Descriptor)
    (h : Descriptor.eq x y = true) :
    set_count Descriptor.eq s x = set_count Descriptor.eq s y := by
  have key : ∀ a b : Descriptor, Descriptor.eq a b = true →
      set_count Descriptor.eq s a = true → set_count Descriptor.eq s b = true := by
    intro a b hab ha
    rw [set_count_iff] at ha ⊢
    obtain ⟨z, hz, hza⟩ := ha
    exact ⟨z, hz, Descriptor.eq_trans z a b hza hab⟩
  cases hx : set_count Descriptor.eq s x
  · cases hy : set_count Descriptor.eq s y
    · rfl
    · rw [key y x (Descriptor.eq_symm x y h) hy] at hx; cases hx
  · exact (key x y h hx).symm

theorem set_count_epn_iff (s : List EPN) (e : EPN) :
    set_count EPN.eq s e = true ↔ e ∈ s := by
  rw [set_count_iff]
  constructor
  · rintro ⟨y, hy, hye⟩
    rw [EPN.eq_iff_eq] at hye
    exact hye ▸ hy
  · intro h
    exact ⟨e, h, (EPN.eq_iff_eq e e).2 rfl⟩

theorem mem_epn_insert (s : List EPN) (e x : EPN) :
    x ∈ set_insert EPN.eq s e ↔ x ∈ s ∨ x = e := by
  rw [mem_set_insert]
  constructor
  · rintro (h | ⟨h, -⟩)
    · exact Or.inl h
    · exact Or.inr h
  · rintro (h | h)
    · exact Or.inl h
    · by_cases hc : set_count EPN.eq s e = true
      · left; rw [h]; exact (set_count_epn_iff s e).1 hc
      · right; exact ⟨h, by simpa using hc⟩

end CDS

namespace CDS

open SequentialParser

/-! ## Effects of the elementary steps -/

theorem Extends.refl (p : SequentialParser) :
    Extends p p (fun _ => False) (fun _ => False) where
  input_eq := rfl
  grammar_eq := rfl
  descriptor_set_eq := rfl
  num_descriptors_eq := rfl
  worklist_sound := fun _ h => Or.inl h
  worklist_mono := fun _ h => h
  worklist_complete := fun _ h => h.elim
  epn_iff := fun _ => by simp

theorem Extends.congr_extends {p1 p2 : SequentialParser} {O O' : Descriptor → Prop}
    {E E' : EPN → Prop} (h : Extends p1 p2 O E) (hO : ∀ x, O x ↔ O' x)
    (hE : ∀ e, E e ↔ E' e) : Extends p1 p2 O' E' where
  input_eq := h.input_eq
  grammar_eq := h.grammar_eq
  descriptor_set_eq := h.descriptor_set_eq
  num_descriptors_eq := h.num_descriptors_eq
  worklist_sound := fun x hx => by
    rcases h.worklist_sound x hx with h1 | ⟨h1, h2⟩
    · exact Or.inl h1
    · exact Or.inr ⟨(hO x).1 h1, h2⟩
  worklist_mono := h.worklist_mono
  worklist_complete := fun x hx => h.worklist_complete x ((hO x).2 hx)
  epn_iff := fun e => by rw [h.epn_iff, hE]

theorem Extends.trans {p1 p2 p3 : SequentialParser} {O1 O2 : Descriptor → Prop}
    {E1 E2 : EPN → Prop} (h12 : Extends p1 p2 O1 E1) (h23 : Extends p2 p3 O2 E2) :
    Extends p1 p3 (fun x => O1 x ∨ O2 x) (fun e => E1 e ∨ E2 e) where
  input_eq := h23.input_eq.trans h12.input_eq
  grammar_eq := h23.grammar_eq.trans h12.grammar_eq
  descriptor_set_eq := h23.descriptor_set_eq.trans h12.descriptor_set_eq
  num_descriptors_eq := h23.num_descriptors_eq.trans h12.num_descriptors_eq
  worklist_sound := fun x hx => by
    rcases h23.worklist_sound x hx with h1 | ⟨h1, h2⟩
    · rcases h12.worklist_sound x h1 with h3 | ⟨h3, h4⟩
      · exact Or.inl h3
      · exact Or.inr ⟨Or.inl h3, h4⟩
    · rw [h12.descriptor_set_eq] at h2
      exact Or.inr ⟨Or.inr h1, h2⟩
  worklist_mono := fun x hx => h23.worklist_mono x (h12.worklist_mono x hx)
  worklist_complete := fun x hx => by
    rcases hx with h1 | h1
    · rcases h12.worklist_complete x h1 with h2 | h2
      · exact Or.inl h2
      · exact Or.inr (set_count_mono _ _ _ _ h23.worklist_mono h2)
    · rcases h23.worklist_complete x h1 with h2 | h2
      · rw [h12.descriptor_set_eq] at h2
        exact Or.inl h2
      · exact Or.inr h2
  epn_iff := fun e => by rw [h23.epn_iff, h12.epn_iff, or_assoc]

theorem Extends.foldl {α : Type} (f : SequentialParser → α → SequentialParser)
    (O : α → Descriptor → Prop) (E : α → EPN → Prop)
    (hstep : ∀ p a, Extends p (f p a) (O a) (E a)) (l : List α) (p : SequentialParser) :
    Extends p (l.foldl f p) (fun x => ∃ a ∈ l, O a x) (fun e => ∃ a ∈ l, E a e) := by
  induction l generalizing p with
  | nil =>
    simp only [List.foldl_nil]
    exact (Extends.refl p).congr_extends (fun x => by simp) (fun e => by simp)
  | cons a l ih =>
    simp only [List.foldl_cons]
    exact ((hstep p a).trans (ih (f p a))).congr_extends (fun x => by simp) (fun e => by simp)

theorem add_to_worklist_extends (p : SequentialParser) (d : Descriptor) :
    Extends p (p.add_to_worklist d) (fun x => x = d) (fun _ => False) := by
  unfold add_to_worklist
  by_cases h : set_count Descriptor.eq p.descriptor_set d = true
  · simp only [h, Bool.not_true, Bool.false_eq_true, if_false]
    exact
      { input_eq := rfl
        grammar_eq := rfl
        descriptor_set_eq := rfl
        num_descriptors_eq := rfl
        worklist_sound := fun _ hx => Or.inl hx
        worklist_mono := fun _ hx => hx
        worklist_complete := fun x hx => Or.inl (hx ▸ h)
        epn_iff := fun _ => by simp }
  · have h0 : set_count Descriptor.eq p.descriptor_set d = false := by simpa using h
    simp only [h0, Bool.not_false, if_true]
    exact
      { input_eq := rfl
        grammar_eq := rfl
        descriptor_set_eq := rfl
        num_descriptors_eq := rfl
        worklist_sound := fun x hx => by
          rcases (mem_set_insert _ _ _ _).1 hx with h1 | ⟨h1, -⟩
          · exact Or.inl h1
          · exact Or.inr ⟨h1, h1 ▸ h0⟩
        worklist_mono := fun x hx => mem_set_insert_of_mem _ _ _ _ hx
        worklist_complete := fun x hx =>
          Or.inr (hx ▸ set_count_insert_self _ Descriptor.eq_refl _ _)
        epn_iff := fun _ => by simp }

theorem epn_insert_extends (p : SequentialParser) (e : EPN) :
    Extends p { p with epn_set := set_insert EPN.eq p.epn_set e } (fun _ => False)
      (fun x => x = e) where
  input_eq := rfl
  grammar_eq := rfl
  descriptor_set_eq := rfl
  num_descriptors_eq := rfl
  worklist_sound := fun _ hx => Or.inl hx
  worklist_mono := fun _ hx => hx
  worklist_complete := fun _ hx => hx.elim
  epn_iff := fun _ => mem_epn_insert _ _ _

/-- Offering one descriptor and inserting one EPN, the body of the loops of `skip`
and `ascend`. -/
theorem offer_extends (p : SequentialParser) (d : Descriptor) (e : EPN) :
    Extends p
      { p.add_to_worklist d with
        epn_set := set_insert EPN.eq (p.add_to_worklist d).epn_set e }
      (fun x => x = d) (fun x => x = e) :=
  ((add_to_worklist_extends p d).trans (epn_insert_extends _ e)).congr_extends
    (fun x => by simp) (fun x => by simp)

theorem extend_worklist_extends (p : SequentialParser) (rules : List production_rule_t)
    (l r : Nat) :
    Extends p (p.extend_worklist rules l r)
      (fun x => ∃ rule ∈ rules, x = Descriptor.make rule.1 rule.2 0 l r)
      (fun _ => False) := by
  unfold extend_worklist
  exact (Extends.foldl _ (fun rule x => x = Descriptor.make rule.1 rule.2 0 l r)
    (fun _ _ => False) (fun p rule => add_to_worklist_extends p _) rules p).congr_extends
    (fun x => Iff.rfl) (fun e => by simp)

theorem mem_get_production_rules (g : Grammar) (lhs : String) (rule : production_rule_t) :
    rule ∈ g.get_production_rules lhs ↔ rule ∈ g.production_rules ∧ rule.1 = lhs := by
  simp [Grammar.get_production_rules, List.mem_filter]

theorem descend_extends (p : SequentialParser) (symbol : String) (pivot : Nat) :
    Extends p (p.descend symbol pivot)
      (fun x => ∃ β, (symbol, β) ∈ p.grammar.production_rules ∧
        x = Descriptor.make symbol β 0 pivot pivot)
      (fun _ => False) := by
  unfold descend
  have h := extend_worklist_extends { p with num_descend := p.num_descend + 1 }
    (p.grammar.get_production_rules symbol) pivot pivot
  refine
    { input_eq := h.input_eq
      grammar_eq := h.grammar_eq
      descriptor_set_eq := h.descriptor_set_eq
      num_descriptors_eq := h.num_descriptors_eq
      worklist_sound := fun x hx => ?_
      worklist_mono := h.worklist_mono
      worklist_complete := fun x hx => ?_
      epn_iff := h.epn_iff }
  · rcases h.worklist_sound x hx with h1 | ⟨⟨rule, hr, hxr⟩, h2⟩
    · exact Or.inl h1
    · rw [mem_get_production_rules] at hr
      refine Or.inr ⟨⟨rule.2, ?_, ?_⟩, h2⟩
      · rw [← hr.2]; exact hr.1
      · rw [← hr.2]; exact hxr
  · obtain ⟨β, hβ, hx⟩ := hx
    exact h.worklist_complete x ⟨(symbol, β), (mem_get_production_rules _ _ _).2 ⟨hβ, rfl⟩, hx⟩

theorem skip_extends (p : SequentialParser) (descriptor : Descriptor)
    (right_extents : List Nat) :
    Extends p (p.skip descriptor right_extents)
      (fun x => ∃ r ∈ right_extents, x = { descriptor with right_extent := r })
      (fun e => ∃ r ∈ right_extents,
        e = EPN.of_descriptor_pivot { descriptor with right_extent := r }
          descriptor.right_extent) := by
  unfold skip
  have h := Extends.foldl
    (fun (p : SequentialParser) (right_extent : Nat) =>
      let new_descriptor := { descriptor with right_extent := right_extent }
      let p := p.add_to_worklist new_descriptor
      let e := EPN.of_descriptor_pivot new_descriptor descriptor.right_extent
      { p with epn_set := set_insert EPN.eq p.epn_set e })
    (fun r x => x = { descriptor with right_extent := r })
    (fun r e => e = EPN.of_descriptor_pivot { descriptor with right_extent := r }
      descriptor.right_extent)
    (fun p r => offer_extends p _ _) right_extents { p with num_skip := p.num_skip + 1 }
  exact
    { input_eq := h.input_eq
      grammar_eq := h.grammar_eq
      descriptor_set_eq := h.descriptor_set_eq
      num_descriptors_eq := h.num_descriptors_eq
      worklist_sound := h.worklist_sound
      worklist_mono := h.worklist_mono
      worklist_complete := h.worklist_complete
      epn_iff := h.epn_iff }

theorem ascend_extends (p : SequentialParser) (descriptors : descriptor_set_t)
    (right_extent : Nat) :
    Extends p (p.ascend descriptors right_extent)
      (fun x => ∃ d ∈ descriptors, x = { d with right_extent := right_extent })
      (fun e => ∃ d ∈ descriptors,
        e = EPN.of_descriptor_pivot { d with right_extent := right_extent }
          d.right_extent) := by
  unfold ascend
  have h := Extends.foldl
    (fun (p : SequentialParser) (descriptor : Descriptor) =>
      let new_descriptor := { descriptor with right_extent := right_extent }
      let p := p.add_to_worklist new_descriptor
      let e := EPN.of_descriptor_pivot new_descriptor descriptor.right_extent
      { p with epn_set := set_insert EPN.eq p.epn_set e })
    (fun d x => x = { d with right_extent := right_extent })
    (fun d e => e = EPN.of_descriptor_pivot { d with right_extent := right_extent }
      d.right_extent)
    (fun p r => offer_extends p _ _) descriptors { p with num_ascend := p.num_ascend + 1 }
  exact
    { input_eq := h.input_eq
      grammar_eq := h.grammar_eq
      descriptor_set_eq := h.descriptor_set_eq
      num_descriptors_eq := h.num_descriptors_eq
      worklist_sound := h.worklist_sound
      worklist_mono := h.worklist_mono
      worklist_complete := h.worklist_complete
      epn_iff := h.epn_iff }

end CDS

namespace CDS

open SequentialParser

/-! ## Effect of `process_descriptor` -/

theorem Extends.weaken {p1 p2 : SequentialParser} {O O' : Descriptor → Prop}
    {E E' : EPN → Prop} (h : Extends p1 p2 O E) (hsound : ∀ x, O x → O' x)
    (hcomplete : ∀ x, O' x → ∃ y, O y ∧ Descriptor.eq y x = true)
    (hE : ∀ e, E e ↔ E' e) : Extends p1 p2 O' E' where
  input_eq := h.input_eq
  grammar_eq := h.grammar_eq
  descriptor_set_eq := h.descriptor_set_eq
  num_descriptors_eq := h.num_descriptors_eq
  worklist_sound := fun x hx => by
    rcases h.worklist_sound x hx with h1 | ⟨h1, h2⟩
    · exact Or.inl h1
    · exact Or.inr ⟨hsound x h1, h2⟩
  worklist_mono := h.worklist_mono
  worklist_complete := fun x hx => by
    obtain ⟨y, hy, hyx⟩ := hcomplete x hx
    rw [← set_count_descriptor_congr _ y x hyx, ← set_count_descriptor_congr _ y x hyx]
    exact h.worklist_complete y hy
  epn_iff := fun e => by rw [h.epn_iff, hE]

theorem mem_nat_insert (s : List Nat) (x y : Nat) :
    y ∈ set_insert (fun a b => a == b) s x ↔ y ∈ s ∨ y = x := by
  rw [mem_set_insert]
  constructor
  · rintro (h | ⟨h, -⟩)
    · exact Or.inl h
    · exact Or.inr h
  · rintro (h | h)
    · exact Or.inl h
    · by_cases hc : set_count (fun a b : Nat => a == b) s x = true
      · left
        rw [set_count_iff] at hc
        obtain ⟨z, hz, hzx⟩ := hc
        have : z = x := by simpa using hzx
        rw [h, ← this]; exact hz
      · right; exact ⟨h, by simpa using hc⟩

theorem mem_collect_right_extents (symbol : String) (right_extent : Nat)
    (S : descriptor_set_t) (acc : List Nat) (r : Nat) :
    r ∈ collect_right_extents symbol right_extent S acc ↔
      r ∈ acc ∨ ∃ d0 ∈ S, d0.lhs = symbol ∧ d0.left_extent = right_extent ∧
        d0.is_completed = true ∧ d0.right_extent = r := by
  induction S generalizing acc with
  | nil => simp [collect_right_extents]
  | cons d rest ih =>
    unfold collect_right_extents
    split
    · rename_i hc
      simp only [Bool.and_eq_true, beq_iff_eq] at hc
      rw [ih, mem_nat_insert]
      constructor
      · rintro ((h | h) | ⟨d0, hd0, h⟩)
        · exact Or.inl h
        · exact Or.inr ⟨d, List.mem_cons_self _ _, hc.1.1, hc.1.2, hc.2, h.symm⟩
        · exact Or.inr ⟨d0, List.mem_cons_of_mem _ hd0, h⟩
      · rintro (h | ⟨d0, hd0, h⟩)
        · exact Or.inl (Or.inl h)
        · rcases List.mem_cons.1 hd0 with h1 | h1
          · subst h1
            exact Or.inl (Or.inr h.2.2.2.symm)
          · exact Or.inr ⟨d0, h1, h⟩
    · rename_i hc
      simp only [Bool.and_eq_true, beq_iff_eq] at hc
      rw [ih]
      constructor
      · rintro (h | ⟨d0, hd0, h⟩)
        · exact Or.inl h
        · exact Or.inr ⟨d0, List.mem_cons_of_mem _ hd0, h⟩
      · rintro (h | ⟨d0, hd0, h⟩)
        · exact Or.inl h
        · rcases List.mem_cons.1 hd0 with h1 | h1
          · subst h1
            exact absurd ⟨⟨h.1, h.2.1⟩, h.2.2.1⟩ hc
          · exact Or.inr ⟨d0, h1, h⟩

theorem get_next_symbol_eq_ok (d : Descriptor) (s : String) :
    d.get_next_symbol = Except.ok s ↔ d.rhs[d.dot_position]? = some s := by
  unfold Descriptor.get_next_symbol
  cases h : d.rhs[d.dot_position]? <;> simp

theorem not_completed_of_get? (d : Descriptor) (s : String)
    (h : d.rhs[d.dot_position]? = some s) : d.is_completed = false := by
  unfold Descriptor.is_completed
  have hlt : d.dot_position < d.rhs.length := by
    by_contra hge
    rw [List.getElem?_eq_none (Nat.le_of_not_lt hge)] at h
    cases h
  simp only [beq_eq_false_iff_ne, ne_eq]
  omega

theorem get?_eq_none_of_completed (d : Descriptor) (h : d.is_completed = true) :
    d.rhs[d.dot_position]? = none := by
  unfold Descriptor.is_completed at h
  simp only [beq_iff_eq] at h
  exact List.getElem?_eq_none (Nat.le_of_eq h.symm)

/-- What `collect_descriptors` returns: sound, complete up to `==`, and it keeps the
accumulator. -/
theorem collect_descriptors_spec (descriptor : Descriptor) (S acc D : descriptor_set_t)
    (h : collect_descriptors descriptor S acc = Except.ok D) :
    (∀ y ∈ D, y ∈ acc ∨ ∃ d0 ∈ S, d0.rhs[d0.dot_position]? = some descriptor.lhs ∧
      d0.right_extent = descriptor.left_extent ∧
      y = { d0 with dot_position := d0.dot_position + 1 }) ∧
    (∀ d0 ∈ S, d0.rhs[d0.dot_position]? = some descriptor.lhs →
      d0.right_extent = descriptor.left_extent →
      ∃ y ∈ D, Descriptor.eq y { d0 with dot_position := d0.dot_position + 1 } = true) ∧
    (∀ y ∈ acc, y ∈ D) := by
  induction S generalizing acc with
  | nil =>
    simp only [collect_descriptors, Except.ok.injEq] at h
    subst h
    exact ⟨fun y hy => Or.inl hy, fun d0 hd0 => absurd hd0 (List.not_mem_nil d0), fun y hy => hy⟩
  | cons d rest ih =>
    unfold collect_descriptors at h
    by_cases hcomp : d.is_completed = true
    · simp only [hcomp, Bool.not_true, Bool.false_eq_true, if_false] at h
      obtain ⟨h1, h2, h3⟩ := ih acc h
      refine ⟨fun y hy => ?_, fun d0 hd0 hn hr => ?_, h3⟩
      · rcases h1 y hy with h4 | ⟨d0, hd0, h4⟩
        · exact Or.inl h4
        · exact Or.inr ⟨d0, List.mem_cons_of_mem _ hd0, h4⟩
      · rcases List.mem_cons.1 hd0 with h4 | h4
        · subst h4
          rw [get?_eq_none_of_completed _ hcomp] at hn
          cases hn
        · exact h2 d0 h4 hn hr
    · have hcomp0 : d.is_completed = false := by simpa using hcomp
      simp only [hcomp0, Bool.not_false, if_true] at h
      cases hs : d.get_next_symbol with
      | error f => rw [hs] at h; cases h
      | ok s =>
        rw [hs] at h
        simp only [] at h
        rw [get_next_symbol_eq_ok] at hs
        by_cases hc : (s == descriptor.lhs && d.right_extent == descriptor.left_extent) = true
        · rw [if_pos hc] at h
          simp only [Bool.and_eq_true, beq_iff_eq] at hc
          obtain ⟨h1, h2, h3⟩ := ih _ h
          refine ⟨fun y hy => ?_, fun d0 hd0 hn hr => ?_, fun y hy => ?_⟩
          · rcases h1 y hy with h4 | ⟨d0, hd0, h4⟩
            · rcases (mem_set_insert _ _ _ _).1 h4 with h5 | ⟨h5, -⟩
              · exact Or.inl h5
              · refine Or.inr ⟨d, List.mem_cons_self _ _, ?_, hc.2, h5⟩
                rw [hs, hc.1]
            · exact Or.inr ⟨d0, List.mem_cons_of_mem _ hd0, h4⟩
          · rcases List.mem_cons.1 hd0 with h4 | h4
            · subst h4
              have hcnt := set_count_insert_self Descriptor.eq Descriptor.eq_refl acc
                d0.copy_and_advance
              rw [set_count_iff] at hcnt
              obtain ⟨y, hy, hyd⟩ := hcnt
              exact ⟨y, h3 y hy, hyd⟩
            · exact h2 d0 h4 hn hr
          · exact h3 y (mem_set_insert_of_mem _ _ _ _ hy)
        · rw [if_neg hc] at h
          simp only [Bool.and_eq_true, beq_iff_eq] at hc
          obtain ⟨h1, h2, h3⟩ := ih acc h
          refine ⟨fun y hy => ?_, fun d0 hd0 hn hr => ?_, h3⟩
          · rcases h1 y hy with h4 | ⟨d0, hd0, h4⟩
            · exact Or.inl h4
            · exact Or.inr ⟨d0, List.mem_cons_of_mem _ hd0, h4⟩
          · rcases List.mem_cons.1 hd0 with h4 | h4
            · subst h4
              rw [hs] at hn
              exact absurd ⟨Option.some.inj hn, hr⟩ hc
            · exact h2 d0 h4 hn hr

end CDS

namespace CDS

open SequentialParser

theorem vector_index_of_get? (mem : Memory) (v : List String) (i : Nat) (a : String)
    (h : v[i]? = some a) : vector_index mem v i = Except.ok a := by
  unfold vector_index; rw [h]

/-- Effect of `match` on a descriptor whose next symbol is the terminal `a`. -/
theorem match_extends (mem : Memory) (p p2 : SequentialParser) (d : Descriptor)
    (a : String) (ha : d.rhs[d.dot_position]? = some a) (hterm : a ∈ p.grammar.terminals)
    (h : match_ mem p d = Except.ok p2) :
    Extends p p2 (MatchStep p.grammar p.input mem d)
      (fun e => ∃ x, MatchStep p.grammar p.input mem d x ∧
        e = EPN.of_descriptor_pivot x d.right_extent) := by
  unfold match_ at h
  rw [(get_next_symbol_eq_ok d a).2 ha] at h
  simp only [] at h
  by_cases hlen : p.input.length > 0
  · rw [if_pos hlen] at h
    cases hread : vector_index mem p.input d.right_extent with
    | error f => rw [hread] at h; cases h
    | ok x =>
      rw [hread] at h
      simp only [] at h
      by_cases hax : (a == x) = true
      · rw [if_pos hax] at h
        have hax' : a = x := by simpa using hax
        subst hax'
        injection h with h
        subst h
        have base := offer_extends { p with num_match := p.num_match + 1 }
          { d.copy_and_advance with right_extent := d.copy_and_advance.right_extent + 1 }
          (EPN.of_descriptor_pivot
            { d.copy_and_advance with right_extent := d.copy_and_advance.right_extent + 1 }
            d.right_extent)
        have hstep : ∀ x, MatchStep p.grammar p.input mem d x ↔
            x = { d.copy_and_advance with
              right_extent := d.copy_and_advance.right_extent + 1 } := by
          intro x
          constructor
          · rintro ⟨b, hb, -, -, -, hx⟩
            exact hx
          · intro hx
            exact ⟨a, ha, hterm, hlen, hread, hx⟩
        exact
          { input_eq := base.input_eq
            grammar_eq := base.grammar_eq
            descriptor_set_eq := base.descriptor_set_eq
            num_descriptors_eq := base.num_descriptors_eq
            worklist_sound := fun x hx => by
              rcases base.worklist_sound x hx with h1 | ⟨h1, h2⟩
              · exact Or.inl h1
              · exact Or.inr ⟨(hstep x).2 h1, h2⟩
            worklist_mono := base.worklist_mono
            worklist_complete := fun x hx => base.worklist_complete x ((hstep x).1 hx)
            epn_iff := fun e => by
              rw [base.epn_iff]
              constructor
              · rintro (h1 | h1)
                · exact Or.inl h1
                · exact Or.inr ⟨_, (hstep _).2 rfl, h1⟩
              · rintro (h1 | ⟨x, hx, h1⟩)
                · exact Or.inl h1
                · rw [(hstep x).1 hx] at h1
                  exact Or.inr h1 }
      · rw [if_neg hax] at h
        injection h with h
        subst h
        have hno : ∀ x, ¬ MatchStep p.grammar p.input mem d x := by
          rintro x ⟨b, hb, -, -, hrd, -⟩
          rw [ha] at hb
          injection hb with hb
          subst hb
          rw [hread] at hrd
          injection hrd with hrd
          exact hax (by simp [hrd])
        exact
          { input_eq := rfl
            grammar_eq := rfl
            descriptor_set_eq := rfl
            num_descriptors_eq := rfl
            worklist_sound := fun x hx => Or.inl hx
            worklist_mono := fun x hx => hx
            worklist_complete := fun x hx => absurd hx (hno x)
            epn_iff := fun e => by
              constructor
              · intro h1; exact Or.inl h1
              · rintro (h1 | ⟨x, hx, -⟩)
                · exact h1
                · exact absurd hx (hno x) }
  · rw [if_neg hlen] at h
    injection h with h
    subst h
    have hno : ∀ x, ¬ MatchStep p.grammar p.input mem d x := by
      rintro x ⟨b, -, -, hpos, -, -⟩
      exact hlen hpos
    exact
      { input_eq := rfl
        grammar_eq := rfl
        descriptor_set_eq := rfl
        num_descriptors_eq := rfl
        worklist_sound := fun x hx => Or.inl hx
        worklist_mono := fun x hx => hx
        worklist_complete := fun x hx => absurd hx (hno x)
        epn_iff := fun e => by
          constructor
          · intro h1; exact Or.inl h1
          · rintro (h1 | ⟨x, hx, -⟩)
            · exact h1
            · exact absurd hx (hno x) }

theorem skip_step_iff (G : Grammar) (d d0 x : Descriptor) (X : String)
    (hX : d.rhs[d.dot_position]? = some X) (hnt : X ∉ G.terminals) :
    SkipStep G d d0 x ↔ d0.lhs = X ∧ d0.is_completed = true ∧
      d0.left_extent = d.right_extent ∧
      x = { d with dot_position := d.dot_position + 1, right_extent := d0.right_extent } := by
  constructor
  · rintro ⟨Y, hY, -, h1, h2, h3, h4⟩
    rw [hX] at hY
    injection hY with hY
    subst hY
    exact ⟨h1, h2, h3, h4⟩
  · rintro ⟨h1, h2, h3, h4⟩
    exact ⟨X, hX, hnt, h1, h2, h3, h4⟩

/-- Effect of `process_descriptor`. -/
theorem process_descriptor_extends (mem : Memory) (p p2 : SequentialParser)
    (d : Descriptor) (h : process_descriptor mem p d = Except.ok p2) :
    Extends p p2 (Offered mem p d) (Emitted mem p d) := by
  unfold process_descriptor at h
  by_cases hcomp : d.is_completed = true
  · -- completed: ascend
    simp only [hcomp, Bool.not_true, Bool.false_eq_true, if_false] at h
    have hnone := get?_eq_none_of_completed d hcomp
    cases hD : collect_descriptors d p.descriptor_set [] with
    | error f => rw [hD] at h; cases h
    | ok D =>
      rw [hD] at h
      simp only [] at h
      obtain ⟨hDs, hDc, -⟩ := collect_descriptors_spec d p.descriptor_set [] D hD
      have hasc := ascend_extends p D d.right_extent
      -- the offered descriptors
      have hO1 : ∀ x, (∃ y ∈ D, x = { y with right_extent := d.right_extent }) →
          Offered mem p d x := by
        rintro x ⟨y, hy, hx⟩
        rcases hDs y hy with h1 | ⟨d0, hd0, hn, hr, hy0⟩
        · exact absurd h1 (List.not_mem_nil y)
        · refine Or.inr (Or.inr (Or.inr ⟨d0, hd0, hcomp, hn, hr, ?_⟩))
          rw [hx, hy0]
      have hO2 : ∀ x, Offered mem p d x →
          ∃ y, (∃ z ∈ D, y = { z with right_extent := d.right_extent }) ∧
            Descriptor.eq y x = true := by
        rintro x (⟨a, ha, -⟩ | ⟨⟨X, β, hX, -⟩, -⟩ | ⟨d0, -, X, hX, -⟩ | ⟨d0, hd0, -, hn, hr, hx⟩)
        · rw [hnone] at ha; cases ha
        · rw [hnone] at hX; cases hX
        · rw [hnone] at hX; cases hX
        · obtain ⟨z, hz, hzd⟩ := hDc d0 hd0 hn hr
          refine ⟨{ z with right_extent := d.right_extent }, ⟨z, hz, rfl⟩, ?_⟩
          rw [Descriptor.eq_iff_fields] at hzd ⊢
          rw [hx]
          exact ⟨hzd.1, hzd.2.1, hzd.2.2.1, hzd.2.2.2.1, rfl⟩
      have hE : ∀ e, (∃ y ∈ D, e = EPN.of_descriptor_pivot
            { y with right_extent := d.right_extent } y.right_extent) ↔
          ∃ d0 ∈ p.descriptor_set, ∃ x, AscendStep d0 d x ∧
            e = EPN.of_descriptor_pivot x d0.right_extent := by
        intro e
        constructor
        · rintro ⟨y, hy, he⟩
          rcases hDs y hy with h1 | ⟨d0, hd0, hn, hr, hy0⟩
          · exact absurd h1 (List.not_mem_nil y)
          · refine ⟨d0, hd0, _, ⟨hcomp, hn, hr, rfl⟩, ?_⟩
            rw [he, hy0]
        · rintro ⟨d0, hd0, x, ⟨-, hn, hr, hx⟩, he⟩
          obtain ⟨z, hz, hzd⟩ := hDc d0 hd0 hn hr
          refine ⟨z, hz, ?_⟩
          rw [Descriptor.eq_iff_fields] at hzd
          rw [he, hx]
          simp only [EPN.of_descriptor_pivot, EPN.mk.injEq]
          exact ⟨hzd.1.symm, hzd.2.1.symm, hzd.2.2.1.symm, hzd.2.2.2.1.symm,
            hzd.2.2.2.2.symm, trivial⟩
      by_cases hemp : d.is_empty = true
      · rw [if_pos hemp] at h
        injection h with h
        subst h
        refine ((hasc.trans (epn_insert_extends _ (EPN.of_descriptor d))).weaken
          (fun x hx => ?_) (fun x hx => ?_) (fun e => ?_))
        · rcases hx with hx | hx
          · exact hO1 x hx
          · exact hx.elim
        · obtain ⟨y, hy, hyx⟩ := hO2 x hx
          exact ⟨y, Or.inl hy, hyx⟩
        · constructor
          · rintro (he | he)
            · exact Or.inr (Or.inr (Or.inl ((hE e).1 he)))
            · exact Or.inr (Or.inr (Or.inr ⟨hcomp, hemp, he⟩))
          · rintro (⟨x, ⟨a, ha, -⟩, -⟩ | ⟨d0, -, x, ⟨X, hX, -⟩, -⟩ | he | ⟨-, -, he⟩)
            · rw [hnone] at ha; cases ha
            · rw [hnone] at hX; cases hX
            · exact Or.inl ((hE e).2 he)
            · exact Or.inr he
      · rw [if_neg hemp] at h
        injection h with h
        subst h
        refine hasc.weaken hO1 hO2 (fun e => ?_)
        constructor
        · intro he
          exact Or.inr (Or.inr (Or.inl ((hE e).1 he)))
        · rintro (⟨x, ⟨a, ha, -⟩, -⟩ | ⟨d0, -, x, ⟨X, hX, -⟩, -⟩ | he | ⟨-, he, -⟩)
          · rw [hnone] at ha; cases ha
          · rw [hnone] at hX; cases hX
          · exact (hE e).2 he
          · exact absurd he hemp
  · -- not completed
    have hcomp0 : d.is_completed = false := by simpa using hcomp
    simp only [hcomp0, Bool.not_false, if_true] at h
    cases hs : d.get_next_symbol with
    | error f => rw [hs] at h; cases h
    | ok symbol =>
      rw [hs] at h
      simp only [] at h
      rw [get_next_symbol_eq_ok] at hs
      have hnoasc : ∀ d0 x, ¬ AscendStep d0 d x := by
        rintro d0 x ⟨hc, -⟩
        rw [hcomp0] at hc; cases hc
      by_cases hterm : symbol ∈ p.grammar.terminals
      · rw [if_pos hterm] at h
        refine (match_extends mem p p2 d symbol hs hterm h).weaken
          (fun x hx => Or.inl hx) (fun x hx => ?_) (fun e => ?_)
        · rcases hx with hx | ⟨⟨X, β, hX, hnt, -⟩, -⟩ | ⟨d0, -, X, hX, hnt, -⟩ | ⟨d0, -, hx⟩
          · exact ⟨x, hx, Descriptor.eq_refl x⟩
          · rw [hs] at hX; injection hX with hX; subst hX; exact absurd hterm hnt
          · rw [hs] at hX; injection hX with hX; subst hX; exact absurd hterm hnt
          · exact absurd hx (hnoasc d0 x)
        · constructor
          · intro he; exact Or.inl he
          · rintro (he | ⟨d0, -, x, ⟨X, hX, hnt, -⟩, -⟩ | ⟨d0, -, x, hx, -⟩ | ⟨hc, -⟩)
            · exact he
            · rw [hs] at hX; injection hX with hX; subst hX; exact absurd hterm hnt
            · exact absurd hx (hnoasc d0 x)
            · rw [hcomp0] at hc; cases hc
      · rw [if_neg hterm] at h
        have hnomatch : ∀ x, ¬ MatchStep p.grammar p.input mem d x := by
          rintro x ⟨a, ha, hat, -⟩
          rw [hs] at ha; injection ha with ha; subst ha; exact hterm hat
        have hmem := mem_collect_right_extents symbol d.right_extent p.descriptor_set []
        by_cases hlen : ((collect_right_extents symbol d.right_extent
            p.descriptor_set []).length == 0) = true
        · rw [if_pos hlen] at h
          injection h with h
          subst h
          have hnil : collect_right_extents symbol d.right_extent p.descriptor_set [] = [] :=
            List.length_eq_zero.1 (by simpa using hlen)
          have hnone : ¬ HasCompleted p.descriptor_set symbol d.right_extent := by
            rintro ⟨d0, hd0, h1, h2, h3⟩
            have := (hmem d0.right_extent).2 (Or.inr ⟨d0, hd0, h1, h2, h3, rfl⟩)
            rw [hnil] at this
            exact absurd this (List.not_mem_nil _)
          refine (descend_extends p symbol d.right_extent).weaken
            (fun x hx => ?_) (fun x hx => ?_) (fun e => ?_)
          · obtain ⟨β, hβ, hx⟩ := hx
            refine Or.inr (Or.inl ⟨⟨symbol, β, hs, hterm, hβ, hx⟩, fun X hX => ?_⟩)
            rw [hs] at hX; injection hX with hX; subst hX; exact hnone
          · rcases hx with hx | ⟨⟨X, β, hX, -, hβ, hx⟩, -⟩ | ⟨d0, hd0, hx⟩ | ⟨d0, -, hx⟩
            · exact absurd hx (hnomatch x)
            · rw [hs] at hX; injection hX with hX; subst hX
              exact ⟨x, ⟨β, hβ, hx⟩, Descriptor.eq_refl x⟩
            · rw [skip_step_iff _ _ _ _ _ hs hterm] at hx
              exact absurd ⟨d0, hd0, hx.1, hx.2.2.1, hx.2.1⟩ hnone
            · exact absurd hx (hnoasc d0 x)
          · constructor
            · intro he; exact he.elim
            · rintro (⟨x, hx, -⟩ | ⟨d0, hd0, x, hx, -⟩ | ⟨d0, -, x, hx, -⟩ | ⟨hc, -⟩)
              · exact absurd hx (hnomatch x)
              · rw [skip_step_iff _ _ _ _ _ hs hterm] at hx
                exact absurd ⟨d0, hd0, hx.1, hx.2.2.1, hx.2.1⟩ hnone
              · exact absurd hx (hnoasc d0 x)
              · rw [hcomp0] at hc; cases hc
        · rw [if_neg hlen] at h
          injection h with h
          subst h
          have hhas : HasCompleted p.descriptor_set symbol d.right_extent := by
            have hne : collect_right_extents symbol d.right_extent p.descriptor_set [] ≠ [] := by
              intro hnil
              exact hlen (by simp [hnil])
            obtain ⟨r, hr⟩ := List.exists_mem_of_ne_nil _ hne
            rcases (hmem r).1 hr with h1 | ⟨d0, hd0, h1, h2, h3, -⟩
            · exact absurd h1 (List.not_mem_nil _)
            · exact ⟨d0, hd0, h1, h2, h3⟩
          have hskip : ∀ x, (∃ r ∈ collect_right_extents symbol d.right_extent
                p.descriptor_set [], x = { d.copy_and_advance with right_extent := r }) ↔
              ∃ d0 ∈ p.descriptor_set, SkipStep p.grammar d d0 x := by
            intro x
            constructor
            · rintro ⟨r, hr, hx⟩
              rcases (hmem r).1 hr with h1 | ⟨d0, hd0, h1, h2, h3, h4⟩
              · exact absurd h1 (List.not_mem_nil _)
              · refine ⟨d0, hd0, (skip_step_iff _ _ _ _ _ hs hterm).2 ⟨h1, h3, h2, ?_⟩⟩
                rw [hx, h4]; rfl
            · rintro ⟨d0, hd0, hx⟩
              rw [skip_step_iff _ _ _ _ _ hs hterm] at hx
              exact ⟨d0.right_extent,
                (hmem _).2 (Or.inr ⟨d0, hd0, hx.1, hx.2.2.1, hx.2.1, rfl⟩), hx.2.2.2⟩
          refine (skip_extends p d.copy_and_advance _).weaken
            (fun x hx => Or.inr (Or.inr (Or.inl ((hskip x).1 hx)))) (fun x hx => ?_)
            (fun e => ?_)
          · rcases hx with hx | ⟨-, hno⟩ | hx | ⟨d0, -, hx⟩
            · exact absurd hx (hnomatch x)
            · exact absurd hhas (hno symbol hs)
            · exact ⟨x, (hskip x).2 hx, Descriptor.eq_refl x⟩
            · exact absurd hx (hnoasc d0 x)
          · constructor
            · rintro ⟨r, hr, he⟩
              obtain ⟨d0, hd0, hx⟩ := (hskip _).1 ⟨r, hr, rfl⟩
              exact Or.inr (Or.inl ⟨d0, hd0, _, hx, he⟩)
            · rintro (⟨x, hx, -⟩ | ⟨d0, hd0, x, hx, he⟩ | ⟨d0, -, x, hx, -⟩ | ⟨hc, -⟩)
              · exact absurd hx (hnomatch x)
              · obtain ⟨r, hr, hxr⟩ := (hskip x).2 ⟨d0, hd0, hx⟩
                exact ⟨r, hr, by rw [he, hxr]; rfl⟩
              · exact absurd hx (hnoasc d0 x)
              · rw [hcomp0] at hc; cases hc

end CDS

namespace CDS

open SequentialParser

/-! ## Preservation of the loop invariant -/

theorem set_count_plain (s : List Descriptor) (x : Descriptor)
    (hs : ∀ y ∈ s, y.force_process = false) (hx : x.force_process = false) :
    set_count Descriptor.eq s x = true ↔ x ∈ s := by
  rw [set_count_iff]
  constructor
  · rintro ⟨y, hy, hyx⟩
    have : y = x := (Descriptor.eq_iff_of_force y x ((hs y hy).trans hx.symm)).1 hyx
    exact this ▸ hy
  · intro h
    exact ⟨x, h, Descriptor.eq_refl x⟩

theorem not_mem_of_set_count_eq_false (s : List Descriptor) (x : Descriptor)
    (h : set_count Descriptor.eq s x = false) : x ∉ s := by
  intro hx
  rw [set_count_eq_false_iff] at h
  have := h x hx
  rw [Descriptor.eq_refl] at this
  cases this

theorem offered_plain (mem : Memory) (p : SequentialParser) (d x : Descriptor)
    (hd : d.force_process = false)
    (hS : ∀ y ∈ p.descriptor_set, y.force_process = false)
    (h : Offered mem p d x) : x.force_process = false := by
  rcases h with ⟨a, -, -, -, -, hx⟩ | ⟨⟨X, β, -, -, -, hx⟩, -⟩ | ⟨d0, -, X, -, -, -, -, -, hx⟩ |
    ⟨d0, hd0, -, -, -, hx⟩
  · rw [hx]; exact hd
  · rw [hx]; rfl
  · rw [hx]; exact hd
  · rw [hx]; exact hS d0 hd0

theorem loop_body_facts (mem : Memory) (p p3 : SequentialParser) (d : Descriptor)
    (hplain : ∀ x, Known p x → x.force_process = false)
    (hdis : ∀ x ∈ p.worklist, x ∉ p.descriptor_set)
    (hd : d ∈ p.worklist) (h : loop_body mem p d = Except.ok p3) :
    StepFacts mem p p3 d := by
  unfold loop_body at h
  have hdS : d ∉ p.descriptor_set := hdis d hd
  have hdplain : d.force_process = false := hplain d (Or.inl hd)
  have hcount : set_count Descriptor.eq p.descriptor_set d = false := by
    cases hc : set_count Descriptor.eq p.descriptor_set d
    · rfl
    · exact absurd ((set_count_plain _ _ (fun y hy => hplain y (Or.inr hy)) hdplain).1 hc) hdS
  have hins : set_insert Descriptor.eq p.descriptor_set d = p.descriptor_set ++ [d] := by
    simp [set_insert, hcount]
  rw [hins] at h
  simp only [] at h
  cases hproc : process_descriptor mem { p with descriptor_set := p.descriptor_set ++ [d] } d with
  | error f => rw [hproc] at h; cases h
  | ok p2 =>
    rw [hproc] at h
    simp only [] at h
    injection h with h
    subst h
    have ext := process_descriptor_extends mem _ p2 d hproc
    have hS1plain : ∀ y ∈ p.descriptor_set ++ [d], y.force_process = false := by
      intro y hy
      rcases List.mem_append.1 hy with h1 | h1
      · exact hplain y (Or.inr h1)
      · rw [List.mem_singleton.1 h1]; exact hdplain
    have hoffplain : ∀ x,
        Offered mem { p with descriptor_set := p.descriptor_set ++ [d] } d x →
        x.force_process = false :=
      fun x hx => offered_plain mem _ d x hdplain hS1plain hx
    have hW2plain : ∀ x ∈ p2.worklist, x.force_process = false := by
      intro x hx
      rcases ext.worklist_sound x hx with h1 | ⟨h1, -⟩
      · exact hplain x (Or.inl h1)
      · exact hoffplain x h1
    have hmemW3 : ∀ x, x ∈ set_erase Descriptor.eq p2.worklist d ↔ x ∈ p2.worklist ∧ x ≠ d := by
      intro x
      rw [mem_set_erase]
      constructor
      · rintro ⟨h1, h2⟩
        refine ⟨h1, fun hxd => ?_⟩
        rw [hxd, Descriptor.eq_refl] at h2
        cases h2
      · rintro ⟨h1, h2⟩
        refine ⟨h1, ?_⟩
        cases hc : Descriptor.eq x d
        · rfl
        · exact absurd ((Descriptor.eq_iff_of_force x d
            ((hW2plain x h1).trans hdplain.symm)).1 hc) h2
    have hS3 : p2.descriptor_set = p.descriptor_set ++ [d] := ext.descriptor_set_eq
    have hfromW2 : ∀ x, x ∈ p2.worklist →
        Known { p2 with num_descriptors := p2.num_descriptors + 1,
                        worklist := set_erase Descriptor.eq p2.worklist d } x := by
      intro x hx
      by_cases hxd : x = d
      · right
        show x ∈ p2.descriptor_set
        rw [hS3, hxd]
        simp
      · left
        exact (hmemW3 x).2 ⟨hx, hxd⟩
    have hoffknown : ∀ x,
        Offered mem { p with descriptor_set := p.descriptor_set ++ [d] } d x →
        Known { p2 with num_descriptors := p2.num_descriptors + 1,
                        worklist := set_erase Descriptor.eq p2.worklist d } x := by
      intro x hx
      rcases ext.worklist_complete x hx with h1 | h1
      · right
        show x ∈ p2.descriptor_set
        rw [hS3]
        exact (set_count_plain _ _ hS1plain (hoffplain x hx)).1 h1
      · exact hfromW2 x ((set_count_plain _ _ hW2plain (hoffplain x hx)).1 h1)
    exact
      { input_eq := ext.input_eq
        grammar_eq := ext.grammar_eq
        num_descriptors_eq := by
          show p2.num_descriptors + 1 = p.num_descriptors + 1
          rw [ext.num_descriptors_eq]
        set_eq := hS3
        known_mono := fun x hx => by
          rcases hx with h1 | h1
          · exact hfromW2 x (ext.worklist_mono x h1)
          · right
            show x ∈ p2.descriptor_set
            rw [hS3]
            exact List.mem_append_left _ h1
        known_new := fun x hx => by
          rcases hx with h1 | h1
          · rcases ext.worklist_sound x ((hmemW3 x).1 h1).1 with h2 | ⟨h2, -⟩
            · exact Or.inl (Or.inl h2)
            · exact Or.inr h2
          · have h1' : x ∈ p2.descriptor_set := h1
            rw [hS3] at h1'
            rcases List.mem_append.1 h1' with h2 | h2
            · exact Or.inl (Or.inr h2)
            · rw [List.mem_singleton.1 h2]
              exact Or.inl (Or.inl hd)
        offered_known := hoffknown
        worklist_new := fun x hx => by
          obtain ⟨h1, h2⟩ := (hmemW3 x).1 hx
          refine ⟨h2, ?_⟩
          rcases ext.worklist_sound x h1 with h3 | ⟨h3, h4⟩
          · exact Or.inl h3
          · refine Or.inr ⟨h3, fun hxS => ?_⟩
            exact not_mem_of_set_count_eq_false _ _ h4 (List.mem_append_left _ hxS)
        epn_iff := ext.epn_iff }

end CDS

namespace CDS

open SequentialParser

theorem skip_to_ascend (G : Grammar) (d d0 x : Descriptor) (h : SkipStep G d d0 x) :
    AscendStep d d0 x := by
  obtain ⟨X, hX, -, h1, h2, h3, h4⟩ := h
  exact ⟨h2, by rw [h1]; exact hX, h3.symm, h4⟩

/-- One iteration of the loop preserves the invariant. -/
theorem inv_step (mem : Memory) (p p3 : SequentialParser) (d : Descriptor)
    (hinv : Inv mem p) (hd : d ∈ p.worklist) (hf : StepFacts mem p p3 d) : Inv mem p3 := by
  have hdplain : d.force_process = false := hinv.plain d (Or.inl hd)
  have hS1plain : ∀ y ∈ p.descriptor_set ++ [d], y.force_process = false := by
    intro y hy
    rcases List.mem_append.1 hy with h1 | h1
    · exact hinv.plain y (Or.inr h1)
    · rw [List.mem_singleton.1 h1]; exact hdplain
  have hS1known : ∀ y ∈ p.descriptor_set ++ [d], Known p y := by
    intro y hy
    rcases List.mem_append.1 hy with h1 | h1
    · exact Or.inr h1
    · rw [List.mem_singleton.1 h1]; exact Or.inl hd
  have hmemS3 : ∀ y, y ∈ p3.descriptor_set ↔ y ∈ p.descriptor_set ∨ y = d := by
    intro y
    rw [hf.set_eq, List.mem_append, List.mem_singleton]
  have hEmono : ∀ e, e ∈ p.epn_set → e ∈ p3.epn_set := fun e he => (hf.epn_iff e).2 (Or.inl he)
  refine
    { plain := fun x hx => ?_
      disjoint := fun x hx hxS => ?_
      alternatives := fun x hx β hβ => ?_
      by_match := fun y hy x hx => ?_
      by_descend := fun y hy x hx => ?_
      by_skip := fun y hy y0 hy0 x hx => ?_
      by_empty := fun y hy hc he => ?_ }
  · rcases hf.known_new x hx with h1 | h1
    · exact hinv.plain x h1
    · exact offered_plain mem _ d x hdplain hS1plain h1
  · obtain ⟨hne, h1⟩ := hf.worklist_new x hx
    rcases (hmemS3 x).1 hxS with h2 | h2
    · rcases h1 with h3 | ⟨-, h3⟩
      · exact hinv.disjoint x h3 h2
      · exact h3 h2
    · exact hne h2
  · rw [hf.grammar_eq] at hβ
    rcases hf.known_new x hx with h1 | h1
    · exact hf.known_mono _ (hinv.alternatives x h1 β hβ)
    · rcases h1 with ⟨a, -, -, -, -, hxe⟩ | ⟨⟨X, β0, hX, hnt, -, hxe⟩, hno⟩ |
        ⟨d0, -, X, -, -, -, -, -, hxe⟩ | ⟨d0, hd0, -, -, -, hxe⟩
      · have := hinv.alternatives d (Or.inl hd) β (by rw [hxe] at hβ; exact hβ)
        rw [hxe]
        exact hf.known_mono _ this
      · apply hf.offered_known
        refine Or.inr (Or.inl ⟨⟨X, β, hX, hnt, ?_, ?_⟩, hno⟩)
        · rw [hxe] at hβ; exact hβ
        · rw [hxe]; rfl
      · have := hinv.alternatives d (Or.inl hd) β (by rw [hxe] at hβ; exact hβ)
        rw [hxe]
        exact hf.known_mono _ this
      · have := hinv.alternatives d0 (hS1known d0 hd0) β (by rw [hxe] at hβ; exact hβ)
        rw [hxe]
        exact hf.known_mono _ this
  · rw [hf.grammar_eq, hf.input_eq] at hx
    rcases (hmemS3 y).1 hy with h1 | h1
    · obtain ⟨h2, h3⟩ := hinv.by_match y h1 x hx
      exact ⟨hf.known_mono x h2, hEmono _ h3⟩
    · subst h1
      exact ⟨hf.offered_known x (Or.inl hx), (hf.epn_iff _).2 (Or.inr (Or.inl ⟨x, hx, rfl⟩))⟩
  · rw [hf.grammar_eq] at hx
    rcases (hmemS3 y).1 hy with h1 | h1
    · exact hf.known_mono x (hinv.by_descend y h1 x hx)
    · subst h1
      by_cases hhas : ∀ X, y.rhs[y.dot_position]? = some X →
          ¬ HasCompleted (p.descriptor_set ++ [y]) X y.right_extent
      · exact hf.offered_known x (Or.inr (Or.inl ⟨hx, hhas⟩))
      · push_neg at hhas
        obtain ⟨X, hX, d0, hd0, h1, h2, h3⟩ := hhas
        obtain ⟨X', β, hX', -, hβ, hxe⟩ := hx
        rw [hX] at hX'
        injection hX' with hX'
        subst hX'
        have := hinv.alternatives d0 (hS1known d0 hd0) β (by rw [h1]; exact hβ)
        rw [h1, h2] at this
        rw [hxe]
        exact hf.known_mono _ this
  · rw [hf.grammar_eq] at hx
    rcases (hmemS3 y).1 hy with h1 | h1
    · rcases (hmemS3 y0).1 hy0 with h2 | h2
      · obtain ⟨h3, h4⟩ := hinv.by_skip y h1 y0 h2 x hx
        exact ⟨hf.known_mono x h3, hEmono _ h4⟩
      · subst h2
        have hasc := skip_to_ascend _ _ _ _ hx
        have hyS1 : y ∈ p.descriptor_set ++ [y0] := List.mem_append_left _ h1
        exact ⟨hf.offered_known x (Or.inr (Or.inr (Or.inr ⟨y, hyS1, hasc⟩))),
          (hf.epn_iff _).2 (Or.inr (Or.inr (Or.inr (Or.inl ⟨y, hyS1, x, hasc, rfl⟩))))⟩
    · subst h1
      have hy0S1 : y0 ∈ p.descriptor_set ++ [y] := by
        rw [← hf.set_eq]; exact hy0
      exact ⟨hf.offered_known x (Or.inr (Or.inr (Or.inl ⟨y0, hy0S1, hx⟩))),
        (hf.epn_iff _).2 (Or.inr (Or.inr (Or.inl ⟨y0, hy0S1, x, hx, rfl⟩)))⟩
  · rcases (hmemS3 y).1 hy with h1 | h1
    · exact hEmono _ (hinv.by_empty y h1 hc he)
    · subst h1
      exact (hf.epn_iff _).2 (Or.inr (Or.inr (Or.inr (Or.inr ⟨hc, he, rfl⟩))))

theorem has_start_step (mem : Memory) (p p3 : SequentialParser) (d : Descriptor)
    (hs : HasStart p) (hf : StepFacts mem p p3 d) : HasStart p3 := by
  intro β hβ
  rw [hf.grammar_eq] at hβ ⊢
  exact hf.known_mono _ (hs β hβ)

/-! ## Soundness of the loop -/

theorem reach_lhs_not_terminal (G : Grammar) (w : List String) (mem : Memory)
    (hstart : G.start_symbol ∉ G.terminals) (d : Descriptor) (h : Reach G w mem d) :
    d.lhs ∉ G.terminals := by
  induction h with
  | start β _ => exact hstart
  | by_match d x _ hstep ih =>
    obtain ⟨a, -, -, -, -, hx⟩ := hstep
    rw [hx]; exact ih
  | by_descend d x _ hstep _ =>
    obtain ⟨X, β, -, hnt, -, hx⟩ := hstep
    rw [hx]; exact hnt
  | by_skip d d0 x _ _ hstep ih _ =>
    obtain ⟨X, -, -, -, -, -, hx⟩ := hstep
    rw [hx]; exact ih

theorem ascend_to_skip (G : Grammar) (d0 d x : Descriptor) (hnt : d.lhs ∉ G.terminals)
    (h : AscendStep d0 d x) : SkipStep G d0 d x := by
  obtain ⟨h1, h2, h3, h4⟩ := h
  exact ⟨d.lhs, h2, hnt, rfl, h1, h3.symm, h4⟩

/-- One iteration of the loop preserves soundness. -/
theorem sound_step (mem : Memory) (p p3 : SequentialParser) (d : Descriptor)
    (hstart : p.grammar.start_symbol ∉ p.grammar.terminals)
    (hsound : Sound mem p) (hd : d ∈ p.worklist) (hf : StepFacts mem p p3 d) :
    Sound mem p3 := by
  have hdreach : Reach p.grammar p.input mem d := hsound.descriptors d (Or.inl hd)
  have hS1reach : ∀ y ∈ p.descriptor_set ++ [d], Reach p.grammar p.input mem y := by
    intro y hy
    rcases List.mem_append.1 hy with h1 | h1
    · exact hsound.descriptors y (Or.inr h1)
    · rw [List.mem_singleton.1 h1]; exact hdreach
  have hdS3 : d ∈ p3.descriptor_set := by rw [hf.set_eq]; simp
  have hS1S3 : ∀ y ∈ p.descriptor_set ++ [d], y ∈ p3.descriptor_set := by
    intro y hy; rw [hf.set_eq]; exact hy
  have hdnt := reach_lhs_not_terminal _ _ _ hstart d hdreach
  refine { descriptors := fun x hx => ?_, epns := fun e he => ?_ }
  · rw [hf.grammar_eq, hf.input_eq]
    rcases hf.known_new x hx with h1 | h1
    · exact hsound.descriptors x h1
    · rcases h1 with h2 | ⟨h2, -⟩ | ⟨d0, hd0, h2⟩ | ⟨d0, hd0, h2⟩
      · exact Reach.by_match d x hdreach h2
      · exact Reach.by_descend d x hdreach h2
      · exact Reach.by_skip d d0 x hdreach (hS1reach d0 hd0) h2
      · exact Reach.by_skip d0 d x (hS1reach d0 hd0) hdreach (ascend_to_skip _ _ _ _ hdnt h2)
  · rw [hf.grammar_eq, hf.input_eq]
    rcases (hf.epn_iff e).1 he with h1 | h1
    · rcases hsound.epns e h1 with ⟨y, x, hy, hx, he⟩ | ⟨y, y0, x, hy, hy0, hx, he⟩ |
        ⟨y, hy, hc, hem, he⟩
      · exact Or.inl ⟨y, x, hS1S3 y (List.mem_append_left _ hy), hx, he⟩
      · exact Or.inr (Or.inl ⟨y, y0, x, hS1S3 y (List.mem_append_left _ hy),
          hS1S3 y0 (List.mem_append_left _ hy0), hx, he⟩)
      · exact Or.inr (Or.inr ⟨y, hS1S3 y (List.mem_append_left _ hy), hc, hem, he⟩)
    · rcases h1 with ⟨x, hx, he⟩ | ⟨d0, hd0, x, hx, he⟩ | ⟨d0, hd0, x, hx, he⟩ | ⟨hc, hem, he⟩
      · exact Or.inl ⟨d, x, hdS3, hx, he⟩
      · exact Or.inr (Or.inl ⟨d, d0, x, hdS3, hS1S3 d0 hd0, hx, he⟩)
      · exact Or.inr (Or.inl ⟨d0, d, x, hS1S3 d0 hd0, hdS3,
          ascend_to_skip _ _ _ _ hdnt hx, he⟩)
      · exact Or.inr (Or.inr ⟨d, hdS3, hc, hem, he⟩)

end CDS

namespace CDS

open SequentialParser

/-! ## The loop as a whole -/

theorem begin_mem (pick : SequentialParser → Nat) (p : SequentialParser) (x : Descriptor)
    (xs : List Descriptor) : begin_ pick p x xs ∈ x :: xs := by
  unfold begin_
  have hlt : pick p % (xs.length + 1) < (x :: xs).length := by
    simp only [List.length_cons]
    exact Nat.mod_lt _ (Nat.succ_pos _)
  rw [List.getD_eq_getElem _ _ hlt]
  exact List.getElem_mem _

/-- Induction over the iterations of the `while` loop. -/
theorem while_loop_induction (mem : Memory) (pick : SequentialParser → Nat)
    (P : SequentialParser → Prop)
    (hstep : ∀ p d p3, P p → d ∈ p.worklist → loop_body mem p d = Except.ok p3 → P p3) :
    ∀ (fuel : Nat) (p p2 : SequentialParser),
      while_loop mem pick fuel p = Except.ok (some p2) → P p → P p2 ∧ p2.worklist = [] := by
  intro fuel
  induction fuel with
  | zero =>
    intro p p2 h hP
    unfold while_loop at h
    by_cases hW : p.worklist.isEmpty = true
    · rw [if_pos hW] at h
      injection h with h
      injection h with h
      subst h
      exact ⟨hP, List.isEmpty_iff.1 hW⟩
    · rw [if_neg hW] at h
      injection h with h
      cases h
  | succ n ih =>
    intro p p2 h hP
    unfold while_loop at h
    cases hW : p.worklist with
    | nil =>
      rw [hW] at h
      simp only [] at h
      injection h with h
      injection h with h
      subst h
      exact ⟨hP, hW⟩
    | cons x xs =>
      rw [hW] at h
      simp only [] at h
      cases hb : loop_body mem p (begin_ pick p x xs) with
      | error f => rw [hb] at h; cases h
      | ok p3 =>
        rw [hb] at h
        simp only [] at h
        have hd : begin_ pick p x xs ∈ p.worklist := by
          rw [hW]; exact begin_mem pick p x xs
        exact ih p3 p2 h (hstep p _ p3 hP hd hb)

/-- Offering the start descriptors keeps the invariant and makes them known. -/
theorem inv_of_extends_start (mem : Memory) (p p1 : SequentialParser)
    (hext : Extends p p1
      (fun x => ∃ β, (p.grammar.start_symbol, β) ∈ p.grammar.production_rules ∧
        x = Descriptor.make p.grammar.start_symbol β 0 0 0) (fun _ => False))
    (hinv : Inv mem p) : Inv mem p1 ∧ HasStart p1 := by
  have hSplain : ∀ y ∈ p.descriptor_set, y.force_process = false :=
    fun y hy => hinv.plain y (Or.inr hy)
  have hknown : ∀ x, Known p x → Known p1 x := by
    rintro x (h | h)
    · exact Or.inl (hext.worklist_mono x h)
    · exact Or.inr (by rw [hext.descriptor_set_eq]; exact h)
  have hW1plain : ∀ x ∈ p1.worklist, x.force_process = false := by
    intro x hx
    rcases hext.worklist_sound x hx with h1 | ⟨⟨β, -, h1⟩, -⟩
    · exact hinv.plain x (Or.inl h1)
    · rw [h1]; rfl
  have hoff : ∀ β, (p.grammar.start_symbol, β) ∈ p.grammar.production_rules →
      Known p1 (Descriptor.make p.grammar.start_symbol β 0 0 0) := by
    intro β hβ
    rcases hext.worklist_complete _ ⟨β, hβ, rfl⟩ with h1 | h1
    · right
      rw [hext.descriptor_set_eq]
      exact (set_count_plain _ _ hSplain rfl).1 h1
    · left
      exact (set_count_plain _ _ hW1plain rfl).1 h1
  have hE : ∀ e, e ∈ p.epn_set → e ∈ p1.epn_set := fun e he => (hext.epn_iff e).2 (Or.inl he)
  refine ⟨
    { plain := fun x hx => ?_
      disjoint := fun x hx hxS => ?_
      alternatives := fun x hx β hβ => ?_
      by_match := fun y hy x hx => ?_
      by_descend := fun y hy x hx => ?_
      by_skip := fun y hy y0 hy0 x hx => ?_
      by_empty := fun y hy hc he => ?_ }, ?_⟩
  · rcases hx with h1 | h1
    · exact hW1plain x h1
    · rw [hext.descriptor_set_eq] at h1
      exact hSplain x h1
  · rw [hext.descriptor_set_eq] at hxS
    rcases hext.worklist_sound x hx with h1 | ⟨-, h1⟩
    · exact hinv.disjoint x h1 hxS
    · exact not_mem_of_set_count_eq_false _ _ h1 hxS
  · rw [hext.grammar_eq] at hβ
    have hcases : Known p x ∨ ∃ β0, (p.grammar.start_symbol, β0) ∈ p.grammar.production_rules ∧
        x = Descriptor.make p.grammar.start_symbol β0 0 0 0 := by
      rcases hx with h1 | h1
      · rcases hext.worklist_sound x h1 with h2 | ⟨h2, -⟩
        · exact Or.inl (Or.inl h2)
        · exact Or.inr h2
      · rw [hext.descriptor_set_eq] at h1
        exact Or.inl (Or.inr h1)
    rcases hcases with h1 | ⟨β0, -, h1⟩
    · exact hknown _ (hinv.alternatives x h1 β hβ)
    · rw [h1] at hβ ⊢
      exact hoff β hβ
  · rw [hext.grammar_eq, hext.input_eq] at hx
    rw [hext.descriptor_set_eq] at hy
    obtain ⟨h1, h2⟩ := hinv.by_match y hy x hx
    exact ⟨hknown x h1, hE _ h2⟩
  · rw [hext.grammar_eq] at hx
    rw [hext.descriptor_set_eq] at hy
    exact hknown x (hinv.by_descend y hy x hx)
  · rw [hext.grammar_eq] at hx
    rw [hext.descriptor_set_eq] at hy hy0
    obtain ⟨h1, h2⟩ := hinv.by_skip y hy y0 hy0 x hx
    exact ⟨hknown x h1, hE _ h2⟩
  · rw [hext.descriptor_set_eq] at hy
    exact hE _ (hinv.by_empty y hy hc he)
  · intro β hβ
    rw [hext.grammar_eq] at hβ ⊢
    exact hoff β hβ

theorem sound_of_extends_start (mem : Memory) (p p1 : SequentialParser)
    (hext : Extends p p1
      (fun x => ∃ β, (p.grammar.start_symbol, β) ∈ p.grammar.production_rules ∧
        x = Descriptor.make p.grammar.start_symbol β 0 0 0) (fun _ => False))
    (hsound : Sound mem p) : Sound mem p1 := by
  refine { descriptors := fun x hx => ?_, epns := fun e he => ?_ }
  · rw [hext.grammar_eq, hext.input_eq]
    rcases hx with h1 | h1
    · rcases hext.worklist_sound x h1 with h2 | ⟨⟨β, hβ, h2⟩, -⟩
      · exact hsound.descriptors x (Or.inl h2)
      · rw [h2]; exact Reach.start β hβ
    · rw [hext.descriptor_set_eq] at h1
      exact hsound.descriptors x (Or.inr h1)
  · rw [hext.grammar_eq, hext.input_eq, hext.descriptor_set_eq]
    rcases (hext.epn_iff e).1 he with h1 | h1
    · exact hsound.epns e h1
    · exact h1.elim

/-- The first statements of `loop`: the counters are reset and the start descriptors
are offered to the worklist. -/
theorem loop_start_extends (p : SequentialParser) :
    Extends p
      (({ p with num_ascend := 0, num_descend := 0, num_match := 0, num_skip := 0 } :
        SequentialParser).extend_worklist
        (p.grammar.get_production_rules p.grammar.start_symbol) 0 0)
      (fun x => ∃ β, (p.grammar.start_symbol, β) ∈ p.grammar.production_rules ∧
        x = Descriptor.make p.grammar.start_symbol β 0 0 0) (fun _ => False) := by
  have h := extend_worklist_extends
    { p with num_ascend := 0, num_descend := 0, num_match := 0, num_skip := 0 }
    (p.grammar.get_production_rules p.grammar.start_symbol) 0 0
  refine
    { input_eq := h.input_eq
      grammar_eq := h.grammar_eq
      descriptor_set_eq := h.descriptor_set_eq
      num_descriptors_eq := h.num_descriptors_eq
      worklist_sound := fun x hx => ?_
      worklist_mono := h.worklist_mono
      worklist_complete := fun x hx => ?_
      epn_iff := h.epn_iff }
  · rcases h.worklist_sound x hx with h1 | ⟨⟨rule, hr, hxr⟩, h2⟩
    · exact Or.inl h1
    · rw [mem_get_production_rules] at hr
      refine Or.inr ⟨⟨rule.2, ?_, ?_⟩, h2⟩
      · have : (rule.1, rule.2) ∈ p.grammar.production_rules := hr.1
        rw [hr.2] at this
        exact this
      · rw [hxr, hr.2]
  · obtain ⟨β, hβ, hx⟩ := hx
    exact h.worklist_complete x
      ⟨(p.grammar.start_symbol, β), (mem_get_production_rules _ _ _).2 ⟨hβ, rfl⟩, hx⟩

/-- What holds when `loop` returns: the invariant with an empty worklist. -/
theorem loop_inv (mem : Memory) (pick : SequentialParser → Nat) (fuel : Nat)
    (p p2 : SequentialParser) (hinv : Inv mem p)
    (h : loop mem pick fuel p = Except.ok (some p2)) :
    Inv mem p2 ∧ HasStart p2 ∧ p2.worklist = [] ∧ p2.input = p.input ∧
      p2.grammar = p.grammar := by
  unfold loop at h
  simp only [] at h
  have hext := loop_start_extends p
  obtain ⟨hinv1, hstart1⟩ := inv_of_extends_start mem p _ hext hinv
  have key := while_loop_induction mem pick
    (fun q => Inv mem q ∧ HasStart q ∧ q.input = p.input ∧ q.grammar = p.grammar)
    (fun q d q3 hq hd hb => by
      have hf := loop_body_facts mem q q3 d hq.1.plain hq.1.disjoint hd hb
      exact ⟨inv_step mem q q3 d hq.1 hd hf, has_start_step mem q q3 d hq.2.1 hf,
        hf.input_eq.trans hq.2.2.1, hf.grammar_eq.trans hq.2.2.2⟩)
    fuel _ p2 h ⟨hinv1, hstart1, hext.input_eq, hext.grammar_eq⟩
  exact ⟨key.1.1, key.1.2.1, key.2, key.1.2.2.1, key.1.2.2.2⟩

/-- When `loop` returns, everything it holds is justified by the actions. -/
theorem loop_sound (mem : Memory) (pick : SequentialParser → Nat) (fuel : Nat)
    (p p2 : SequentialParser) (hstart : p.grammar.start_symbol ∉ p.grammar.terminals)
    (hinv : Inv mem p) (hsound : Sound mem p)
    (h : loop mem pick fuel p = Except.ok (some p2)) : Sound mem p2 := by
  unfold loop at h
  simp only [] at h
  have hext := loop_start_extends p
  obtain ⟨hinv1, -⟩ := inv_of_extends_start mem p _ hext hinv
  have hsound1 := sound_of_extends_start mem p _ hext hsound
  have key := while_loop_induction mem pick
    (fun q => Inv mem q ∧ Sound mem q ∧ q.grammar = p.grammar)
    (fun q d q3 hq hd hb => by
      have hf := loop_body_facts mem q q3 d hq.1.plain hq.1.disjoint hd hb
      exact ⟨inv_step mem q q3 d hq.1 hd hf,
        sound_step mem q q3 d (by rw [hq.2.2]; exact hstart) hq.2.1 hd hf,
        hf.grammar_eq.trans hq.2.2⟩)
    fuel _ p2 h ⟨hinv1, hsound1, hext.grammar_eq⟩
  exact key.1.2.1

theorem inv_fresh (mem : Memory) (G : Grammar) (w : List String) :
    Inv mem { SequentialParser.fresh G with input := w } where
  plain := fun d hd => by rcases hd with h | h <;> cases h
  disjoint := fun d hd => by cases hd
  alternatives := fun d hd => by rcases hd with h | h <;> cases h
  by_match := fun d hd => by cases hd
  by_descend := fun d hd => by cases hd
  by_skip := fun d hd => by cases hd
  by_empty := fun d hd => by cases hd

theorem sound_fresh (mem : Memory) (G : Grammar) (w : List String) :
    Sound mem { SequentialParser.fresh G with input := w } where
  descriptors := fun d hd => by rcases hd with h | h <;> cases h
  epns := fun e he => by cases he

end CDS

namespace CDS

open SequentialParser

/-! ## The output of a run is the closure of the start descriptors -/

theorem known_iff_of_worklist_nil (p : SequentialParser) (hW : p.worklist = [])
    (x : Descriptor) : Known p x ↔ x ∈ p.descriptor_set := by
  unfold Known
  rw [hW]
  simp

theorem set_count_of_mem (s : List Descriptor) (x : Descriptor) (h : x ∈ s) :
    set_count Descriptor.eq s x = true :=
  (set_count_iff _ _ _).2 ⟨x, h, Descriptor.eq_refl x⟩

theorem match_step_of_get? (G : Grammar) (w : List String) (mem : Memory) (d : Descriptor)
    (a : String) (ha : d.rhs[d.dot_position]? = some a) (hterm : a ∈ G.terminals)
    (hw : w[d.right_extent]? = some a) :
    MatchStep G w mem d
      { d with dot_position := d.dot_position + 1, right_extent := d.right_extent + 1 } := by
  refine ⟨a, ha, hterm, ?_, vector_index_of_get? mem w _ a hw, rfl⟩
  by_contra hlen
  have : w = [] := List.length_eq_zero.1 (Nat.eq_zero_of_not_pos hlen)
  rw [this] at hw
  simp at hw

/-- An invariant state with an empty worklist meets the CDS requirements. -/
theorem requirements_of_inv (mem : Memory) (p : SequentialParser) (hinv : Inv mem p)
    (hstart : HasStart p) (hW : p.worklist = []) :
    Requirements p.grammar p.input p.descriptor_set p.epn_set := by
  have hk := known_iff_of_worklist_nil p hW
  have hplain : ∀ d ∈ p.descriptor_set, d.force_process = false :=
    fun d hd => hinv.plain d (Or.inr hd)
  refine
    { R1 := fun β hβ => set_count_of_mem _ _ ((hk _).1 (hstart β hβ))
      R2_P1 := fun d hd a ha hterm hw => ?_
      R3 := fun d hd X hX hnt β hβ => ?_
      R4_P2 := fun d hd X hX hnt d0 hd0 hc hl hL => ?_
      P3 := fun d hd hc he => (set_count_epn_iff _ _).2 (hinv.by_empty d hd hc he) }
  · obtain ⟨h1, h2⟩ := hinv.by_match d hd _ (match_step_of_get? _ _ mem d a ha hterm hw)
    have hf := hplain d hd
    refine ⟨set_count_of_mem _ _ ?_, (set_count_epn_iff _ _).2 h2⟩
    have h3 := (hk _).1 h1
    have heq : Descriptor.make d.lhs d.rhs (d.dot_position + 1) d.left_extent
        (d.right_extent + 1) =
        { d with dot_position := d.dot_position + 1, right_extent := d.right_extent + 1 } := by
      simp only [Descriptor.make, Descriptor.mk.injEq, true_and]
      exact hf.symm
    rw [heq]
    exact h3
  · exact set_count_of_mem _ _ ((hk _).1 (hinv.by_descend d hd _ ⟨X, β, hX, hnt, hβ, rfl⟩))
  · obtain ⟨h1, h2⟩ := hinv.by_skip d hd d0 hd0 _ ⟨X, hX, hnt, hl, hc, hL, rfl⟩
    have hf := hplain d hd
    refine ⟨set_count_of_mem _ _ ?_, (set_count_epn_iff _ _).2 h2⟩
    have h3 := (hk _).1 h1
    have heq : Descriptor.make d.lhs d.rhs (d.dot_position + 1) d.left_extent
        d0.right_extent =
        { d with dot_position := d.dot_position + 1, right_extent := d0.right_extent } := by
      simp only [Descriptor.make, Descriptor.mk.injEq, true_and]
      exact hf.symm
    rw [heq]
    exact h3

/-- An invariant state with an empty worklist holds every reachable descriptor. -/
theorem mem_of_reach (mem : Memory) (p : SequentialParser) (hinv : Inv mem p)
    (hstart : HasStart p) (hW : p.worklist = []) (d : Descriptor)
    (h : Reach p.grammar p.input mem d) : d ∈ p.descriptor_set := by
  have hk := known_iff_of_worklist_nil p hW
  induction h with
  | start β hβ => exact (hk _).1 (hstart β hβ)
  | by_match d x _ hstep ih => exact (hk _).1 (hinv.by_match d ih x hstep).1
  | by_descend d x _ hstep ih => exact (hk _).1 (hinv.by_descend d ih x hstep)
  | by_skip d d0 x _ _ hstep ih ih0 => exact (hk _).1 (hinv.by_skip d ih d0 ih0 x hstep).1

theorem Emits.mono (G : Grammar) (w : List String) (mem : Memory)
    (S T : Descriptor → Prop) (hST : ∀ d, S d → T d) (e : EPN) (h : Emits G w mem S e) :
    Emits G w mem T e := by
  rcases h with ⟨d, x, hd, hx, he⟩ | ⟨d, d0, x, hd, hd0, hx, he⟩ | ⟨d, hd, hc, hem, he⟩
  · exact Or.inl ⟨d, x, hST d hd, hx, he⟩
  · exact Or.inr (Or.inl ⟨d, d0, x, hST d hd, hST d0 hd0, hx, he⟩)
  · exact Or.inr (Or.inr ⟨d, hST d hd, hc, hem, he⟩)

theorem mem_of_emits (mem : Memory) (p : SequentialParser) (hinv : Inv mem p) (e : EPN)
    (h : Emits p.grammar p.input mem (fun d => d ∈ p.descriptor_set) e) : e ∈ p.epn_set := by
  rcases h with ⟨d, x, hd, hx, he⟩ | ⟨d, d0, x, hd, hd0, hx, he⟩ | ⟨d, hd, hc, hem, he⟩
  · rw [he]; exact (hinv.by_match d hd x hx).2
  · rw [he]; exact (hinv.by_skip d hd d0 hd0 x hx).2
  · rw [he]; exact hinv.by_empty d hd hc hem

/-- The sets a returning run of `parse` on a fresh parser holds: exactly the reachable
descriptors and the EPNs emitted for them. -/
theorem parse_fresh_characterisation (mem : Memory) (pick : SequentialParser → Nat)
    (fuel : Nat) (G : Grammar) (w : List String) (p2 : SequentialParser)
    (hstart : G.start_symbol ∉ G.terminals)
    (h : parse mem pick fuel (SequentialParser.fresh G) w = Except.ok (some p2)) :
    (∀ d, d ∈ p2.descriptor_set ↔ Reach G w mem d) ∧
    (∀ e, e ∈ p2.epn_set ↔ Emits G w mem (Reach G w mem) e) := by
  unfold parse at h
  obtain ⟨hinv, hs, hW, hin, hg⟩ := loop_inv mem pick fuel _ p2 (inv_fresh mem G w) h
  have hsound := loop_sound mem pick fuel _ p2 hstart (inv_fresh mem G w) (sound_fresh mem G w) h
  have hin' : p2.input = w := hin
  have hg' : p2.grammar = G := hg
  have hS : ∀ d, d ∈ p2.descriptor_set ↔ Reach G w mem d := by
    intro d
    constructor
    · intro hd
      have := hsound.descriptors d (Or.inr hd)
      rw [hin', hg'] at this
      exact this
    · intro hd
      apply mem_of_reach mem p2 hinv hs hW
      rw [hin', hg']
      exact hd
  refine ⟨hS, fun e => ?_⟩
  constructor
  · intro he
    have := hsound.epns e he
    rw [hin', hg'] at this
    exact Emits.mono _ _ _ _ _ (fun d hd => (hS d).1 hd) e this
  · intro he
    apply mem_of_emits mem p2 hinv
    rw [hin', hg']
    exact Emits.mono _ _ _ _ _ (fun d hd => (hS d).2 hd) e he

/-- A returning run of `parse` on a fresh parser meets the CDS requirements. -/
theorem parse_fresh_requirements (mem : Memory) (pick : SequentialParser → Nat)
    (fuel : Nat) (G : Grammar) (w : List String) (p2 : SequentialParser)
    (h : parse mem pick fuel (SequentialParser.fresh G) w = Except.ok (some p2)) :
    Requirements G w p2.descriptor_set p2.epn_set := by
  unfold parse at h
  obtain ⟨hinv, hs, hW, hin, hg⟩ := loop_inv mem pick fuel _ p2 (inv_fresh mem G w) h
  have hin' : p2.input = w := hin
  have hg' : p2.grammar = G := hg
  have := requirements_of_inv mem p2 hinv hs hW
  rw [hin', hg'] at this
  exact this

end CDS

namespace CDS

open SequentialParser

/-! ## Descriptors and derivations -/

theorem Spans.le {G : Grammar} {w α : List String} {i j : Nat} (h : Spans G w α i j) :
    i ≤ j ∧ j ≤ w.length := by
  induction h with
  | nil i hi => exact ⟨Nat.le_refl i, hi⟩
  | terminal a rest i j _ _ _ ih => exact ⟨by omega, ih.2⟩
  | nonterminal X β rest i m j _ _ _ _ ih1 ih2 => exact ⟨by omega, ih2.2⟩

theorem lt_length_of_get? (l : List String) (n : Nat) (a : String) (h : l[n]? = some a) :
    n < l.length := by
  by_contra hge
  rw [List.getElem?_eq_none (Nat.le_of_not_lt hge)] at h
  cases h

end CDS

namespace CDS

/-! ## Rewriting derivations and derivation trees -/

theorem Yields.split {G : Grammar} (p : List String) :
    ∀ {q u : List String}, Yields G (p ++ q) u →
      ∃ u1 u2, u = u1 ++ u2 ∧ Yields G p u1 ∧ Yields G q u2 := by
  induction p with
  | nil =>
    intro q u h
    exact ⟨[], u, rfl, Yields.nil, h⟩
  | cons s p ih =>
    intro q u h
    cases h with
    | terminal a rest u' ha hrest =>
      obtain ⟨u1, u2, hu, h1, h2⟩ := ih hrest
      exact ⟨s :: u1, u2, by rw [hu]; rfl, Yields.terminal s p u1 ha h1, h2⟩
    | nonterminal X β rest v1 v2 hnt hβ hsub hrest =>
      obtain ⟨u1, u2, hu, h1, h2⟩ := ih hrest
      exact ⟨v1 ++ u1, u2, by rw [hu, List.append_assoc],
        Yields.nonterminal s β p v1 u1 hnt hβ hsub h1, h2⟩

end CDS

namespace CDS

open SequentialParser

/-! ## Claims about the whole sequential run -/

end CDS

namespace CDS

open SequentialParser

/-! ### Order independence -/

theorem Reach.congr_grammar (G1 G2 : Grammar) (w : List String) (mem : Memory)
    (hs : G2.start_symbol = G1.start_symbol)
    (ht : ∀ s, s ∈ G2.terminals ↔ s ∈ G1.terminals)
    (hr : ∀ r, r ∈ G2.production_rules ↔ r ∈ G1.production_rules)
    (d : Descriptor) (h : Reach G1 w mem d) : Reach G2 w mem d := by
  induction h with
  | start β hβ =>
    rw [← hs]
    exact Reach.start β ((hr _).2 (by rw [hs]; exact hβ))
  | by_match d x _ hstep ih =>
    obtain ⟨a, ha, hterm, hlen, hread, hx⟩ := hstep
    exact Reach.by_match d x ih ⟨a, ha, (ht a).2 hterm, hlen, hread, hx⟩
  | by_descend d x _ hstep ih =>
    obtain ⟨X, β, hX, hnt, hβ, hx⟩ := hstep
    exact Reach.by_descend d x ih ⟨X, β, hX, fun h => hnt ((ht X).1 h), (hr _).2 hβ, hx⟩
  | by_skip d d0 x _ _ hstep ih ih0 =>
    obtain ⟨X, hX, hnt, h1, h2, h3, hx⟩ := hstep
    exact Reach.by_skip d d0 x ih ih0 ⟨X, hX, fun h => hnt ((ht X).1 h), h1, h2, h3, hx⟩

theorem Emits.congr_emits (G1 G2 : Grammar) (w : List String) (mem : Memory)
    (S T : Descriptor → Prop) (hST : ∀ d, S d → T d)
    (ht : ∀ s, s ∈ G2.terminals ↔ s ∈ G1.terminals) (e : EPN)
    (h : Emits G1 w mem S e) : Emits G2 w mem T e := by
  rcases h with ⟨d, x, hd, ⟨a, ha, hterm, hlen, hread, hx⟩, he⟩ |
    ⟨d, d0, x, hd, hd0, ⟨X, hX, hnt, h1, h2, h3, hx⟩, he⟩ | ⟨d, hd, hc, hem, he⟩
  · exact Or.inl ⟨d, x, hST d hd, ⟨a, ha, (ht a).2 hterm, hlen, hread, hx⟩, he⟩
  · exact Or.inr (Or.inl ⟨d, d0, x, hST d hd, hST d0 hd0,
      ⟨X, hX, fun h => hnt ((ht X).1 h), h1, h2, h3, hx⟩, he⟩)
  · exact Or.inr (Or.inr ⟨d, hST d hd, hc, hem, he⟩)

theorem set_count_eq_of_mem_iff {α : Type} (eq : α → α → Bool) (s t : List α)
    (h : ∀ y, y ∈ s ↔ y ∈ t) (x : α) : set_count eq s x = set_count eq t x := by
  rw [Bool.eq_iff_iff, set_count_iff, set_count_iff]
  constructor
  · rintro ⟨y, hy, hyx⟩
    exact ⟨y, (h y).1 hy, hyx⟩
  · rintro ⟨y, hy, hyx⟩
    exact ⟨y, (h y).2 hy, hyx⟩

/-- C3 as stated fails: on the grammar that a default-constructed `Grammar` becomes
after `add_terminal("")` and two rules for the empty symbol, and the empty input,
the run that always picks the first worklist element returns a descriptor that
the run that picks the second does not return. -/
theorem order_dependence_unset_start :
    ∃ p1 p2,
      parse Memory.strict (fun _ => 0) 10 (SequentialParser.fresh unset_start) [] =
        Except.ok (some p1) ∧
      parse Memory.strict (fun _ => 1) 10 (SequentialParser.fresh unset_start) [] =
        Except.ok (some p2) ∧
      set_count Descriptor.eq p1.descriptor_set (Descriptor.make "" [""] 1 0 0) = true ∧
      set_count Descriptor.eq p2.descriptor_set (Descriptor.make "" [""] 1 0 0) = false :=
  ⟨_, _, rfl, rfl, by decide, by decide⟩

/-- C3, amended. When the start symbol is not classified as a terminal, any two
returning runs of `parse` on fresh parsers for the same input give the same
descriptor set and the same EPN set, as sets, whatever elements the schedulers
pick from the worklist and in whatever order the grammars list their rules and
terminals. -/
theorem order_independence (mem : Memory) (pick1 pick2 : SequentialParser → Nat)
    (fuel1 fuel2 : Nat) (G1 G2 : Grammar) (w : List String) (p1 p2 : SequentialParser)
    (hstart : G1.start_symbol ∉ G1.terminals)
    (hs : G2.start_symbol = G1.start_symbol)
    (ht : G2.terminals.Perm G1.terminals)
    (hr : G2.production_rules.Perm G1.production_rules)
    (h1 : parse mem pick1 fuel1 (SequentialParser.fresh G1) w = Except.ok (some p1))
    (h2 : parse mem pick2 fuel2 (SequentialParser.fresh G2) w = Except.ok (some p2)) :
    (∀ d, set_count Descriptor.eq p1.descriptor_set d =
        set_count Descriptor.eq p2.descriptor_set d) ∧
    (∀ e, set_count EPN.eq p1.epn_set e = set_count EPN.eq p2.epn_set e) := by
  have ht' : ∀ s, s ∈ G2.terminals ↔ s ∈ G1.terminals := fun s => ht.mem_iff
  have hr' : ∀ r, r ∈ G2.production_rules ↔ r ∈ G1.production_rules := fun r => hr.mem_iff
  have hstart2 : G2.start_symbol ∉ G2.terminals := by
    rw [hs]
    exact fun h => hstart ((ht' _).1 h)
  obtain ⟨hS1, hE1⟩ := parse_fresh_characterisation mem pick1 fuel1 G1 w p1 hstart h1
  obtain ⟨hS2, hE2⟩ := parse_fresh_characterisation mem pick2 fuel2 G2 w p2 hstart2 h2
  have h12 : ∀ d, Reach G1 w mem d → Reach G2 w mem d :=
    Reach.congr_grammar G1 G2 w mem hs ht' hr'
  have h21 : ∀ d, Reach G2 w mem d → Reach G1 w mem d :=
    Reach.congr_grammar G2 G1 w mem hs.symm (fun s => (ht' s).symm) (fun r => (hr' r).symm)
  constructor
  · intro d
    apply set_count_eq_of_mem_iff
    intro y
    rw [hS1, hS2]
    exact ⟨h12 y, h21 y⟩
  · intro e
    apply set_count_eq_of_mem_iff
    intro y
    rw [hE1, hE2]
    exact ⟨Emits.congr_emits G1 G2 w mem _ _ h12 ht' y,
      Emits.congr_emits G2 G1 w mem _ _ h21 (fun s => (ht' s).symm) y⟩

/-- Witness for the amended C3: `S ::= S a | a` on `a a a`, one run picking the first
worklist element and one picking by the number of descriptors processed so far,
with the rules listed in opposite orders. -/
theorem order_independence_witness :
    left_recursive.start_symbol ∉ left_recursive.terminals ∧
    ∃ p1 p2,
      parse (Memory.const "") (fun _ => 0) 20 (SequentialParser.fresh left_recursive)
        ["a", "a", "a"] = Except.ok (some p1) ∧
      parse (Memory.const "") (fun p => p.num_descriptors) 20
        (SequentialParser.fresh
          { left_recursive with production_rules := [("S", ["a"]), ("S", ["S", "a"])] })
        ["a", "a", "a"] = Except.ok (some p2) ∧
      (∀ d, set_count Descriptor.eq p1.descriptor_set d =
        set_count Descriptor.eq p2.descriptor_set d) ∧
      (∀ e, set_count EPN.eq p1.epn_set e = set_count EPN.eq p2.epn_set e) :=
  ⟨by decide, _, _, rfl, rfl,
    order_independence (Memory.const "") (fun _ => 0) (fun p => p.num_descriptors) 20 20
      left_recursive
      { left_recursive with production_rules := [("S", ["a"]), ("S", ["S", "a"])] }
      ["a", "a", "a"] _ _ (by decide) rfl (List.Perm.refl _)
      (List.Perm.swap _ _ _) rfl rfl⟩

end CDS

namespace CDS

open SequentialParser

/-! ## Reads past the end of the input -/

theorem le_sum_of_mem (l : List Nat) (x : Nat) (h : x ∈ l) : x ≤ l.sum := by
  induction l with
  | nil => cases h
  | cons a l ih =>
    rw [List.sum_cons]
    rcases List.mem_cons.1 h with h1 | h1
    · omega
    · have := ih h1
      omega

/-- With reads past the end yielding `a`, the descriptors reachable for
`S ::= S a | a` on the input `a` have unbounded right extents. -/
theorem reach_left_recursive_unbounded (n : Nat) :
    Reach left_recursive ["a"] (Memory.const "a")
      (Descriptor.make "S" ["S", "a"] 1 0 (n + 1)) := by
  have hd1 : Reach left_recursive ["a"] (Memory.const "a")
      (Descriptor.make "S" ["S", "a"] 0 0 0) :=
    Reach.start ["S", "a"] (by decide)
  induction n with
  | zero =>
    have hd2 : Reach left_recursive ["a"] (Memory.const "a")
        (Descriptor.make "S" ["a"] 0 0 0) :=
      Reach.start ["a"] (by decide)
    have hc1 : Reach left_recursive ["a"] (Memory.const "a")
        (Descriptor.make "S" ["a"] 1 0 1) :=
      Reach.by_match _ _ hd2 ⟨"a", rfl, by decide, by decide, rfl, rfl⟩
    exact Reach.by_skip _ _ _ hd1 hc1 ⟨"S", rfl, by decide, rfl, rfl, rfl, rfl⟩
  | succ n ih =>
    have hc : Reach left_recursive ["a"] (Memory.const "a")
        (Descriptor.make "S" ["S", "a"] 2 0 (n + 2)) :=
      Reach.by_match _ _ ih ⟨"a", rfl, by decide, by decide, rfl, rfl⟩
    exact Reach.by_skip _ _ _ hd1 hc ⟨"S", rfl, by decide, rfl, rfl, rfl, rfl⟩

/-- C4. The loop does not reach an empty worklist for `S ::= S a | a` on the input
`a`: its fourth iteration evaluates `input[1]`. When that read is a fault the run
ends there for every amount of fuel; when reads past the end yield `a`, no run
returns, whatever the scheduler and the fuel. -/
theorem loop_does_not_return :
    (∀ n, parse Memory.strict (fun _ => 0) (n + 4) (SequentialParser.fresh left_recursive)
      ["a"] = Except.error (Fault.undefined_read 1)) ∧
    (∀ pick fuel p2, parse (Memory.const "a") pick fuel
      (SequentialParser.fresh left_recursive) ["a"] ≠ Except.ok (some p2)) := by
  refine ⟨fun n => rfl, fun pick fuel p2 h => ?_⟩
  obtain ⟨hS, -⟩ := parse_fresh_characterisation (Memory.const "a") pick fuel
    left_recursive ["a"] p2 (by decide) h
  have hmem := (hS _).2
    (reach_left_recursive_unbounded (p2.descriptor_set.map Descriptor.right_extent).sum)
  have hle := le_sum_of_mem (p2.descriptor_set.map Descriptor.right_extent) _
    (List.mem_map_of_mem Descriptor.right_extent hmem)
  simp only [Descriptor.make] at hle
  omega

/-- C6. The action `match` on a descriptor whose right extent is the length of the
input: for the input `a` and the descriptor `(S, [S, a], 1, 0, 1)` it evaluates
`input[1]`. When that read is a fault the call does not return; when it yields `a`
the call inserts a descriptor and an EPN, although `R ≥ |input|`. -/
theorem match_reads_past_input :
    match_ Memory.strict { SequentialParser.fresh left_recursive with input := ["a"] }
        (Descriptor.make "S" ["S", "a"] 1 0 1) = Except.error (Fault.undefined_read 1) ∧
    ∃ p2, match_ (Memory.const "a")
          { SequentialParser.fresh left_recursive with input := ["a"] }
          (Descriptor.make "S" ["S", "a"] 1 0 1) = Except.ok p2 ∧
      p2.worklist = [Descriptor.make "S" ["S", "a"] 2 0 2] ∧
      p2.epn_set = [{ lhs := "S", rhs := ["S", "a"], dot_position := 2, left_extent := 0,
                      pivot := 1, right_extent := 2 }] :=
  ⟨rfl, _, rfl, rfl, rfl⟩

/-- Inside the input, `match` returns: it faults on no read. -/
theorem match_in_bounds_returns (mem : Memory) (p : SequentialParser) (d : Descriptor)
    (a b : String) (ha : d.rhs[d.dot_position]? = some a)
    (hb : p.input[d.right_extent]? = some b) : ∃ p2, match_ mem p d = Except.ok p2 := by
  unfold match_
  rw [(get_next_symbol_eq_ok d a).2 ha]
  simp only [vector_index_of_get? mem _ _ _ hb]
  split
  · split
    · exact ⟨_, rfl⟩
    · exact ⟨_, rfl⟩
  · exact ⟨_, rfl⟩

end CDS

namespace CDS

open SequentialParser

/-! ## Claims about the four actions -/

/-- Membership in the worklist after an action, through `count`. -/
theorem Extends.count_iff {p p2 : SequentialParser} {O : Descriptor → Prop}
    {E : EPN → Prop} (h : Extends p p2 O E) (x : Descriptor) :
    set_count Descriptor.eq p2.worklist x = true ↔
      set_count Descriptor.eq p.worklist x = true ∨
      ((∃ y, O y ∧ Descriptor.eq x y = true) ∧
        set_count Descriptor.eq p.descriptor_set x = false) := by
  constructor
  · intro hx
    rw [set_count_iff] at hx
    obtain ⟨z, hz, hzx⟩ := hx
    rcases h.worklist_sound z hz with h1 | ⟨h1, h2⟩
    · exact Or.inl ((set_count_iff _ _ _).2 ⟨z, h1, hzx⟩)
    · refine Or.inr ⟨⟨z, h1, Descriptor.eq_symm z x hzx⟩, ?_⟩
      rw [← set_count_descriptor_congr _ z x hzx]
      exact h2
  · rintro (h1 | ⟨⟨y, hy, hxy⟩, h2⟩)
    · exact set_count_mono _ _ _ _ h.worklist_mono h1
    · rw [set_count_descriptor_congr _ x y hxy] at h2 ⊢
      rcases h.worklist_complete y hy with h3 | h3
      · rw [h3] at h2; cases h2
      · exact h3

/-- Membership in the EPN set after an action, through `count`. -/
theorem Extends.epn_count_iff {p p2 : SequentialParser} {O : Descriptor → Prop}
    {E : EPN → Prop} (h : Extends p p2 O E) (e : EPN) :
    set_count EPN.eq p2.epn_set e = true ↔ set_count EPN.eq p.epn_set e = true ∨ E e := by
  rw [set_count_epn_iff, set_count_epn_iff]
  exact h.epn_iff e

theorem foldl_preserves {α β : Type} (π : SequentialParser → β)
    (f : SequentialParser → α → SequentialParser) (hf : ∀ p a, π (f p a) = π p)
    (l : List α) (p : SequentialParser) : π (l.foldl f p) = π p := by
  induction l generalizing p with
  | nil => rfl
  | cons a l ih =>
    rw [List.foldl_cons, ih, hf]

theorem add_to_worklist_preserves {β : Type} (π : SequentialParser → β)
    (hπ : ∀ (p : SequentialParser) (W : descriptor_set_t), π { p with worklist := W } = π p)
    (p : SequentialParser) (d : Descriptor) : π (p.add_to_worklist d) = π p := by
  unfold add_to_worklist
  split
  · exact hπ p _
  · rfl

theorem offer_preserves {β : Type} (π : SequentialParser → β)
    (hW : ∀ (p : SequentialParser) (W : descriptor_set_t), π { p with worklist := W } = π p)
    (hE : ∀ (p : SequentialParser) (E : epn_set_t), π { p with epn_set := E } = π p)
    (p : SequentialParser) (d : Descriptor) (e : EPN) :
    π { p.add_to_worklist d with
        epn_set := set_insert EPN.eq (p.add_to_worklist d).epn_set e } = π p := by
  rw [hE, add_to_worklist_preserves π hW]

theorem descend_epn_set (p : SequentialParser) (symbol : String) (pivot : Nat) :
    (p.descend symbol pivot).epn_set = p.epn_set := by
  unfold descend extend_worklist
  exact foldl_preserves (fun q => q.epn_set) _
    (fun q rule => add_to_worklist_preserves (fun q => q.epn_set) (fun _ _ => rfl) q _) _ _

theorem descend_counters (p : SequentialParser) (symbol : String) (pivot : Nat) :
    (p.descend symbol pivot).num_descend = p.num_descend + 1 ∧
    (p.descend symbol pivot).num_skip = p.num_skip ∧
    (p.descend symbol pivot).num_match = p.num_match ∧
    (p.descend symbol pivot).num_ascend = p.num_ascend := by
  unfold descend extend_worklist
  refine ⟨?_, ?_, ?_, ?_⟩
  · exact foldl_preserves (fun q => q.num_descend) _
      (fun q rule => add_to_worklist_preserves (fun q => q.num_descend) (fun _ _ => rfl) q _) _ _
  · exact foldl_preserves (fun q => q.num_skip) _
      (fun q rule => add_to_worklist_preserves (fun q => q.num_skip) (fun _ _ => rfl) q _) _ _
  · exact foldl_preserves (fun q => q.num_match) _
      (fun q rule => add_to_worklist_preserves (fun q => q.num_match) (fun _ _ => rfl) q _) _ _
  · exact foldl_preserves (fun q => q.num_ascend) _
      (fun q rule => add_to_worklist_preserves (fun q => q.num_ascend) (fun _ _ => rfl) q _) _ _

theorem skip_counters (p : SequentialParser) (descriptor : Descriptor)
    (right_extents : List Nat) :
    (p.skip descriptor right_extents).num_skip = p.num_skip + 1 ∧
    (p.skip descriptor right_extents).num_descend = p.num_descend ∧
    (p.skip descriptor right_extents).num_match = p.num_match ∧
    (p.skip descriptor right_extents).num_ascend = p.num_ascend := by
  unfold skip
  refine ⟨?_, ?_, ?_, ?_⟩
  · exact foldl_preserves (fun q => q.num_skip) _
      (fun q r => offer_preserves (fun q => q.num_skip) (fun _ _ => rfl) (fun _ _ => rfl) q _ _) _ _
  · exact foldl_preserves (fun q => q.num_descend) _
      (fun q r => offer_preserves (fun q => q.num_descend) (fun _ _ => rfl) (fun _ _ => rfl) q _ _) _ _
  · exact foldl_preserves (fun q => q.num_match) _
      (fun q r => offer_preserves (fun q => q.num_match) (fun _ _ => rfl) (fun _ _ => rfl) q _ _) _ _
  · exact foldl_preserves (fun q => q.num_ascend) _
      (fun q r => offer_preserves (fun q => q.num_ascend) (fun _ _ => rfl) (fun _ _ => rfl) q _ _) _ _

/-- C7. The action `descend(X, R)` offers to the worklist exactly the descriptors
`(X, β, 0, R, R)` for the rules `X ::= β`: afterwards the worklist holds what it
held before and those of them that are not in `descriptor_set`; `epn_set` and
`descriptor_set` are unchanged. -/
theorem descend_effect (p : SequentialParser) (symbol : String) (pivot : Nat) :
    (∀ x, set_count Descriptor.eq (p.descend symbol pivot).worklist x = true ↔
      set_count Descriptor.eq p.worklist x = true ∨
      ((∃ β, (symbol, β) ∈ p.grammar.production_rules ∧
          Descriptor.eq x (Descriptor.make symbol β 0 pivot pivot) = true) ∧
        set_count Descriptor.eq p.descriptor_set x = false)) ∧
    (p.descend symbol pivot).epn_set = p.epn_set ∧
    (p.descend symbol pivot).descriptor_set = p.descriptor_set := by
  have h := descend_extends p symbol pivot
  refine ⟨fun x => ?_, descend_epn_set p symbol pivot, h.descriptor_set_eq⟩
  rw [h.count_iff x]
  constructor
  · rintro (h1 | ⟨⟨y, ⟨β, hβ, hy⟩, hxy⟩, h2⟩)
    · exact Or.inl h1
    · exact Or.inr ⟨⟨β, hβ, hy ▸ hxy⟩, h2⟩
  · rintro (h1 | ⟨⟨β, hβ, hxy⟩, h2⟩)
    · exact Or.inl h1
    · exact Or.inr ⟨⟨_, ⟨β, hβ, rfl⟩, hxy⟩, h2⟩

/-- C8. The call `skip(d.copy_and_advance(), R_set)` inserts into `epn_set` exactly
the EPNs `(A, α, k+1, L, R, r)` for `r` in `R_set`, with the right extent of `d` as
pivot, and offers to the worklist exactly the descriptors `(A, α, k+1, L, r)`, each
present afterwards if and only if it was in the worklist or is not in
`descriptor_set`; `descriptor_set` is unchanged. -/
theorem skip_effect (p : SequentialParser) (d : Descriptor) (right_extents : List Nat) :
    (∀ e, set_count EPN.eq (p.skip d.copy_and_advance right_extents).epn_set e = true ↔
      set_count EPN.eq p.epn_set e = true ∨
      ∃ r ∈ right_extents,
        e = { lhs := d.lhs, rhs := d.rhs, dot_position := d.dot_position + 1,
              left_extent := d.left_extent, pivot := d.right_extent, right_extent := r }) ∧
    (∀ x, set_count Descriptor.eq (p.skip d.copy_and_advance right_extents).worklist x = true ↔
      set_count Descriptor.eq p.worklist x = true ∨
      ((∃ r ∈ right_extents, Descriptor.eq x
          (Descriptor.make d.lhs d.rhs (d.dot_position + 1) d.left_extent r) = true) ∧
        set_count Descriptor.eq p.descriptor_set x = false)) ∧
    (p.skip d.copy_and_advance right_extents).descriptor_set = p.descriptor_set := by
  have h := skip_extends p d.copy_and_advance right_extents
  refine ⟨fun e => ?_, fun x => ?_, h.descriptor_set_eq⟩
  · rw [h.epn_count_iff e]
    rfl
  · rw [h.count_iff x]
    constructor
    · rintro (h1 | ⟨⟨y, ⟨r, hr, hy⟩, hxy⟩, h2⟩)
      · exact Or.inl h1
      · refine Or.inr ⟨⟨r, hr, ?_⟩, h2⟩
        rw [hy] at hxy
        rw [Descriptor.eq_iff_fields] at hxy ⊢
        exact hxy
    · rintro (h1 | ⟨⟨r, hr, hxy⟩, h2⟩)
      · exact Or.inl h1
      · refine Or.inr ⟨⟨_, ⟨r, hr, rfl⟩, ?_⟩, h2⟩
        rw [Descriptor.eq_iff_fields] at hxy ⊢
        exact hxy

/-- C9. The action `ascend(D, r)` inserts into `epn_set` exactly the EPNs
`(B, β, j, L0, R0, r)` for the descriptors `(B, β, j, L0, R0)` of `D`, and offers to
the worklist exactly the descriptors `(B, β, j, L0, r)`, each present afterwards if
and only if it was in the worklist or is not in `descriptor_set`; `descriptor_set`
is unchanged. -/
theorem ascend_effect (p : SequentialParser) (descriptors : descriptor_set_t)
    (right_extent : Nat) :
    (∀ e, set_count EPN.eq (p.ascend descriptors right_extent).epn_set e = true ↔
      set_count EPN.eq p.epn_set e = true ∨
      ∃ d0 ∈ descriptors,
        e = { lhs := d0.lhs, rhs := d0.rhs, dot_position := d0.dot_position,
              left_extent := d0.left_extent, pivot := d0.right_extent,
              right_extent := right_extent }) ∧
    (∀ x, set_count Descriptor.eq (p.ascend descriptors right_extent).worklist x = true ↔
      set_count Descriptor.eq p.worklist x = true ∨
      ((∃ d0 ∈ descriptors, Descriptor.eq x
          (Descriptor.make d0.lhs d0.rhs d0.dot_position d0.left_extent right_extent)
          = true) ∧
        set_count Descriptor.eq p.descriptor_set x = false)) ∧
    (p.ascend descriptors right_extent).descriptor_set = p.descriptor_set := by
  have h := ascend_extends p descriptors right_extent
  refine ⟨fun e => ?_, fun x => ?_, h.descriptor_set_eq⟩
  · rw [h.epn_count_iff e]
    rfl
  · rw [h.count_iff x]
    constructor
    · rintro (h1 | ⟨⟨y, ⟨d0, hd0, hy⟩, hxy⟩, h2⟩)
      · exact Or.inl h1
      · refine Or.inr ⟨⟨d0, hd0, ?_⟩, h2⟩
        rw [hy] at hxy
        rw [Descriptor.eq_iff_fields] at hxy ⊢
        exact hxy
    · rintro (h1 | ⟨⟨d0, hd0, hxy⟩, h2⟩)
      · exact Or.inl h1
      · refine Or.inr ⟨⟨_, ⟨d0, hd0, rfl⟩, ?_⟩, h2⟩
        rw [Descriptor.eq_iff_fields] at hxy ⊢
        exact hxy

/-- C10. Processing a descriptor `d` that is not completed and has `X` after the
dot: when `X` is in `terminals` the call is `match(d)` and nothing else; otherwise
the set of right extents is that of the completed descriptors for `X` in
`descriptor_set` that start at the right extent of `d`, the call is
`descend(X, R)` when that set is empty and `skip` on the advanced descriptor when it
is not, and each of the two leaves the counter of the other untouched. -/
theorem process_not_completed (mem : Memory) (p : SequentialParser) (d : Descriptor)
    (X : String) (hX : d.rhs[d.dot_position]? = some X) :
    (X ∈ p.grammar.terminals → process_descriptor mem p d = match_ mem p d) ∧
    (X ∉ p.grammar.terminals →
      (∀ r, r ∈ collect_right_extents X d.right_extent p.descriptor_set [] ↔
        ∃ d0 ∈ p.descriptor_set, d0.lhs = X ∧ d0.left_extent = d.right_extent ∧
          d0.is_completed = true ∧ d0.right_extent = r) ∧
      (collect_right_extents X d.right_extent p.descriptor_set [] = [] →
        process_descriptor mem p d = Except.ok (p.descend X d.right_extent) ∧
        (p.descend X d.right_extent).num_descend = p.num_descend + 1 ∧
        (p.descend X d.right_extent).num_skip = p.num_skip) ∧
      (collect_right_extents X d.right_extent p.descriptor_set [] ≠ [] →
        process_descriptor mem p d = Except.ok
          (p.skip d.copy_and_advance
            (collect_right_extents X d.right_extent p.descriptor_set [])) ∧
        (p.skip d.copy_and_advance
            (collect_right_extents X d.right_extent p.descriptor_set [])).num_skip
          = p.num_skip + 1 ∧
        (p.skip d.copy_and_advance
            (collect_right_extents X d.right_extent p.descriptor_set [])).num_descend
          = p.num_descend)) := by
  have hcomp := not_completed_of_get? d X hX
  have hnext := (get_next_symbol_eq_ok d X).2 hX
  refine ⟨fun hterm => ?_, fun hterm => ⟨fun r => ?_, fun hnil => ⟨?_, ?_, ?_⟩,
    fun hne => ⟨?_, ?_, ?_⟩⟩⟩
  · unfold process_descriptor
    simp only [hcomp, Bool.not_false, if_true, hnext, hterm]
  · rw [mem_collect_right_extents]
    simp
  · unfold process_descriptor
    simp only [hcomp, Bool.not_false, if_true, hnext, hterm, if_false, hnil,
      List.length_nil, beq_self_eq_true]
  · exact (descend_counters p X d.right_extent).1
  · exact (descend_counters p X d.right_extent).2.1
  · unfold process_descriptor
    have hlen : ((collect_right_extents X d.right_extent p.descriptor_set []).length == 0)
        = false := by
      rw [beq_eq_false_iff_ne]
      exact fun h => hne (List.length_eq_zero.1 h)
    simp only [hcomp, Bool.not_false, if_true, hnext, hterm, if_false, hlen,
      Bool.false_eq_true]
  · exact (skip_counters p _ _).1
  · exact (skip_counters p _ _).2.1

/-- Witness for C10: the start descriptor `(S, [S, a], 0, 0, 0)` of `S ::= S a | a`
in a fresh parser. -/
theorem process_not_completed_witness :
    (Descriptor.make "S" ["S", "a"] 0 0 0).rhs[
        (Descriptor.make "S" ["S", "a"] 0 0 0).dot_position]? = some "S" ∧
    process_descriptor Memory.strict
        { SequentialParser.fresh left_recursive with input := ["a"] }
        (Descriptor.make "S" ["S", "a"] 0 0 0) =
      Except.ok (({ SequentialParser.fresh left_recursive with input := ["a"] } :
        SequentialParser).descend "S" 0) :=
  ⟨rfl,
    (((process_not_completed Memory.strict
        { SequentialParser.fresh left_recursive with input := ["a"] }
        (Descriptor.make "S" ["S", "a"] 0 0 0) "S" rfl).2 (by decide)).2.1 rfl).1⟩

end CDS

namespace CDS

open SequentialParser

/-! ## Termination of the loop -/

theorem mem_descriptor_universe (G : Grammar) (w : List String) (d : Descriptor) :
    d ∈ descriptor_universe G w ↔ WellFormed G w d := by
  unfold descriptor_universe WellFormed
  simp only [Finset.mem_biUnion, List.mem_toFinset, Finset.mem_image, Finset.mem_filter,
    Finset.mem_product, Finset.mem_range, Prod.exists]
  constructor
  · rintro ⟨a, b, hr, k, l, r, ⟨⟨hk, hl, hr'⟩, hle⟩, hd⟩
    subst hd
    exact ⟨hr, Nat.lt_succ_iff.1 hk, hle, Nat.lt_succ_iff.1 hr', rfl⟩
  · rintro ⟨h1, h2, h3, h4, h5⟩
    refine ⟨d.lhs, d.rhs, h1, d.dot_position, d.left_extent, d.right_extent,
      ⟨⟨by omega, by omega, by omega⟩, h3⟩, ?_⟩
    cases d
    simp only [Descriptor.make, Descriptor.mk.injEq, true_and]
    exact h5.symm

theorem length_le_card_universe (G : Grammar) (w : List String) (S : List Descriptor)
    (hnodup : S.Nodup) (hS : ∀ d ∈ S, WellFormed G w d) :
    S.length ≤ (descriptor_universe G w).card := by
  rw [← List.toFinset_card_of_nodup hnodup]
  apply Finset.card_le_card
  intro d hd
  rw [List.mem_toFinset] at hd
  exact (mem_descriptor_universe G w d).2 (hS d hd)

theorem offered_well_formed (mem : Memory) (p : SequentialParser) (d x : Descriptor)
    (hmem : mem.NoTerminal p.grammar) (hd : WellFormed p.grammar p.input d)
    (hS : ∀ y ∈ p.descriptor_set, WellFormed p.grammar p.input y)
    (h : Offered mem p d x) : WellFormed p.grammar p.input x := by
  obtain ⟨h1, h2, h3, h4, h5⟩ := hd
  rcases h with ⟨a, ha, hterm, hlen, hread, hx⟩ | ⟨⟨X, β, hX, -, hβ, hx⟩, -⟩ |
    ⟨d0, hd0, X, hX, -, -, -, hL, hx⟩ | ⟨d0, hd0, -, hn, hr, hx⟩
  · subst hx
    have hlt : d.right_extent < p.input.length := by
      by_contra hge
      unfold vector_index at hread
      rw [List.getElem?_eq_none (Nat.le_of_not_lt hge)] at hread
      exact hmem _ _ hread hterm
    exact ⟨h1, lt_length_of_get? _ _ _ ha, Nat.le_succ_of_le h3, hlt, h5⟩
  · subst hx
    exact ⟨hβ, Nat.zero_le _, Nat.le_refl _, h4, rfl⟩
  · subst hx
    obtain ⟨g1, g2, g3, g4, g5⟩ := hS d0 hd0
    refine ⟨h1, lt_length_of_get? _ _ _ hX, ?_, g4, h5⟩
    show d.left_extent ≤ d0.right_extent
    omega
  · subst hx
    obtain ⟨g1, g2, g3, g4, g5⟩ := hS d0 hd0
    refine ⟨g1, lt_length_of_get? _ _ _ hn, ?_, h4, g5⟩
    show d0.left_extent ≤ d.right_extent
    omega

/-- One iteration of the loop keeps every descriptor well formed and adds one new
element to `descriptor_set`. -/
theorem bounded_step (mem : Memory) (p p3 : SequentialParser) (d : Descriptor)
    (hmem : mem.NoTerminal p.grammar) (hb : Bounded p) (hd : d ∈ p.worklist)
    (hf : StepFacts mem p p3 d) : Bounded p3 := by
  have hdwf := hb.known d (Or.inl hd)
  have hS1 : ∀ y ∈ p.descriptor_set ++ [d], WellFormed p.grammar p.input y := by
    intro y hy
    rcases List.mem_append.1 hy with h1 | h1
    · exact hb.known y (Or.inr h1)
    · rw [List.mem_singleton.1 h1]; exact hdwf
  refine { known := fun x hx => ?_, nodup := ?_, disjoint := fun x hx hxS => ?_ }
  · rw [hf.grammar_eq, hf.input_eq]
    rcases hf.known_new x hx with h1 | h1
    · exact hb.known x h1
    · exact offered_well_formed mem { p with descriptor_set := p.descriptor_set ++ [d] } d x
        hmem hdwf hS1 h1
  · rw [hf.set_eq]
    apply List.Nodup.append hb.nodup (List.nodup_singleton d)
    intro y hy hy'
    rw [List.mem_singleton.1 hy'] at hy
    exact hb.disjoint d hd hy
  · obtain ⟨hne, h1⟩ := hf.worklist_new x hx
    rw [hf.set_eq] at hxS
    rcases List.mem_append.1 hxS with h2 | h2
    · rcases h1 with h3 | ⟨-, h3⟩
      · exact hb.disjoint x h3 h2
      · exact h3 h2
    · exact hne (List.mem_singleton.1 h2)

theorem plain_of_bounded (p : SequentialParser) (hb : Bounded p) :
    ∀ x, Known p x → x.force_process = false :=
  fun x hx => (hb.known x hx).2.2.2.2

/-- The loop ends within as many iterations as there are well-formed descriptors
that are not yet in `descriptor_set`: it does not run out of fuel. -/
theorem while_loop_ends (mem : Memory) (pick : SequentialParser → Nat) :
    ∀ (fuel : Nat) (p : SequentialParser), mem.NoTerminal p.grammar → Bounded p →
      (descriptor_universe p.grammar p.input).card < fuel + p.descriptor_set.length →
      while_loop mem pick fuel p ≠ Except.ok none := by
  intro fuel
  induction fuel with
  | zero =>
    intro p _ hb hlt
    have := length_le_card_universe p.grammar p.input p.descriptor_set hb.nodup
      (fun d hd => hb.known d (Or.inr hd))
    omega
  | succ n ih =>
    intro p hmem hb hlt
    unfold while_loop
    cases hW : p.worklist with
    | nil => simp
    | cons x xs =>
      simp only []
      have hd : begin_ pick p x xs ∈ p.worklist := by
        rw [hW]; exact begin_mem pick p x xs
      cases hbody : loop_body mem p (begin_ pick p x xs) with
      | error f => simp
      | ok p3 =>
        simp only []
        have hf := loop_body_facts mem p p3 _ (plain_of_bounded p hb) hb.disjoint hd hbody
        have hb3 := bounded_step mem p p3 _ hmem hb hd hf
        apply ih p3 (by rw [hf.grammar_eq]; exact hmem) hb3
        rw [hf.grammar_eq, hf.input_eq, hf.set_eq, List.length_append, List.length_singleton]
        omega

theorem bounded_of_extends_start (p p1 : SequentialParser)
    (hext : Extends p p1
      (fun x => ∃ β, (p.grammar.start_symbol, β) ∈ p.grammar.production_rules ∧
        x = Descriptor.make p.grammar.start_symbol β 0 0 0) (fun _ => False))
    (hb : Bounded p) : Bounded p1 := by
  refine { known := fun x hx => ?_, nodup := ?_, disjoint := fun x hx hxS => ?_ }
  · rw [hext.grammar_eq, hext.input_eq]
    rcases hx with h1 | h1
    · rcases hext.worklist_sound x h1 with h2 | ⟨⟨β, hβ, h2⟩, -⟩
      · exact hb.known x (Or.inl h2)
      · rw [h2]
        exact ⟨hβ, Nat.zero_le _, Nat.le_refl _, Nat.zero_le _, rfl⟩
    · rw [hext.descriptor_set_eq] at h1
      exact hb.known x (Or.inr h1)
  · rw [hext.descriptor_set_eq]
    exact hb.nodup
  · rw [hext.descriptor_set_eq] at hxS
    rcases hext.worklist_sound x hx with h1 | ⟨-, h1⟩
    · exact hb.disjoint x h1 hxS
    · exact not_mem_of_set_count_eq_false _ _ h1 hxS

theorem bounded_fresh (G : Grammar) (w : List String) :
    Bounded { SequentialParser.fresh G with input := w } where
  known := fun d hd => by rcases hd with h | h <;> cases h
  nodup := List.nodup_nil
  disjoint := fun d hd => by cases hd

/-- When no read past the end of the input yields a terminal, a run of `parse` on a
fresh parser with more fuel than there are descriptors
`(rule, dot ≤ |rhs|, L ≤ R ≤ |input|)` does not run out of fuel: it returns or ends
in a fault. -/
theorem parse_fresh_ends (mem : Memory) (pick : SequentialParser → Nat) (fuel : Nat)
    (G : Grammar) (w : List String) (hmem : mem.NoTerminal G)
    (hfuel : (descriptor_universe G w).card < fuel) :
    parse mem pick fuel (SequentialParser.fresh G) w ≠ Except.ok none := by
  unfold parse loop
  simp only []
  have hext := loop_start_extends { SequentialParser.fresh G with input := w }
  have hb := bounded_of_extends_start _ _ hext (bounded_fresh G w)
  apply while_loop_ends mem pick fuel _ (by rw [hext.grammar_eq]; exact hmem) hb
  rw [hext.grammar_eq, hext.input_eq]
  exact Nat.lt_add_right _ hfuel

/-! ### Runs without faults -/

theorem collect_descriptors_returns (descriptor : Descriptor) (S acc : descriptor_set_t)
    (hS : ∀ y ∈ S, y.dot_position ≤ y.rhs.length) :
    ∃ D, collect_descriptors descriptor S acc = Except.ok D := by
  induction S generalizing acc with
  | nil => exact ⟨acc, rfl⟩
  | cons d rest ih =>
    have hrest : ∀ y ∈ rest, y.dot_position ≤ y.rhs.length :=
      fun y hy => hS y (List.mem_cons_of_mem _ hy)
    unfold collect_descriptors
    by_cases hcomp : d.is_completed = true
    · simp only [hcomp, Bool.not_true, Bool.false_eq_true, if_false]
      exact ih acc hrest
    · have hcomp0 : d.is_completed = false := by simpa using hcomp
      simp only [hcomp0, Bool.not_false, if_true]
      have hlt : d.dot_position < d.rhs.length := by
        have h1 := hS d (List.mem_cons_self _ _)
        have h2 : d.dot_position ≠ d.rhs.length := by
          simpa [Descriptor.is_completed] using hcomp0
        omega
      have hnext : d.get_next_symbol = Except.ok (d.rhs[d.dot_position]) := by
        rw [get_next_symbol_eq_ok]
        exact List.getElem?_eq_getElem hlt
      rw [hnext]
      simp only []
      split
      · exact ih _ hrest
      · exact ih _ hrest

theorem match_returns (mem : Memory) (p : SequentialParser) (d : Descriptor) (a : String)
    (hmem : mem.NoFault) (ha : d.rhs[d.dot_position]? = some a) :
    ∃ p2, match_ mem p d = Except.ok p2 := by
  cases hget : p.input[d.right_extent]? with
  | some b => exact match_in_bounds_returns mem p d a b ha hget
  | none =>
    obtain ⟨b, hb⟩ := hmem d.right_extent
    have hread : vector_index mem p.input d.right_extent = Except.ok b := by
      unfold vector_index
      rw [hget]
      exact hb
    unfold match_
    rw [(get_next_symbol_eq_ok d a).2 ha]
    simp only [hread]
    split
    · split
      · exact ⟨_, rfl⟩
      · exact ⟨_, rfl⟩
    · exact ⟨_, rfl⟩

theorem process_descriptor_returns (mem : Memory) (p : SequentialParser) (d : Descriptor)
    (hmem : mem.NoFault) (hd : d.dot_position ≤ d.rhs.length)
    (hS : ∀ y ∈ p.descriptor_set, y.dot_position ≤ y.rhs.length) :
    ∃ p2, process_descriptor mem p d = Except.ok p2 := by
  unfold process_descriptor
  by_cases hcomp : d.is_completed = true
  · simp only [hcomp, Bool.not_true, Bool.false_eq_true, if_false]
    obtain ⟨D, hD⟩ := collect_descriptors_returns d p.descriptor_set [] hS
    rw [hD]
    simp only []
    split
    · exact ⟨_, rfl⟩
    · exact ⟨_, rfl⟩
  · have hcomp0 : d.is_completed = false := by simpa using hcomp
    simp only [hcomp0, Bool.not_false, if_true]
    have hlt : d.dot_position < d.rhs.length := by
      have h2 : d.dot_position ≠ d.rhs.length := by
        simpa [Descriptor.is_completed] using hcomp0
      omega
    have hget : d.rhs[d.dot_position]? = some (d.rhs[d.dot_position]) :=
      List.getElem?_eq_getElem hlt
    rw [(get_next_symbol_eq_ok d _).2 hget]
    simp only []
    split
    · exact match_returns mem p d _ hmem hget
    · split
      · exact ⟨_, rfl⟩
      · exact ⟨_, rfl⟩

theorem loop_body_returns (mem : Memory) (p : SequentialParser) (d : Descriptor)
    (hmem : mem.NoFault) (hb : Bounded p) (hd : d ∈ p.worklist) :
    ∃ p3, loop_body mem p d = Except.ok p3 := by
  unfold loop_body
  simp only []
  have hS : ∀ y ∈ set_insert Descriptor.eq p.descriptor_set d,
      y.dot_position ≤ y.rhs.length := by
    intro y hy
    rcases (mem_set_insert _ _ _ _).1 hy with h1 | ⟨h1, -⟩
    · exact (hb.known y (Or.inr h1)).2.1
    · rw [h1]; exact (hb.known d (Or.inl hd)).2.1
  obtain ⟨p2, hp2⟩ := process_descriptor_returns mem
    { p with descriptor_set := set_insert Descriptor.eq p.descriptor_set d } d hmem
    (hb.known d (Or.inl hd)).2.1 hS
  rw [hp2]
  exact ⟨_, rfl⟩

/-- With reads past the end that neither fault nor yield a terminal, the loop returns
within the fuel, and it has counted one processed descriptor for each element it
added to `descriptor_set`. -/
theorem while_loop_returns (mem : Memory) (pick : SequentialParser → Nat)
    (hfault : mem.NoFault) :
    ∀ (fuel : Nat) (p : SequentialParser), mem.NoTerminal p.grammar → Bounded p →
      (descriptor_universe p.grammar p.input).card < fuel + p.descriptor_set.length →
      ∃ p2, while_loop mem pick fuel p = Except.ok (some p2) ∧ Bounded p2 ∧
        p2.input = p.input ∧ p2.grammar = p.grammar ∧
        p2.num_descriptors + p.descriptor_set.length =
          p.num_descriptors + p2.descriptor_set.length := by
  intro fuel
  induction fuel with
  | zero =>
    intro p _ hb hlt
    have := length_le_card_universe p.grammar p.input p.descriptor_set hb.nodup
      (fun d hd => hb.known d (Or.inr hd))
    omega
  | succ n ih =>
    intro p hmem hb hlt
    unfold while_loop
    cases hW : p.worklist with
    | nil => exact ⟨p, rfl, hb, rfl, rfl, rfl⟩
    | cons x xs =>
      simp only []
      have hd : begin_ pick p x xs ∈ p.worklist := by
        rw [hW]; exact begin_mem pick p x xs
      obtain ⟨p3, hbody⟩ := loop_body_returns mem p _ hfault hb hd
      rw [hbody]
      simp only []
      have hf := loop_body_facts mem p p3 _ (plain_of_bounded p hb) hb.disjoint hd hbody
      have hb3 := bounded_step mem p p3 _ hmem hb hd hf
      obtain ⟨p2, h1, h2, h3, h4, h5⟩ := ih p3 (by rw [hf.grammar_eq]; exact hmem) hb3 (by
        rw [hf.grammar_eq, hf.input_eq, hf.set_eq, List.length_append, List.length_singleton]
        omega)
      refine ⟨p2, h1, h2, h3.trans hf.input_eq, h4.trans hf.grammar_eq, ?_⟩
      rw [hf.set_eq, hf.num_descriptors_eq, List.length_append, List.length_singleton] at h5
      omega

/-- With reads past the end that neither fault nor yield a terminal, `parse` on a
fresh parser returns once the fuel exceeds the number of descriptors
`(rule, dot ≤ |rhs|, L ≤ R ≤ |input|)`, and the number of iterations, which is
`num_descriptors`, is the size of the returned set and at most that number. -/
theorem parse_fresh_returns (mem : Memory) (pick : SequentialParser → Nat) (fuel : Nat)
    (G : Grammar) (w : List String) (hfault : mem.NoFault) (hmem : mem.NoTerminal G)
    (hfuel : (descriptor_universe G w).card < fuel) :
    ∃ p2, parse mem pick fuel (SequentialParser.fresh G) w = Except.ok (some p2) ∧
      p2.num_descriptors = p2.descriptor_set.length ∧
      p2.num_descriptors ≤ (descriptor_universe G w).card := by
  unfold parse loop
  simp only []
  have hext := loop_start_extends { SequentialParser.fresh G with input := w }
  have hb := bounded_of_extends_start _ _ hext (bounded_fresh G w)
  obtain ⟨p2, h1, h2, h3, h4, h5⟩ := while_loop_returns mem pick hfault fuel _
    (by rw [hext.grammar_eq]; exact hmem) hb (by
      rw [hext.grammar_eq, hext.input_eq]
      exact Nat.lt_add_right _ hfuel)
  have hlen := length_le_card_universe p2.grammar p2.input p2.descriptor_set h2.nodup
    (fun d hd => h2.known d (Or.inr hd))
  rw [h3, h4, hext.grammar_eq, hext.input_eq] at hlen
  have hnum : p2.num_descriptors = p2.descriptor_set.length := by
    rw [hext.descriptor_set_eq, hext.num_descriptors_eq] at h5
    simpa [SequentialParser.fresh] using h5
  exact ⟨p2, h1, hnum, hnum ▸ hlen⟩

end CDS

namespace CDS

open SequentialParser

/-! ## The checker on an output of the engine -/

end CDS

namespace CDS

open SequentialParser

/-! ## Closure of the output and the checker -/

/-- The checker reads past the end of the input on a valid output: for the grammar
`S ::= a` and the empty input, `parse` returns a pair `(S, E)` that meets
R(1)–R(4) and P(1)–P(3), and `check_correctness` evaluates `input[0]` on the empty
input; when that read is a fault the checker does not return, and when it yields
`a` the checker returns false. -/
theorem checker_reads_past_valid_output :
    ∃ p2, parse Memory.strict (fun _ => 0) 5 (SequentialParser.fresh single_terminal) [] =
        Except.ok (some p2) ∧
      Requirements single_terminal [] p2.descriptor_set p2.epn_set ∧
      check_correctness Memory.strict CheckerState.initial p2.descriptor_set p2.epn_set
        single_terminal [] = Except.error (Fault.undefined_read 0) ∧
      ∃ st, check_correctness (Memory.const "a") CheckerState.initial p2.descriptor_set
        p2.epn_set single_terminal [] = Except.ok (st, false) :=
  ⟨_, rfl,
    parse_fresh_requirements Memory.strict (fun _ => 0) 5 single_terminal [] _ rfl,
    rfl, _, rfl⟩

end CDS

namespace CDS

/-! ## Equality and hash of descriptors and EPNs -/

/-- C15. Descriptor equality is structural and ignores the force flag: `a == b`
holds exactly when the left-hand sides, the right-hand sides, the dot positions and
both extents agree; every descriptor equals its `copy_and_force()`; and `==` is
reflexive, symmetric and transitive. -/
theorem descriptor_equality :
    (∀ a b : Descriptor, Descriptor.eq a b = true ↔
      a.lhs = b.lhs ∧ a.rhs = b.rhs ∧ a.dot_position = b.dot_position ∧
      a.left_extent = b.left_extent ∧ a.right_extent = b.right_extent) ∧
    (∀ (a b : Descriptor) (f g : Bool),
      Descriptor.eq { a with force_process := f } { b with force_process := g } =
        Descriptor.eq a b) ∧
    (∀ d : Descriptor, Descriptor.eq d d.copy_and_force = true) ∧
    (∀ a : Descriptor, Descriptor.eq a a = true) ∧
    (∀ a b : Descriptor, Descriptor.eq a b = Descriptor.eq b a) ∧
    (∀ a b c : Descriptor, Descriptor.eq a b = true → Descriptor.eq b c = true →
      Descriptor.eq a c = true) := by
  refine ⟨Descriptor.eq_iff_fields, fun a b f g => ?_, fun d => ?_, Descriptor.eq_refl,
    fun a b => ?_, Descriptor.eq_trans⟩
  · rw [Bool.eq_iff_iff, Descriptor.eq_iff_fields, Descriptor.eq_iff_fields]
  · rw [Descriptor.eq_iff_fields]
    exact ⟨rfl, rfl, rfl, rfl, rfl⟩
  · rw [Bool.eq_iff_iff]
    exact ⟨Descriptor.eq_symm a b, Descriptor.eq_symm b a⟩

/-- Witness for C15: transitivity through a forced copy. -/
theorem descriptor_equality_witness :
    Descriptor.eq (Descriptor.make "S" ["a"] 0 0 0)
        (Descriptor.make "S" ["a"] 0 0 0).copy_and_force = true ∧
    Descriptor.eq (Descriptor.make "S" ["a"] 0 0 0).copy_and_force
        (Descriptor.make "S" ["a"] 0 0 0) = true ∧
    Descriptor.eq (Descriptor.make "S" ["a"] 0 0 0) (Descriptor.make "S" ["a"] 0 0 0) = true :=
  ⟨by decide, by decide,
    descriptor_equality.2.2.2.2.2 _ (Descriptor.make "S" ["a"] 0 0 0).copy_and_force _
      (by decide) (by decide)⟩

theorem Descriptor.hash_eq_of_fields (H : StdHash) (a b : Descriptor)
    (h : a.lhs = b.lhs ∧ a.rhs = b.rhs ∧ a.dot_position = b.dot_position ∧
      a.left_extent = b.left_extent ∧ a.right_extent = b.right_extent) :
    Descriptor.hash H a = Descriptor.hash H b := by
  obtain ⟨h1, h2, h3, h4, h5⟩ := h
  unfold Descriptor.hash
  rw [h1, h2, h3, h4, h5]

/-- C16. Hash agrees with equality: descriptors that are `==` have the same hash,
the hash of a descriptor does not depend on `force_process`, and EPNs that are `==`
have the same hash, whatever `std::hash` is on strings and on `unsigned int`. -/
theorem hash_agrees_with_equality (H : StdHash) :
    (∀ a b : Descriptor, Descriptor.eq a b = true → Descriptor.hash H a = Descriptor.hash H b) ∧
    (∀ (d : Descriptor) (f : Bool),
      Descriptor.hash H { d with force_process := f } = Descriptor.hash H d) ∧
    (∀ e f : EPN, EPN.eq e f = true → EPN.hash H e = EPN.hash H f) := by
  refine ⟨fun a b h => ?_, fun d f => rfl, fun e f h => ?_⟩
  · exact Descriptor.hash_eq_of_fields H a b ((Descriptor.eq_iff_fields a b).1 h)
  · rw [(EPN.eq_iff_eq e f).1 h]

/-- Witness for C16: a descriptor and its forced copy, with the string hash the
length and the integer hash the identity. -/
theorem hash_agrees_with_equality_witness :
    Descriptor.eq (Descriptor.make "S" ["a"] 0 0 0)
        (Descriptor.make "S" ["a"] 0 0 0).copy_and_force = true ∧
    Descriptor.hash { string := String.length, uint := id } (Descriptor.make "S" ["a"] 0 0 0) =
      Descriptor.hash { string := String.length, uint := id }
        (Descriptor.make "S" ["a"] 0 0 0).copy_and_force :=
  ⟨by decide,
    (hash_agrees_with_equality { string := String.length, uint := id }).1 _ _ (by decide)⟩

end CDS

namespace CDS

/-! ## The symbol sets of a grammar -/

theorem insert_string_fst (s : List String) (x y : String) :
    y ∈ (insert_string s x).1 ↔ y ∈ s ∨ y = x := by
  unfold insert_string
  by_cases h : x ∈ s
  · simp only [h, if_true]
    constructor
    · exact Or.inl
    · rintro (h1 | h1)
      · exact h1
      · rw [h1]; exact h
  · simp [h]

theorem insert_string_snd (s : List String) (x : String) :
    (insert_string s x).2 = true ↔ x ∉ s := by
  unfold insert_string
  by_cases h : x ∈ s <;> simp [h]

theorem add_terminal_of_nonterminal (g : Grammar) (s : String) (h : s ∈ g.nonterminals) :
    g.add_terminal s = (g, false) := by
  simp [Grammar.add_terminal, h]

theorem add_terminal_of_terminal (g : Grammar) (s : String) (h : s ∈ g.terminals) :
    g.add_terminal s = (g, false) := by
  unfold Grammar.add_terminal
  have h2 : insert_string g.terminals s = (g.terminals, false) := by simp [insert_string, h]
  by_cases hN : s ∈ g.nonterminals
  · simp [hN]
  · simp [hN, h2]

theorem add_terminal_of_new (g : Grammar) (s : String) (hN : s ∉ g.nonterminals)
    (hT : s ∉ g.terminals) :
    g.add_terminal s =
      ({ g with terminals := g.terminals ++ [s], symbols := (insert_string g.symbols s).1 },
        (insert_string g.symbols s).2) := by
  unfold Grammar.add_terminal
  have h2 : insert_string g.terminals s = (g.terminals ++ [s], true) := by simp [insert_string, hT]
  simp [hN, h2]

theorem add_nonterminal_of_terminal (g : Grammar) (s : String) (h : s ∈ g.terminals) :
    g.add_nonterminal s = (g, false) := by
  simp [Grammar.add_nonterminal, h]

theorem add_nonterminal_of_nonterminal (g : Grammar) (s : String) (h : s ∈ g.nonterminals) :
    g.add_nonterminal s = (g, false) := by
  unfold Grammar.add_nonterminal
  have h2 : insert_string g.nonterminals s = (g.nonterminals, false) := by simp [insert_string, h]
  by_cases hT : s ∈ g.terminals
  · simp [hT]
  · simp [hT, h2]

theorem add_nonterminal_of_new (g : Grammar) (s : String) (hT : s ∉ g.terminals)
    (hN : s ∉ g.nonterminals) :
    g.add_nonterminal s =
      ({ g with nonterminals := g.nonterminals ++ [s], symbols := (insert_string g.symbols s).1 },
        (insert_string g.symbols s).2) := by
  unfold Grammar.add_nonterminal
  have h2 : insert_string g.nonterminals s = (g.nonterminals ++ [s], true) := by
    simp [insert_string, hN]
  simp [hT, h2]

/-- What `add_terminal` does to the grammar. -/
theorem add_terminal_spec (g : Grammar) (s : String) :
    (g.add_terminal s).1.nonterminals = g.nonterminals ∧
    (g.add_terminal s).1.production_rules = g.production_rules ∧
    (g.add_terminal s).1.start_symbol = g.start_symbol ∧
    (g.add_terminal s).1.has_start_symbol = g.has_start_symbol ∧
    (∀ y, y ∈ (g.add_terminal s).1.terminals ↔ y ∈ g.terminals ∨ (y = s ∧ s ∉ g.nonterminals)) ∧
    (∀ y, y ∈ (g.add_terminal s).1.symbols ↔
      y ∈ g.symbols ∨ (y = s ∧ s ∉ g.nonterminals ∧ s ∉ g.terminals)) ∧
    ((g.add_terminal s).2 = true ↔
      s ∉ g.nonterminals ∧ s ∉ g.terminals ∧ s ∉ g.symbols) := by
  by_cases hN : s ∈ g.nonterminals
  · rw [add_terminal_of_nonterminal g s hN]
    simp [hN]
  · by_cases hT : s ∈ g.terminals
    · rw [add_terminal_of_terminal g s hT]
      refine ⟨rfl, rfl, rfl, rfl, fun y => ?_, fun y => ?_, ?_⟩
      · constructor
        · exact Or.inl
        · rintro (h | ⟨h, -⟩)
          · exact h
          · rw [h]; exact hT
      · constructor
        · exact Or.inl
        · rintro (h | ⟨-, -, h⟩)
          · exact h
          · exact absurd hT h
      · simp [hT]
    · rw [add_terminal_of_new g s hN hT]
      refine ⟨rfl, rfl, rfl, rfl, fun y => ?_, fun y => ?_, ?_⟩
      · show y ∈ g.terminals ++ [s] ↔ _
        simp [hN]
      · show y ∈ (insert_string g.symbols s).1 ↔ _
        rw [insert_string_fst]
        simp [hN, hT]
      · show (insert_string g.symbols s).2 = true ↔ _
        rw [insert_string_snd]
        exact ⟨fun h => ⟨hN, hT, h⟩, fun h => h.2.2⟩

/-- What `add_nonterminal` does to the grammar. -/
theorem add_nonterminal_spec (g : Grammar) (s : String) :
    (g.add_nonterminal s).1.terminals = g.terminals ∧
    (g.add_nonterminal s).1.production_rules = g.production_rules ∧
    (g.add_nonterminal s).1.start_symbol = g.start_symbol ∧
    (g.add_nonterminal s).1.has_start_symbol = g.has_start_symbol ∧
    (∀ y, y ∈ (g.add_nonterminal s).1.nonterminals ↔
      y ∈ g.nonterminals ∨ (y = s ∧ s ∉ g.terminals)) ∧
    (∀ y, y ∈ (g.add_nonterminal s).1.symbols ↔
      y ∈ g.symbols ∨ (y = s ∧ s ∉ g.terminals ∧ s ∉ g.nonterminals)) ∧
    ((g.add_nonterminal s).2 = true ↔
      s ∉ g.terminals ∧ s ∉ g.nonterminals ∧ s ∉ g.symbols) := by
  by_cases hT : s ∈ g.terminals
  · rw [add_nonterminal_of_terminal g s hT]
    simp [hT]
  · by_cases hN : s ∈ g.nonterminals
    · rw [add_nonterminal_of_nonterminal g s hN]
      refine ⟨rfl, rfl, rfl, rfl, fun y => ?_, fun y => ?_, ?_⟩
      · constructor
        · exact Or.inl
        · rintro (h | ⟨h, -⟩)
          · exact h
          · rw [h]; exact hN
      · constructor
        · exact Or.inl
        · rintro (h | ⟨-, -, h⟩)
          · exact h
          · exact absurd hN h
      · simp [hN]
    · rw [add_nonterminal_of_new g s hT hN]
      refine ⟨rfl, rfl, rfl, rfl, fun y => ?_, fun y => ?_, ?_⟩
      · show y ∈ g.nonterminals ++ [s] ↔ _
        simp [hT]
      · show y ∈ (insert_string g.symbols s).1 ↔ _
        rw [insert_string_fst]
        simp [hN, hT]
      · show (insert_string g.symbols s).2 = true ↔ _
        rw [insert_string_snd]
        exact ⟨fun h => ⟨hT, hN, h⟩, fun h => h.2.2⟩

theorem add_terminal_partitioned (g : Grammar) (s : String) (h : g.Partitioned) :
    (g.add_terminal s).1.Partitioned := by
  obtain ⟨h1, -, -, -, h5, h6, -⟩ := add_terminal_spec g s
  obtain ⟨hd, hu⟩ := h
  refine ⟨fun y hy => ?_, fun y => ?_⟩
  · rw [h1]
    rcases (h5 y).1 hy with h | ⟨h, hn⟩
    · exact hd y h
    · rw [h]; exact hn
  · rw [h6, h5, h1, hu]
    constructor
    · rintro ((h | h) | ⟨h, hn, -⟩)
      · exact Or.inl (Or.inl h)
      · exact Or.inr h
      · exact Or.inl (Or.inr ⟨h, hn⟩)
    · rintro ((h | ⟨h, hn⟩) | h)
      · exact Or.inl (Or.inl h)
      · by_cases ht : s ∈ g.terminals
        · exact Or.inl (Or.inl (h ▸ ht))
        · exact Or.inr ⟨h, hn, ht⟩
      · exact Or.inl (Or.inr h)

theorem add_nonterminal_partitioned (g : Grammar) (s : String) (h : g.Partitioned) :
    (g.add_nonterminal s).1.Partitioned := by
  obtain ⟨h1, -, -, -, h5, h6, -⟩ := add_nonterminal_spec g s
  obtain ⟨hd, hu⟩ := h
  refine ⟨fun y hy hyN => ?_, fun y => ?_⟩
  · rw [h1] at hy
    rcases (h5 y).1 hyN with h | ⟨h, hn⟩
    · exact hd y hy h
    · exact hn (h ▸ hy)
  · rw [h6, h5, h1, hu]
    constructor
    · rintro ((h | h) | ⟨h, ht, -⟩)
      · exact Or.inl h
      · exact Or.inr (Or.inl h)
      · exact Or.inr (Or.inr ⟨h, ht⟩)
    · rintro (h | h | ⟨h, ht⟩)
      · exact Or.inl (Or.inl h)
      · exact Or.inl (Or.inr h)
      · by_cases hn : s ∈ g.nonterminals
        · exact Or.inl (Or.inr (h ▸ hn))
        · exact Or.inr ⟨h, ht, hn⟩

theorem set_start_symbol_sets (g : Grammar) (s : String) :
    (g.set_start_symbol s).1.terminals = g.terminals ∧
    (g.set_start_symbol s).1.nonterminals = g.nonterminals ∧
    (g.set_start_symbol s).1.symbols = g.symbols ∧
    (g.set_start_symbol s).1.production_rules = g.production_rules := by
  unfold Grammar.set_start_symbol
  split <;> exact ⟨rfl, rfl, rfl, rfl⟩

theorem apply_partitioned (g : Grammar) (c : GrammarCall) (h : g.Partitioned) :
    (c.apply g).Partitioned := by
  cases c with
  | add_terminal s => exact add_terminal_partitioned g s h
  | add_nonterminal s => exact add_nonterminal_partitioned g s h
  | set_start_symbol s =>
    obtain ⟨h1, h2, h3, -⟩ := set_start_symbol_sets g s
    unfold Grammar.Partitioned GrammarCall.apply
    rw [h1, h2, h3]
    exact h
  | add_production_rule lhs rhs => exact h

theorem after_partitioned (calls : List GrammarCall) (g : Grammar) (h : g.Partitioned) :
    (g.after calls).Partitioned := by
  unfold Grammar.after
  induction calls generalizing g with
  | nil => exact h
  | cons c rest ih => exact ih (c.apply g) (apply_partitioned g c h)

theorem default_constructed_partitioned : Grammar.default_constructed.Partitioned := by
  constructor
  · intro s hs
    exact absurd hs (List.not_mem_nil s)
  · intro s
    simp [Grammar.default_constructed]

theorem with_start_partitioned (start : String) : (Grammar.with_start start).Partitioned := by
  unfold Grammar.with_start
  obtain ⟨h1, h2, h3, -⟩ := set_start_symbol_sets
    (Grammar.default_constructed.add_nonterminal start).1 start
  unfold Grammar.Partitioned
  rw [h1, h2, h3]
  exact add_nonterminal_partitioned _ start default_constructed_partitioned

/-- C17. Grammar partition invariant: after any finite sequence of `add_terminal`,
`add_nonterminal`, `set_start_symbol` and `add_production_rule` calls on a
default-constructed `Grammar` or on `Grammar(start)`, terminals and nonterminals are
disjoint and `symbols` is their union. -/
theorem grammar_partition (calls : List GrammarCall) (start : String) :
    (Grammar.default_constructed.after calls).Partitioned ∧
    ((Grammar.with_start start).after calls).Partitioned :=
  ⟨after_partitioned calls _ default_constructed_partitioned,
    after_partitioned calls _ (with_start_partitioned start)⟩

/-- C18. Opposite-class rejection is atomic: `add_terminal(s)` on a grammar in which
`s` is a nonterminal returns false and changes nothing, and so does
`add_nonterminal(s)` when `s` is a terminal; a call that returns true was made with
`s` in neither class and leaves `s` in the requested class and in `symbols`; and in a
grammar whose `symbols` are all terminals or nonterminals, as in every grammar built
by the constructors and mutators, each call returns true exactly when `s` was in
neither class. -/
theorem opposite_class_rejection (g : Grammar) (s : String) (calls : List GrammarCall)
    (start : String) :
    (s ∈ g.nonterminals → g.add_terminal s = (g, false)) ∧
    (s ∈ g.terminals → g.add_nonterminal s = (g, false)) ∧
    ((g.add_terminal s).2 = true →
      s ∉ g.terminals ∧ s ∉ g.nonterminals ∧
      s ∈ (g.add_terminal s).1.terminals ∧ s ∈ (g.add_terminal s).1.symbols) ∧
    ((g.add_nonterminal s).2 = true →
      s ∉ g.terminals ∧ s ∉ g.nonterminals ∧
      s ∈ (g.add_nonterminal s).1.nonterminals ∧ s ∈ (g.add_nonterminal s).1.symbols) ∧
    ((∀ y ∈ g.symbols, y ∈ g.terminals ∨ y ∈ g.nonterminals) →
      ((g.add_terminal s).2 = true ↔ s ∉ g.terminals ∧ s ∉ g.nonterminals) ∧
      ((g.add_nonterminal s).2 = true ↔ s ∉ g.terminals ∧ s ∉ g.nonterminals)) ∧
    (((Grammar.default_constructed.after calls).add_terminal s).2 = true ↔
      s ∉ (Grammar.default_constructed.after calls).terminals ∧
      s ∉ (Grammar.default_constructed.after calls).nonterminals) ∧
    (((Grammar.default_constructed.after calls).add_nonterminal s).2 = true ↔
      s ∉ (Grammar.default_constructed.after calls).terminals ∧
      s ∉ (Grammar.default_constructed.after calls).nonterminals) ∧
    ((((Grammar.with_start start).after calls).add_terminal s).2 = true ↔
      s ∉ ((Grammar.with_start start).after calls).terminals ∧
      s ∉ ((Grammar.with_start start).after calls).nonterminals) ∧
    ((((Grammar.with_start start).after calls).add_nonterminal s).2 = true ↔
      s ∉ ((Grammar.with_start start).after calls).terminals ∧
      s ∉ ((Grammar.with_start start).after calls).nonterminals) := by
  have key : ∀ g : Grammar, (∀ y ∈ g.symbols, y ∈ g.terminals ∨ y ∈ g.nonterminals) →
      ((g.add_terminal s).2 = true ↔ s ∉ g.terminals ∧ s ∉ g.nonterminals) ∧
      ((g.add_nonterminal s).2 = true ↔ s ∉ g.terminals ∧ s ∉ g.nonterminals) := by
    intro g hsym
    have hnosym : s ∉ g.terminals → s ∉ g.nonterminals → s ∉ g.symbols := by
      intro h1 h2 h3
      rcases hsym s h3 with h | h
      · exact h1 h
      · exact h2 h
    obtain ⟨-, -, -, -, -, -, t7⟩ := add_terminal_spec g s
    obtain ⟨-, -, -, -, -, -, n7⟩ := add_nonterminal_spec g s
    constructor
    · rw [t7]
      exact ⟨fun h => ⟨h.2.1, h.1⟩, fun h => ⟨h.2, h.1, hnosym h.1 h.2⟩⟩
    · rw [n7]
      exact ⟨fun h => ⟨h.1, h.2.1⟩, fun h => ⟨h.1, h.2, hnosym h.1 h.2⟩⟩
  have hpart : ∀ g : Grammar, g.Partitioned →
      ∀ y ∈ g.symbols, y ∈ g.terminals ∨ y ∈ g.nonterminals :=
    fun g hg y hy => (hg.2 y).1 hy
  have hd := key _ (hpart _ (after_partitioned calls _ default_constructed_partitioned))
  have hw := key _ (hpart _ (after_partitioned calls _ (with_start_partitioned start)))
  obtain ⟨-, -, -, -, t5, t6, t7⟩ := add_terminal_spec g s
  obtain ⟨-, -, -, -, n5, n6, n7⟩ := add_nonterminal_spec g s
  refine ⟨add_terminal_of_nonterminal g s, add_nonterminal_of_terminal g s, fun h => ?_,
    fun h => ?_, key g, hd.1, hd.2, hw.1, hw.2⟩
  · obtain ⟨h1, h2, h3⟩ := t7.1 h
    exact ⟨h2, h1, (t5 s).2 (Or.inr ⟨rfl, h1⟩), (t6 s).2 (Or.inr ⟨rfl, h1, h2⟩)⟩
  · obtain ⟨h1, h2, h3⟩ := n7.1 h
    exact ⟨h1, h2, (n5 s).2 (Or.inr ⟨rfl, h1⟩), (n6 s).2 (Or.inr ⟨rfl, h1, h2⟩)⟩

/-- Witness for C18: the terminal `a` offered as a nonterminal to the grammar
`S ::= a`, and the new terminal `b`. -/
theorem opposite_class_rejection_witness :
    single_terminal.add_nonterminal "a" = (single_terminal, false) ∧
    (single_terminal.add_terminal "b").2 = true ∧
    "b" ∈ (single_terminal.add_terminal "b").1.terminals :=
  ⟨(opposite_class_rejection single_terminal "a" [] "S").2.1 (by decide),
    (((opposite_class_rejection single_terminal "b" [] "S").2.2.2.2.1
      (by decide)).1).2 ⟨by decide, by decide⟩,
    ((opposite_class_rejection single_terminal "b" [] "S").2.2.1 rfl).2.2.1⟩

end CDS

namespace CDS

/-! ## The start symbol and the grammar file -/

/-- What `set_start_symbol` does. -/
theorem set_start_symbol_spec (g : Grammar) (s : String) :
    ((g.set_start_symbol s).2 = true ↔ s ∈ g.nonterminals) ∧
    (s ∈ g.nonterminals →
      (g.set_start_symbol s).1.start_symbol = s ∧
      (g.set_start_symbol s).1.has_start_symbol = true) ∧
    (s ∉ g.nonterminals → g.set_start_symbol s = (g, false)) := by
  unfold Grammar.set_start_symbol
  by_cases h : s ∈ g.nonterminals
  · simp [h]
  · simp [h]

theorem set_start_symbol_start_set (g : Grammar) (s : String) (h : g.StartSet) :
    (g.set_start_symbol s).1.StartSet := by
  obtain ⟨-, h2, h3⟩ := set_start_symbol_spec g s
  obtain ⟨-, hn, -, -⟩ := set_start_symbol_sets g s
  by_cases hs : s ∈ g.nonterminals
  · intro _
    rw [(h2 hs).1, hn]
    exact hs
  · rw [h3 hs]
    exact h

theorem apply_start_set (g : Grammar) (c : GrammarCall) (h : g.StartSet) :
    (c.apply g).StartSet := by
  cases c with
  | add_terminal s =>
    obtain ⟨h1, -, h3, h4, -, -, -⟩ := add_terminal_spec g s
    intro hs
    show (g.add_terminal s).1.start_symbol ∈ (g.add_terminal s).1.nonterminals
    rw [h1, h3]
    exact h (h4 ▸ hs)
  | add_nonterminal s =>
    obtain ⟨-, -, h3, h4, h5, -, -⟩ := add_nonterminal_spec g s
    intro hs
    show (g.add_nonterminal s).1.start_symbol ∈ (g.add_nonterminal s).1.nonterminals
    rw [h5, h3]
    exact Or.inl (h (h4 ▸ hs))
  | set_start_symbol s => exact set_start_symbol_start_set g s h
  | add_production_rule lhs rhs => exact h

theorem apply_start_mem (g : Grammar) (c : GrammarCall)
    (h : g.has_start_symbol = true ∧ g.start_symbol ∈ g.nonterminals) :
    (c.apply g).has_start_symbol = true ∧ (c.apply g).start_symbol ∈ (c.apply g).nonterminals := by
  have hset := apply_start_set g c (fun _ => h.2)
  have hhas : (c.apply g).has_start_symbol = true := by
    cases c with
    | add_terminal s =>
      obtain ⟨-, -, -, h4, -, -, -⟩ := add_terminal_spec g s
      exact h4.trans h.1
    | add_nonterminal s =>
      obtain ⟨-, -, -, h4, -, -, -⟩ := add_nonterminal_spec g s
      exact h4.trans h.1
    | set_start_symbol s =>
      obtain ⟨-, h2, h3⟩ := set_start_symbol_spec g s
      by_cases hs : s ∈ g.nonterminals
      · exact (h2 hs).2
      · show (g.set_start_symbol s).1.has_start_symbol = true
        rw [h3 hs]
        exact h.1
    | add_production_rule lhs rhs => exact h.1
  exact ⟨hhas, hset hhas⟩

theorem after_start_set (calls : List GrammarCall) (g : Grammar) (h : g.StartSet) :
    (g.after calls).StartSet := by
  unfold Grammar.after
  induction calls generalizing g with
  | nil => exact h
  | cons c rest ih => exact ih (c.apply g) (apply_start_set g c h)

theorem after_start_mem (calls : List GrammarCall) (g : Grammar)
    (h : g.has_start_symbol = true ∧ g.start_symbol ∈ g.nonterminals) :
    (g.after calls).has_start_symbol = true ∧
      (g.after calls).start_symbol ∈ (g.after calls).nonterminals := by
  unfold Grammar.after
  induction calls generalizing g with
  | nil => exact h
  | cons c rest ih => exact ih (c.apply g) (apply_start_mem g c h)

theorem with_start_spec (start : String) :
    (Grammar.with_start start).has_start_symbol = true ∧
    (Grammar.with_start start).start_symbol = start ∧
    start ∈ (Grammar.with_start start).nonterminals := by
  unfold Grammar.with_start
  obtain ⟨-, -, -, -, h5, -, -⟩ := add_nonterminal_spec Grammar.default_constructed start
  have hmem : start ∈ (Grammar.default_constructed.add_nonterminal start).1.nonterminals :=
    (h5 start).2 (Or.inr ⟨rfl, List.not_mem_nil start⟩)
  obtain ⟨-, h2, -⟩ := set_start_symbol_spec
    (Grammar.default_constructed.add_nonterminal start).1 start
  obtain ⟨-, hn, -, -⟩ := set_start_symbol_sets
    (Grammar.default_constructed.add_nonterminal start).1 start
  refine ⟨(h2 hmem).2, (h2 hmem).1, ?_⟩
  rw [hn]
  exact hmem

/-- What one round of the reading loop does. -/
theorem read_line_spec (g : Grammar) (lhs : String) (rhs : List String) :
    (read_line g lhs rhs).terminals = g.terminals ∧
    (∀ y, y ∈ (read_line g lhs rhs).nonterminals ↔
      y ∈ g.nonterminals ∨ (y = lhs ∧ lhs ∉ g.terminals)) ∧
    (read_line g lhs rhs).production_rules = g.production_rules ++ [(lhs, rhs)] ∧
    (g.Partitioned → (read_line g lhs rhs).Partitioned) ∧
    (g.StartSet → (read_line g lhs rhs).StartSet) ∧
    (g.has_start_symbol = true →
      (read_line g lhs rhs).has_start_symbol = true ∧
      (read_line g lhs rhs).start_symbol = g.start_symbol) ∧
    (g.has_start_symbol = false → lhs ∉ g.terminals →
      (read_line g lhs rhs).has_start_symbol = true ∧
      (read_line g lhs rhs).start_symbol = lhs) := by
  obtain ⟨n1, n2, n3, n4, n5, -, -⟩ := add_nonterminal_spec g lhs
  obtain ⟨s1, s2, s3⟩ := set_start_symbol_spec (g.add_nonterminal lhs).1 lhs
  obtain ⟨t1, t2, t3, t4⟩ := set_start_symbol_sets (g.add_nonterminal lhs).1 lhs
  unfold read_line
  by_cases hh : g.has_start_symbol = true
  · have hh1 : (g.add_nonterminal lhs).1.has_start_symbol = true := n4.trans hh
    simp only [hh1, Bool.not_true, Bool.false_eq_true, if_false]
    refine ⟨n1, n5, ?_, fun hp => add_nonterminal_partitioned g lhs hp,
      fun hs => apply_start_set g (GrammarCall.add_nonterminal lhs) hs,
      fun _ => ⟨hh1, n3⟩, fun h => ?_⟩
    · show (g.add_nonterminal lhs).1.production_rules ++ [(lhs, rhs)] = _
      rw [n2]
    · rw [hh] at h
      exact absurd h (by decide)
  · have hf : g.has_start_symbol = false := by simpa using hh
    have hh1 : (g.add_nonterminal lhs).1.has_start_symbol = false := n4.trans hf
    simp only [hh1, Bool.not_false, if_true]
    refine ⟨t1.trans n1, fun y => ?_, ?_, fun hp => ?_, fun hs => ?_, fun h => ?_, fun _ hl => ?_⟩
    · show y ∈ (Grammar.set_start_symbol (g.add_nonterminal lhs).1 lhs).1.nonterminals ↔ _
      rw [t2]
      exact n5 y
    · show (Grammar.set_start_symbol (g.add_nonterminal lhs).1 lhs).1.production_rules
        ++ [(lhs, rhs)] = _
      rw [t4, n2]
    · exact apply_partitioned _ (GrammarCall.set_start_symbol lhs)
        (add_nonterminal_partitioned g lhs hp)
    · exact set_start_symbol_start_set _ lhs
        (apply_start_set g (GrammarCall.add_nonterminal lhs) hs)
    · exact absurd h hh
    · have hmem : lhs ∈ (g.add_nonterminal lhs).1.nonterminals :=
        (n5 lhs).2 (Or.inr ⟨rfl, hl⟩)
      exact ⟨(s2 hmem).2, (s2 hmem).1⟩

theorem parsed_lines_cons_stop (line : List String) (rest : List (List String))
    (h : line.headD "" = "") : parsed_lines (line :: rest) = [] := by
  simp at h
  simp [parsed_lines, List.takeWhile_cons, h]

theorem parsed_lines_cons_go (line : List String) (rest : List (List String))
    (h : line.headD "" ≠ "") : parsed_lines (line :: rest) = line :: parsed_lines rest := by
  simp at h
  simp [parsed_lines, List.takeWhile_cons, h]

theorem read_lines_cons_stop (line : List String) (rest : List (List String)) (g : Grammar)
    (rhs : List String) (h : line.headD "" = "") :
    read_lines (line :: rest) g rhs = (g, rhs) := by
  simp at h
  simp [read_lines, h]

theorem read_lines_cons_go (line : List String) (rest : List (List String)) (g : Grammar)
    (rhs : List String) (h : line.headD "" ≠ "") :
    read_lines (line :: rest) g rhs =
      read_lines rest (read_line g (line.headD "") line.tail) (rhs ++ line.tail) := by
  simp at h
  simp [read_lines, h]

/-- What the reading loop of `get_grammar` does, over a grammar without terminals. -/
theorem read_lines_spec (lines : List (List String)) (g : Grammar) (rhs : List String)
    (hT : g.terminals = []) :
    (read_lines lines g rhs).1.terminals = [] ∧
    (∀ y, y ∈ (read_lines lines g rhs).1.nonterminals ↔
      y ∈ g.nonterminals ∨ ∃ line ∈ parsed_lines lines, line.headD "" = y) ∧
    (read_lines lines g rhs).1.production_rules =
      g.production_rules ++ (parsed_lines lines).map (fun line => (line.headD "", line.tail)) ∧
    (∀ y, y ∈ (read_lines lines g rhs).2 ↔
      y ∈ rhs ∨ ∃ line ∈ parsed_lines lines, y ∈ line.tail) ∧
    (g.Partitioned → (read_lines lines g rhs).1.Partitioned) ∧
    (g.StartSet → (read_lines lines g rhs).1.StartSet) ∧
    (g.has_start_symbol = true →
      (read_lines lines g rhs).1.has_start_symbol = true ∧
      (read_lines lines g rhs).1.start_symbol = g.start_symbol) ∧
    (g.has_start_symbol = false → ∀ line rest, parsed_lines lines = line :: rest →
      (read_lines lines g rhs).1.has_start_symbol = true ∧
      (read_lines lines g rhs).1.start_symbol = line.headD "") := by
  induction lines generalizing g rhs with
  | nil =>
    refine ⟨hT, fun y => ?_, ?_, fun y => ?_, id, id, fun h => ⟨h, rfl⟩, fun _ line rest h => ?_⟩
    · simp [read_lines, parsed_lines]
    · simp [read_lines, parsed_lines]
    · simp [read_lines, parsed_lines]
    · simp [parsed_lines] at h
  | cons l ls ih =>
    by_cases hl : l.headD "" = ""
    · rw [read_lines_cons_stop l ls g rhs hl, parsed_lines_cons_stop l ls hl]
      refine ⟨hT, fun y => ?_, ?_, fun y => ?_, id, id, fun h => ⟨h, rfl⟩,
        fun _ line rest h => ?_⟩
      · simp
      · simp
      · simp
      · cases h
    · rw [read_lines_cons_go l ls g rhs hl, parsed_lines_cons_go l ls hl]
      obtain ⟨r1, r2, r3, r4, r5, r6, r7⟩ := read_line_spec g (l.headD "") l.tail
      have hnot : l.headD "" ∉ g.terminals := by
        rw [hT]
        exact List.not_mem_nil _
      obtain ⟨i1, i2, i3, i4, i5, i6, i7, i8⟩ :=
        ih (read_line g (l.headD "") l.tail) (rhs ++ l.tail) (r1.trans hT)
      refine ⟨i1, fun y => ?_, ?_, fun y => ?_, fun h => i5 (r4 h), fun h => i6 (r5 h),
        fun h => ?_, fun h line rest hp => ?_⟩
      · rw [i2, r2]
        constructor
        · rintro ((h | ⟨h, -⟩) | ⟨line, h1, h2⟩)
          · exact Or.inl h
          · exact Or.inr ⟨l, List.mem_cons_self _ _, h.symm⟩
          · exact Or.inr ⟨line, List.mem_cons_of_mem _ h1, h2⟩
        · rintro (h | ⟨line, h1, h2⟩)
          · exact Or.inl (Or.inl h)
          · rcases List.mem_cons.1 h1 with h3 | h3
            · subst h3
              exact Or.inl (Or.inr ⟨h2.symm, hnot⟩)
            · exact Or.inr ⟨line, h3, h2⟩
      · rw [i3, r3]
        simp
      · rw [i4]
        constructor
        · rintro (h | ⟨line, h1, h2⟩)
          · rcases List.mem_append.1 h with h3 | h3
            · exact Or.inl h3
            · exact Or.inr ⟨l, List.mem_cons_self _ _, h3⟩
          · exact Or.inr ⟨line, List.mem_cons_of_mem _ h1, h2⟩
        · rintro (h | ⟨line, h1, h2⟩)
          · exact Or.inl (List.mem_append_left _ h)
          · rcases List.mem_cons.1 h1 with h3 | h3
            · subst h3
              exact Or.inl (List.mem_append_right _ h2)
            · exact Or.inr ⟨line, h3, h2⟩
      · obtain ⟨a, b⟩ := r6 h
        obtain ⟨c, d⟩ := i7 a
        exact ⟨c, d.trans b⟩
      · obtain ⟨a, b⟩ := r7 h hnot
        obtain ⟨c, d⟩ := i7 a
        injection hp with hp1 hp2
        subst hp1
        exact ⟨c, d.trans b⟩

/-- What the last loop of `get_grammar` does. -/
theorem add_terminals_spec (syms : List String) (g : Grammar) :
    (add_terminals syms g).nonterminals = g.nonterminals ∧
    (add_terminals syms g).production_rules = g.production_rules ∧
    (add_terminals syms g).start_symbol = g.start_symbol ∧
    (add_terminals syms g).has_start_symbol = g.has_start_symbol ∧
    (∀ y, y ∈ (add_terminals syms g).terminals ↔
      y ∈ g.terminals ∨
        (y ∈ syms ∧ (∀ r ∈ g.production_rules, r.1 ≠ y) ∧ y ∉ g.nonterminals)) ∧
    (g.Partitioned → (add_terminals syms g).Partitioned) := by
  induction syms generalizing g with
  | nil =>
    refine ⟨rfl, rfl, rfl, rfl, fun y => ?_, id⟩
    simp [add_terminals]
  | cons s rest ih =>
    by_cases hc : (!(g.production_rules.any (fun r => r.1 == s))
        && !(decide (s ∈ g.terminals))) = true
    · have hstep : add_terminals (s :: rest) g = add_terminals rest (g.add_terminal s).1 := by
        rw [add_terminals, if_pos hc]
      rw [hstep]
      obtain ⟨t1, t2, t3, t4, t5, -, -⟩ := add_terminal_spec g s
      obtain ⟨i1, i2, i3, i4, i5, i6⟩ := ih (g.add_terminal s).1
      have hrule : ∀ r ∈ g.production_rules, r.1 ≠ s := by
        intro r hr he
        have : g.production_rules.any (fun r => r.1 == s) = true :=
          List.any_eq_true.2 ⟨r, hr, by simp [he]⟩
        simp [this] at hc
      refine ⟨i1.trans t1, i2.trans t2, i3.trans t3, i4.trans t4, fun y => ?_,
        fun h => i6 (add_terminal_partitioned g s h)⟩
      rw [i5, t5, t1, t2]
      constructor
      · rintro ((h | ⟨h, hn⟩) | ⟨h1, h2, h3⟩)
        · exact Or.inl h
        · subst h
          exact Or.inr ⟨List.mem_cons_self _ _, hrule, hn⟩
        · exact Or.inr ⟨List.mem_cons_of_mem _ h1, h2, h3⟩
      · rintro (h | ⟨h1, h2, h3⟩)
        · exact Or.inl (Or.inl h)
        · rcases List.mem_cons.1 h1 with h4 | h4
          · subst h4
            exact Or.inl (Or.inr ⟨rfl, h3⟩)
          · exact Or.inr ⟨h4, h2, h3⟩
    · have hstep : add_terminals (s :: rest) g = add_terminals rest g := by
        rw [add_terminals, if_neg hc]
      rw [hstep]
      obtain ⟨i1, i2, i3, i4, i5, i6⟩ := ih g
      refine ⟨i1, i2, i3, i4, fun y => ?_, i6⟩
      rw [i5]
      constructor
      · rintro (h | ⟨h1, h2, h3⟩)
        · exact Or.inl h
        · exact Or.inr ⟨List.mem_cons_of_mem _ h1, h2, h3⟩
      · rintro (h | ⟨h1, h2, h3⟩)
        · exact Or.inl h
        · rcases List.mem_cons.1 h1 with h4 | h4
          · subst h4
            by_cases ht : y ∈ g.terminals
            · exact Or.inl ht
            · exfalso
              apply hc
              have hany : g.production_rules.any (fun r => r.1 == y) = false := by
                rw [Bool.eq_false_iff]
                intro hany
                obtain ⟨r, hr, he⟩ := List.any_eq_true.1 hany
                exact h2 r hr (by simpa using he)
              simp [hany, ht]
          · exact Or.inr ⟨h4, h2, h3⟩

/-- What `get_grammar` returns. -/
theorem get_grammar_spec (lines : List (List String)) :
    (∀ y, y ∈ (get_grammar lines).nonterminals ↔
      ∃ line ∈ parsed_lines lines, line.headD "" = y) ∧
    (∀ y, y ∈ (get_grammar lines).terminals ↔
      (∃ line ∈ parsed_lines lines, y ∈ line.tail) ∧
        ¬ ∃ line ∈ parsed_lines lines, line.headD "" = y) ∧
    (get_grammar lines).production_rules =
      (parsed_lines lines).map (fun line => (line.headD "", line.tail)) ∧
    (get_grammar lines).Partitioned ∧
    (get_grammar lines).StartSet ∧
    (∀ line rest, parsed_lines lines = line :: rest →
      (get_grammar lines).has_start_symbol = true ∧
      (get_grammar lines).start_symbol = line.headD "") := by
  obtain ⟨r1, r2, r3, r4, r5, r6, -, r8⟩ :=
    read_lines_spec lines Grammar.default_constructed [] rfl
  obtain ⟨a1, a2, a3, a4, a5, a6⟩ := add_terminals_spec
    (read_lines lines Grammar.default_constructed []).2
    (read_lines lines Grammar.default_constructed []).1
  have hN : ∀ y, y ∈ (get_grammar lines).nonterminals ↔
      ∃ line ∈ parsed_lines lines, line.headD "" = y := by
    intro y
    show y ∈ (add_terminals _ _).nonterminals ↔ _
    rw [a1, r2]
    simp [Grammar.default_constructed]
  have hrules : ∀ y, (∀ r ∈ (read_lines lines Grammar.default_constructed []).1.production_rules,
      r.1 ≠ y) ↔ ¬ ∃ line ∈ parsed_lines lines, line.headD "" = y := by
    intro y
    rw [r3]
    simp [Grammar.default_constructed]
  refine ⟨hN, fun y => ?_, ?_, a6 (r5 default_constructed_partitioned), ?_, ?_⟩
  · show y ∈ (add_terminals _ _).terminals ↔ _
    rw [a5, r1, r4, hrules, r2]
    simp [Grammar.default_constructed]
  · show (add_terminals _ _).production_rules = _
    rw [a2, r3]
    simp [Grammar.default_constructed]
  · intro h
    show (add_terminals _ _).start_symbol ∈ (add_terminals _ _).nonterminals
    rw [a3, a1]
    exact r6 (fun h0 => absurd h0 (by decide)) (a4 ▸ h)
  · intro line rest hp
    show (add_terminals _ _).has_start_symbol = true ∧ (add_terminals _ _).start_symbol = _
    rw [a3, a4]
    exact r8 rfl line rest hp

end CDS

namespace CDS

/-! ## Claims on the start symbol and on the grammar file -/

/-- Counterexample to C19 as stated: the default-constructed grammar, which is also what
`get_grammar` returns for a file without lines, has the empty string as `start_symbol`
and no nonterminal at all. -/
theorem default_start_not_nonterminal :
    Grammar.default_constructed.start_symbol ∉ Grammar.default_constructed.nonterminals ∧
    get_grammar [] = Grammar.default_constructed ∧
    (get_grammar []).start_symbol ∉ (get_grammar []).nonterminals :=
  ⟨List.not_mem_nil _, rfl, List.not_mem_nil _⟩

/-- C19 (amended). Start-symbol invariant: in every grammar produced from the default
constructor by the mutators, or by `get_grammar`, the start symbol is a nonterminal once
`has_start_symbol` is set, and the mutators keep this; a grammar produced from
`Grammar(start)` by the mutators always has its start symbol among the nonterminals, and
so does the grammar of a file with at least one parsed line, whose start symbol is the
first token of the first line; `set_start_symbol(s)` returns true and sets
`start_symbol = s` exactly when `s` is a nonterminal and otherwise returns false and
changes nothing. -/
theorem start_symbol_invariant (calls : List GrammarCall) (start : String)
    (lines : List (List String)) (g : Grammar) (s : String) :
    ((Grammar.default_constructed.after calls).has_start_symbol = true →
      (Grammar.default_constructed.after calls).start_symbol ∈
        (Grammar.default_constructed.after calls).nonterminals) ∧
    ((g.has_start_symbol = true → g.start_symbol ∈ g.nonterminals) →
      (g.after calls).has_start_symbol = true →
      (g.after calls).start_symbol ∈ (g.after calls).nonterminals) ∧
    (Grammar.with_start start).start_symbol = start ∧
    ((Grammar.with_start start).after calls).start_symbol ∈
      ((Grammar.with_start start).after calls).nonterminals ∧
    ((get_grammar lines).has_start_symbol = true →
      (get_grammar lines).start_symbol ∈ (get_grammar lines).nonterminals) ∧
    (∀ line rest, parsed_lines lines = line :: rest →
      (get_grammar lines).start_symbol = line.headD "" ∧
      (get_grammar lines).start_symbol ∈ (get_grammar lines).nonterminals) ∧
    ((g.set_start_symbol s).2 = true ↔ s ∈ g.nonterminals) ∧
    (s ∈ g.nonterminals →
      (g.set_start_symbol s).1.start_symbol = s ∧
      (g.set_start_symbol s).1.has_start_symbol = true) ∧
    (s ∉ g.nonterminals → g.set_start_symbol s = (g, false)) := by
  obtain ⟨w1, w2, w3⟩ := with_start_spec start
  obtain ⟨-, -, -, -, g5, g6⟩ := get_grammar_spec lines
  obtain ⟨s1, s2, s3⟩ := set_start_symbol_spec g s
  have w4 : (Grammar.with_start start).start_symbol ∈ (Grammar.with_start start).nonterminals := by
    rw [w2]
    exact w3
  refine ⟨after_start_set calls _ (fun h => absurd h (by decide)),
    fun h => after_start_set calls g h, w2,
    (after_start_mem calls _ ⟨w1, w4⟩).2, g5, fun line rest hp => ?_, s1, s2, s3⟩
  obtain ⟨a, b⟩ := g6 line rest hp
  exact ⟨b, g5 a⟩

/-- Witness for C19 (amended): the calls `add_nonterminal("S")`, `set_start_symbol("S")`
on a default-constructed grammar, and the grammar file with the single line `S a`. -/
theorem start_symbol_invariant_witness :
    (Grammar.default_constructed.after
      [GrammarCall.add_nonterminal "S", GrammarCall.set_start_symbol "S"]).start_symbol ∈
      (Grammar.default_constructed.after
        [GrammarCall.add_nonterminal "S", GrammarCall.set_start_symbol "S"]).nonterminals ∧
    (get_grammar [["S", "a"]]).start_symbol = "S" ∧
    (single_terminal.set_start_symbol "S").2 = true ∧
    single_terminal.set_start_symbol "a" = (single_terminal, false) :=
  ⟨(start_symbol_invariant
      [GrammarCall.add_nonterminal "S", GrammarCall.set_start_symbol "S"] "S" [["S", "a"]]
      single_terminal "S").1 rfl,
    ((start_symbol_invariant [] "S" [["S", "a"]] single_terminal "S").2.2.2.2.2.1
      ["S", "a"] [] rfl).1,
    (start_symbol_invariant [] "S" [["S", "a"]] single_terminal "S").2.2.2.2.2.2.1.2
      (by decide),
    (start_symbol_invariant [] "S" [["S", "a"]] single_terminal "a").2.2.2.2.2.2.2.2
      (by decide)⟩

/-- C20. Grammar-file classification: in the grammar returned by `get_grammar` the
nonterminals are exactly the first tokens of the parsed lines (the lines before the
first one without a token), the terminals are exactly the right-hand-side tokens that
are not the first token of a parsed line, the rules are the pairs (first token,
remaining tokens) of the parsed lines, and every symbol of every right-hand side is in
exactly one of `terminals` and `nonterminals`. -/
theorem grammar_file_classification (lines : List (List String)) :
    (∀ y, y ∈ (get_grammar lines).nonterminals ↔
      ∃ line ∈ parsed_lines lines, line.headD "" = y) ∧
    (∀ y, y ∈ (get_grammar lines).terminals ↔
      (∃ line ∈ parsed_lines lines, y ∈ line.tail) ∧
        ¬ ∃ line ∈ parsed_lines lines, line.headD "" = y) ∧
    (get_grammar lines).production_rules =
      (parsed_lines lines).map (fun line => (line.headD "", line.tail)) ∧
    (∀ r ∈ (get_grammar lines).production_rules, ∀ y ∈ r.2,
      (y ∈ (get_grammar lines).terminals ∨ y ∈ (get_grammar lines).nonterminals) ∧
      ¬ (y ∈ (get_grammar lines).terminals ∧ y ∈ (get_grammar lines).nonterminals)) := by
  obtain ⟨h1, h2, h3, h4, -, -⟩ := get_grammar_spec lines
  refine ⟨h1, h2, h3, fun r hr y hy => ⟨?_, fun h => h4.1 y h.1 h.2⟩⟩
  rw [h3] at hr
  obtain ⟨line, hline, rfl⟩ := List.mem_map.1 hr
  by_cases hy2 : ∃ line ∈ parsed_lines lines, line.headD "" = y
  · exact Or.inr ((h1 y).2 hy2)
  · exact Or.inl ((h2 y).2 ⟨⟨line, hline, hy⟩, hy2⟩)

/-- Witness for C20: the file with the lines `S S a` and `S a` followed by an empty line
and a line that is not read. -/
theorem grammar_file_classification_witness :
    (get_grammar [["S", "S", "a"], ["S", "a"], [], ["T", "b"]]).production_rules =
      [("S", ["S", "a"]), ("S", ["a"])] ∧
    "a" ∈ (get_grammar [["S", "S", "a"], ["S", "a"], [], ["T", "b"]]).terminals ∧
    "S" ∈ (get_grammar [["S", "S", "a"], ["S", "a"], [], ["T", "b"]]).nonterminals :=
  ⟨(grammar_file_classification [["S", "S", "a"], ["S", "a"], [], ["T", "b"]]).2.2.1.trans
      (by decide),
    ((grammar_file_classification [["S", "S", "a"], ["S", "a"], [], ["T", "b"]]).2.2.2
      ("S", ["a"]) (by decide) "a" (by decide)).1.resolve_right (by decide),
    ((grammar_file_classification [["S", "S", "a"], ["S", "a"], [], ["T", "b"]]).1 "S").2
      ⟨["S", "a"], by decide, rfl⟩⟩

end CDS

namespace CDS

open SequentialParser

/-! ## Monotonicity of the two sets -/

theorem Superset.refl_superset (p : SequentialParser) : Superset p p :=
  ⟨fun _ h => h, fun _ h => h⟩

theorem Superset.trans_superset {p1 p2 p3 : SequentialParser} (h12 : Superset p1 p2)
    (h23 : Superset p2 p3) : Superset p1 p3 :=
  ⟨fun d h => h23.1 d (h12.1 d h), fun e h => h23.2 e (h12.2 e h)⟩

theorem Extends.to_superset {p p2 : SequentialParser} {O : Descriptor → Prop}
    {E : EPN → Prop} (h : Extends p p2 O E) : Superset p p2 :=
  ⟨fun d hd => by rw [h.descriptor_set_eq]; exact hd,
    fun e he => (h.epn_iff e).2 (Or.inl he)⟩

theorem match_superset (mem : Memory) (p p2 : SequentialParser) (d : Descriptor)
    (h : match_ mem p d = Except.ok p2) : Superset p p2 := by
  unfold match_ at h
  cases hn : d.get_next_symbol with
  | error f => rw [hn] at h; cases h
  | ok a =>
    rw [hn] at h
    simp only [] at h
    by_cases hlen : p.input.length > 0
    · rw [if_pos hlen] at h
      cases hread : vector_index mem p.input d.right_extent with
      | error f => rw [hread] at h; cases h
      | ok x =>
        rw [hread] at h
        simp only [] at h
        by_cases hax : (a == x) = true
        · rw [if_pos hax] at h
          injection h with h
          subst h
          exact (offer_extends { p with num_match := p.num_match + 1 } _ _).to_superset
        · rw [if_neg hax] at h
          injection h with h
          subst h
          exact ⟨fun _ h => h, fun _ h => h⟩
    · rw [if_neg hlen] at h
      injection h with h
      subst h
      exact ⟨fun _ h => h, fun _ h => h⟩

theorem loop_body_superset (mem : Memory) (p p3 : SequentialParser) (d : Descriptor)
    (h : loop_body mem p d = Except.ok p3) : Superset p p3 := by
  unfold loop_body at h
  simp only [] at h
  cases hproc : process_descriptor mem
      { p with descriptor_set := set_insert Descriptor.eq p.descriptor_set d } d with
  | error f => rw [hproc] at h; cases h
  | ok p2 =>
    rw [hproc] at h
    simp only [] at h
    injection h with h
    subst h
    have hext := process_descriptor_extends mem _ p2 d hproc
    refine ⟨fun x hx => ?_, fun e he => (hext.epn_iff e).2 (Or.inl he)⟩
    show x ∈ p2.descriptor_set
    rw [hext.descriptor_set_eq]
    exact mem_set_insert_of_mem _ _ _ _ hx

theorem while_loop_superset (mem : Memory) (pick : SequentialParser → Nat) (fuel : Nat)
    (p p2 : SequentialParser) (h : while_loop mem pick fuel p = Except.ok (some p2)) :
    Superset p p2 :=
  (while_loop_induction mem pick (fun q => Superset p q)
    (fun _ d _ hq _ hb => hq.trans_superset (loop_body_superset mem _ _ d hb))
    fuel p p2 h (Superset.refl_superset p)).1

/-- C13. Monotonicity: each of `descend`, `skip`, `ascend`, and each of `match`,
`process_descriptor`, one iteration of the worklist loop and the whole loop when they
return, leaves `descriptor_set` and `epn_set` with every element they held before. -/
theorem monotonicity (mem : Memory) (pick : SequentialParser → Nat) (fuel : Nat)
    (p p2 : SequentialParser) (d : Descriptor) (symbol : String) (pivot : Nat)
    (right_extents : List Nat) (descriptors : descriptor_set_t) (right_extent : Nat) :
    Superset p (p.descend symbol pivot) ∧
    Superset p (p.skip d right_extents) ∧
    Superset p (p.ascend descriptors right_extent) ∧
    (match_ mem p d = Except.ok p2 → Superset p p2) ∧
    (process_descriptor mem p d = Except.ok p2 → Superset p p2) ∧
    (loop_body mem p d = Except.ok p2 → Superset p p2) ∧
    (while_loop mem pick fuel p = Except.ok (some p2) → Superset p p2) ∧
    (loop mem pick fuel p = Except.ok (some p2) → Superset p p2) :=
  ⟨(descend_extends p symbol pivot).to_superset,
    (skip_extends p d right_extents).to_superset,
    (ascend_extends p descriptors right_extent).to_superset,
    match_superset mem p p2 d,
    fun h => (process_descriptor_extends mem p p2 d h).to_superset,
    loop_body_superset mem p p2 d,
    while_loop_superset mem pick fuel p p2,
    fun h => (loop_start_extends p).to_superset.trans_superset
      (while_loop_superset mem pick fuel _ p2 h)⟩

/-- Witness for C13: the first iteration of the loop for `S ::= a` on the input `a`. -/
theorem monotonicity_witness :
    ∃ p2, loop_body Memory.strict
        (SequentialParser.loop_entry { SequentialParser.fresh single_terminal with input := ["a"] })
        (Descriptor.make "S" ["a"] 0 0 0) = Except.ok p2 ∧
      Superset
        (SequentialParser.loop_entry { SequentialParser.fresh single_terminal with input := ["a"] })
        p2 :=
  ⟨_, rfl, (monotonicity Memory.strict (fun _ => 0) 0
    (SequentialParser.loop_entry { SequentialParser.fresh single_terminal with input := ["a"] })
    _ (Descriptor.make "S" ["a"] 0 0 0) "S" 0 [] [] 0).2.2.2.2.2.1 rfl⟩

/-! ## Completed descriptors -/

/-- C11. Processing a completed descriptor `d = (A, α, |α|, L, R)` in a parser whose
descriptors have the dot inside the rule: the second loop of `process_descriptor`
returns the set `D` of the advanced copies of the descriptors of `descriptor_set` that
are not completed, have `A` after the dot and end at `L`; the result is
`ascend(D, R)`, followed by the insertion of `EPN(d) = (A, α, |α|, L, R, R)` exactly when
`α` is empty. -/
theorem process_completed (mem : Memory) (p : SequentialParser) (d : Descriptor)
    (hS : ∀ y ∈ p.descriptor_set, y.dot_position ≤ y.rhs.length)
    (hcomp : d.is_completed = true) :
    ∃ D, collect_descriptors d p.descriptor_set [] = Except.ok D ∧
      (∀ y ∈ D, ∃ d0 ∈ p.descriptor_set, d0.is_completed = false ∧
        d0.get_next_symbol = Except.ok d.lhs ∧ d0.right_extent = d.left_extent ∧
        y = d0.copy_and_advance) ∧
      (∀ d0 ∈ p.descriptor_set, d0.is_completed = false →
        d0.get_next_symbol = Except.ok d.lhs → d0.right_extent = d.left_extent →
        set_count Descriptor.eq D d0.copy_and_advance = true) ∧
      process_descriptor mem p d = Except.ok
        (if d.is_empty then
          { p.ascend D d.right_extent with
            epn_set := set_insert EPN.eq (p.ascend D d.right_extent).epn_set
              (EPN.of_descriptor d) }
        else p.ascend D d.right_extent) ∧
      EPN.of_descriptor d =
        { lhs := d.lhs, rhs := d.rhs, dot_position := d.rhs.length,
          left_extent := d.left_extent, pivot := d.right_extent,
          right_extent := d.right_extent } := by
  obtain ⟨D, hD⟩ := collect_descriptors_returns d p.descriptor_set [] hS
  obtain ⟨h1, h2, -⟩ := collect_descriptors_spec d p.descriptor_set [] D hD
  refine ⟨D, hD, fun y hy => ?_, fun d0 hd0 _ hn hr => ?_, ?_, ?_⟩
  · rcases h1 y hy with h | ⟨d0, hd0, hn, hr, hy0⟩
    · exact absurd h (List.not_mem_nil y)
    · exact ⟨d0, hd0, not_completed_of_get? d0 _ hn, (get_next_symbol_eq_ok d0 _).2 hn, hr, hy0⟩
  · obtain ⟨y, hy, hye⟩ := h2 d0 hd0 ((get_next_symbol_eq_ok d0 _).1 hn) hr
    exact (set_count_iff _ _ _).2 ⟨y, hy, hye⟩
  · unfold process_descriptor
    simp only [hcomp, Bool.not_true, Bool.false_eq_true, if_false]
    rw [hD]
    by_cases he : d.is_empty = true
    · simp only [he, if_true]
    · simp only [he, Bool.false_eq_true, if_false]
  · have hdot : d.dot_position = d.rhs.length := by
      simpa [Descriptor.is_completed] using hcomp
    unfold EPN.of_descriptor
    rw [hdot]

/-- Witness for C11: the completed `(S, [a], 1, 0, 1)` of `S ::= S a | a` with the
waiting `(S, [S, a], 0, 0, 0)` in the descriptor set. -/
theorem process_completed_witness :
    ∃ D, collect_descriptors (Descriptor.make "S" ["a"] 1 0 1)
        [Descriptor.make "S" ["S", "a"] 0 0 0, Descriptor.make "S" ["a"] 1 0 1] [] =
          Except.ok D ∧
      set_count Descriptor.eq D (Descriptor.make "S" ["S", "a"] 1 0 0) = true ∧
      process_descriptor Memory.strict
        { SequentialParser.fresh left_recursive with
          input := ["a"]
          descriptor_set :=
            [Descriptor.make "S" ["S", "a"] 0 0 0, Descriptor.make "S" ["a"] 1 0 1] }
        (Descriptor.make "S" ["a"] 1 0 1) =
      Except.ok (({ SequentialParser.fresh left_recursive with
          input := ["a"]
          descriptor_set :=
            [Descriptor.make "S" ["S", "a"] 0 0 0, Descriptor.make "S" ["a"] 1 0 1] } :
        SequentialParser).ascend D 1) := by
  obtain ⟨D, h1, -, h3, h4, -⟩ := process_completed Memory.strict
    { SequentialParser.fresh left_recursive with
      input := ["a"]
      descriptor_set :=
        [Descriptor.make "S" ["S", "a"] 0 0 0, Descriptor.make "S" ["a"] 1 0 1] }
    (Descriptor.make "S" ["a"] 1 0 1) (by decide) rfl
  exact ⟨D, h1, h3 (Descriptor.make "S" ["S", "a"] 0 0 0) (by decide) rfl rfl rfl, h4⟩

end CDS

namespace CDS

open SequentialParser

/-! ## The empty rule -/

/-- A descriptor offered by a step has an empty right-hand side only when it was
offered by `descend`, with the dot at 0 and equal extents. -/
theorem offered_empty_rhs (mem : Memory) (p : SequentialParser) (d x : Descriptor)
    (h : Offered mem p d x) (hx : x.rhs = []) :
    x.left_extent = x.right_extent ∧ x.dot_position = 0 := by
  have hnone : ∀ (y : Descriptor) (s : String), y.rhs = [] → y.rhs[y.dot_position]? = some s →
      False := by
    intro y s hy hs
    rw [hy] at hs
    simp at hs
  rcases h with ⟨a, ha, -, -, -, hxd⟩ | ⟨⟨X, β, -, -, -, hxd⟩, -⟩ |
    ⟨d0, -, X, ha, -, -, -, -, hxd⟩ | ⟨d0, -, -, ha, -, hxd⟩
  · rw [hxd] at hx
    exact (hnone d a hx ha).elim
  · rw [hxd]
    exact ⟨rfl, rfl⟩
  · rw [hxd] at hx
    exact (hnone d X hx ha).elim
  · rw [hxd] at hx
    exact (hnone d0 _ hx ha).elim

/-- Every descriptor with an empty right-hand side that `loop` holds when it returns has
the dot at 0 and equal extents. -/
theorem loop_empty_rhs (mem : Memory) (pick : SequentialParser → Nat) (fuel : Nat)
    (p p2 : SequentialParser) (hinv : Inv mem p)
    (hE : ∀ x, Known p x → x.rhs = [] → x.left_extent = x.right_extent ∧ x.dot_position = 0)
    (h : loop mem pick fuel p = Except.ok (some p2)) :
    ∀ x ∈ p2.descriptor_set, x.rhs = [] →
      x.left_extent = x.right_extent ∧ x.dot_position = 0 := by
  unfold loop at h
  simp only [] at h
  have hext := loop_start_extends p
  obtain ⟨hinv1, -⟩ := inv_of_extends_start mem p _ hext hinv
  have hE1 : ∀ x, Known
      (({ p with num_ascend := 0, num_descend := 0, num_match := 0, num_skip := 0 } :
        SequentialParser).extend_worklist
        (p.grammar.get_production_rules p.grammar.start_symbol) 0 0) x → x.rhs = [] →
      x.left_extent = x.right_extent ∧ x.dot_position = 0 := by
    rintro x (hx | hx) hrhs
    · rcases hext.worklist_sound x hx with h1 | ⟨⟨β, -, h1⟩, -⟩
      · exact hE x (Or.inl h1) hrhs
      · rw [h1]
        exact ⟨rfl, rfl⟩
    · rw [hext.descriptor_set_eq] at hx
      exact hE x (Or.inr hx) hrhs
  have key := while_loop_induction mem pick
    (fun q => Inv mem q ∧
      ∀ x, Known q x → x.rhs = [] → x.left_extent = x.right_extent ∧ x.dot_position = 0)
    (fun q d q3 hq hd hb => by
      have hf := loop_body_facts mem q q3 d hq.1.plain hq.1.disjoint hd hb
      refine ⟨inv_step mem q q3 d hq.1 hd hf, fun x hx hrhs => ?_⟩
      rcases hf.known_new x hx with h1 | h1
      · exact hq.2 x h1 hrhs
      · exact offered_empty_rhs mem _ d x h1 hrhs)
    fuel _ p2 h ⟨hinv1, hE1⟩
  exact fun x hx hrhs => key.1.2 x (Or.inr hx) hrhs

/-- C14. Empty-rule law: in the descriptor set returned by a parse on a fresh parser,
every descriptor with an empty right-hand side has the dot at 0 and `L = R`, and the
zero-width EPN `(A, [], 0, L, L, L)` is in the returned EPN set. -/
theorem empty_rule_law (mem : Memory) (pick : SequentialParser → Nat) (fuel : Nat)
    (G : Grammar) (w : List String) (p2 : SequentialParser)
    (h : parse mem pick fuel (SequentialParser.fresh G) w = Except.ok (some p2)) :
    ∀ d ∈ p2.descriptor_set, d.rhs = [] →
      d.left_extent = d.right_extent ∧ d.dot_position = 0 ∧
      ({ lhs := d.lhs, rhs := [], dot_position := 0, left_extent := d.left_extent,
         pivot := d.left_extent, right_extent := d.left_extent } : EPN) ∈ p2.epn_set := by
  intro d hd hrhs
  unfold parse at h
  obtain ⟨hinv, -, -, -, -⟩ := loop_inv mem pick fuel _ p2 (inv_fresh mem G w) h
  obtain ⟨hLR, hdot⟩ := loop_empty_rhs mem pick fuel _ p2 (inv_fresh mem G w)
    (fun x hx => by rcases hx with h1 | h1 <;> cases h1) h d hd hrhs
  have hcomp : d.is_completed = true := by
    simp [Descriptor.is_completed, hrhs, hdot]
  have hempty : d.is_empty = true := by
    simp [Descriptor.is_empty, hrhs]
  have hepn := hinv.by_empty d hd hcomp hempty
  have heq : EPN.of_descriptor d =
      { lhs := d.lhs, rhs := [], dot_position := 0, left_extent := d.left_extent,
        pivot := d.left_extent, right_extent := d.left_extent } := by
    unfold EPN.of_descriptor
    rw [hrhs, hdot, ← hLR]
  rw [← heq]
  exact ⟨hLR, hdot, hepn⟩

/-- Witness for C14: the grammar `S ::= ε` on the empty input. -/
theorem empty_rule_law_witness :
    ∃ p2, parse Memory.strict (fun _ => 0) 2 (SequentialParser.fresh empty_rule) [] =
        Except.ok (some p2) ∧
      Descriptor.make "S" [] 0 0 0 ∈ p2.descriptor_set ∧
      ({ lhs := "S", rhs := [], dot_position := 0, left_extent := 0, pivot := 0,
         right_extent := 0 } : EPN) ∈ p2.epn_set :=
  ⟨_, rfl, by decide,
    (empty_rule_law Memory.strict (fun _ => 0) 2 empty_rule [] _ rfl
      (Descriptor.make "S" [] 0 0 0) (by decide) rfl).2.2⟩

/-! ## Admission of descriptors -/

/-- At every head of the loop started on a parser with an empty descriptor set, the
descriptor set lists the descriptors processed so far, no two of them equal. -/
theorem loop_head_facts (mem : Memory) (pick : SequentialParser → Nat)
    (p : SequentialParser) (hinv : Inv mem p) (hS : p.descriptor_set = [])
    (hnum : p.num_descriptors = 0) (t : List Descriptor) (q : SequentialParser)
    (h : LoopHead mem pick p t q) :
    Inv mem q ∧ q.descriptor_set = t ∧ q.num_descriptors = t.length ∧
      t.Pairwise (fun a b => Descriptor.eq a b = false) := by
  induction h with
  | entry =>
    have hext := loop_start_extends p
    obtain ⟨hinv1, -⟩ := inv_of_extends_start mem p _ hext hinv
    refine ⟨hinv1, hext.descriptor_set_eq.trans hS, hext.num_descriptors_eq.trans hnum,
      List.Pairwise.nil⟩
  | iteration t q q2 x xs _ hW hb ih =>
    obtain ⟨hq, hset, hn, hpair⟩ := ih
    have hd : begin_ pick q x xs ∈ q.worklist := by
      rw [hW]
      exact begin_mem pick q x xs
    have hf := loop_body_facts mem q q2 _ hq.plain hq.disjoint hd hb
    refine ⟨inv_step mem q q2 _ hq hd hf, ?_, ?_, ?_⟩
    · rw [hf.set_eq, hset]
    · rw [hf.num_descriptors_eq, hn, List.length_append]
      rfl
    · rw [List.pairwise_append]
      refine ⟨hpair, List.pairwise_singleton _ _, fun a ha b hb2 => ?_⟩
      rw [List.mem_singleton.1 hb2]
      have hnot : begin_ pick q x xs ∉ q.descriptor_set := hq.disjoint _ hd
      have hcount : set_count Descriptor.eq q.descriptor_set (begin_ pick q x xs) = false := by
        cases hc : set_count Descriptor.eq q.descriptor_set (begin_ pick q x xs)
        · rfl
        · exact absurd ((set_count_plain _ _ (fun y hy => hq.plain y (Or.inr hy))
            (hq.plain _ (Or.inl hd))).1 hc) hnot
      rw [set_count_eq_false_iff] at hcount
      exact hcount a (hset ▸ ha)

/-- The parser that the loop returns is at a head of the loop. -/
theorem while_loop_loop_head (mem : Memory) (pick : SequentialParser → Nat)
    (p : SequentialParser) (fuel : Nat) :
    ∀ (t : List Descriptor) (q p2 : SequentialParser), LoopHead mem pick p t q →
      while_loop mem pick fuel q = Except.ok (some p2) →
      ∃ t2, LoopHead mem pick p t2 p2 ∧ p2.worklist = [] := by
  induction fuel with
  | zero =>
    intro t q p2 hq h
    unfold while_loop at h
    by_cases hW : q.worklist.isEmpty = true
    · rw [if_pos hW] at h
      injection h with h
      injection h with h
      subst h
      exact ⟨t, hq, List.isEmpty_iff.1 hW⟩
    · rw [if_neg hW] at h
      injection h with h
      cases h
  | succ n ih =>
    intro t q p2 hq h
    unfold while_loop at h
    cases hW : q.worklist with
    | nil =>
      rw [hW] at h
      injection h with h
      injection h with h
      subst h
      exact ⟨t, hq, hW⟩
    | cons x xs =>
      rw [hW] at h
      simp only [] at h
      cases hb : loop_body mem q (begin_ pick q x xs) with
      | error f => rw [hb] at h; cases h
      | ok q2 =>
        rw [hb] at h
        exact ih _ q2 p2 (LoopHead.iteration t q q2 x xs hq hW hb) h

/-- C12. Admission dedup: at every head of the worklist loop of a parse on a fresh
parser, the descriptors processed so far are pairwise different under `==`, they are
the descriptor set, no descriptor of the worklist is in the descriptor set, and
`num_descriptors` is their number; the parser that the parse returns is at such a
head, so that its `num_descriptors` is the size of the returned descriptor set. -/
theorem admission_dedup (mem : Memory) (pick : SequentialParser → Nat) (G : Grammar)
    (w : List String) (t : List Descriptor) (q : SequentialParser)
    (h : LoopHead mem pick { SequentialParser.fresh G with input := w } t q) :
    t.Pairwise (fun a b => Descriptor.eq a b = false) ∧
    q.descriptor_set = t ∧
    (∀ x ∈ q.worklist, set_count Descriptor.eq q.descriptor_set x = false) ∧
    q.num_descriptors = t.length ∧
    (∀ fuel p2, while_loop mem pick fuel q = Except.ok (some p2) →
      p2.num_descriptors = p2.descriptor_set.length ∧
      p2.descriptor_set.Pairwise (fun a b => Descriptor.eq a b = false)) ∧
    (∀ fuel p2, parse mem pick fuel (SequentialParser.fresh G) w = Except.ok (some p2) →
      (∃ t2, LoopHead mem pick { SequentialParser.fresh G with input := w } t2 p2) ∧
      p2.num_descriptors = p2.descriptor_set.length ∧
      p2.descriptor_set.Pairwise (fun a b => Descriptor.eq a b = false)) := by
  have hfacts := loop_head_facts mem pick _ (inv_fresh mem G w) rfl rfl
  obtain ⟨hq, hset, hn, hpair⟩ := hfacts t q h
  refine ⟨hpair, hset, fun x hx => ?_, hn, fun fuel p2 hrun => ?_, fun fuel p2 hrun => ?_⟩
  · cases hc : set_count Descriptor.eq q.descriptor_set x
    · rfl
    · exact absurd ((set_count_plain _ _ (fun y hy => hq.plain y (Or.inr hy))
        (hq.plain _ (Or.inl hx))).1 hc) (hq.disjoint x hx)
  · obtain ⟨t2, ht2, -⟩ := while_loop_loop_head mem pick _ fuel t q p2 h hrun
    obtain ⟨-, hset2, hn2, hpair2⟩ := hfacts t2 p2 ht2
    exact ⟨hn2.trans (by rw [hset2]), hset2 ▸ hpair2⟩
  · obtain ⟨t2, ht2, -⟩ := while_loop_loop_head mem pick _ fuel []
      (SequentialParser.loop_entry { SequentialParser.fresh G with input := w }) p2
      LoopHead.entry hrun
    obtain ⟨-, hset2, hn2, hpair2⟩ := hfacts t2 p2 ht2
    exact ⟨⟨t2, ht2⟩, hn2.trans (by rw [hset2]), hset2 ▸ hpair2⟩

/-- Witness for C12: the head of the loop after the first iteration for `S ::= a` on
the input `a`. -/
theorem admission_dedup_witness :
    ∃ q, LoopHead Memory.strict (fun _ => 0)
        { SequentialParser.fresh single_terminal with input := ["a"] }
        [Descriptor.make "S" ["a"] 0 0 0] q ∧
      q.descriptor_set = [Descriptor.make "S" ["a"] 0 0 0] ∧ q.num_descriptors = 1 :=
  ⟨_, LoopHead.iteration [] _ _ (Descriptor.make "S" ["a"] 0 0 0) [] LoopHead.entry rfl rfl,
    (admission_dedup Memory.strict (fun _ => 0) single_terminal ["a"]
      [Descriptor.make "S" ["a"] 0 0 0] _
      (LoopHead.iteration [] _ _ (Descriptor.make "S" ["a"] 0 0 0) [] LoopHead.entry
        rfl rfl)).2.1,
    (admission_dedup Memory.strict (fun _ => 0) single_terminal ["a"]
      [Descriptor.make "S" ["a"] 0 0 0] _
      (LoopHead.iteration [] _ _ (Descriptor.make "S" ["a"] 0 0 0) [] LoopHead.entry
        rfl rfl)).2.2.2.1⟩

end CDS

namespace CDS

/-! ## The line that ends the grammar file -/

theorem read_lines_append_stop (pre : List (List String)) (line : List String)
    (post : List (List String)) (hpre : ∀ l ∈ pre, l.headD "" ≠ "")
    (hline : line.headD "" = "") (g : Grammar) (rhs : List String) :
    read_lines (pre ++ line :: post) g rhs = read_lines pre g rhs := by
  induction pre generalizing g rhs with
  | nil =>
    rw [List.nil_append, read_lines_cons_stop line post g rhs hline]
    rfl
  | cons l ls ih =>
    have hl : l.headD "" ≠ "" := hpre l (List.mem_cons_self _ _)
    rw [List.cons_append, read_lines_cons_go l _ g rhs hl, read_lines_cons_go l ls g rhs hl]
    exact ih (fun x hx => hpre x (List.mem_cons_of_mem _ hx)) _ _

theorem parsed_lines_append_stop (pre : List (List String)) (line : List String)
    (post : List (List String)) (hpre : ∀ l ∈ pre, l.headD "" ≠ "")
    (hline : line.headD "" = "") : parsed_lines (pre ++ line :: post) = pre := by
  induction pre with
  | nil => exact parsed_lines_cons_stop line post hline
  | cons l ls ih =>
    have hl : l.headD "" ≠ "" := hpre l (List.mem_cons_self _ _)
    rw [List.cons_append, parsed_lines_cons_go l _ hl,
      ih (fun x hx => hpre x (List.mem_cons_of_mem _ hx))]

/-- C21. A line with no tokens ends grammar reading: when `line` is the first line whose
first token is empty, `get_grammar` on the whole file returns the grammar it returns
for the lines before `line` alone, and the parsed lines are those lines. -/
theorem blank_line_ends_reading (pre : List (List String)) (line : List String)
    (post : List (List String)) (hpre : ∀ l ∈ pre, l.headD "" ≠ "")
    (hline : line.headD "" = "") :
    get_grammar (pre ++ line :: post) = get_grammar pre ∧
    parsed_lines (pre ++ line :: post) = pre := by
  refine ⟨?_, parsed_lines_append_stop pre line post hpre hline⟩
  unfold get_grammar
  rw [read_lines_append_stop pre line post hpre hline]

/-- Witness for C21: the file with the line `S a`, an empty line and the line `T b`. -/
theorem blank_line_ends_reading_witness :
    get_grammar ([["S", "a"]] ++ [] :: [["T", "b"]]) = get_grammar [["S", "a"]] ∧
    (get_grammar [["S", "a"], [], ["T", "b"]]).nonterminals = ["S"] :=
  ⟨(blank_line_ends_reading [["S", "a"]] [] [["T", "b"]] (by decide) rfl).1, by decide⟩

end CDS

namespace CDS

open SequentialParser

/-! ## What the checker demands -/

theorem check_if_exists_descriptor_correct (st : CheckerState) (d : Descriptor)
    (S : descriptor_set_t) :
    ((check_if_exists_descriptor st d S).1.is_correct = true ↔
      st.is_correct = true ∧ set_count Descriptor.eq S d = true) ∧
    (check_if_exists_descriptor st d S).2 = set_count Descriptor.eq S d := by
  unfold check_if_exists_descriptor
  cases h : set_count Descriptor.eq S d <;> simp

theorem check_if_exists_epn_correct (st : CheckerState) (e : EPN) (E : epn_set_t) :
    ((check_if_exists_epn st e E).1.is_correct = true ↔
      st.is_correct = true ∧ set_count EPN.eq E e = true) ∧
    (check_if_exists_epn st e E).2 = set_count EPN.eq E e := by
  unfold check_if_exists_epn
  cases h : set_count EPN.eq E e <;> simp

theorem check_start_rules_correct (G : Grammar) (S : descriptor_set_t)
    (rules : List production_rule_t) (st : CheckerState) :
    (check_start_rules G S rules st).is_correct = true ↔
      st.is_correct = true ∧ ∀ rule ∈ rules,
        set_count Descriptor.eq S (Descriptor.make G.start_symbol rule.2 0 0 0) = true := by
  induction rules generalizing st with
  | nil => simp [check_start_rules]
  | cons rule rest ih =>
    unfold check_start_rules
    rw [ih, (check_if_exists_descriptor_correct st _ S).1]
    simp only [List.mem_cons, forall_eq_or_imp]
    tauto

theorem check_rules_correct (symbol : String) (R : Nat) (S : descriptor_set_t)
    (rules : List production_rule_t) (st : CheckerState) :
    (check_rules symbol R S rules st).is_correct = true ↔
      st.is_correct = true ∧ ∀ rule ∈ rules,
        set_count Descriptor.eq S (Descriptor.make symbol rule.2 0 R R) = true := by
  induction rules generalizing st with
  | nil => simp [check_rules]
  | cons rule rest ih =>
    unfold check_rules
    rw [ih, (check_if_exists_descriptor_correct st _ S).1]
    simp only [List.mem_cons, forall_eq_or_imp]
    tauto

theorem check_neighbours_correct (descriptor : Descriptor) (symbol : String)
    (S : descriptor_set_t) (E : epn_set_t) (l : List Descriptor) (st : CheckerState) :
    (check_neighbours descriptor symbol S E l st).is_correct = true ↔
      st.is_correct = true ∧ ∀ d ∈ l, d.lhs = symbol → d.is_completed = true →
        d.left_extent = descriptor.right_extent →
        set_count Descriptor.eq S
          { descriptor.copy_and_advance with right_extent := d.right_extent } = true ∧
        set_count EPN.eq E
          (EPN.of_descriptor_pivot
            { descriptor.copy_and_advance with right_extent := d.right_extent }
            descriptor.right_extent) = true := by
  induction l generalizing st with
  | nil => simp [check_neighbours]
  | cons d rest ih =>
    unfold check_neighbours
    split
    · rename_i hc
      simp only [Bool.and_eq_true, beq_iff_eq] at hc
      simp only []
      rw [ih, (check_if_exists_epn_correct _ _ E).1,
        (check_if_exists_descriptor_correct st _ S).1]
      simp only [List.mem_cons, forall_eq_or_imp]
      constructor
      · rintro ⟨⟨⟨h1, h2⟩, h3⟩, h4⟩
        exact ⟨h1, fun _ _ _ => ⟨h2, h3⟩, h4⟩
      · rintro ⟨h1, h2, h4⟩
        obtain ⟨h2, h3⟩ := h2 hc.1.1 hc.1.2 hc.2
        exact ⟨⟨⟨h1, h2⟩, h3⟩, h4⟩
    · rename_i hc
      simp only [Bool.and_eq_true, beq_iff_eq] at hc
      rw [ih]
      simp only [List.mem_cons, forall_eq_or_imp]
      constructor
      · rintro ⟨h1, h4⟩
        exact ⟨h1, fun a b c => absurd ⟨⟨a, b⟩, c⟩ hc, h4⟩
      · rintro ⟨h1, -, h4⟩
        exact ⟨h1, h4⟩

theorem check_unmatched_correct (G : Grammar) (S : descriptor_set_t) (E : epn_set_t)
    (descriptor : Descriptor) (symbol : String) (st : CheckerState) :
    (check_unmatched G S E descriptor symbol st).is_correct = true ↔
      st.is_correct = true ∧
      (∀ β, (symbol, β) ∈ G.production_rules →
        set_count Descriptor.eq S
          (Descriptor.make symbol β 0 descriptor.right_extent descriptor.right_extent)
          = true) ∧
      (∀ d ∈ S, d.lhs = symbol → d.is_completed = true →
        d.left_extent = descriptor.right_extent →
        set_count Descriptor.eq S
          { descriptor.copy_and_advance with right_extent := d.right_extent } = true ∧
        set_count EPN.eq E
          (EPN.of_descriptor_pivot
            { descriptor.copy_and_advance with right_extent := d.right_extent }
            descriptor.right_extent) = true) := by
  unfold check_unmatched
  simp only []
  rw [check_neighbours_correct, check_rules_correct]
  have hrules : (∀ rule ∈ G.get_production_rules symbol,
      set_count Descriptor.eq S
        (Descriptor.make symbol rule.2 0 descriptor.right_extent descriptor.right_extent)
        = true) ↔
      ∀ β, (symbol, β) ∈ G.production_rules →
        set_count Descriptor.eq S
          (Descriptor.make symbol β 0 descriptor.right_extent descriptor.right_extent)
          = true := by
    constructor
    · intro h β hβ
      exact h (symbol, β) ((mem_get_production_rules G symbol _).2 ⟨hβ, rfl⟩)
    · intro h rule hr
      rw [mem_get_production_rules] at hr
      exact h rule.2 (by rw [← hr.2]; exact hr.1)
  rw [hrules]
  tauto

/-- When the checker is still content after a descriptor, it was content before, and
the descriptor meets the requirements. -/
theorem check_descriptor_correct (mem : Memory) (G : Grammar) (w : List String)
    (S : descriptor_set_t) (E : epn_set_t) (d : Descriptor) (st st2 : CheckerState)
    (h : check_descriptor mem G w S E d st = Except.ok st2)
    (hc : st2.is_correct = true) :
    st.is_correct = true ∧ RequirementsAt G w S E d := by
  unfold check_descriptor at h
  have hadv : ∀ r, Descriptor.eq
      ({ d.copy_and_advance with right_extent := r } : Descriptor)
      (Descriptor.make d.lhs d.rhs (d.dot_position + 1) d.left_extent r) = true := by
    intro r
    rw [Descriptor.eq_iff_fields]
    exact ⟨rfl, rfl, rfl, rfl, rfl⟩
  by_cases hcomp : d.is_completed = true
  · simp only [hcomp, Bool.not_true, Bool.false_eq_true, if_false] at h
    have hnone := get?_eq_none_of_completed d hcomp
    have hno : ∀ (a : String), d.rhs[d.dot_position]? = some a → False := by
      intro a ha
      rw [hnone] at ha
      cases ha
    by_cases hem : d.is_empty = true
    · rw [if_pos hem] at h
      injection h with h
      subst h
      obtain ⟨h1, h2⟩ := (check_if_exists_epn_correct st _ E).1.1 hc
      exact ⟨h1, ⟨fun a ha => (hno a ha).elim, fun X hX => (hno X hX).elim,
        fun X hX => (hno X hX).elim, fun _ _ => h2⟩⟩
    · rw [if_neg hem] at h
      injection h with h
      subst h
      exact ⟨hc, ⟨fun a ha => (hno a ha).elim, fun X hX => (hno X hX).elim,
        fun X hX => (hno X hX).elim, fun _ h2 => absurd h2 hem⟩⟩
  · have hcomp0 : d.is_completed = false := by simpa using hcomp
    simp only [hcomp0, Bool.not_false, if_true] at h
    cases hn : d.get_next_symbol with
    | error f => rw [hn] at h; cases h
    | ok symbol =>
      rw [hn] at h
      simp only [] at h
      have hget : d.rhs[d.dot_position]? = some symbol := (get_next_symbol_eq_ok d symbol).1 hn
      have hsym : ∀ X, d.rhs[d.dot_position]? = some X → X = symbol := by
        intro X hX
        rw [hget] at hX
        exact (Option.some.inj hX).symm
      have hP3 : d.is_completed = true → d.is_empty = true →
          set_count EPN.eq E (EPN.of_descriptor d) = true := fun h1 => absurd h1 hcomp
      have hunmatched : ∀ st0 : CheckerState,
          (check_unmatched G S E d symbol st0).is_correct = true →
          st0.is_correct = true ∧
          (∀ X, d.rhs[d.dot_position]? = some X →
            ∀ β, (X, β) ∈ G.production_rules →
            set_count Descriptor.eq S
              (Descriptor.make X β 0 d.right_extent d.right_extent) = true) ∧
          (∀ X, d.rhs[d.dot_position]? = some X →
            ∀ d0 ∈ S, d0.is_completed = true → d0.lhs = X →
            d0.left_extent = d.right_extent →
            set_count Descriptor.eq S
              (Descriptor.make d.lhs d.rhs (d.dot_position + 1) d.left_extent
                d0.right_extent) = true ∧
            set_count EPN.eq E
              { lhs := d.lhs, rhs := d.rhs, dot_position := d.dot_position + 1,
                left_extent := d.left_extent, pivot := d.right_extent,
                right_extent := d0.right_extent } = true) := by
        intro st0 h0
        obtain ⟨h1, h2, h3⟩ := (check_unmatched_correct G S E d symbol st0).1 h0
        refine ⟨h1, fun X hX β hβ => ?_, fun X hX d0 hd0 hc0 hl0 he0 => ?_⟩
        · rw [hsym X hX] at hβ ⊢
          exact h2 β hβ
        · obtain ⟨g1, g2⟩ := h3 d0 hd0 (hl0.trans (hsym X hX)) hc0 he0
          exact ⟨(set_count_descriptor_congr S _ _ (hadv d0.right_extent)).symm.trans g1, g2⟩
      by_cases ht : symbol ∈ G.terminals
      · rw [if_pos ht] at h
        have hnt : ∀ X, d.rhs[d.dot_position]? = some X → X ∉ G.terminals → False :=
          fun X hX hXn => hXn (hsym X hX ▸ ht)
        cases hread : vector_index mem w d.right_extent with
        | error f => rw [hread] at h; cases h
        | ok x =>
          rw [hread] at h
          simp only [] at h
          by_cases hmatch : (symbol == x) = true
          · rw [if_pos hmatch] at h
            obtain ⟨r1, r2⟩ := check_if_exists_descriptor_correct st
              ({ d.copy_and_advance with
                right_extent := d.copy_and_advance.right_extent + 1 } : Descriptor) S
            by_cases hr : (check_if_exists_descriptor st
                ({ d.copy_and_advance with
                  right_extent := d.copy_and_advance.right_extent + 1 } : Descriptor) S).2
                = true
            · rw [if_pos hr] at h
              injection h with h
              subst h
              obtain ⟨e1, e2⟩ := (check_if_exists_epn_correct _ _ E).1.1 hc
              obtain ⟨s1, s2⟩ := r1.1 e1
              refine ⟨s1, ⟨fun a _ _ _ => ⟨?_, e2⟩, fun X hX hXn => (hnt X hX hXn).elim,
                fun X hX hXn => (hnt X hX hXn).elim, hP3⟩⟩
              exact (set_count_descriptor_congr S _ _ (hadv (d.right_extent + 1))).symm.trans s2
            · rw [if_neg hr] at h
              injection h with h
              subst h
              obtain ⟨-, s2⟩ := r1.1 hc
              exact absurd (r2.trans s2) hr
          · rw [if_neg hmatch] at h
            injection h with h
            subst h
            obtain ⟨h1, -, -⟩ := hunmatched st hc
            refine ⟨h1, ⟨fun a ha _ hw => ?_, fun X hX hXn => (hnt X hX hXn).elim,
              fun X hX hXn => (hnt X hX hXn).elim, hP3⟩⟩
            rw [vector_index_of_get? mem w _ _ hw] at hread
            injection hread with hread
            rw [hsym a ha] at hread
            exact absurd (by simpa using hread) hmatch
      · rw [if_neg ht] at h
        injection h with h
        subst h
        obtain ⟨h1, h2, h3⟩ := hunmatched st hc
        exact ⟨h1, ⟨fun a ha hat => absurd (hsym a ha ▸ hat) ht,
          fun X hX _ => h2 X hX, fun X hX _ => h3 X hX, hP3⟩⟩

theorem check_descriptors_correct (mem : Memory) (G : Grammar) (w : List String)
    (S : descriptor_set_t) (E : epn_set_t) (l : List Descriptor) (st st2 : CheckerState)
    (h : check_descriptors mem G w S E l st = Except.ok st2)
    (hc : st2.is_correct = true) :
    st.is_correct = true ∧ ∀ d ∈ l, RequirementsAt G w S E d := by
  induction l generalizing st with
  | nil =>
    simp only [check_descriptors, Except.ok.injEq] at h
    subst h
    exact ⟨hc, fun d hd => absurd hd (List.not_mem_nil d)⟩
  | cons d rest ih =>
    unfold check_descriptors at h
    cases hd : check_descriptor mem G w S E d st with
    | error f => rw [hd] at h; cases h
    | ok st1 =>
      rw [hd] at h
      simp only [] at h
      obtain ⟨h1, h2⟩ := ih st1 h
      obtain ⟨h3, h4⟩ := check_descriptor_correct mem G w S E d st st1 hd h1
      refine ⟨h3, fun x hx => ?_⟩
      rcases List.mem_cons.1 hx with h5 | h5
      · rw [h5]; exact h4
      · exact h2 x h5

/-- A call of `check_correctness` that returns true was made with `is_correct` true, on
a pair `(S, E)` that meets the requirements. -/
theorem check_correctness_correct (mem : Memory) (G : Grammar) (w : List String)
    (S : descriptor_set_t) (E : epn_set_t) (st st2 : CheckerState)
    (h : check_correctness mem st S E G w = Except.ok (st2, true)) :
    st.is_correct = true ∧ Requirements G w S E := by
  unfold check_correctness at h
  simp only [] at h
  cases hd : check_descriptors mem G w S E S
      (check_start_rules G S (G.get_production_rules G.start_symbol) st) with
  | error f => rw [hd] at h; cases h
  | ok st1 =>
    rw [hd] at h
    simp only [Except.ok.injEq, Prod.mk.injEq] at h
    obtain ⟨h1, h2⟩ := check_descriptors_correct mem G w S E S _ st1 hd h.2
    obtain ⟨h3, h4⟩ := (check_start_rules_correct G S _ st).1 h1
    refine ⟨h3, ?_⟩
    exact
      { R1 := fun β hβ =>
          h4 (G.start_symbol, β) ((mem_get_production_rules G _ _).2 ⟨hβ, rfl⟩)
        R2_P1 := fun d hd => (h2 d hd).R2_P1
        R3 := fun d hd => (h2 d hd).R3
        R4_P2 := fun d hd => (h2 d hd).R4_P2
        P3 := fun d hd => (h2 d hd).P3 }

/-- With the dot inside the rule and the read inside the input, the checker returns
from a descriptor. -/
theorem check_descriptor_returns (mem : Memory) (G : Grammar) (w : List String)
    (S : descriptor_set_t) (E : epn_set_t) (d : Descriptor) (st : CheckerState)
    (hdot : d.dot_position ≤ d.rhs.length)
    (hread : ∀ a, d.rhs[d.dot_position]? = some a → a ∈ G.terminals →
      d.right_extent < w.length) :
    ∃ st2, check_descriptor mem G w S E d st = Except.ok st2 := by
  unfold check_descriptor
  by_cases hcomp : d.is_completed = true
  · simp only [hcomp, Bool.not_true, Bool.false_eq_true, if_false]
    split
    · exact ⟨_, rfl⟩
    · exact ⟨_, rfl⟩
  · have hcomp0 : d.is_completed = false := by simpa using hcomp
    simp only [hcomp0, Bool.not_false, if_true]
    have hlt : d.dot_position < d.rhs.length := by
      have h2 : d.dot_position ≠ d.rhs.length := by
        simpa [Descriptor.is_completed] using hcomp0
      omega
    have hget : d.rhs[d.dot_position]? = some (d.rhs[d.dot_position]) :=
      List.getElem?_eq_getElem hlt
    rw [(get_next_symbol_eq_ok d _).2 hget]
    simp only []
    by_cases ht : d.rhs[d.dot_position] ∈ G.terminals
    · rw [if_pos ht]
      have hR := hread _ hget ht
      rw [vector_index_of_get? mem w _ _ (List.getElem?_eq_getElem hR)]
      simp only []
      split
      · split
        · exact ⟨_, rfl⟩
        · exact ⟨_, rfl⟩
      · exact ⟨_, rfl⟩
    · rw [if_neg ht]
      exact ⟨_, rfl⟩

theorem check_descriptors_returns (mem : Memory) (G : Grammar) (w : List String)
    (S : descriptor_set_t) (E : epn_set_t) (l : List Descriptor) (st : CheckerState)
    (hdot : ∀ d ∈ l, d.dot_position ≤ d.rhs.length)
    (hread : ∀ d ∈ l, ∀ a, d.rhs[d.dot_position]? = some a → a ∈ G.terminals →
      d.right_extent < w.length) :
    ∃ st2, check_descriptors mem G w S E l st = Except.ok st2 := by
  induction l generalizing st with
  | nil => exact ⟨st, rfl⟩
  | cons d rest ih =>
    obtain ⟨st1, h1⟩ := check_descriptor_returns mem G w S E d st
      (hdot d (List.mem_cons_self _ _)) (hread d (List.mem_cons_self _ _))
    unfold check_descriptors
    rw [h1]
    exact ih st1 (fun x hx => hdot x (List.mem_cons_of_mem _ hx))
      (fun x hx => hread x (List.mem_cons_of_mem _ hx))

theorem check_correctness_returns (mem : Memory) (G : Grammar) (w : List String)
    (S : descriptor_set_t) (E : epn_set_t) (st : CheckerState)
    (hdot : ∀ d ∈ S, d.dot_position ≤ d.rhs.length)
    (hreads : ∀ i ∈ checker_reads G S, i < w.length) :
    ∃ st2 b, check_correctness mem st S E G w = Except.ok (st2, b) := by
  unfold check_correctness
  simp only []
  obtain ⟨st1, h1⟩ := check_descriptors_returns mem G w S E S
    (check_start_rules G S (G.get_production_rules G.start_symbol) st) hdot
    (fun d hd a ha hat => by
      apply hreads
      unfold checker_reads
      refine List.mem_map_of_mem _ (List.mem_filter.2 ⟨hd, ?_⟩)
      rw [ha]
      simpa using hat)
  rw [h1]
  exact ⟨_, _, rfl⟩

end CDS

namespace CDS

open SequentialParser

/-! ## Claims on the checker -/

/-- C24. The checker keeps its verdict between calls: `check_correctness` returns the
global `is_correct`, which a call sets to false and no call sets back to true. A call
made after one that returned false returns false on every argument; for `S ::= a` and
the input `a`, the output of the engine is accepted by a first call and rejected by
a call that follows a call on the empty sets. -/
theorem checker_keeps_verdict :
    (∀ (mem : Memory) (st st2 : CheckerState) (S : descriptor_set_t) (E : epn_set_t)
      (G : Grammar) (w : List String) (b : Bool), st.is_correct = false →
      check_correctness mem st S E G w = Except.ok (st2, b) → b = false) ∧
    ∃ st1 p2,
      check_correctness Memory.strict CheckerState.initial [] [] single_terminal ["a"] =
        Except.ok (st1, false) ∧
      st1 ≠ CheckerState.initial ∧
      parse Memory.strict (fun _ => 0) 5 (SequentialParser.fresh single_terminal) ["a"] =
        Except.ok (some p2) ∧
      check_correctness Memory.strict CheckerState.initial p2.descriptor_set p2.epn_set
        single_terminal ["a"] = Except.ok (CheckerState.initial, true) ∧
      ∃ st2, check_correctness Memory.strict st1 p2.descriptor_set p2.epn_set
        single_terminal ["a"] = Except.ok (st2, false) := by
  refine ⟨fun mem st st2 S E G w b hst h => ?_, _, _, rfl, ?_, rfl, rfl, _, rfl⟩
  · cases b
    · rfl
    · have := (check_correctness_correct mem G w S E st st2 h).1
      rw [hst] at this
      cases this
  · intro h
    have h2 := congrArg CheckerState.is_correct h
    exact absurd h2 (by decide)

end CDS

namespace CDS

open SequentialParser

/-! ## Running the loop again -/

theorem add_to_worklist_of_count (p : SequentialParser) (d : Descriptor)
    (h : set_count Descriptor.eq p.descriptor_set d = true) : p.add_to_worklist d = p := by
  simp [add_to_worklist, h]

theorem extend_worklist_of_count (p : SequentialParser) (rules : List production_rule_t)
    (l r : Nat)
    (h : ∀ rule ∈ rules,
      set_count Descriptor.eq p.descriptor_set (Descriptor.make rule.1 rule.2 0 l r) = true) :
    p.extend_worklist rules l r = p := by
  unfold extend_worklist
  induction rules with
  | nil => rfl
  | cons rule rest ih =>
    rw [List.foldl_cons, add_to_worklist_of_count p _ (h rule (List.mem_cons_self _ _))]
    exact ih (fun x hx => h x (List.mem_cons_of_mem _ hx))

theorem while_loop_nil (mem : Memory) (pick : SequentialParser → Nat) (fuel : Nat)
    (p : SequentialParser) (h : p.worklist = []) :
    while_loop mem pick fuel p = Except.ok (some p) := by
  cases fuel with
  | zero => simp [while_loop, h]
  | succ n =>
    unfold while_loop
    rw [h]

/-- C25. Re-run idempotence: when `parse(w)` on a fresh parser has returned, the
parser holds every start descriptor in its descriptor set, so a second `parse(w)` on
it enters the loop with an empty worklist, processes no descriptor, and returns the
same descriptor set and EPN set; only the action counters are reset. -/
theorem rerun_idempotent (mem : Memory) (pick : SequentialParser → Nat) (fuel : Nat)
    (G : Grammar) (w : List String) (p2 : SequentialParser)
    (h : parse mem pick fuel (SequentialParser.fresh G) w = Except.ok (some p2)) :
    (SequentialParser.loop_entry { p2 with input := w }).worklist = [] ∧
    ∀ (mem2 : Memory) (pick2 : SequentialParser → Nat) (fuel2 : Nat),
      parse mem2 pick2 fuel2 p2 w =
        Except.ok (some
          { p2 with num_ascend := 0, num_descend := 0, num_match := 0, num_skip := 0 }) ∧
      ∃ p3, parse mem2 pick2 fuel2 p2 w = Except.ok (some p3) ∧ p3.result = p2.result ∧
        p3.num_descriptors = p2.num_descriptors := by
  unfold parse at h
  obtain ⟨-, hstart, hW, hin, hg⟩ := loop_inv mem pick fuel _ p2 (inv_fresh mem G w) h
  have e1 : ({ p2 with input := w } : SequentialParser) = p2 := by
    have hin2 : p2.input = w := hin
    rw [← hin2]
  have hcount : ∀ rule ∈ p2.grammar.get_production_rules p2.grammar.start_symbol,
      set_count Descriptor.eq p2.descriptor_set (Descriptor.make rule.1 rule.2 0 0 0) = true := by
    intro rule hr
    rw [mem_get_production_rules] at hr
    have hk := hstart rule.2 (by rw [← hr.2]; exact hr.1)
    rw [known_iff_of_worklist_nil p2 hW] at hk
    rw [hr.2]
    exact set_count_of_mem _ _ hk
  have hentry : SequentialParser.loop_entry p2 =
      { p2 with num_ascend := 0, num_descend := 0, num_match := 0, num_skip := 0 } := by
    unfold SequentialParser.loop_entry
    exact extend_worklist_of_count
      { p2 with num_ascend := 0, num_descend := 0, num_match := 0, num_skip := 0 } _ 0 0 hcount
  have hrun : ∀ (mem2 : Memory) (pick2 : SequentialParser → Nat) (fuel2 : Nat),
      parse mem2 pick2 fuel2 p2 w =
        Except.ok (some
          { p2 with num_ascend := 0, num_descend := 0, num_match := 0, num_skip := 0 }) := by
    intro mem2 pick2 fuel2
    show while_loop mem2 pick2 fuel2 (SequentialParser.loop_entry { p2 with input := w }) = _
    rw [e1, hentry]
    exact while_loop_nil mem2 pick2 fuel2 _ hW
  refine ⟨?_, fun mem2 pick2 fuel2 => ⟨hrun mem2 pick2 fuel2, _, hrun mem2 pick2 fuel2, rfl, rfl⟩⟩
  rw [e1, hentry]
  exact hW

/-- Witness for C25: `S ::= a` on the input `a`, parsed twice. -/
theorem rerun_idempotent_witness :
    ∃ p2, parse Memory.strict (fun _ => 0) 5 (SequentialParser.fresh single_terminal) ["a"] =
        Except.ok (some p2) ∧
      ∃ p3, parse Memory.strict (fun _ => 0) 0 p2 ["a"] = Except.ok (some p3) ∧
        p3.result = p2.result :=
  ⟨_, rfl, _,
    ((rerun_idempotent Memory.strict (fun _ => 0) 5 single_terminal ["a"] _ rfl).2
      Memory.strict (fun _ => 0) 0).1, rfl⟩

end CDS

namespace CDS

open SequentialParser

/-! ## Runs with one descriptor in the worklist -/

theorem begin_singleton (pick : SequentialParser → Nat) (p : SequentialParser)
    (x : Descriptor) : begin_ pick p x [] = x := by
  simp [begin_, Nat.mod_one]

theorem while_loop_singleton (mem : Memory) (pick : SequentialParser → Nat) (n : Nat)
    (p q : SequentialParser) (x : Descriptor) (hW : p.worklist = [x])
    (hb : loop_body mem p x = Except.ok q) :
    while_loop mem pick (n + 1) p = while_loop mem pick n q := by
  rw [while_loop, hW]
  simp only [begin_singleton, hb]

/-! ## The empty input -/

theorem match_empty_input (mem mem2 : Memory) (p : SequentialParser) (d : Descriptor)
    (h : p.input = []) : match_ mem p d = match_ mem2 p d := by
  unfold match_
  simp only []
  cases d.get_next_symbol with
  | error f => rfl
  | ok a => simp [h]

theorem process_descriptor_empty_input (mem mem2 : Memory) (p : SequentialParser)
    (d : Descriptor) (h : p.input = []) :
    process_descriptor mem p d = process_descriptor mem2 p d := by
  unfold process_descriptor
  rw [match_empty_input mem mem2 p d h]

theorem loop_body_empty_input (mem mem2 : Memory) (p : SequentialParser) (d : Descriptor)
    (h : p.input = []) : loop_body mem p d = loop_body mem2 p d := by
  unfold loop_body
  simp only []
  rw [process_descriptor_empty_input mem mem2
    { p with descriptor_set := set_insert Descriptor.eq p.descriptor_set d } d h]

theorem loop_body_input (mem : Memory) (p q : SequentialParser) (d : Descriptor)
    (h : loop_body mem p d = Except.ok q) : q.input = p.input := by
  unfold loop_body at h
  simp only [] at h
  cases hproc : process_descriptor mem
      { p with descriptor_set := set_insert Descriptor.eq p.descriptor_set d } d with
  | error f => rw [hproc] at h; cases h
  | ok p2 =>
    rw [hproc] at h
    simp only [] at h
    injection h with h
    subst h
    exact (process_descriptor_extends mem _ p2 d hproc).input_eq

theorem while_loop_empty_input (mem mem2 : Memory) (pick : SequentialParser → Nat)
    (fuel : Nat) :
    ∀ p : SequentialParser, p.input = [] →
      while_loop mem pick fuel p = while_loop mem2 pick fuel p := by
  induction fuel with
  | zero => intro p _; rfl
  | succ n ih =>
    intro p h
    unfold while_loop
    cases hW : p.worklist with
    | nil => rfl
    | cons x xs =>
      simp only []
      rw [loop_body_empty_input mem mem2 p _ h]
      cases hb : loop_body mem2 p (begin_ pick p x xs) with
      | error f => rfl
      | ok q =>
        simp only []
        exact ih q ((loop_body_input mem2 p q _ hb).trans h)

/-- On the empty input no read of the input is made: the run is the same for every
memory, and it returns. -/
theorem parse_empty_input_returns (mem : Memory) (pick : SequentialParser → Nat)
    (fuel : Nat) (G : Grammar) (hfuel : (descriptor_universe G []).card < fuel) :
    ∃ p2, parse mem pick fuel (SequentialParser.fresh G) [] = Except.ok (some p2) := by
  obtain ⟨s, hs⟩ := Infinite.exists_not_mem_finset G.terminals.toFinset
  have hs2 : s ∉ G.terminals := fun h => hs (List.mem_toFinset.2 h)
  obtain ⟨p2, h2, -⟩ := parse_fresh_returns (Memory.const s) pick fuel G []
    (fun _ => ⟨s, rfl⟩)
    (fun i a h => by
      have : a = s := by
        simp only [Memory.const, Except.ok.injEq] at h
        exact h.symm
      rw [this]
      exact hs2)
    hfuel
  refine ⟨p2, ?_⟩
  rw [← h2]
  exact while_loop_empty_input mem (Memory.const s) pick fuel
    (SequentialParser.loop_entry { SequentialParser.fresh G with input := [] })
    (loop_start_extends { SequentialParser.fresh G with input := [] }).input_eq

/-! ## Scenarios -/

/-- C26. Scenario, single terminal: for `S ::= a` and the input `a`, every run with
fuel for two iterations returns, whatever the scheduler and the memory past the
input, with `S = {(S,[a],0,0,0), (S,[a],1,0,1)}` and `E = {(S,[a],1,0,0,1)}`; the
completed start descriptor `(S,[a],1,0,1)` spans the input, and the input is a
sentence of the grammar. -/
theorem scenario_single_terminal (mem : Memory) (pick : SequentialParser → Nat) (n : Nat) :
    parse mem pick (n + 2) (SequentialParser.fresh single_terminal) ["a"] =
      Except.ok (some
        { input := ["a"]
          grammar := single_terminal
          worklist := []
          descriptor_set := [Descriptor.make "S" ["a"] 0 0 0, Descriptor.make "S" ["a"] 1 0 1]
          epn_set := [{ lhs := "S", rhs := ["a"], dot_position := 1, left_extent := 0,
                        pivot := 0, right_extent := 1 }]
          num_descriptors := 2
          num_match := 1
          num_descend := 0
          num_ascend := 1
          num_skip := 0 }) ∧
    (Descriptor.make "S" ["a"] 1 0 1).is_completed = true ∧
    (Descriptor.make "S" ["a"] 1 0 1).lhs = single_terminal.start_symbol ∧
    (Descriptor.make "S" ["a"] 1 0 1).left_extent = 0 ∧
    (Descriptor.make "S" ["a"] 1 0 1).right_extent = ["a"].length ∧
    single_terminal.Derivable ["a"] :=
  ⟨(while_loop_singleton mem pick (n + 1)
      (SequentialParser.loop_entry { SequentialParser.fresh single_terminal with input := ["a"] })
      { input := ["a"]
        grammar := single_terminal
        worklist := [Descriptor.make "S" ["a"] 1 0 1]
        descriptor_set := [Descriptor.make "S" ["a"] 0 0 0]
        epn_set := [{ lhs := "S", rhs := ["a"], dot_position := 1, left_extent := 0,
                      pivot := 0, right_extent := 1 }]
        num_descriptors := 1
        num_match := 1
        num_descend := 0
        num_ascend := 0
        num_skip := 0 }
      (Descriptor.make "S" ["a"] 0 0 0) rfl rfl).trans
      ((while_loop_singleton mem pick n
        { input := ["a"]
          grammar := single_terminal
          worklist := [Descriptor.make "S" ["a"] 1 0 1]
          descriptor_set := [Descriptor.make "S" ["a"] 0 0 0]
          epn_set := [{ lhs := "S", rhs := ["a"], dot_position := 1, left_extent := 0,
                        pivot := 0, right_extent := 1 }]
          num_descriptors := 1
          num_match := 1
          num_descend := 0
          num_ascend := 0
          num_skip := 0 }
        { input := ["a"]
          grammar := single_terminal
          worklist := []
          descriptor_set := [Descriptor.make "S" ["a"] 0 0 0, Descriptor.make "S" ["a"] 1 0 1]
          epn_set := [{ lhs := "S", rhs := ["a"], dot_position := 1, left_extent := 0,
                        pivot := 0, right_extent := 1 }]
          num_descriptors := 2
          num_match := 1
          num_descend := 0
          num_ascend := 1
          num_skip := 0 }
        (Descriptor.make "S" ["a"] 1 0 1) rfl rfl).trans
        (while_loop_nil mem pick n _ rfl)),
    rfl, rfl, rfl, rfl,
    Relation.ReflTransGen.single
      (Grammar.Produces.rewrite [] [] "S" ["a"] (List.mem_singleton.2 rfl)),
    fun t ht => by
      rw [List.mem_singleton.1 ht]
      exact List.mem_singleton.2 rfl⟩

/-- C27. Scenario, empty production on the empty input: for `S ::= ε` and the empty
input, every run with fuel for one iteration returns with `S = {(S,[],0,0,0)}` and
`E = {(S,[],0,0,0,0)}`. For every grammar and the empty input, a run with enough fuel
returns, whatever the scheduler and the memory; and when the grammar has a rule
`start ::= ε`, the returned descriptor set holds `(start, [], 0, 0, 0)`, which is
completed and spans the input. -/
theorem scenario_empty_production (mem : Memory) (pick : SequentialParser → Nat)
    (n fuel : Nat) (G : Grammar) :
    parse mem pick (n + 1) (SequentialParser.fresh empty_rule) [] =
      Except.ok (some
        { input := []
          grammar := empty_rule
          worklist := []
          descriptor_set := [Descriptor.make "S" [] 0 0 0]
          epn_set := [{ lhs := "S", rhs := [], dot_position := 0, left_extent := 0,
                        pivot := 0, right_extent := 0 }]
          num_descriptors := 1
          num_match := 0
          num_descend := 0
          num_ascend := 1
          num_skip := 0 }) ∧
    ((descriptor_universe G []).card < fuel →
      ∃ p2, parse mem pick fuel (SequentialParser.fresh G) [] = Except.ok (some p2)) ∧
    (∀ p2, parse mem pick fuel (SequentialParser.fresh G) [] = Except.ok (some p2) →
      (G.start_symbol, []) ∈ G.production_rules →
      Descriptor.make G.start_symbol [] 0 0 0 ∈ p2.descriptor_set) ∧
    (Descriptor.make G.start_symbol [] 0 0 0).is_completed = true ∧
    (Descriptor.make G.start_symbol [] 0 0 0).right_extent = ([] : List String).length := by
  refine ⟨?_, parse_empty_input_returns mem pick fuel G, fun p2 h hrule => ?_, rfl, rfl⟩
  · exact (while_loop_singleton mem pick n
      (SequentialParser.loop_entry { SequentialParser.fresh empty_rule with input := [] })
      { input := []
        grammar := empty_rule
        worklist := []
        descriptor_set := [Descriptor.make "S" [] 0 0 0]
        epn_set := [{ lhs := "S", rhs := [], dot_position := 0, left_extent := 0,
                      pivot := 0, right_extent := 0 }]
        num_descriptors := 1
        num_match := 0
        num_descend := 0
        num_ascend := 1
        num_skip := 0 }
      (Descriptor.make "S" [] 0 0 0) rfl rfl).trans (while_loop_nil mem pick n _ rfl)
  · unfold parse at h
    obtain ⟨-, hs, hW, -, hg⟩ := loop_inv mem pick fuel _ p2 (inv_fresh mem G []) h
    have hg2 : p2.grammar = G := hg
    have hk := hs [] (by rw [hg2]; exact hrule)
    rw [hg2] at hk
    exact (known_iff_of_worklist_nil p2 hW _).1 hk

/-- C30. Scenario, non-match: for `S ::= a` and the input `b`, every run with fuel for
one iteration returns with `S = {(S,[a],0,0,0)}` and `E = ∅`; no descriptor of `S` is
completed, and `b` is no sentence of the grammar. In general, `match` on a descriptor
whose next symbol is a terminal, at a position where the input holds a token that is
not a terminal, only counts the call: it offers no descriptor and inserts no EPN. -/
theorem scenario_non_match (mem : Memory) (pick : SequentialParser → Nat) (n : Nat)
    (p : SequentialParser) (d : Descriptor) (X b : String) :
    parse mem pick (n + 1) (SequentialParser.fresh single_terminal) ["b"] =
      Except.ok (some
        { input := ["b"]
          grammar := single_terminal
          worklist := []
          descriptor_set := [Descriptor.make "S" ["a"] 0 0 0]
          epn_set := []
          num_descriptors := 1
          num_match := 1
          num_descend := 0
          num_ascend := 0
          num_skip := 0 }) ∧
    (Descriptor.make "S" ["a"] 0 0 0).is_completed = false ∧
    ¬ single_terminal.Derivable ["b"] ∧
    (d.rhs[d.dot_position]? = some X → X ∈ p.grammar.terminals →
      p.input[d.right_extent]? = some b → b ∉ p.grammar.terminals →
      match_ mem p d = Except.ok { p with num_match := p.num_match + 1 } ∧
      process_descriptor mem p d = Except.ok { p with num_match := p.num_match + 1 }) := by
  refine ⟨?_, rfl, fun h => ?_, fun hX hterm hb hnt => ?_⟩
  · exact (while_loop_singleton mem pick n
      (SequentialParser.loop_entry { SequentialParser.fresh single_terminal with input := ["b"] })
      { input := ["b"]
        grammar := single_terminal
        worklist := []
        descriptor_set := [Descriptor.make "S" ["a"] 0 0 0]
        epn_set := []
        num_descriptors := 1
        num_match := 1
        num_descend := 0
        num_ascend := 0
        num_skip := 0 }
      (Descriptor.make "S" ["a"] 0 0 0) rfl rfl).trans (while_loop_nil mem pick n _ rfl)
  · have := h.2 "b" (List.mem_singleton.2 rfl)
    exact absurd this (by decide)
  · have hmatch : match_ mem p d = Except.ok { p with num_match := p.num_match + 1 } := by
      unfold match_
      rw [(get_next_symbol_eq_ok d X).2 hX]
      simp only [vector_index_of_get? mem _ _ _ hb]
      have hne : (X == b) = false := by
        rw [beq_eq_false_iff_ne]
        intro he
        exact hnt (he ▸ hterm)
      simp [hne]
    refine ⟨hmatch, ?_⟩
    unfold process_descriptor
    rw [not_completed_of_get? d X hX, (get_next_symbol_eq_ok d X).2 hX]
    simp only [Bool.not_false, if_true, hterm]
    exact hmatch

/-- Witness for C27: the rule `S ::= ε` of the grammar `S ::= ε`, on the empty input. -/
theorem scenario_empty_production_witness :
    ∃ p2, parse Memory.strict (fun _ => 0) 3 (SequentialParser.fresh empty_rule) [] =
        Except.ok (some p2) ∧
      Descriptor.make "S" [] 0 0 0 ∈ p2.descriptor_set :=
  ⟨_, rfl, (scenario_empty_production Memory.strict (fun _ => 0) 0 3 empty_rule).2.2.1 _ rfl
    (by decide)⟩

/-- Witness for C30: `match` on the start descriptor of `S ::= a` with the input `b`. -/
theorem scenario_non_match_witness :
    match_ Memory.strict { SequentialParser.fresh single_terminal with input := ["b"] }
        (Descriptor.make "S" ["a"] 0 0 0) =
      Except.ok { SequentialParser.fresh single_terminal with input := ["b"], num_match := 1 } :=
  ((scenario_non_match Memory.strict (fun _ => 0) 0
    { SequentialParser.fresh single_terminal with input := ["b"] }
    (Descriptor.make "S" ["a"] 0 0 0) "a" "b").2.2.2 rfl (by decide) rfl (by decide)).1

end CDS

namespace CDS

open SequentialParser

/-! ## The reads of the input made by a run that returns -/

theorem match_read_ok (mem : Memory) (p p2 : SequentialParser) (d : Descriptor) (a : String)
    (h : match_ mem p d = Except.ok p2) (ha : d.rhs[d.dot_position]? = some a)
    (hlen : p.input.length > 0) :
    ∃ x, vector_index mem p.input d.right_extent = Except.ok x := by
  unfold match_ at h
  rw [(get_next_symbol_eq_ok d a).2 ha] at h
  simp only [] at h
  rw [if_pos hlen] at h
  cases hread : vector_index mem p.input d.right_extent with
  | error f => rw [hread] at h; cases h
  | ok x => exact ⟨x, rfl⟩

theorem process_descriptor_read_ok (mem : Memory) (p p2 : SequentialParser) (d : Descriptor)
    (a : String) (h : process_descriptor mem p d = Except.ok p2)
    (ha : d.rhs[d.dot_position]? = some a) (hterm : a ∈ p.grammar.terminals)
    (hlen : p.input.length > 0) :
    ∃ x, vector_index mem p.input d.right_extent = Except.ok x := by
  unfold process_descriptor at h
  rw [not_completed_of_get? d a ha, (get_next_symbol_eq_ok d a).2 ha] at h
  simp only [Bool.not_false, if_true, hterm] at h
  exact match_read_ok mem p p2 d a h ha hlen

theorem loop_body_read_ok (mem : Memory) (p q : SequentialParser) (d : Descriptor)
    (a : String) (h : loop_body mem p d = Except.ok q)
    (ha : d.rhs[d.dot_position]? = some a) (hterm : a ∈ p.grammar.terminals)
    (hlen : p.input.length > 0) :
    ∃ x, vector_index mem p.input d.right_extent = Except.ok x := by
  unfold loop_body at h
  simp only [] at h
  cases hproc : process_descriptor mem
      { p with descriptor_set := set_insert Descriptor.eq p.descriptor_set d } d with
  | error f => rw [hproc] at h; cases h
  | ok p2 =>
    exact process_descriptor_read_ok mem
      { p with descriptor_set := set_insert Descriptor.eq p.descriptor_set d } p2 d a hproc ha
      hterm hlen

/-- In a run that returns, the read of the input made for each descriptor with a
terminal after the dot has not faulted. -/
theorem parse_reads_ok (mem : Memory) (pick : SequentialParser → Nat) (fuel : Nat)
    (G : Grammar) (w : List String) (p2 : SequentialParser)
    (h : parse mem pick fuel (SequentialParser.fresh G) w = Except.ok (some p2)) :
    ∀ d ∈ p2.descriptor_set, ∀ a, d.rhs[d.dot_position]? = some a → a ∈ G.terminals →
      w.length > 0 → ∃ x, vector_index mem w d.right_extent = Except.ok x := by
  unfold parse loop at h
  simp only [] at h
  have hext := loop_start_extends { SequentialParser.fresh G with input := w }
  obtain ⟨hinv1, -⟩ := inv_of_extends_start mem _ _ hext (inv_fresh mem G w)
  have key := while_loop_induction mem pick
    (fun q => Inv mem q ∧ q.input = w ∧ q.grammar = G ∧
      ∀ d ∈ q.descriptor_set, ∀ a, d.rhs[d.dot_position]? = some a → a ∈ G.terminals →
        w.length > 0 → ∃ x, vector_index mem w d.right_extent = Except.ok x)
    (fun q d q3 hq hd hb => by
      have hf := loop_body_facts mem q q3 d hq.1.plain hq.1.disjoint hd hb
      refine ⟨inv_step mem q q3 d hq.1 hd hf, hf.input_eq.trans hq.2.1,
        hf.grammar_eq.trans hq.2.2.1, fun x hx a ha hterm hlen => ?_⟩
      rw [hf.set_eq] at hx
      rcases List.mem_append.1 hx with h1 | h1
      · exact hq.2.2.2 x h1 a ha hterm hlen
      · rw [List.mem_singleton.1 h1]
        have := loop_body_read_ok mem q q3 d a hb (by rw [← List.mem_singleton.1 h1]; exact ha)
          (by rw [hq.2.2.1]; exact hterm) (by rw [hq.2.1]; exact hlen)
        rw [hq.2.1] at this
        exact this)
    fuel _ p2 h
    ⟨hinv1, hext.input_eq, hext.grammar_eq, fun d hd => by
      rw [hext.descriptor_set_eq] at hd
      exact absurd hd (List.not_mem_nil d)⟩
  exact key.1.2.2.2

theorem vector_index_strict (w : List String) (i : Nat) (x : String)
    (h : vector_index Memory.strict w i = Except.ok x) : i < w.length := by
  by_contra hge
  unfold vector_index at h
  rw [List.getElem?_eq_none (Nat.le_of_not_lt hge)] at h
  cases h

/-- When every read past the end of the input is a fault, a run returns only if no
descriptor that it reaches has a terminal after the dot at the end of the input or
beyond. -/
theorem strict_run_in_bounds (pick : SequentialParser → Nat) (fuel : Nat)
    (G : Grammar) (w : List String) (p2 : SequentialParser)
    (hstart : G.start_symbol ∉ G.terminals)
    (h : parse Memory.strict pick fuel (SequentialParser.fresh G) w = Except.ok (some p2))
    (d : Descriptor) (hd : Reach G w Memory.strict d) (a : String)
    (ha : d.rhs[d.dot_position]? = some a) (hterm : a ∈ G.terminals)
    (hlen : w.length > 0) : d.right_extent < w.length := by
  obtain ⟨hS, -⟩ := parse_fresh_characterisation Memory.strict pick fuel G w p2 hstart h
  obtain ⟨x, hx⟩ := parse_reads_ok Memory.strict pick fuel G w p2 h d ((hS d).2 hd) a ha hterm
    hlen
  exact vector_index_strict w _ x hx

/-! ## The left-recursive scenario -/

/-- The descriptors reached for `S ::= S a | a` on the input `a a a`, whatever a read
past the end of the input yields. -/
theorem reach_left_recursive (mem : Memory) :
    Reach left_recursive ["a", "a", "a"] mem (Descriptor.make "S" ["S", "a"] 2 0 3) ∧
    Reach left_recursive ["a", "a", "a"] mem (Descriptor.make "S" ["S", "a"] 1 0 3) := by
  have s1 : Reach left_recursive ["a", "a", "a"] mem (Descriptor.make "S" ["S", "a"] 0 0 0) :=
    Reach.start ["S", "a"] (by decide)
  have s2 : Reach left_recursive ["a", "a", "a"] mem (Descriptor.make "S" ["a"] 0 0 0) :=
    Reach.start ["a"] (by decide)
  have c1 : Reach left_recursive ["a", "a", "a"] mem (Descriptor.make "S" ["a"] 1 0 1) :=
    Reach.by_match _ _ s2 ⟨"a", rfl, by decide, by decide, rfl, rfl⟩
  have d1 : Reach left_recursive ["a", "a", "a"] mem (Descriptor.make "S" ["S", "a"] 1 0 1) :=
    Reach.by_skip _ _ _ s1 c1 ⟨"S", rfl, by decide, rfl, rfl, rfl, rfl⟩
  have e2 : Reach left_recursive ["a", "a", "a"] mem (Descriptor.make "S" ["S", "a"] 2 0 2) :=
    Reach.by_match _ _ d1 ⟨"a", rfl, by decide, by decide, rfl, rfl⟩
  have d2 : Reach left_recursive ["a", "a", "a"] mem (Descriptor.make "S" ["S", "a"] 1 0 2) :=
    Reach.by_skip _ _ _ s1 e2 ⟨"S", rfl, by decide, rfl, rfl, rfl, rfl⟩
  have e3 : Reach left_recursive ["a", "a", "a"] mem (Descriptor.make "S" ["S", "a"] 2 0 3) :=
    Reach.by_match _ _ d2 ⟨"a", rfl, by decide, by decide, rfl, rfl⟩
  exact ⟨e3, Reach.by_skip _ _ _ s1 e3 ⟨"S", rfl, by decide, rfl, rfl, rfl, rfl⟩⟩

/-- C28. Scenario, left recursion: for `S ::= S a | a` and the input `a a a`, the
engine processes `(S, [S,a], 1, 0, 3)` and evaluates `input[3]`. When that read is a
fault the run that picks the first worklist element ends there in its eighth
iteration, and no run returns, whatever the scheduler and the fuel. Every run that
returns holds `(S, [S,a], 2, 0, 3)` in its descriptor set, and runs return when the
reads past the end neither fault nor yield a terminal. -/
theorem scenario_left_recursion :
    (∀ n, parse Memory.strict (fun _ => 0) (n + 8) (SequentialParser.fresh left_recursive)
      ["a", "a", "a"] = Except.error (Fault.undefined_read 3)) ∧
    (∀ pick fuel p2, parse Memory.strict pick fuel (SequentialParser.fresh left_recursive)
      ["a", "a", "a"] ≠ Except.ok (some p2)) ∧
    (∀ mem pick fuel p2, parse mem pick fuel (SequentialParser.fresh left_recursive)
      ["a", "a", "a"] = Except.ok (some p2) →
      Descriptor.make "S" ["S", "a"] 2 0 3 ∈ p2.descriptor_set) ∧
    (∀ (mem : Memory) pick fuel, mem.NoFault → mem.NoTerminal left_recursive →
      (descriptor_universe left_recursive ["a", "a", "a"]).card < fuel →
      ∃ p2, parse mem pick fuel (SequentialParser.fresh left_recursive) ["a", "a", "a"] =
          Except.ok (some p2) ∧
        Descriptor.make "S" ["S", "a"] 2 0 3 ∈ p2.descriptor_set) := by
  have hin : ∀ mem pick fuel p2, parse mem pick fuel (SequentialParser.fresh left_recursive)
      ["a", "a", "a"] = Except.ok (some p2) →
      Descriptor.make "S" ["S", "a"] 2 0 3 ∈ p2.descriptor_set := by
    intro mem pick fuel p2 h
    obtain ⟨hS, -⟩ := parse_fresh_characterisation mem pick fuel left_recursive
      ["a", "a", "a"] p2 (by decide) h
    exact (hS _).2 (reach_left_recursive mem).1
  refine ⟨fun n => rfl, fun pick fuel p2 h => ?_, hin, fun mem pick fuel hf hm hfuel => ?_⟩
  · have := strict_run_in_bounds pick fuel left_recursive ["a", "a", "a"] p2 (by decide) h
      (Descriptor.make "S" ["S", "a"] 1 0 3) (reach_left_recursive Memory.strict).2 "a" rfl
      (by decide) (by decide)
    exact absurd this (by decide)
  · obtain ⟨p2, h2, -⟩ := parse_fresh_returns mem pick fuel left_recursive ["a", "a", "a"]
      hf hm hfuel
    exact ⟨p2, h2, hin mem pick fuel p2 h2⟩

/-! ## The ambiguous scenario -/

/-- The descriptors reached for `E ::= E E | a` on the input `a a a`, whatever a read
past the end of the input yields. -/
theorem reach_ambiguous (mem : Memory) :
    Reach ambiguous ["a", "a", "a"] mem (Descriptor.make "E" ["E", "E"] 1 0 1) ∧
    Reach ambiguous ["a", "a", "a"] mem (Descriptor.make "E" ["E", "E"] 2 1 3) ∧
    Reach ambiguous ["a", "a", "a"] mem (Descriptor.make "E" ["E", "E"] 1 0 2) ∧
    Reach ambiguous ["a", "a", "a"] mem (Descriptor.make "E" ["a"] 1 2 3) ∧
    Reach ambiguous ["a", "a", "a"] mem (Descriptor.make "E" ["a"] 0 3 3) := by
  have s1 : Reach ambiguous ["a", "a", "a"] mem (Descriptor.make "E" ["E", "E"] 0 0 0) :=
    Reach.start ["E", "E"] (by decide)
  have s2 : Reach ambiguous ["a", "a", "a"] mem (Descriptor.make "E" ["a"] 0 0 0) :=
    Reach.start ["a"] (by decide)
  have a01 : Reach ambiguous ["a", "a", "a"] mem (Descriptor.make "E" ["a"] 1 0 1) :=
    Reach.by_match _ _ s2 ⟨"a", rfl, by decide, by decide, rfl, rfl⟩
  have d01 : Reach ambiguous ["a", "a", "a"] mem (Descriptor.make "E" ["E", "E"] 1 0 1) :=
    Reach.by_skip _ _ _ s1 a01 ⟨"E", rfl, by decide, rfl, rfl, rfl, rfl⟩
  have t1 : Reach ambiguous ["a", "a", "a"] mem (Descriptor.make "E" ["a"] 0 1 1) :=
    Reach.by_descend _ _ d01 ⟨"E", ["a"], rfl, by decide, by decide, rfl⟩
  have u1 : Reach ambiguous ["a", "a", "a"] mem (Descriptor.make "E" ["E", "E"] 0 1 1) :=
    Reach.by_descend _ _ d01 ⟨"E", ["E", "E"], rfl, by decide, by decide, rfl⟩
  have a12 : Reach ambiguous ["a", "a", "a"] mem (Descriptor.make "E" ["a"] 1 1 2) :=
    Reach.by_match _ _ t1 ⟨"a", rfl, by decide, by decide, rfl, rfl⟩
  have d12 : Reach ambiguous ["a", "a", "a"] mem (Descriptor.make "E" ["E", "E"] 1 1 2) :=
    Reach.by_skip _ _ _ u1 a12 ⟨"E", rfl, by decide, rfl, rfl, rfl, rfl⟩
  have t2 : Reach ambiguous ["a", "a", "a"] mem (Descriptor.make "E" ["a"] 0 2 2) :=
    Reach.by_descend _ _ d12 ⟨"E", ["a"], rfl, by decide, by decide, rfl⟩
  have u2 : Reach ambiguous ["a", "a", "a"] mem (Descriptor.make "E" ["E", "E"] 0 2 2) :=
    Reach.by_descend _ _ d12 ⟨"E", ["E", "E"], rfl, by decide, by decide, rfl⟩
  have a23 : Reach ambiguous ["a", "a", "a"] mem (Descriptor.make "E" ["a"] 1 2 3) :=
    Reach.by_match _ _ t2 ⟨"a", rfl, by decide, by decide, rfl, rfl⟩
  have d23 : Reach ambiguous ["a", "a", "a"] mem (Descriptor.make "E" ["E", "E"] 1 2 3) :=
    Reach.by_skip _ _ _ u2 a23 ⟨"E", rfl, by decide, rfl, rfl, rfl, rfl⟩
  have t3 : Reach ambiguous ["a", "a", "a"] mem (Descriptor.make "E" ["a"] 0 3 3) :=
    Reach.by_descend _ _ d23 ⟨"E", ["a"], rfl, by decide, by decide, rfl⟩
  have c13 : Reach ambiguous ["a", "a", "a"] mem (Descriptor.make "E" ["E", "E"] 2 1 3) :=
    Reach.by_skip _ _ _ d12 a23 ⟨"E", rfl, by decide, rfl, rfl, rfl, rfl⟩
  have c02 : Reach ambiguous ["a", "a", "a"] mem (Descriptor.make "E" ["E", "E"] 2 0 2) :=
    Reach.by_skip _ _ _ d01 a12 ⟨"E", rfl, by decide, rfl, rfl, rfl, rfl⟩
  have d02 : Reach ambiguous ["a", "a", "a"] mem (Descriptor.make "E" ["E", "E"] 1 0 2) :=
    Reach.by_skip _ _ _ s1 c02 ⟨"E", rfl, by decide, rfl, rfl, rfl, rfl⟩
  exact ⟨d01, c13, d02, a23, t3⟩

/-- C29. Scenario, ambiguity: for `E ::= E E | a` and the input `a a a`, the engine
processes `(E, [a], 0, 3, 3)` and evaluates `input[3]`. When that read is a fault the
run that picks the first worklist element ends there in its twentieth iteration, and
no run returns, whatever the scheduler and the fuel. Every run that returns holds the
EPNs `(E,[E,E],2,0,1,3)` and `(E,[E,E],2,0,2,3)`, which differ in the pivot only, and
runs return when the reads past the end neither fault nor yield a terminal. -/
theorem scenario_ambiguous :
    (∀ n, parse Memory.strict (fun _ => 0) (n + 20) (SequentialParser.fresh ambiguous)
      ["a", "a", "a"] = Except.error (Fault.undefined_read 3)) ∧
    (∀ pick fuel p2, parse Memory.strict pick fuel (SequentialParser.fresh ambiguous)
      ["a", "a", "a"] ≠ Except.ok (some p2)) ∧
    (∀ mem pick fuel p2, parse mem pick fuel (SequentialParser.fresh ambiguous)
      ["a", "a", "a"] = Except.ok (some p2) →
      ({ lhs := "E", rhs := ["E", "E"], dot_position := 2, left_extent := 0, pivot := 1,
         right_extent := 3 } : EPN) ∈ p2.epn_set ∧
      ({ lhs := "E", rhs := ["E", "E"], dot_position := 2, left_extent := 0, pivot := 2,
         right_extent := 3 } : EPN) ∈ p2.epn_set) ∧
    (∀ (mem : Memory) pick fuel, mem.NoFault → mem.NoTerminal ambiguous →
      (descriptor_universe ambiguous ["a", "a", "a"]).card < fuel →
      ∃ p2, parse mem pick fuel (SequentialParser.fresh ambiguous) ["a", "a", "a"] =
          Except.ok (some p2)) := by
  refine ⟨fun n => rfl, fun pick fuel p2 h => ?_, fun mem pick fuel p2 h => ?_,
    fun mem pick fuel hf hm hfuel => ?_⟩
  · have := strict_run_in_bounds pick fuel ambiguous ["a", "a", "a"] p2 (by decide) h
      (Descriptor.make "E" ["a"] 0 3 3) (reach_ambiguous Memory.strict).2.2.2.2 "a" rfl
      (by decide) (by decide)
    exact absurd this (by decide)
  · obtain ⟨-, hE⟩ := parse_fresh_characterisation mem pick fuel ambiguous
      ["a", "a", "a"] p2 (by decide) h
    obtain ⟨d01, c13, d02, a23, -⟩ := reach_ambiguous mem
    constructor
    · exact (hE _).2 (Or.inr (Or.inl ⟨_, _, _, d01, c13,
        ⟨"E", rfl, by decide, rfl, rfl, rfl, rfl⟩, rfl⟩))
    · exact (hE _).2 (Or.inr (Or.inl ⟨_, _, _, d02, a23,
        ⟨"E", rfl, by decide, rfl, rfl, rfl, rfl⟩, rfl⟩))
  · obtain ⟨p2, h2, -⟩ := parse_fresh_returns mem pick fuel ambiguous ["a", "a", "a"]
      hf hm hfuel
    exact ⟨p2, h2⟩

end CDS

namespace CDS

open SequentialParser

/-! ## A rule added twice -/

theorem get_production_rules_add (G : Grammar) (A X : String) (β : List String) :
    (G.add_production_rule A β).get_production_rules X =
      G.get_production_rules X ++ (if A = X then [(A, β)] else []) := by
  unfold Grammar.get_production_rules Grammar.add_production_rule
  rw [List.filter_append]
  by_cases h : A = X
  · simp [h]
  · simp [h]

theorem set_insert_of_count {α : Type} (eq : α → α → Bool) (s : List α) (x : α)
    (h : set_count eq s x = true) : set_insert eq s x = s := by
  simp [set_insert, h]

/-- Offering a rule a second time changes nothing. -/
theorem extend_worklist_duplicate (p : SequentialParser) (rules : List production_rule_t)
    (rule : production_rule_t) (l r : Nat) (h : rule ∈ rules) :
    p.extend_worklist (rules ++ [rule]) l r = p.extend_worklist rules l r := by
  have hext := extend_worklist_extends p rules l r
  have hstep : p.extend_worklist (rules ++ [rule]) l r =
      (p.extend_worklist rules l r).add_to_worklist (Descriptor.make rule.1 rule.2 0 l r) := by
    unfold extend_worklist
    rw [List.foldl_append]
    rfl
  rw [hstep]
  rcases hext.worklist_complete _ ⟨rule, h, rfl⟩ with h1 | h1
  · apply add_to_worklist_of_count
    rw [hext.descriptor_set_eq]
    exact h1
  · unfold add_to_worklist
    split
    · rw [set_insert_of_count _ _ _ h1]
    · rfl

theorem add_to_worklist_with_grammar (p : SequentialParser) (g : Grammar) (d : Descriptor) :
    (p.with_grammar g).add_to_worklist d = (p.add_to_worklist d).with_grammar g := by
  unfold add_to_worklist SequentialParser.with_grammar
  split <;> rfl

theorem foldl_with_grammar {α : Type} (g : Grammar)
    (f : SequentialParser → α → SequentialParser)
    (hf : ∀ p a, f (p.with_grammar g) a = (f p a).with_grammar g) (l : List α) :
    ∀ p : SequentialParser, l.foldl f (p.with_grammar g) = (l.foldl f p).with_grammar g := by
  induction l with
  | nil => intro p; rfl
  | cons a rest ih =>
    intro p
    rw [List.foldl_cons, List.foldl_cons, hf, ih]

theorem extend_worklist_with_grammar (p : SequentialParser) (g : Grammar)
    (rules : List production_rule_t) (l r : Nat) :
    (p.with_grammar g).extend_worklist rules l r =
      (p.extend_worklist rules l r).with_grammar g := by
  induction rules generalizing p with
  | nil => rfl
  | cons rule rest ih =>
    show ((p.with_grammar g).add_to_worklist
        (Descriptor.make rule.1 rule.2 0 l r)).extend_worklist rest l r =
      ((p.add_to_worklist (Descriptor.make rule.1 rule.2 0 l r)).extend_worklist
        rest l r).with_grammar g
    rw [add_to_worklist_with_grammar]
    exact ih _

theorem offer_with_grammar (p : SequentialParser) (g : Grammar) (d : Descriptor) (e : EPN) :
    ({ (p.with_grammar g).add_to_worklist d with
        epn_set := set_insert EPN.eq ((p.with_grammar g).add_to_worklist d).epn_set e } :
      SequentialParser) =
    SequentialParser.with_grammar
      { p.add_to_worklist d with
        epn_set := set_insert EPN.eq (p.add_to_worklist d).epn_set e } g := by
  rw [add_to_worklist_with_grammar]
  rfl

theorem skip_with_grammar (p : SequentialParser) (g : Grammar) (d : Descriptor)
    (right_extents : List Nat) :
    (p.with_grammar g).skip d right_extents = (p.skip d right_extents).with_grammar g := by
  unfold skip
  exact foldl_with_grammar g _ (fun q r => offer_with_grammar q g _ _) right_extents
    { p with num_skip := p.num_skip + 1 }

theorem ascend_with_grammar (p : SequentialParser) (g : Grammar) (D : descriptor_set_t)
    (right_extent : Nat) :
    (p.with_grammar g).ascend D right_extent = (p.ascend D right_extent).with_grammar g := by
  unfold ascend
  exact foldl_with_grammar g _ (fun q r => offer_with_grammar q g _ _) D
    { p with num_ascend := p.num_ascend + 1 }

theorem match_with_grammar (mem : Memory) (p : SequentialParser) (g : Grammar)
    (d : Descriptor) :
    match_ mem (p.with_grammar g) d =
      (match_ mem p d).map (fun q => q.with_grammar g) := by
  unfold match_
  simp only []
  cases d.get_next_symbol with
  | error f => rfl
  | ok a =>
    simp only []
    by_cases hlen : p.input.length > 0
    · have hlen2 : (p.with_grammar g).input.length > 0 := hlen
      rw [if_pos hlen, if_pos hlen2]
      show (match vector_index mem p.input d.right_extent with
        | Except.error f => Except.error f
        | Except.ok x => _) = _
      cases vector_index mem p.input d.right_extent with
      | error f => rfl
      | ok x =>
        simp only []
        by_cases hax : (a == x) = true
        · rw [if_pos hax, if_pos hax]
          exact congrArg Except.ok
            (offer_with_grammar { p with num_match := p.num_match + 1 } g _ _)
        · rw [if_neg hax, if_neg hax]
          rfl
    · have hlen2 : ¬ (p.with_grammar g).input.length > 0 := hlen
      rw [if_neg hlen, if_neg hlen2]
      rfl

theorem extend_worklist_add_rule (p : SequentialParser) (G : Grammar) (A X : String)
    (β : List String) (l r : Nat) (h : (A, β) ∈ G.production_rules) :
    p.extend_worklist ((G.add_production_rule A β).get_production_rules X) l r =
      p.extend_worklist (G.get_production_rules X) l r := by
  rw [get_production_rules_add]
  by_cases hAX : A = X
  · rw [if_pos hAX]
    exact extend_worklist_duplicate p _ _ l r
      ((mem_get_production_rules G X _).2 ⟨h, hAX⟩)
  · rw [if_neg hAX, List.append_nil]

theorem descend_add_rule (p : SequentialParser) (A X : String) (β : List String)
    (pivot : Nat) (h : (A, β) ∈ p.grammar.production_rules) :
    (p.with_grammar (p.grammar.add_production_rule A β)).descend X pivot =
      (p.descend X pivot).with_grammar (p.grammar.add_production_rule A β) := by
  unfold descend
  show (SequentialParser.with_grammar { p with num_descend := p.num_descend + 1 }
      (p.grammar.add_production_rule A β)).extend_worklist
      ((p.grammar.add_production_rule A β).get_production_rules X) pivot pivot = _
  rw [extend_worklist_with_grammar, extend_worklist_add_rule _ _ _ _ _ _ _ h]

theorem process_descriptor_add_rule (mem : Memory) (p : SequentialParser) (A : String)
    (β : List String) (d : Descriptor) (h : (A, β) ∈ p.grammar.production_rules) :
    process_descriptor mem (p.with_grammar (p.grammar.add_production_rule A β)) d =
      (process_descriptor mem p d).map
        (fun q => q.with_grammar (p.grammar.add_production_rule A β)) := by
  unfold process_descriptor
  by_cases hcomp : d.is_completed = true
  · simp only [hcomp, Bool.not_true, Bool.false_eq_true, if_false]
    show (match collect_descriptors d p.descriptor_set [] with
      | Except.error f => Except.error f
      | Except.ok descriptors => _) = _
    cases collect_descriptors d p.descriptor_set [] with
    | error f => rfl
    | ok D =>
      simp only []
      rw [ascend_with_grammar]
      by_cases hem : d.is_empty = true
      · rw [if_pos hem, if_pos hem]
        rfl
      · rw [if_neg hem, if_neg hem]
        rfl
  · have hcomp0 : d.is_completed = false := by simpa using hcomp
    simp only [hcomp0, Bool.not_false, if_true]
    cases d.get_next_symbol with
    | error f => rfl
    | ok symbol =>
      simp only []
      by_cases hterm : symbol ∈ p.grammar.terminals
      · have hterm2 : symbol ∈
            (p.with_grammar (p.grammar.add_production_rule A β)).grammar.terminals := hterm
        rw [if_pos hterm, if_pos hterm2]
        exact match_with_grammar mem p _ d
      · have hterm2 : symbol ∉
            (p.with_grammar (p.grammar.add_production_rule A β)).grammar.terminals := hterm
        rw [if_neg hterm, if_neg hterm2]
        show (if (collect_right_extents symbol d.right_extent p.descriptor_set []).length == 0
          then _ else _) = _
        by_cases hlen :
            ((collect_right_extents symbol d.right_extent p.descriptor_set []).length == 0) = true
        · rw [if_pos hlen]
          simp only [hlen, if_true]
          exact congrArg Except.ok (descend_add_rule p A symbol β d.right_extent h)
        · rw [if_neg hlen]
          simp only [hlen, if_false]
          exact congrArg Except.ok (skip_with_grammar p _ _ _)

theorem loop_body_grammar (mem : Memory) (p q : SequentialParser) (d : Descriptor)
    (h : loop_body mem p d = Except.ok q) : q.grammar = p.grammar := by
  unfold loop_body at h
  simp only [] at h
  cases hproc : process_descriptor mem
      { p with descriptor_set := set_insert Descriptor.eq p.descriptor_set d } d with
  | error f => rw [hproc] at h; cases h
  | ok p2 =>
    rw [hproc] at h
    simp only [] at h
    injection h with h
    subst h
    exact (process_descriptor_extends mem _ p2 d hproc).grammar_eq

theorem loop_body_add_rule (mem : Memory) (p : SequentialParser) (A : String)
    (β : List String) (d : Descriptor) (h : (A, β) ∈ p.grammar.production_rules) :
    loop_body mem (p.with_grammar (p.grammar.add_production_rule A β)) d =
      (loop_body mem p d).map
        (fun q => q.with_grammar (p.grammar.add_production_rule A β)) := by
  have hp := process_descriptor_add_rule mem
    { p with descriptor_set := set_insert Descriptor.eq p.descriptor_set d } A β d h
  unfold loop_body
  simp only []
  show (match process_descriptor mem
      (SequentialParser.with_grammar
        { p with descriptor_set := set_insert Descriptor.eq p.descriptor_set d }
        (p.grammar.add_production_rule A β)) d with
    | Except.error f => Except.error f
    | Except.ok q => _) = _
  rw [hp]
  cases process_descriptor mem
      { p with descriptor_set := set_insert Descriptor.eq p.descriptor_set d } d with
  | error f => rfl
  | ok q => rfl

theorem while_loop_add_rule (mem : Memory) (pick : SequentialParser → Nat) (G : Grammar)
    (A : String) (β : List String) (hrule : (A, β) ∈ G.production_rules)
    (hpick : ∀ p g, pick (SequentialParser.with_grammar p g) = pick p) (fuel : Nat) :
    ∀ p : SequentialParser, p.grammar = G →
      while_loop mem pick fuel (p.with_grammar (G.add_production_rule A β)) =
        (while_loop mem pick fuel p).map
          (Option.map (fun q => q.with_grammar (G.add_production_rule A β))) := by
  induction fuel with
  | zero =>
    intro p _
    unfold while_loop
    have hw : (p.with_grammar (G.add_production_rule A β)).worklist = p.worklist := rfl
    rw [hw]
    split <;> rfl
  | succ n ih =>
    intro p hG
    unfold while_loop
    have hw : (p.with_grammar (G.add_production_rule A β)).worklist = p.worklist := rfl
    rw [hw]
    cases hW : p.worklist with
    | nil => rfl
    | cons x xs =>
      simp only []
      have hb : begin_ pick (p.with_grammar (G.add_production_rule A β)) x xs =
          begin_ pick p x xs := by
        unfold begin_
        rw [hpick]
      rw [hb]
      have hl := loop_body_add_rule mem p A β (begin_ pick p x xs) (by rw [hG]; exact hrule)
      rw [hG] at hl
      rw [hl]
      cases hq : loop_body mem p (begin_ pick p x xs) with
      | error f => rfl
      | ok q =>
        exact ih q ((loop_body_grammar mem p q _ hq).trans hG)

theorem parse_add_rule (mem : Memory) (pick : SequentialParser → Nat) (fuel : Nat)
    (G : Grammar) (A : String) (β : List String) (w : List String)
    (hrule : (A, β) ∈ G.production_rules)
    (hpick : ∀ p g, pick (SequentialParser.with_grammar p g) = pick p) :
    parse mem pick fuel (SequentialParser.fresh (G.add_production_rule A β)) w =
      (parse mem pick fuel (SequentialParser.fresh G) w).map
        (Option.map (fun q => q.with_grammar (G.add_production_rule A β))) := by
  unfold parse loop
  simp only []
  show while_loop mem pick fuel
    ((SequentialParser.with_grammar
      { input := w, grammar := G, worklist := [], descriptor_set := [], epn_set := [],
        num_descriptors := 0, num_match := 0, num_descend := 0, num_ascend := 0,
        num_skip := 0 }
      (G.add_production_rule A β)).extend_worklist
      ((G.add_production_rule A β).get_production_rules G.start_symbol) 0 0) = _
  rw [extend_worklist_with_grammar, extend_worklist_add_rule _ _ _ _ _ _ _ hrule]
  exact while_loop_add_rule mem pick G A β hrule hpick fuel _
    (loop_start_extends { SequentialParser.fresh G with input := w }).grammar_eq
/-- C22. Duplicate rules are absorbed: `add_production_rule` keeps a rule that is
already present, so that `get_production_rules(A)` lists it once more; yet the run on
the grammar with the second copy goes through the same states as the run on the
grammar itself when the scheduler does not look at the grammar, and returns the same
descriptor set and EPN set; and when the start symbol is no terminal, any two runs
that return, one on each grammar, give the same two sets. -/
theorem duplicate_rule_absorbed (mem : Memory) (pick pick2 : SequentialParser → Nat)
    (fuel fuel2 : Nat) (G : Grammar) (A : String) (β : List String) (w : List String)
    (hrule : (A, β) ∈ G.production_rules) :
    (G.add_production_rule A β).get_production_rules A =
      G.get_production_rules A ++ [(A, β)] ∧
    ((G.add_production_rule A β).get_production_rules A).count (A, β) =
      (G.get_production_rules A).count (A, β) + 1 ∧
    ((∀ p g, pick (SequentialParser.with_grammar p g) = pick p) →
      parse mem pick fuel (SequentialParser.fresh (G.add_production_rule A β)) w =
        (parse mem pick fuel (SequentialParser.fresh G) w).map
          (Option.map (fun q => q.with_grammar (G.add_production_rule A β))) ∧
      ∀ p1, parse mem pick fuel (SequentialParser.fresh G) w = Except.ok (some p1) →
        ∃ p2, parse mem pick fuel (SequentialParser.fresh (G.add_production_rule A β)) w =
            Except.ok (some p2) ∧ p2.result = p1.result) ∧
    (G.start_symbol ∉ G.terminals → ∀ p1 p2,
      parse mem pick fuel (SequentialParser.fresh G) w = Except.ok (some p1) →
      parse mem pick2 fuel2 (SequentialParser.fresh (G.add_production_rule A β)) w =
        Except.ok (some p2) →
      (∀ d, d ∈ p1.descriptor_set ↔ d ∈ p2.descriptor_set) ∧
      (∀ e, e ∈ p1.epn_set ↔ e ∈ p2.epn_set)) := by
  have hget : (G.add_production_rule A β).get_production_rules A =
      G.get_production_rules A ++ [(A, β)] := by
    rw [get_production_rules_add, if_pos rfl]
  refine ⟨hget, ?_, fun hpick => ?_, fun hstart p1 p2 h1 h2 => ?_⟩
  · rw [hget, List.count_append, List.count_singleton_self]
  · have hsim := parse_add_rule mem pick fuel G A β w hrule hpick
    refine ⟨hsim, fun p1 h1 => ?_⟩
    rw [h1] at hsim
    exact ⟨_, hsim, rfl⟩
  · have hr : ∀ r, r ∈ (G.add_production_rule A β).production_rules ↔
        r ∈ G.production_rules := by
      intro r
      show r ∈ G.production_rules ++ [(A, β)] ↔ _
      rw [List.mem_append, List.mem_singleton]
      constructor
      · rintro (h | h)
        · exact h
        · rw [h]; exact hrule
      · exact Or.inl
    have ht : ∀ s, s ∈ (G.add_production_rule A β).terminals ↔ s ∈ G.terminals :=
      fun _ => Iff.rfl
    obtain ⟨hS1, hE1⟩ := parse_fresh_characterisation mem pick fuel G w p1 hstart h1
    obtain ⟨hS2, hE2⟩ := parse_fresh_characterisation mem pick2 fuel2
      (G.add_production_rule A β) w p2 hstart h2
    have h12 : ∀ d, Reach G w mem d → Reach (G.add_production_rule A β) w mem d :=
      Reach.congr_grammar G _ w mem rfl ht hr
    have h21 : ∀ d, Reach (G.add_production_rule A β) w mem d → Reach G w mem d :=
      Reach.congr_grammar _ G w mem rfl (fun s => (ht s).symm) (fun r => (hr r).symm)
    constructor
    · intro d
      rw [hS1, hS2]
      exact ⟨h12 d, h21 d⟩
    · intro e
      rw [hE1, hE2]
      exact ⟨Emits.congr_emits G _ w mem _ _ h12 ht e,
        Emits.congr_emits _ G w mem _ _ h21 (fun s => (ht s).symm) e⟩

/-- Witness for C22: the rule `S ::= a` added a second time to the grammar `S ::= a`,
on the input `a`. -/
theorem duplicate_rule_absorbed_witness :
    (single_terminal.add_production_rule "S" ["a"]).get_production_rules "S" =
      [("S", ["a"]), ("S", ["a"])] ∧
    ∃ p1 p2,
      parse Memory.strict (fun _ => 0) 5 (SequentialParser.fresh single_terminal) ["a"] =
        Except.ok (some p1) ∧
      parse Memory.strict (fun _ => 0) 5
        (SequentialParser.fresh (single_terminal.add_production_rule "S" ["a"])) ["a"] =
        Except.ok (some p2) ∧
      p2.result = p1.result :=
  ⟨(duplicate_rule_absorbed Memory.strict (fun _ => 0) (fun _ => 0) 5 5 single_terminal
      "S" ["a"] ["a"] (by decide)).1,
    _, _, rfl,
    (((duplicate_rule_absorbed Memory.strict (fun _ => 0) (fun _ => 0) 5 5 single_terminal
      "S" ["a"] ["a"] (by decide)).2.2.1 (fun _ _ => rfl)).1).trans rfl, rfl⟩

end CDS

namespace CDS

/-! ## The drain step of the pool coordinator -/

theorem distribute_item_spec (N : Nat) (q : ThreadPoolParser) (item : Descriptor)
    (hlen : q.worklists.length = N) (hc : q.rr_thread_id < N) :
    ∃ l, q.worklists[q.rr_thread_id]? = some l ∧
      ThreadPoolParser.distribute_item N q item =
        Except.ok { q with
          worklists := q.worklists.set q.rr_thread_id (set_insert Descriptor.eq l item)
          rr_thread_id := (q.rr_thread_id + 1) % N } := by
  have h : q.rr_thread_id < q.worklists.length := by omega
  refine ⟨q.worklists[q.rr_thread_id], List.getElem?_eq_getElem h, ?_⟩
  unfold ThreadPoolParser.distribute_item
  rw [List.getElem?_eq_getElem h]

theorem distribute_spec (N : Nat) (hN : 0 < N) (items : List Descriptor) :
    ∀ q : ThreadPoolParser, q.worklists.length = N → q.rr_thread_id < N →
      ∃ q2, ThreadPoolParser.distribute N items q = Except.ok q2 ∧
        q2.worklists.length = N ∧
        q2.rr_thread_id = (q.rr_thread_id + items.length) % N ∧
        (q2.input = q.input ∧ q2.grammar = q.grammar ∧
          q2.descriptor_set = q.descriptor_set ∧ q2.epn_set = q.epn_set ∧
          q2.num_descriptors = q.num_descriptors ∧
          q2.global_worklist = q.global_worklist) ∧
        (∀ (i : Nat) (l : List Descriptor), q.worklists[i]? = some l →
          ∃ l2, q2.worklists[i]? = some l2 ∧ ∀ d ∈ l, d ∈ l2) ∧
        (∀ (j : Nat) (d : Descriptor), items[j]? = some d →
          ∃ l2, q2.worklists[(q.rr_thread_id + j) % N]? = some l2 ∧
            set_count Descriptor.eq l2 d = true) ∧
        (∀ (i : Nat) (l2 : List Descriptor), q2.worklists[i]? = some l2 → ∀ d ∈ l2,
          (∃ l, q.worklists[i]? = some l ∧ d ∈ l) ∨
            ∃ j, items[j]? = some d ∧ (q.rr_thread_id + j) % N = i) := by
  induction items with
  | nil =>
    intro q hlen hc
    refine ⟨q, rfl, hlen, ?_, ⟨rfl, rfl, rfl, rfl, rfl, rfl⟩, ?_, ?_, ?_⟩
    · simp [Nat.mod_eq_of_lt hc]
    · intro i l hl
      exact ⟨l, hl, fun d hd => hd⟩
    · intro j d hj
      simp at hj
    · intro i l2 hl2 d hd
      exact Or.inl ⟨l2, hl2, hd⟩
  | cons item rest ih =>
    intro q hlen hc
    obtain ⟨l, hl, h1⟩ := distribute_item_spec N q item hlen hc
    have hc1 : (q.rr_thread_id + 1) % N < N := Nat.mod_lt _ hN
    obtain ⟨q2, h2, hlen2, hrr2, hsame, hkeep, hput, hexact⟩ :=
      ih { q with
          worklists := q.worklists.set q.rr_thread_id (set_insert Descriptor.eq l item)
          rr_thread_id := (q.rr_thread_id + 1) % N }
        (by simp [hlen]) hc1
    have hcl : q.rr_thread_id < q.worklists.length := by omega
    have hstep : ∀ (i : Nat) (l1 : List Descriptor), q.worklists[i]? = some l1 →
        ∃ l2, (q.worklists.set q.rr_thread_id (set_insert Descriptor.eq l item))[i]? = some l2 ∧
          ∀ d ∈ l1, d ∈ l2 := by
      intro i l1 hl1
      by_cases hi : q.rr_thread_id = i
      · subst hi
        rw [hl] at hl1
        cases hl1
        exact ⟨_, by rw [List.getElem?_set_self hcl],
          fun d hd => mem_set_insert_of_mem Descriptor.eq l item d hd⟩
      · exact ⟨l1, by rw [List.getElem?_set_ne hi]; exact hl1, fun d hd => hd⟩
    refine ⟨q2, ?_, hlen2, ?_, hsame, ?_, ?_, ?_⟩
    · simp only [ThreadPoolParser.distribute, h1]
      exact h2
    · rw [hrr2]
      simp only [List.length_cons]
      rw [Nat.mod_add_mod]
      congr 1
      omega
    · intro i l1 hl1
      obtain ⟨l2, hl2, hsub⟩ := hstep i l1 hl1
      obtain ⟨l3, hl3, hsub3⟩ := hkeep i l2 hl2
      exact ⟨l3, hl3, fun d hd => hsub3 d (hsub d hd)⟩
    · intro j d hj
      cases j with
      | zero =>
        simp at hj
        subst hj
        obtain ⟨l3, hl3, hsub3⟩ := hkeep q.rr_thread_id (set_insert Descriptor.eq l item)
          (by simp only []; rw [List.getElem?_set_self hcl])
        refine ⟨l3, ?_, ?_⟩
        · rw [Nat.add_zero, Nat.mod_eq_of_lt hc]
          exact hl3
        · exact set_count_mono Descriptor.eq _ _ _ hsub3
            (set_count_insert_self Descriptor.eq Descriptor.eq_refl l item)
      | succ j =>
        simp at hj
        obtain ⟨l3, hl3, hc3⟩ := hput j d hj
        refine ⟨l3, ?_, hc3⟩
        have e : (q.rr_thread_id + (j + 1)) % N = ((q.rr_thread_id + 1) % N + j) % N := by
          rw [Nat.mod_add_mod]
          congr 1
          omega
        rw [e]
        exact hl3
    · intro i l2 hl2 d hd
      rcases hexact i l2 hl2 d hd with ⟨l1, hl1, hd1⟩ | ⟨j, hj, hji⟩
      · by_cases hi : q.rr_thread_id = i
        · subst hi
          simp only [] at hl1
          rw [List.getElem?_set_self hcl] at hl1
          cases hl1
          rcases (mem_set_insert Descriptor.eq l item d).1 hd1 with hm | ⟨hm, _⟩
          · exact Or.inl ⟨l, hl, hm⟩
          · refine Or.inr ⟨0, ?_, ?_⟩
            · simp [hm]
            · rw [Nat.add_zero, Nat.mod_eq_of_lt hc]
        · simp only [] at hl1
          rw [List.getElem?_set_ne hi] at hl1
          exact Or.inl ⟨l1, hl1, hd1⟩
      · refine Or.inr ⟨j + 1, ?_, ?_⟩
        · simpa using hj
        · rw [← hji, Nat.mod_add_mod]
          congr 1
          omega

/-- C31. One drain step of the coordinator of the pool engine, with `N` local queues
and the cursor `c < N`, returns; it leaves the global queue empty and the cursor at
`(c + m) mod N`, which is below `N`, for `m` items in the global queue; the item
`g_j` of the global queue is afterwards in the local queue `(c + j) mod N`; every
element of a local queue is still in it; a local queue holds nothing but what it
held and the items put into it; and the other variables are unchanged. -/
theorem pool_drain_step (N : Nat) (q : ThreadPoolParser)
    (hlen : q.worklists.length = N) (hc : q.rr_thread_id < N) :
    ∃ q2, ThreadPoolParser.drain N q = Except.ok q2 ∧
      q2.global_worklist = [] ∧
      q2.rr_thread_id = (q.rr_thread_id + q.global_worklist.length) % N ∧
      q2.rr_thread_id < N ∧
      q2.worklists.length = N ∧
      (∀ (j : Nat) (d : Descriptor), q.global_worklist[j]? = some d →
        ∃ l2, q2.worklists[(q.rr_thread_id + j) % N]? = some l2 ∧
          set_count Descriptor.eq l2 d = true) ∧
      (∀ (i : Nat) (l : List Descriptor), q.worklists[i]? = some l →
        ∃ l2, q2.worklists[i]? = some l2 ∧ ∀ d ∈ l, d ∈ l2) ∧
      (∀ (i : Nat) (l2 : List Descriptor), q2.worklists[i]? = some l2 → ∀ d ∈ l2,
        (∃ l, q.worklists[i]? = some l ∧ d ∈ l) ∨
          ∃ j, q.global_worklist[j]? = some d ∧ (q.rr_thread_id + j) % N = i) ∧
      q2.input = q.input ∧ q2.grammar = q.grammar ∧
      q2.descriptor_set = q.descriptor_set ∧ q2.epn_set = q.epn_set ∧
      q2.num_descriptors = q.num_descriptors := by
  have hN : 0 < N := by omega
  obtain ⟨q2, h2, hlen2, hrr2, ⟨hi, hg, hd, he, hn, _⟩, hkeep, hput, hexact⟩ :=
    distribute_spec N hN q.global_worklist q hlen hc
  refine ⟨{ q2 with global_worklist := [] }, ?_, rfl, hrr2, ?_, hlen2, hput, hkeep, hexact,
    hi, hg, hd, he, hn⟩
  · simp only [ThreadPoolParser.drain, h2]
  · rw [hrr2]
    exact Nat.mod_lt _ hN

theorem pool_drain_step_witness :
    (drain_example.worklists.length = NUM_THREADS ∧
      drain_example.rr_thread_id < NUM_THREADS) ∧
    ∃ q2, ThreadPoolParser.drain NUM_THREADS drain_example = Except.ok q2 ∧
      q2.global_worklist = [] ∧
      q2.rr_thread_id =
        (drain_example.rr_thread_id + drain_example.global_worklist.length) % NUM_THREADS ∧
      q2.rr_thread_id < NUM_THREADS ∧
      q2.worklists.length = NUM_THREADS ∧
      (∀ (j : Nat) (d : Descriptor), drain_example.global_worklist[j]? = some d →
        ∃ l2, q2.worklists[(drain_example.rr_thread_id + j) % NUM_THREADS]? = some l2 ∧
          set_count Descriptor.eq l2 d = true) ∧
      (∀ (i : Nat) (l : List Descriptor), drain_example.worklists[i]? = some l →
        ∃ l2, q2.worklists[i]? = some l2 ∧ ∀ d ∈ l, d ∈ l2) ∧
      (∀ (i : Nat) (l2 : List Descriptor), q2.worklists[i]? = some l2 → ∀ d ∈ l2,
        (∃ l, drain_example.worklists[i]? = some l ∧ d ∈ l) ∨
          ∃ j, drain_example.global_worklist[j]? = some d ∧
            (drain_example.rr_thread_id + j) % NUM_THREADS = i) ∧
      q2.input = drain_example.input ∧ q2.grammar = drain_example.grammar ∧
      q2.descriptor_set = drain_example.descriptor_set ∧
      q2.epn_set = drain_example.epn_set ∧
      q2.num_descriptors = drain_example.num_descriptors :=
  ⟨⟨rfl, by decide⟩, pool_drain_step NUM_THREADS drain_example rfl (by decide)⟩

end CDS

namespace CDS

open SequentialParser

/-! ## The processing step of the pool engine -/

theorem of_sequential_to_sequential (q : ThreadPoolParser) :
    q.of_sequential q.to_sequential = q := rfl

theorem pool_add_to_worklist (base : ThreadPoolParser) (p : SequentialParser)
    (d : Descriptor) :
    (base.of_sequential p).add_to_worklist d = base.of_sequential (p.add_to_worklist d) := by
  unfold ThreadPoolParser.add_to_worklist SequentialParser.add_to_worklist
    ThreadPoolParser.of_sequential
  simp only []
  split <;> rfl

theorem pool_foldl {α : Type} (base : ThreadPoolParser)
    (f : ThreadPoolParser → α → ThreadPoolParser)
    (g : SequentialParser → α → SequentialParser)
    (hf : ∀ p a, f (base.of_sequential p) a = base.of_sequential (g p a)) (l : List α) :
    ∀ p : SequentialParser,
      l.foldl f (base.of_sequential p) = base.of_sequential (l.foldl g p) := by
  induction l with
  | nil => intro p; rfl
  | cons a rest ih =>
    intro p
    rw [List.foldl_cons, List.foldl_cons, hf, ih]

theorem pool_extend_worklist (base : ThreadPoolParser) (p : SequentialParser)
    (rules : List production_rule_t) (l r : Nat) :
    (base.of_sequential p).extend_worklist rules l r =
      base.of_sequential (p.extend_worklist rules l r) := by
  induction rules generalizing p with
  | nil => rfl
  | cons rule rest ih =>
    show ((base.of_sequential p).add_to_worklist
        (Descriptor.make rule.1 rule.2 0 l r)).extend_worklist rest l r =
      base.of_sequential ((p.add_to_worklist (Descriptor.make rule.1 rule.2 0 l r)).extend_worklist
        rest l r)
    rw [pool_add_to_worklist]
    exact ih _

theorem pool_offer (base : ThreadPoolParser) (p : SequentialParser) (d : Descriptor)
    (e : EPN) :
    ({ (base.of_sequential p).add_to_worklist d with
        epn_set := set_insert EPN.eq ((base.of_sequential p).add_to_worklist d).epn_set e } :
      ThreadPoolParser) =
    base.of_sequential
      { p.add_to_worklist d with
        epn_set := set_insert EPN.eq (p.add_to_worklist d).epn_set e } := by
  rw [pool_add_to_worklist]
  rfl

theorem pool_descend (base : ThreadPoolParser) (p : SequentialParser) (symbol : String)
    (pivot : Nat) :
    (base.of_sequential p).descend symbol pivot =
      base.of_sequential (p.descend symbol pivot) := by
  unfold ThreadPoolParser.descend SequentialParser.descend
  exact pool_extend_worklist base { p with num_descend := p.num_descend + 1 } _ pivot pivot

theorem pool_skip (base : ThreadPoolParser) (p : SequentialParser) (d : Descriptor)
    (right_extents : List Nat) :
    (base.of_sequential p).skip d right_extents =
      base.of_sequential (p.skip d right_extents) := by
  unfold ThreadPoolParser.skip SequentialParser.skip
  exact pool_foldl base _ _ (fun q r => pool_offer base q _ _) right_extents
    { p with num_skip := p.num_skip + 1 }

theorem pool_ascend (base : ThreadPoolParser) (p : SequentialParser)
    (D : descriptor_set_t) (right_extent : Nat) :
    (base.of_sequential p).ascend D right_extent =
      base.of_sequential (p.ascend D right_extent) := by
  unfold ThreadPoolParser.ascend SequentialParser.ascend
  exact pool_foldl base _ _ (fun q r => pool_offer base q _ _) D
    { p with num_ascend := p.num_ascend + 1 }

theorem pool_match (mem : Memory) (base : ThreadPoolParser) (p : SequentialParser)
    (d : Descriptor) :
    ThreadPoolParser.match_ mem (base.of_sequential p) d =
      (SequentialParser.match_ mem p d).map base.of_sequential := by
  unfold ThreadPoolParser.match_ SequentialParser.match_
  simp only []
  cases d.get_next_symbol with
  | error f => rfl
  | ok a =>
    simp only []
    by_cases hlen : p.input.length > 0
    · have hlen2 : (base.of_sequential p).input.length > 0 := hlen
      rw [if_pos hlen, if_pos hlen2]
      show (match vector_index mem p.input d.right_extent with
        | Except.error f => Except.error f
        | Except.ok x => _) = _
      cases vector_index mem p.input d.right_extent with
      | error f => rfl
      | ok x =>
        simp only []
        by_cases hax : (a == x) = true
        · rw [if_pos hax, if_pos hax]
          exact congrArg Except.ok
            (pool_offer base { p with num_match := p.num_match + 1 } _ _)
        · rw [if_neg hax, if_neg hax]
          rfl
    · have hlen2 : ¬ (base.of_sequential p).input.length > 0 := hlen
      rw [if_neg hlen, if_neg hlen2]
      rfl

theorem pool_process_descriptor (mem : Memory) (base : ThreadPoolParser)
    (p : SequentialParser) (d : Descriptor) :
    ThreadPoolParser.process_descriptor mem (base.of_sequential p) d =
      (SequentialParser.process_descriptor mem p d).map base.of_sequential := by
  unfold ThreadPoolParser.process_descriptor SequentialParser.process_descriptor
  by_cases hc : (!d.is_completed) = true
  · rw [if_pos hc, if_pos hc]
    cases d.get_next_symbol with
    | error f => rfl
    | ok symbol =>
      simp only []
      by_cases ht : symbol ∈ p.grammar.terminals
      · have ht2 : symbol ∈ (base.of_sequential p).grammar.terminals := ht
        rw [if_pos ht, if_pos ht2]
        exact pool_match mem base p d
      · have ht2 : ¬ symbol ∈ (base.of_sequential p).grammar.terminals := ht
        rw [if_neg ht, if_neg ht2]
        show (if (collect_right_extents symbol d.right_extent p.descriptor_set []).length == 0
            then _ else _) = _
        split
        · exact congrArg Except.ok (pool_descend base p symbol d.right_extent)
        · exact congrArg Except.ok (pool_skip base p d.copy_and_advance _)
  · rw [if_neg hc, if_neg hc]
    show (match collect_descriptors d p.descriptor_set [] with
      | Except.error f => Except.error f
      | Except.ok descriptors => _) = _
    cases collect_descriptors d p.descriptor_set [] with
    | error f => rfl
    | ok descriptors =>
      simp only []
      rw [pool_ascend]
      split <;> rfl

/-- C34. The processing step of the pool engine is that of the sequential engine:
every state of the pool engine holds the input, the grammar, the descriptor set, the
EPN set and the global worklist of a state of the sequential parser, and on such a
state `ThreadPoolParser::process_descriptor(d)` raises what
`SequentialParser::process_descriptor(d)` raises or ends with the EPN set and the
worklist that it ends with, the descriptor set unchanged in both; the EPNs inserted
and the descriptors offered to `add_to_worklist` are those of the sequential step. -/
theorem pool_step_refines (mem : Memory) (d : Descriptor) :
    (∀ q : ThreadPoolParser, q.of_sequential q.to_sequential = q) ∧
    (∀ (base : ThreadPoolParser) (p : SequentialParser),
      ThreadPoolParser.process_descriptor mem (base.of_sequential p) d =
        (SequentialParser.process_descriptor mem p d).map base.of_sequential) ∧
    (∀ (q q2 : ThreadPoolParser),
      ThreadPoolParser.process_descriptor mem q d = Except.ok q2 →
      ∃ p2, SequentialParser.process_descriptor mem q.to_sequential d = Except.ok p2 ∧
        q2.epn_set = p2.epn_set ∧ q2.global_worklist = p2.worklist ∧
        q2.descriptor_set = q.descriptor_set ∧ p2.descriptor_set = q.descriptor_set ∧
        Extends q.to_sequential p2 (Offered mem q.to_sequential d)
          (Emitted mem q.to_sequential d)) ∧
    (∀ (q : ThreadPoolParser) (f : Fault),
      ThreadPoolParser.process_descriptor mem q d = Except.error f ↔
        SequentialParser.process_descriptor mem q.to_sequential d = Except.error f) := by
  refine ⟨fun q => rfl, fun base p => pool_process_descriptor mem base p d, ?_, ?_⟩
  · intro q q2 h
    have key := pool_process_descriptor mem q q.to_sequential d
    rw [of_sequential_to_sequential, h] at key
    cases hp : SequentialParser.process_descriptor mem q.to_sequential d with
    | error f => rw [hp] at key; cases key
    | ok p2 =>
      rw [hp] at key
      have e : q2 = q.of_sequential p2 := by
        have := key
        simp only [Except.map] at this
        exact Except.ok.inj this
      have hx := process_descriptor_extends mem q.to_sequential p2 d hp
      refine ⟨p2, rfl, by rw [e]; rfl, by rw [e]; rfl, ?_, hx.descriptor_set_eq, hx⟩
      rw [e]
      exact hx.descriptor_set_eq
  · intro q f
    have key := pool_process_descriptor mem q q.to_sequential d
    rw [of_sequential_to_sequential] at key
    rw [key]
    cases SequentialParser.process_descriptor mem q.to_sequential d with
    | error g => simp [Except.map]
    | ok p2 => simp [Except.map]

end CDS

namespace CDS

/-! ## The spawn step of a worker of the tree engine -/

theorem spawn_bound_of_ge (n : Nat) (h1 : 31 ≤ n) (h2 : n < 2 ^ 64) :
    ThreadTreeParser.spawn_bound n = n - 31 := by
  unfold ThreadTreeParser.spawn_bound WORKLIST_SIZE_THRESHOLD
  norm_num at h2 ⊢
  omega

theorem set_erase_head (d : Descriptor) (rest : List Descriptor)
    (h : ∀ y ∈ rest, Descriptor.eq d y = false) :
    set_erase Descriptor.eq (d :: rest) d = rest := by
  unfold set_erase
  rw [List.filter_cons]
  simp only [Descriptor.eq_refl, Bool.not_true, Bool.false_eq_true, if_false]
  apply List.filter_eq_self.2
  intro y hy
  have : Descriptor.eq y d = false := by
    cases hyd : Descriptor.eq y d with
    | false => rfl
    | true =>
      have h2 := h y hy
      rw [Descriptor.eq_symm y d hyd] at h2
      exact absurd h2 (by simp)
  simp [this]


theorem spawn_loop_spec (it : List Descriptor) :
    ∀ (i : Nat) (s : ThreadTreeParser), s.worklist = it →
      it.Pairwise (fun a b => Descriptor.eq a b = false) →
      31 ≤ it.length → it.length < 2 ^ 64 →
      ThreadTreeParser.spawn_loop i it s =
        Except.ok (it.drop ((it.length - 30 - i) / 2),
          { s with
            worklist := it.drop ((it.length - 30 - i) / 2)
            threads := s.threads ++
              (it.take ((it.length - 30 - i) / 2)).map (fun d => (d, s.descriptor_set))
            num_threads := s.num_threads + (it.length - 30 - i) / 2 }) := by
  induction it with
  | nil =>
    intro i s _ _ h31 _
    simp at h31
  | cons d rest ih =>
    intro i s hw hp h31 h64
    have hb : ThreadTreeParser.spawn_bound s.worklist.length = rest.length + 1 - 31 := by
      rw [hw]
      exact spawn_bound_of_ge _ h31 h64
    rw [ThreadTreeParser.spawn_loop]
    rw [hb]
    by_cases hi : i < rest.length + 1 - 31
    · rw [if_pos hi]
      have hp2 := List.pairwise_cons.1 hp
      have herase : set_erase Descriptor.eq (s.add_thread d).worklist d = rest := by
        show set_erase Descriptor.eq s.worklist d = rest
        rw [hw]
        exact set_erase_head d rest hp2.1
      simp only [herase]
      have hk : (rest.length + 1 - 30 - i) / 2 = (rest.length - 30 - (i + 1)) / 2 + 1 := by
        omega
      rw [ih (i + 1) _ rfl hp2.2 (by omega) (by simp at h64; omega)]
      simp only [List.length_cons, hk, List.drop_succ_cons, List.take_succ_cons, List.map_cons]
      simp only [ThreadTreeParser.add_thread, List.append_assoc, List.singleton_append]
      rw [Nat.add_assoc, Nat.add_comm 1 ((rest.length - 30 - (i + 1)) / 2)]
    · rw [if_neg hi]
      have hk : (rest.length + 1 - 30 - i) / 2 = 0 := by omega
      simp only [List.length_cons, hk, List.drop_zero, List.take_zero, List.map_nil,
        List.append_nil, Nat.add_zero]
      rw [← hw]
set_option maxRecDepth 100000 in
theorem spawn_example_reached (mem : Memory) :
    ThreadTreeParser.thread_iteration TreeConfig.shipped ThreadTreeParser.process_descriptor
      mem spawn_root (Descriptor.make "S" ["A"] 0 0 0).copy_and_force =
      Except.ok spawn_example := by
  rfl

theorem spawn_example_distinct :
    spawn_example.worklist.Pairwise (fun a b => Descriptor.eq a b = false) := by
  show ((List.range 33).map
      (fun i => (Descriptor.make "A" (List.replicate i "a") 0 0 0).copy_and_force)).Pairwise _
  rw [List.pairwise_map]
  refine List.Pairwise.imp ?_ (List.pairwise_lt_range 33)
  intro a b hab
  cases h : Descriptor.eq
      (Descriptor.make "A" (List.replicate a "a") 0 0 0).copy_and_force
      (Descriptor.make "A" (List.replicate b "a") 0 0 0).copy_and_force with
  | false => rfl
  | true =>
    have h2 := (Descriptor.eq_iff_fields _ _).1 h
    simp [Descriptor.make, Descriptor.copy_and_force] at h2
    omega
/-- C32. The spawn step of a worker of the tree engine on a worklist of `n ≥ 32`
descriptors returns after `k = (n - 30) / 2` rounds of its loop, because the bound
`worklist.size() - 32 + 1` is evaluated again after every `erase`: it has removed the
first `k` descriptors, called `add_thread` once for each of them with the local
descriptor set, and left `n - k` descriptors. The count `k` is `n - 32 + 1`, and
the rest `32 - 1`, only for `n = 32`. -/
theorem tree_spawn_step (s : ThreadTreeParser)
    (hset : s.worklist.Pairwise (fun a b => Descriptor.eq a b = false))
    (hn : WORKLIST_SIZE_THRESHOLD ≤ s.worklist.length) (h64 : s.worklist.length < 2 ^ 64) :
    ∃ k, k = (s.worklist.length - 30) / 2 ∧
      ThreadTreeParser.spawn_step s =
        Except.ok (s.worklist.drop k,
          { s with
            worklist := s.worklist.drop k
            threads := s.threads ++ (s.worklist.take k).map (fun d => (d, s.descriptor_set))
            num_threads := s.num_threads + k }) ∧
      (s.worklist.drop k).length = s.worklist.length - k ∧
      (s.worklist.take k).length = k ∧
      (k = s.worklist.length - WORKLIST_SIZE_THRESHOLD + 1 ↔
        s.worklist.length = WORKLIST_SIZE_THRESHOLD) ∧
      (s.worklist.length - k = WORKLIST_SIZE_THRESHOLD - 1 ↔
        s.worklist.length = WORKLIST_SIZE_THRESHOLD) := by
  unfold WORKLIST_SIZE_THRESHOLD at hn ⊢
  refine ⟨_, rfl, ?_, ?_, ?_, ?_, ?_⟩
  · unfold ThreadTreeParser.spawn_step WORKLIST_SIZE_THRESHOLD
    rw [if_pos hn]
    have h := spawn_loop_spec s.worklist 0 s rfl hset (by omega) h64
    rw [Nat.sub_zero] at h
    exact h
  · rw [List.length_drop]
  · rw [List.length_take]
    omega
  · omega
  · omega

theorem tree_spawn_step_witness :
    (spawn_example.worklist.Pairwise (fun a b => Descriptor.eq a b = false) ∧
      WORKLIST_SIZE_THRESHOLD ≤ spawn_example.worklist.length ∧
      spawn_example.worklist.length < 2 ^ 64) ∧
    spawn_example.worklist.length = 33 ∧
    ∃ k, k = (spawn_example.worklist.length - 30) / 2 ∧
      ThreadTreeParser.spawn_step spawn_example =
        Except.ok (spawn_example.worklist.drop k,
          { spawn_example with
            worklist := spawn_example.worklist.drop k
            threads := spawn_example.threads ++
              (spawn_example.worklist.take k).map (fun d => (d, spawn_example.descriptor_set))
            num_threads := spawn_example.num_threads + k }) ∧
      (spawn_example.worklist.drop k).length = spawn_example.worklist.length - k ∧
      (spawn_example.worklist.take k).length = k ∧
      (k = spawn_example.worklist.length - WORKLIST_SIZE_THRESHOLD + 1 ↔
        spawn_example.worklist.length = WORKLIST_SIZE_THRESHOLD) ∧
      (spawn_example.worklist.length - k = WORKLIST_SIZE_THRESHOLD - 1 ↔
        spawn_example.worklist.length = WORKLIST_SIZE_THRESHOLD) :=
  ⟨⟨spawn_example_distinct, by decide, by decide⟩, rfl,
    tree_spawn_step spawn_example spawn_example_distinct (by decide) (by decide)⟩

/-- On the worklist of 33 descriptors the spawn step starts one thread and leaves 32
descriptors, where `33 - 32 + 1 = 2` threads and 31 descriptors were to be expected. -/
theorem spawn_example_step :
    ∃ it s2, ThreadTreeParser.spawn_step spawn_example = Except.ok (it, s2) ∧
      s2.worklist.length = 32 ∧ s2.threads.length = 1 ∧ s2.num_threads = 2 ∧
      it = s2.worklist :=
  ⟨_, _, rfl, rfl, rfl, rfl, rfl⟩

/-! ## The global descriptor set of the tree engine -/

/-- An iteration of the worker loop under the macros `cfg`, without
`OPTIMISATION_TREE_FUTURE`: the descriptor is erased unprocessed exactly when
`OPTIMISATION_TREE_COST_REDUCTION_GLOBAL_DESCRIPTORS` is defined, the global set held
it already, and `CORRECTNESS_FIX` is not defined or its force flag is not set. -/
theorem thread_iteration_by_config (cfg : TreeConfig)
    (process : Memory → ThreadTreeParser → Descriptor → Except Fault ThreadTreeParser)
    (mem : Memory) (s : ThreadTreeParser) (d : Descriptor) (hfuture : cfg.future = false) :
    ThreadTreeParser.thread_iteration cfg process mem s d =
      if cfg.cost_reduction_global_descriptors = true ∧
          set_count Descriptor.eq s.descriptor_set_global d = true ∧
          ¬ (cfg.correctness_fix = true ∧ d.force_process = true) then
        Except.ok
          { s with
            descriptor_set := set_insert Descriptor.eq s.descriptor_set d
            descriptor_set_global := set_insert Descriptor.eq s.descriptor_set_global d
            worklist := set_erase Descriptor.eq s.worklist d }
      else
        ThreadTreeParser.process_and_erase process mem
          { s with
            descriptor_set := set_insert Descriptor.eq s.descriptor_set d
            descriptor_set_global := set_insert Descriptor.eq s.descriptor_set_global d }
          d := by
  unfold ThreadTreeParser.thread_iteration
  simp only [hfuture, Bool.not_false, if_true]
  cases hcost : cfg.cost_reduction_global_descriptors with
  | false => simp
  | true =>
    cases hG : set_count Descriptor.eq s.descriptor_set_global d with
    | false => simp
    | true =>
      cases hfix : cfg.correctness_fix with
      | false => simp
      | true =>
        cases hforce : d.force_process with
        | false => simp
        | true => simp

end CDS

namespace CDS

open SequentialParser

/-! ## The shape of the descriptors and EPNs of a run -/

theorem shaped_of_offered (mem : Memory) (G : Grammar) (p : SequentialParser)
    (d x : Descriptor) (hg : p.grammar = G) (hd : Shaped G d)
    (hS : ∀ y ∈ p.descriptor_set, Shaped G y) (h : Offered mem p d x) : Shaped G x := by
  obtain ⟨h1, h2, h3⟩ := hd
  rcases h with ⟨a, ha, hterm, hlen, hread, hx⟩ | ⟨⟨X, β, hX, -, hβ, hx⟩, -⟩ |
    ⟨d0, hd0, X, hX, -, -, -, hL, hx⟩ | ⟨d0, hd0, -, hn, hr, hx⟩
  · subst hx
    exact ⟨h1, lt_length_of_get? _ _ _ ha, Nat.le_succ_of_le h3⟩
  · subst hx
    rw [hg] at hβ
    exact ⟨hβ, Nat.zero_le _, Nat.le_refl _⟩
  · subst hx
    obtain ⟨g1, g2, g3⟩ := hS d0 hd0
    refine ⟨h1, lt_length_of_get? _ _ _ hX, ?_⟩
    show d.left_extent ≤ d0.right_extent
    omega
  · subst hx
    obtain ⟨g1, g2, g3⟩ := hS d0 hd0
    refine ⟨g1, lt_length_of_get? _ _ _ hn, ?_⟩
    show d0.left_extent ≤ d.right_extent
    omega

theorem make_of_plain (x : Descriptor) (h : x.force_process = false) :
    Descriptor.make x.lhs x.rhs x.dot_position x.left_extent x.right_extent = x := by
  cases x
  simp only [Descriptor.make] at h ⊢
  rw [h]

theorem tidy_step (mem : Memory) (G : Grammar) (w : List String) (p p3 : SequentialParser)
    (d : Descriptor) (hinv : Inv mem p) (hinv3 : Inv mem p3) (ht : Tidy mem G w p)
    (hin : p.input = w) (hg : p.grammar = G) (hd : d ∈ p.worklist)
    (hf : StepFacts mem p p3 d) : Tidy mem G w p3 := by
  have hdshape := ht.shaped d (Or.inl hd)
  have hS1 : ∀ y ∈ p.descriptor_set ++ [d], Shaped G y := by
    intro y hy
    rcases List.mem_append.1 hy with h1 | h1
    · exact ht.shaped y (Or.inr h1)
    · rw [List.mem_singleton.1 h1]; exact hdshape
  have hknown : ∀ x, Offered mem { p with descriptor_set := p.descriptor_set ++ [d] } d x →
      Known p3 (Descriptor.make x.lhs x.rhs x.dot_position x.left_extent x.right_extent) := by
    intro x hx
    have hk := hf.offered_known x hx
    rw [make_of_plain x (hinv3.plain x hk)]
    exact hk
  refine { shaped := fun x hx => ?_, inside := fun hmem x hx => ?_, epns := fun e he => ?_ }
  · rcases hf.known_new x hx with h1 | h1
    · exact ht.shaped x h1
    · exact shaped_of_offered mem G { p with descriptor_set := p.descriptor_set ++ [d] } d x
        hg hdshape hS1 h1
  · rcases hf.known_new x hx with h1 | h1
    · exact ht.inside hmem x h1
    · have hwf : ∀ y, Known p y → WellFormed p.grammar p.input y := by
        intro y hy
        obtain ⟨g1, g2, g3⟩ := ht.shaped y hy
        rw [hg, hin]
        exact ⟨g1, g2, g3, ht.inside hmem y hy, hinv.plain y hy⟩
      have hwfS : ∀ y ∈ p.descriptor_set ++ [d], WellFormed p.grammar p.input y := by
        intro y hy
        rcases List.mem_append.1 hy with h2 | h2
        · exact hwf y (Or.inr h2)
        · rw [List.mem_singleton.1 h2]; exact hwf d (Or.inl hd)
      have := offered_well_formed mem { p with descriptor_set := p.descriptor_set ++ [d] } d x
        (by rw [← hg] at hmem; exact hmem) (hwf d (Or.inl hd)) hwfS h1
      have h4 := this.2.2.2.1
      rw [← hin]
      exact h4
  · rcases (hf.epn_iff e).1 he with h1 | h1
    · obtain ⟨g1, g2, g3⟩ := ht.epns e h1
      exact ⟨hf.known_mono _ g1, g2, g3⟩
    · rcases h1 with ⟨x, hstep, he⟩ | ⟨d0, hd0, x, hstep, he⟩ | ⟨d0, hd0, x, hstep, he⟩ |
        ⟨hc, hem, he⟩
      · have hk := hknown x (Or.inl hstep)
        obtain ⟨a, -, -, -, -, hx⟩ := hstep
        subst he
        subst hx
        refine ⟨hk, ?_, ?_⟩
        · exact hdshape.2.2
        · exact Nat.le_succ _
      · have hk := hknown x (Or.inr (Or.inr (Or.inl ⟨d0, hd0, hstep⟩)))
        obtain ⟨X, -, -, -, -, hL, hx⟩ := hstep
        subst he
        subst hx
        refine ⟨hk, hdshape.2.2, ?_⟩
        show d.right_extent ≤ d0.right_extent
        have := (hS1 d0 hd0).2.2
        omega
      · have hk := hknown x (Or.inr (Or.inr (Or.inr ⟨d0, hd0, hstep⟩)))
        obtain ⟨-, -, hr, hx⟩ := hstep
        subst he
        subst hx
        refine ⟨hk, (hS1 d0 hd0).2.2, ?_⟩
        show d0.right_extent ≤ d.right_extent
        have := hdshape.2.2
        omega
      · subst he
        have hdk : Known p3 d := Or.inr (by rw [hf.set_eq]; simp)
        refine ⟨?_, hdshape.2.2, Nat.le_refl _⟩
        show Known p3 (Descriptor.make d.lhs d.rhs d.dot_position d.left_extent d.right_extent)
        rw [make_of_plain d (hinv3.plain d hdk)]
        exact hdk

theorem tidy_fresh (mem : Memory) (G : Grammar) (w : List String) :
    Tidy mem G w { SequentialParser.fresh G with input := w } where
  shaped := fun d hd => by rcases hd with h | h <;> cases h
  inside := fun _ d hd => by rcases hd with h | h <;> cases h
  epns := fun e he => by cases he

theorem tidy_of_extends_start (mem : Memory) (G : Grammar) (w : List String)
    (p p1 : SequentialParser) (hg : p.grammar = G)
    (hext : Extends p p1
      (fun x => ∃ β, (p.grammar.start_symbol, β) ∈ p.grammar.production_rules ∧
        x = Descriptor.make p.grammar.start_symbol β 0 0 0) (fun _ => False))
    (ht : Tidy mem G w p) : Tidy mem G w p1 := by
  have hmono : ∀ x, Known p x → Known p1 x := by
    rintro x (h | h)
    · exact Or.inl (hext.worklist_mono x h)
    · exact Or.inr (by rw [hext.descriptor_set_eq]; exact h)
  have hnew : ∀ x, Known p1 x → Known p x ∨
      ∃ β, (G.start_symbol, β) ∈ G.production_rules ∧
        x = Descriptor.make G.start_symbol β 0 0 0 := by
    rintro x (h | h)
    · rcases hext.worklist_sound x h with h2 | ⟨h2, -⟩
      · exact Or.inl (Or.inl h2)
      · rw [hg] at h2
        exact Or.inr h2
    · rw [hext.descriptor_set_eq] at h
      exact Or.inl (Or.inr h)
  refine { shaped := fun x hx => ?_, inside := fun hmem x hx => ?_, epns := fun e he => ?_ }
  · rcases hnew x hx with h | ⟨β, hβ, h⟩
    · exact ht.shaped x h
    · rw [h]
      exact ⟨hβ, Nat.zero_le _, Nat.le_refl _⟩
  · rcases hnew x hx with h | ⟨β, hβ, h⟩
    · exact ht.inside hmem x h
    · rw [h]
      exact Nat.zero_le _
  · rcases (hext.epn_iff e).1 he with h | h
    · obtain ⟨g1, g2, g3⟩ := ht.epns e h
      exact ⟨hmono _ g1, g2, g3⟩
    · exact absurd h id

/-- At every head of the loop of a run on a fresh parser the invariants hold. -/
theorem loop_head_tidy (mem : Memory) (pick : SequentialParser → Nat) (G : Grammar)
    (w : List String) (t : List Descriptor) (q : SequentialParser)
    (h : LoopHead mem pick { SequentialParser.fresh G with input := w } t q) :
    Inv mem q ∧ Tidy mem G w q ∧ q.input = w ∧ q.grammar = G := by
  induction h with
  | entry =>
    have hext := loop_start_extends { SequentialParser.fresh G with input := w }
    obtain ⟨hinv1, -⟩ := inv_of_extends_start mem _ _ hext (inv_fresh mem G w)
    exact ⟨hinv1, tidy_of_extends_start mem G w _ _ rfl hext (tidy_fresh mem G w),
      hext.input_eq, hext.grammar_eq⟩
  | iteration t q q2 x xs _ hW hb ih =>
    obtain ⟨hq, ht, hin, hg⟩ := ih
    have hd : begin_ pick q x xs ∈ q.worklist := by
      rw [hW]
      exact begin_mem pick q x xs
    have hf := loop_body_facts mem q q2 _ hq.plain hq.disjoint hd hb
    have hq2 := inv_step mem q q2 _ hq hd hf
    exact ⟨hq2, tidy_step mem G w q q2 _ hq hq2 ht hin hg hd hf, hf.input_eq.trans hin,
      hf.grammar_eq.trans hg⟩

/-- The parser that `parse` returns on a fresh parser is at a head of the loop. -/
theorem parse_loop_head (mem : Memory) (pick : SequentialParser → Nat) (fuel : Nat)
    (G : Grammar) (w : List String) (p2 : SequentialParser)
    (h : parse mem pick fuel (SequentialParser.fresh G) w = Except.ok (some p2)) :
    ∃ t, LoopHead mem pick { SequentialParser.fresh G with input := w } t p2 ∧
      p2.worklist = [] :=
  while_loop_loop_head mem pick { SequentialParser.fresh G with input := w } fuel []
    _ p2 LoopHead.entry h

/-! ### The faults of a run -/

theorem match_fault (mem : Memory) (p : SequentialParser) (d : Descriptor) (f : Fault)
    (hd : d.dot_position < d.rhs.length) (h : match_ mem p d = Except.error f) :
    p.input.length ≤ d.right_extent ∧ mem d.right_extent = Except.error f := by
  have hget : d.rhs[d.dot_position]? = some (d.rhs[d.dot_position]) :=
    List.getElem?_eq_getElem hd
  unfold match_ at h
  rw [(get_next_symbol_eq_ok d _).2 hget] at h
  simp only [] at h
  by_cases hlen : p.input.length > 0
  · rw [if_pos hlen] at h
    cases hin : p.input[d.right_extent]? with
    | some b =>
      rw [vector_index_of_get? mem _ _ _ hin] at h
      simp only [] at h
      split at h <;> cases h
    | none =>
      have hread : vector_index mem p.input d.right_extent = mem d.right_extent := by
        unfold vector_index
        rw [hin]
      rw [hread] at h
      refine ⟨List.getElem?_eq_none_iff.1 hin, ?_⟩
      cases hm : mem d.right_extent with
      | error g =>
        rw [hm] at h
        simp only [] at h
        rw [Except.error.inj h]
      | ok b =>
        rw [hm] at h
        simp only [] at h
        split at h <;> cases h
  · rw [if_neg hlen] at h
    cases h

theorem process_descriptor_fault (mem : Memory) (p : SequentialParser) (d : Descriptor)
    (f : Fault) (hd : d.dot_position ≤ d.rhs.length)
    (hS : ∀ y ∈ p.descriptor_set, y.dot_position ≤ y.rhs.length)
    (h : process_descriptor mem p d = Except.error f) :
    p.input.length ≤ d.right_extent ∧ mem d.right_extent = Except.error f := by
  unfold process_descriptor at h
  by_cases hcomp : d.is_completed = true
  · simp only [hcomp, Bool.not_true, Bool.false_eq_true, if_false] at h
    obtain ⟨D, hD⟩ := collect_descriptors_returns d p.descriptor_set [] hS
    rw [hD] at h
    simp only [] at h
    split at h <;> cases h
  · have hcomp0 : d.is_completed = false := by simpa using hcomp
    simp only [hcomp0, Bool.not_false, if_true] at h
    have hlt : d.dot_position < d.rhs.length := by
      have h2 : d.dot_position ≠ d.rhs.length := by
        simpa [Descriptor.is_completed] using hcomp0
      omega
    have hget : d.rhs[d.dot_position]? = some (d.rhs[d.dot_position]) :=
      List.getElem?_eq_getElem hlt
    rw [(get_next_symbol_eq_ok d _).2 hget] at h
    simp only [] at h
    split at h
    · exact match_fault mem p d f hlt h
    · split at h <;> cases h

theorem loop_body_fault (mem : Memory) (p : SequentialParser) (d : Descriptor) (f : Fault)
    (hd : d.dot_position ≤ d.rhs.length)
    (hS : ∀ y ∈ p.descriptor_set, y.dot_position ≤ y.rhs.length)
    (h : loop_body mem p d = Except.error f) :
    p.input.length ≤ d.right_extent ∧ mem d.right_extent = Except.error f := by
  unfold loop_body at h
  simp only [] at h
  have hS2 : ∀ y ∈ set_insert Descriptor.eq p.descriptor_set d,
      y.dot_position ≤ y.rhs.length := by
    intro y hy
    rcases (mem_set_insert _ _ _ _).1 hy with h1 | ⟨h1, -⟩
    · exact hS y h1
    · rw [h1]; exact hd
  cases hp : process_descriptor mem
      { p with descriptor_set := set_insert Descriptor.eq p.descriptor_set d } d with
  | error g =>
    rw [hp] at h
    simp only [] at h
    rw [← Except.error.inj h]
    exact process_descriptor_fault mem
      { p with descriptor_set := set_insert Descriptor.eq p.descriptor_set d } d g hd hS2 hp
  | ok p2 =>
    rw [hp] at h
    cases h

/-- A run started at a head of the loop ends in a fault only by a faulting read past
the end of the input. -/
theorem while_loop_fault (mem : Memory) (pick : SequentialParser → Nat) (G : Grammar)
    (w : List String) :
    ∀ (fuel : Nat) (p : SequentialParser) (f : Fault),
      Inv mem p → Tidy mem G w p → p.input = w → p.grammar = G →
      while_loop mem pick fuel p = Except.error f →
      ∃ i, w.length ≤ i ∧ mem i = Except.error f := by
  intro fuel
  induction fuel with
  | zero =>
    intro p f _ _ _ _ h
    unfold while_loop at h
    split at h <;> cases h
  | succ n ih =>
    intro p f hinv ht hin hg h
    unfold while_loop at h
    cases hW : p.worklist with
    | nil =>
      rw [hW] at h
      cases h
    | cons x xs =>
      rw [hW] at h
      simp only [] at h
      have hd : begin_ pick p x xs ∈ p.worklist := by
        rw [hW]; exact begin_mem pick p x xs
      cases hbody : loop_body mem p (begin_ pick p x xs) with
      | error g =>
        rw [hbody] at h
        simp only [] at h
        rw [← Except.error.inj h]
        obtain ⟨h1, h2⟩ := loop_body_fault mem p _ g (ht.shaped _ (Or.inl hd)).2.1
          (fun y hy => (ht.shaped y (Or.inr hy)).2.1) hbody
        rw [hin] at h1
        exact ⟨_, h1, h2⟩
      | ok p3 =>
        rw [hbody] at h
        simp only [] at h
        have hf := loop_body_facts mem p p3 _ hinv.plain hinv.disjoint hd hbody
        have hinv3 := inv_step mem p p3 _ hinv hd hf
        exact ih p3 f hinv3 (tidy_step mem G w p p3 _ hinv hinv3 ht hin hg hd hf)
          (hf.input_eq.trans hin) (hf.grammar_eq.trans hg) h

theorem parse_fault (mem : Memory) (pick : SequentialParser → Nat) (fuel : Nat)
    (G : Grammar) (w : List String) (f : Fault)
    (h : parse mem pick fuel (SequentialParser.fresh G) w = Except.error f) :
    ∃ i, w.length ≤ i ∧ mem i = Except.error f := by
  obtain ⟨hinv, ht, hin, hg⟩ := loop_head_tidy mem pick G w [] _ LoopHead.entry
  exact while_loop_fault mem pick G w fuel _ f hinv ht hin hg h

/-- C37. Every descriptor that a run on a fresh parser holds in the worklist or in
the descriptor set at a head of its loop is a dotted rule of the grammar with
`dot_position ≤ |rhs|` and `left_extent ≤ right_extent`, and `get_next_symbol`
succeeds on it when it is not completed, so a run ends in no fault but that of a read
past the end of the input, and never in `out_of_range` when such reads are
faults of their own. Its right extent is at most `|input|` when no read past the end
of the input yields a terminal; it is not so in general: for `S ::= a a` and the
input `a`, when the read of `input[1]` yields `a`, the run returns with
`(S, [a, a], 2, 0, 2)` in the descriptor set. -/
theorem descriptors_shaped :
    (∀ (mem : Memory) (pick : SequentialParser → Nat) (G : Grammar) (w : List String)
        (t : List Descriptor) (q : SequentialParser),
      LoopHead mem pick { SequentialParser.fresh G with input := w } t q →
      ∀ d, Known q d →
        (d.lhs, d.rhs) ∈ G.production_rules ∧ d.dot_position ≤ d.rhs.length ∧
        d.left_extent ≤ d.right_extent ∧
        (mem.NoTerminal G → d.right_extent ≤ w.length) ∧
        (d.is_completed = false →
          d.dot_position < d.rhs.length ∧ ∃ X, d.get_next_symbol = Except.ok X)) ∧
    (∀ (mem : Memory) (pick : SequentialParser → Nat) (fuel : Nat) (G : Grammar)
        (w : List String) (f : Fault),
      parse mem pick fuel (SequentialParser.fresh G) w = Except.error f →
      ∃ i, w.length ≤ i ∧ mem i = Except.error f) ∧
    (∀ (pick : SequentialParser → Nat) (fuel : Nat) (G : Grammar) (w : List String),
      parse Memory.strict pick fuel (SequentialParser.fresh G) w ≠
        Except.error Fault.out_of_range) ∧
    (∃ p2, parse (Memory.const "a") (fun _ => 0) 5 (SequentialParser.fresh double_terminal)
        ["a"] = Except.ok (some p2) ∧
      Descriptor.make "S" ["a", "a"] 2 0 2 ∈ p2.descriptor_set ∧
      ¬ (Descriptor.make "S" ["a", "a"] 2 0 2).right_extent ≤ ["a"].length) := by
  refine ⟨fun mem pick G w t q h d hd => ?_, fun mem pick fuel G w f h =>
    parse_fault mem pick fuel G w f h, fun pick fuel G w h => ?_,
    ⟨_, rfl, by decide, by decide⟩⟩
  · obtain ⟨-, ht, -, -⟩ := loop_head_tidy mem pick G w t q h
    obtain ⟨h1, h2, h3⟩ := ht.shaped d hd
    refine ⟨h1, h2, h3, fun hmem => ht.inside hmem d hd, fun hc => ?_⟩
    have hlt : d.dot_position < d.rhs.length := by
      have h4 : d.dot_position ≠ d.rhs.length := by
        simpa [Descriptor.is_completed] using hc
      omega
    exact ⟨hlt, _, (get_next_symbol_eq_ok d _).2 (List.getElem?_eq_getElem hlt)⟩
  · obtain ⟨i, -, hi⟩ := parse_fault Memory.strict pick fuel G w _ h
    simp [Memory.strict] at hi

/-- C38. In the pair that a run on a fresh parser returns, every EPN
`(A, α, k, L, p, R)` has `L ≤ p ≤ R`, and the descriptor `(A, α, k, L, R)` is in the
returned descriptor set. Its right extent is at most `|input|` when no read past the
end of the input yields a terminal; it is not so in general: for `S ::= a a` and the
input `a`, when the read of `input[1]` yields `a`, the run returns the EPN
`(S, [a, a], 2, 0, 1, 2)`. -/
theorem epns_belong :
    (∀ (mem : Memory) (pick : SequentialParser → Nat) (fuel : Nat) (G : Grammar)
        (w : List String) (p2 : SequentialParser),
      parse mem pick fuel (SequentialParser.fresh G) w = Except.ok (some p2) →
      ∀ e ∈ p2.epn_set,
        e.left_extent ≤ e.pivot ∧ e.pivot ≤ e.right_extent ∧
        Descriptor.make e.lhs e.rhs e.dot_position e.left_extent e.right_extent ∈
          p2.descriptor_set ∧
        (mem.NoTerminal G → e.right_extent ≤ w.length)) ∧
    (∃ p2, parse (Memory.const "a") (fun _ => 0) 5 (SequentialParser.fresh double_terminal)
        ["a"] = Except.ok (some p2) ∧
      ({ lhs := "S", rhs := ["a", "a"], dot_position := 2, left_extent := 0, pivot := 1,
         right_extent := 2 } : EPN) ∈ p2.epn_set ∧
      ¬ 2 ≤ ["a"].length) := by
  refine ⟨fun mem pick fuel G w p2 h e he => ?_, ⟨_, rfl, by decide, by decide⟩⟩
  obtain ⟨t, hhead, hW⟩ := parse_loop_head mem pick fuel G w p2 h
  obtain ⟨-, ht, -, -⟩ := loop_head_tidy mem pick G w t p2 hhead
  obtain ⟨h1, h2, h3⟩ := ht.epns e he
  refine ⟨h2, h3, (known_iff_of_worklist_nil p2 hW _).1 h1, fun hmem => ?_⟩
  exact ht.inside hmem _ h1

end CDS

namespace CDS

open SequentialParser

/-! ## Reads of the input past its end -/

theorem check_descriptor_strict (G : Grammar) (w : List String) (S : descriptor_set_t)
    (E : epn_set_t) (d : Descriptor) (st st2 : CheckerState)
    (h : check_descriptor Memory.strict G w S E d st = Except.ok st2) (a : String)
    (ha : d.rhs[d.dot_position]? = some a) (hterm : a ∈ G.terminals) :
    d.right_extent < w.length := by
  unfold check_descriptor at h
  rw [not_completed_of_get? d a ha] at h
  simp only [Bool.not_false, if_true] at h
  rw [(get_next_symbol_eq_ok d a).2 ha] at h
  simp only [] at h
  rw [if_pos hterm] at h
  cases hread : vector_index Memory.strict w d.right_extent with
  | error f =>
    rw [hread] at h
    cases h
  | ok x => exact vector_index_strict w _ x hread

theorem check_descriptors_strict (G : Grammar) (w : List String) (S : descriptor_set_t)
    (E : epn_set_t) (l : List Descriptor) :
    ∀ (st st2 : CheckerState),
      check_descriptors Memory.strict G w S E l st = Except.ok st2 →
      ∀ d ∈ l, ∀ a, d.rhs[d.dot_position]? = some a → a ∈ G.terminals →
        d.right_extent < w.length := by
  induction l with
  | nil =>
    intro st st2 _ d hd
    cases hd
  | cons x rest ih =>
    intro st st2 h d hd a ha hterm
    unfold check_descriptors at h
    cases hx : check_descriptor Memory.strict G w S E x st with
    | error f =>
      rw [hx] at h
      cases h
    | ok st1 =>
      rw [hx] at h
      simp only [] at h
      rcases List.mem_cons.1 hd with h1 | h1
      · rw [h1] at ha ⊢
        exact check_descriptor_strict G w S E x st st1 hx a ha hterm
      · exact ih st1 st2 h d h1 a ha hterm

theorem check_correctness_strict (G : Grammar) (w : List String) (S : descriptor_set_t)
    (E : epn_set_t) (st : CheckerState) (r : CheckerState × Bool)
    (h : check_correctness Memory.strict st S E G w = Except.ok r) :
    ∀ i ∈ checker_reads G S, i < w.length := by
  unfold check_correctness at h
  simp only [] at h
  cases hc : check_descriptors Memory.strict G w S E S
      (check_start_rules G S (G.get_production_rules G.start_symbol) st) with
  | error f =>
    rw [hc] at h
    cases h
  | ok st1 =>
    intro i hi
    unfold checker_reads at hi
    obtain ⟨d, hd, hdi⟩ := List.mem_map.1 hi
    obtain ⟨hdS, hfil⟩ := List.mem_filter.1 hd
    rw [← hdi]
    cases hnext : d.rhs[d.dot_position]? with
    | none =>
      rw [hnext] at hfil
      cases hfil
    | some a =>
      rw [hnext] at hfil
      exact check_descriptors_strict G w S E S _ st1 hc d hdS a hnext (of_decide_eq_true hfil)

/-- C35. The read of the input in `match` is not always inside the input: for
`S ::= a a` and the input `a` the second iteration calls `match` on
`(S, [a, a], 1, 0, 1)`, which evaluates `input[1]`; when that read is a fault the run
ends there and no run returns, whatever the scheduler and the fuel, and `match` of
the pool engine makes the same read. In general a run in which every read past the
end is a fault returns only if every descriptor it processed with a terminal after
the dot has its right extent inside a non-empty input. -/
theorem match_read_out_of_bounds :
    (∀ n, parse Memory.strict (fun _ => 0) (n + 2) (SequentialParser.fresh double_terminal)
      ["a"] = Except.error (Fault.undefined_read 1)) ∧
    (∀ pick fuel p2, parse Memory.strict pick fuel (SequentialParser.fresh double_terminal)
      ["a"] ≠ Except.ok (some p2)) ∧
    ThreadPoolParser.match_ Memory.strict { drain_example with grammar := double_terminal }
      (Descriptor.make "S" ["a", "a"] 1 0 1) = Except.error (Fault.undefined_read 1) ∧
    (∀ pick fuel G w p2,
      parse Memory.strict pick fuel (SequentialParser.fresh G) w = Except.ok (some p2) →
      ∀ d ∈ p2.descriptor_set, ∀ a, d.rhs[d.dot_position]? = some a → a ∈ G.terminals →
        w.length > 0 → d.right_extent < w.length) := by
  refine ⟨fun n => rfl, fun pick fuel p2 h => ?_, rfl, fun pick fuel G w p2 h d hd a ha ht hw => ?_⟩
  · have s1 : Reach double_terminal ["a"] Memory.strict (Descriptor.make "S" ["a", "a"] 0 0 0) :=
      Reach.start ["a", "a"] (by decide)
    have s2 : Reach double_terminal ["a"] Memory.strict (Descriptor.make "S" ["a", "a"] 1 0 1) :=
      Reach.by_match _ _ s1 ⟨"a", rfl, by decide, by decide, rfl, rfl⟩
    have hlt := strict_run_in_bounds pick fuel double_terminal ["a"] p2 (by decide) h _ s2 "a"
      rfl (by decide) (by decide)
    exact absurd hlt (by decide)
  · obtain ⟨x, hx⟩ := parse_reads_ok Memory.strict pick fuel G w p2 h d hd a ha ht hw
    exact vector_index_strict w _ x hx

/-- C36. The reads of the input in `check_correctness` are not always inside the
input. When every read past the end is a fault, the checker returns only if every
position it reads is inside the input, and it returns when that is so and no dot is
past the end of its rule. For a grammar with a start rule that begins with a terminal
and the empty input, the engine returns a descriptor set on which the checker reads
`input[0]`, and the checker does not return; for `S ::= a a` the engine returns on
the empty input and the checker ends in the fault of that read. -/
theorem checker_read_out_of_bounds :
    (∀ (G : Grammar) (w : List String) (st : CheckerState) (S : descriptor_set_t)
        (E : epn_set_t) (r : CheckerState × Bool),
      check_correctness Memory.strict st S E G w = Except.ok r →
      ∀ i ∈ checker_reads G S, i < w.length) ∧
    (∀ (G : Grammar) (w : List String) (st : CheckerState) (S : descriptor_set_t)
        (E : epn_set_t),
      (∀ d ∈ S, d.dot_position ≤ d.rhs.length) → (∀ i ∈ checker_reads G S, i < w.length) →
      ∃ r, check_correctness Memory.strict st S E G w = Except.ok r) ∧
    (∀ (mem : Memory) (pick : SequentialParser → Nat) (fuel : Nat) (G : Grammar)
        (a : String) (β : List String) (p2 : SequentialParser),
      (G.start_symbol, a :: β) ∈ G.production_rules → a ∈ G.terminals →
      parse mem pick fuel (SequentialParser.fresh G) [] = Except.ok (some p2) →
      0 ∈ checker_reads G p2.descriptor_set ∧
      ∀ st r, check_correctness Memory.strict st p2.descriptor_set p2.epn_set G [] ≠
        Except.ok r) ∧
    (∃ p2, parse Memory.strict (fun _ => 0) 5 (SequentialParser.fresh double_terminal) [] =
        Except.ok (some p2) ∧
      p2.descriptor_set = [Descriptor.make "S" ["a", "a"] 0 0 0] ∧
      checker_reads double_terminal p2.descriptor_set = [0] ∧
      check_correctness Memory.strict CheckerState.initial p2.descriptor_set p2.epn_set
        double_terminal [] = Except.error (Fault.undefined_read 0)) := by
  refine ⟨fun G w st S E r h => check_correctness_strict G w S E st r h,
    fun G w st S E hdot hreads => ?_, fun mem pick fuel G a β p2 hrule hterm h => ?_,
    ⟨_, rfl, rfl, rfl, rfl⟩⟩
  · obtain ⟨st2, b, h⟩ := check_correctness_returns Memory.strict G w S E st hdot hreads
    exact ⟨_, h⟩
  · unfold parse at h
    obtain ⟨-, hstart, hW, -, hg⟩ := loop_inv mem pick fuel _ p2 (inv_fresh mem G []) h
    have hg2 : p2.grammar = G := hg
    have hk := hstart (a :: β) (by rw [hg2]; exact hrule)
    rw [known_iff_of_worklist_nil p2 hW, hg2] at hk
    have h0 : 0 ∈ checker_reads G p2.descriptor_set := by
      unfold checker_reads
      refine List.mem_map.2 ⟨_, List.mem_filter.2 ⟨hk, ?_⟩, rfl⟩
      show (match (a :: β)[0]? with
        | some symbol => decide (symbol ∈ G.terminals)
        | none => false) = true
      simp [hterm]
    refine ⟨h0, fun st r hc => ?_⟩
    have := check_correctness_strict G [] p2.descriptor_set p2.epn_set st r hc 0 h0
    exact absurd this (by decide)

end CDS

namespace CDS

open SequentialParser

/-! ## A second call of `parse` on the same parser -/

/-- A parser that `parse` returned on a fresh parser holds every start descriptor, so
the loop of a later call starts with an empty worklist, whatever the input. -/
theorem loop_entry_after_parse (mem : Memory) (pick : SequentialParser → Nat) (fuel : Nat)
    (G : Grammar) (w1 w2 : List String) (p1 : SequentialParser)
    (h : parse mem pick fuel (SequentialParser.fresh G) w1 = Except.ok (some p1)) :
    SequentialParser.loop_entry { p1 with input := w2 } =
      { p1 with input := w2, num_ascend := 0, num_descend := 0, num_match := 0,
                num_skip := 0 } ∧
    p1.worklist = [] := by
  unfold parse at h
  obtain ⟨-, hstart, hW, -, -⟩ := loop_inv mem pick fuel _ p1 (inv_fresh mem G w1) h
  have hcount : ∀ rule ∈ p1.grammar.get_production_rules p1.grammar.start_symbol,
      set_count Descriptor.eq p1.descriptor_set (Descriptor.make rule.1 rule.2 0 0 0) = true := by
    intro rule hr
    rw [mem_get_production_rules] at hr
    have hk := hstart rule.2 (by rw [← hr.2]; exact hr.1)
    rw [known_iff_of_worklist_nil p1 hW] at hk
    rw [hr.2]
    exact set_count_of_mem _ _ hk
  refine ⟨?_, hW⟩
  unfold SequentialParser.loop_entry
  exact extend_worklist_of_count
    { p1 with input := w2, num_ascend := 0, num_descend := 0, num_match := 0, num_skip := 0 }
    _ 0 0 hcount

/-- C39. The pair that `parse` returns depends on earlier calls on the same parser:
`loop` does not clear `descriptor_set` and `epn_set`. When `parse(w1)` on a fresh
parser has returned, `parse(w2)` on the same parser returns, for every input `w2`,
the descriptor set and the EPN set of the first call and processes no descriptor. For
`S ::= a`, `parse([a])` followed by `parse([])` returns for the empty input the
descriptor `(S, [a], 1, 0, 1)` and the EPN `(S, [a], 1, 0, 0, 1)` of the first call,
which `parse([])` on a fresh parser does not return. -/
theorem parse_keeps_earlier_sets :
    (∀ (mem : Memory) (pick : SequentialParser → Nat) (fuel : Nat) (G : Grammar)
        (w1 : List String) (p1 : SequentialParser),
      parse mem pick fuel (SequentialParser.fresh G) w1 = Except.ok (some p1) →
      ∀ (mem2 : Memory) (pick2 : SequentialParser → Nat) (fuel2 : Nat) (w2 : List String),
        ∃ p2, parse mem2 pick2 fuel2 p1 w2 = Except.ok (some p2) ∧
          p2.result = p1.result ∧ p2.num_descriptors = p1.num_descriptors ∧
          p2.input = w2) ∧
    (∃ p1 p2 p3,
      parse Memory.strict (fun _ => 0) 5 (SequentialParser.fresh single_terminal) ["a"] =
        Except.ok (some p1) ∧
      parse Memory.strict (fun _ => 0) 5 p1 [] = Except.ok (some p2) ∧
      parse Memory.strict (fun _ => 0) 5 (SequentialParser.fresh single_terminal) [] =
        Except.ok (some p3) ∧
      p2.result =
        ([Descriptor.make "S" ["a"] 0 0 0, Descriptor.make "S" ["a"] 1 0 1],
          [{ lhs := "S", rhs := ["a"], dot_position := 1, left_extent := 0, pivot := 0,
             right_extent := 1 }]) ∧
      p3.result = ([Descriptor.make "S" ["a"] 0 0 0], []) ∧
      p2.result ≠ p3.result) := by
  refine ⟨fun mem pick fuel G w1 p1 h mem2 pick2 fuel2 w2 => ?_,
    ⟨_, _, _, rfl, rfl, rfl, rfl, rfl, by decide⟩⟩
  obtain ⟨hentry, hW⟩ := loop_entry_after_parse mem pick fuel G w1 w2 p1 h
  refine ⟨{ p1 with input := w2, num_ascend := 0, num_descend := 0, num_match := 0,
                    num_skip := 0 }, ?_, rfl, rfl, rfl⟩
  show while_loop mem2 pick2 fuel2 (SequentialParser.loop_entry { p1 with input := w2 }) = _
  rw [hentry]
  exact while_loop_nil mem2 pick2 fuel2 _ hW

end CDS

namespace CDS

/-! ## Runs of the tree engine: the force flag -/

theorem TreeGrows.refl_grows (s : ThreadTreeParser) : TreeGrows s s :=
  { worklist := fun _ hx => Or.inl hx, threads := rfl, descriptor_set := rfl,
    descriptor_set_global := rfl, input := rfl, grammar := rfl }

theorem TreeGrows.trans_grows (s1 s2 s3 : ThreadTreeParser) (h1 : TreeGrows s1 s2)
    (h2 : TreeGrows s2 s3) : TreeGrows s1 s3 :=
  { worklist := fun x hx => by
      rcases h2.worklist x hx with h | h
      · exact h1.worklist x h
      · exact Or.inr h
    threads := h2.threads.trans h1.threads
    descriptor_set := h2.descriptor_set.trans h1.descriptor_set
    descriptor_set_global := h2.descriptor_set_global.trans h1.descriptor_set_global
    input := h2.input.trans h1.input
    grammar := h2.grammar.trans h1.grammar }

theorem tree_add_to_worklist_grows (s : ThreadTreeParser) (d : Descriptor) :
    TreeGrows s (s.add_to_worklist d) := by
  unfold ThreadTreeParser.add_to_worklist
  simp only []
  split
  · refine { worklist := fun x hx => ?_, threads := rfl, descriptor_set := rfl,
             descriptor_set_global := rfl, input := rfl, grammar := rfl }
    rcases (mem_set_insert _ _ _ _).1 hx with h | ⟨h, -⟩
    · exact Or.inl h
    · rw [h]
      exact Or.inr rfl
  · exact TreeGrows.refl_grows s

theorem tree_offer_grows (s : ThreadTreeParser) (d : Descriptor) (e : EPN) :
    TreeGrows s
      { s.add_to_worklist d with
        epn_set := set_insert EPN.eq (s.add_to_worklist d).epn_set e } := by
  have h := tree_add_to_worklist_grows s d
  exact { worklist := h.worklist, threads := h.threads, descriptor_set := h.descriptor_set,
          descriptor_set_global := h.descriptor_set_global, input := h.input,
          grammar := h.grammar }

theorem tree_foldl_grows {α : Type} (f : ThreadTreeParser → α → ThreadTreeParser)
    (hf : ∀ s a, TreeGrows s (f s a)) (l : List α) :
    ∀ s : ThreadTreeParser, TreeGrows s (l.foldl f s) := by
  induction l with
  | nil => intro s; exact TreeGrows.refl_grows s
  | cons a rest ih =>
    intro s
    rw [List.foldl_cons]
    exact TreeGrows.trans_grows _ _ _ (hf s a) (ih _)

theorem tree_extend_worklist_grows (s : ThreadTreeParser) (rules : List production_rule_t)
    (l r : Nat) : TreeGrows s (s.extend_worklist rules l r) := by
  unfold ThreadTreeParser.extend_worklist
  exact tree_foldl_grows _ (fun s a => tree_add_to_worklist_grows s _) rules s

theorem tree_descend_grows (s : ThreadTreeParser) (symbol : String) (pivot : Nat) :
    TreeGrows s (s.descend symbol pivot) := by
  unfold ThreadTreeParser.descend
  exact tree_extend_worklist_grows s _ pivot pivot

theorem tree_skip_grows (s : ThreadTreeParser) (d : Descriptor) (right_extents : List Nat) :
    TreeGrows s (s.skip d right_extents) := by
  unfold ThreadTreeParser.skip
  exact tree_foldl_grows _ (fun s a => tree_offer_grows s _ _) right_extents s

theorem tree_ascend_grows (s : ThreadTreeParser) (D : descriptor_set_t) (right_extent : Nat) :
    TreeGrows s (s.ascend D right_extent) := by
  unfold ThreadTreeParser.ascend
  exact tree_foldl_grows _ (fun s a => tree_offer_grows s _ _) D s

theorem tree_match_grows (mem : Memory) (s s2 : ThreadTreeParser) (d : Descriptor)
    (h : ThreadTreeParser.match_ mem s d = Except.ok s2) : TreeGrows s s2 := by
  unfold ThreadTreeParser.match_ at h
  cases hn : d.get_next_symbol with
  | error f =>
    rw [hn] at h
    cases h
  | ok a =>
    rw [hn] at h
    simp only [] at h
    split at h
    · cases hv : vector_index mem s.input d.right_extent with
      | error f =>
        rw [hv] at h
        cases h
      | ok x =>
        rw [hv] at h
        simp only [] at h
        split at h
        · rw [← Except.ok.inj h]
          exact tree_offer_grows s _ _
        · rw [← Except.ok.inj h]
          exact TreeGrows.refl_grows s
    · rw [← Except.ok.inj h]
      exact TreeGrows.refl_grows s

theorem tree_process_descriptor_grows (mem : Memory) (s s2 : ThreadTreeParser)
    (d : Descriptor) (h : ThreadTreeParser.process_descriptor mem s d = Except.ok s2) :
    TreeGrows s s2 := by
  unfold ThreadTreeParser.process_descriptor at h
  split at h
  · cases hn : d.get_next_symbol with
    | error f =>
      rw [hn] at h
      cases h
    | ok symbol =>
      rw [hn] at h
      simp only [] at h
      split at h
      · exact tree_match_grows mem s s2 d h
      · split at h
        · rw [← Except.ok.inj h]
          exact tree_descend_grows s _ _
        · rw [← Except.ok.inj h]
          exact tree_skip_grows s _ _
  · cases hc : SequentialParser.collect_descriptors d s.descriptor_set [] with
    | error f =>
      rw [hc] at h
      cases h
    | ok D =>
      rw [hc] at h
      simp only [] at h
      have hg := tree_ascend_grows s D d.right_extent
      split at h
      · rw [← Except.ok.inj h]
        exact { worklist := hg.worklist, threads := hg.threads,
                descriptor_set := hg.descriptor_set,
                descriptor_set_global := hg.descriptor_set_global, input := hg.input,
                grammar := hg.grammar }
      · rw [← Except.ok.inj h]
        exact hg

/-- The iteration of the shipped build from `d = *worklist_begin` on: both sets get
`d`, then `process_descriptor(d)` runs, `d` is counted and erased. -/
theorem thread_iteration_shipped (mem : Memory) (s : ThreadTreeParser) (d : Descriptor) :
    ThreadTreeParser.thread_iteration TreeConfig.shipped ThreadTreeParser.process_descriptor
        mem s d =
      ThreadTreeParser.process_and_erase ThreadTreeParser.process_descriptor mem
        { s with
          descriptor_set := set_insert Descriptor.eq s.descriptor_set d
          descriptor_set_global := set_insert Descriptor.eq s.descriptor_set_global d }
        d := by
  rw [thread_iteration_by_config TreeConfig.shipped _ mem s d rfl]
  simp [TreeConfig.shipped]

theorem thread_iteration_shipped_grows (mem : Memory) (s s2 : ThreadTreeParser)
    (d : Descriptor)
    (h : ThreadTreeParser.thread_iteration TreeConfig.shipped
      ThreadTreeParser.process_descriptor mem s d = Except.ok s2) :
    (∀ x ∈ s2.worklist, x ∈ s.worklist ∨ x.force_process = true) ∧
      s2.threads = s.threads ∧
      s2.descriptor_set_global = set_insert Descriptor.eq s.descriptor_set_global d ∧
      s2.input = s.input ∧ s2.grammar = s.grammar := by
  rw [thread_iteration_shipped] at h
  unfold ThreadTreeParser.process_and_erase at h
  cases hp : ThreadTreeParser.process_descriptor mem
      { s with
        descriptor_set := set_insert Descriptor.eq s.descriptor_set d
        descriptor_set_global := set_insert Descriptor.eq s.descriptor_set_global d } d with
  | error f =>
    rw [hp] at h
    cases h
  | ok s1 =>
    rw [hp] at h
    simp only [] at h
    have hg := tree_process_descriptor_grows mem _ s1 d hp
    rw [← Except.ok.inj h]
    refine ⟨fun x hx => ?_, hg.threads, hg.descriptor_set_global, hg.input, hg.grammar⟩
    exact hg.worklist x ((mem_set_erase _ _ _ _).1 hx).1

theorem spawn_loop_grows (W0 : List Descriptor) (it : List Descriptor) :
    ∀ (i : Nat) (s : ThreadTreeParser) (it2 : List Descriptor) (s2 : ThreadTreeParser),
      (∀ x ∈ it, x ∈ W0) → (∀ x ∈ s.worklist, x ∈ W0) →
      ThreadTreeParser.spawn_loop i it s = Except.ok (it2, s2) →
      (∀ x ∈ s2.worklist, x ∈ W0) ∧ (∀ x ∈ it2, x ∈ W0) ∧
      (∃ new, s2.threads = s.threads ++ new ∧ ∀ a ∈ new, a.1 ∈ W0) ∧
      s2.descriptor_set = s.descriptor_set ∧
      s2.descriptor_set_global = s.descriptor_set_global ∧
      s2.input = s.input ∧ s2.grammar = s.grammar ∧ s2.epn_set = s.epn_set := by
  induction it with
  | nil =>
    intro i s it2 s2 hit hs h
    rw [ThreadTreeParser.spawn_loop] at h
    split at h
    · cases h
    · have e := Except.ok.inj h
      rw [← (Prod.mk.inj e).1, ← (Prod.mk.inj e).2]
      exact ⟨hs, hit, ⟨[], by simp, fun a ha => by cases ha⟩, rfl, rfl, rfl, rfl, rfl⟩
  | cons d rest ih =>
    intro i s it2 s2 hit hs h
    rw [ThreadTreeParser.spawn_loop] at h
    split at h
    · simp only [] at h
      obtain ⟨h1, h2, ⟨new, h3, h4⟩, h5, h6, h7, h8, h9⟩ := ih (i + 1) _ it2 s2
        (fun x hx => hit x (List.mem_cons_of_mem _ hx))
        (fun x hx => hs x ((mem_set_erase _ _ _ _).1 hx).1) h
      refine ⟨h1, h2, ⟨(d, s.descriptor_set) :: new, ?_, ?_⟩, h5, h6, h7, h8, h9⟩
      · rw [h3]
        simp [ThreadTreeParser.add_thread]
      · intro a ha
        rcases List.mem_cons.1 ha with h10 | h10
        · rw [h10]
          exact hit d (List.mem_cons_self _ _)
        · exact h4 a h10
    · have e := Except.ok.inj h
      rw [← (Prod.mk.inj e).1, ← (Prod.mk.inj e).2]
      exact ⟨hs, hit, ⟨[], by simp, fun a ha => by cases ha⟩, rfl, rfl, rfl, rfl, rfl⟩

theorem spawn_step_grows (s : ThreadTreeParser) (it2 : List Descriptor)
    (s2 : ThreadTreeParser) (h : s.spawn_step = Except.ok (it2, s2)) :
    (∀ x ∈ s2.worklist, x ∈ s.worklist) ∧ (∀ x ∈ it2, x ∈ s.worklist) ∧
      (∃ new, s2.threads = s.threads ++ new ∧ ∀ a ∈ new, a.1 ∈ s.worklist) ∧
      s2.descriptor_set = s.descriptor_set ∧
      s2.descriptor_set_global = s.descriptor_set_global ∧
      s2.input = s.input ∧ s2.grammar = s.grammar ∧ s2.epn_set = s.epn_set := by
  unfold ThreadTreeParser.spawn_step at h
  split at h
  · exact spawn_loop_grows s.worklist s.worklist 0 s it2 s2 (fun x hx => hx) (fun x hx => hx) h
  · have e := Except.ok.inj h
    rw [← (Prod.mk.inj e).1, ← (Prod.mk.inj e).2]
    exact ⟨fun x hx => hx, fun x hx => hx, ⟨[], by simp, fun a ha => by cases ha⟩, rfl, rfl,
      rfl, rfl, rfl⟩

/-- What an iteration of a worker whose worklist holds forced descriptors only leaves:
forced descriptors in the worklist, and new threads for forced descriptors. -/
theorem worker_iteration_forced (mem : Memory) (s s2 : ThreadTreeParser)
    (hs : ∀ x ∈ s.worklist, x.force_process = true)
    (h : ThreadTreeParser.worker_iteration mem s = Except.ok s2) :
    (∀ x ∈ s2.worklist, x.force_process = true) ∧
      ∃ new, s2.threads = s.threads ++ new ∧ ∀ a ∈ new, a.1.force_process = true := by
  unfold ThreadTreeParser.worker_iteration at h
  cases hsp : s.spawn_step with
  | error f =>
    rw [hsp] at h
    cases h
  | ok r =>
    obtain ⟨it, s1⟩ := r
    rw [hsp] at h
    simp only [] at h
    obtain ⟨h1, h2, ⟨new, h3, h4⟩, -⟩ := spawn_step_grows s it s1 hsp
    cases it with
    | nil => cases h
    | cons d rest =>
      simp only [] at h
      obtain ⟨g1, g2, -⟩ := thread_iteration_shipped_grows mem s1 s2 d h
      refine ⟨fun x hx => ?_, new, g2.trans h3, fun a ha => hs _ (h4 a ha)⟩
      rcases g1 x hx with h5 | h5
      · exact hs x (h1 x h5)
      · exact h5

theorem mem_entry_worklist (a : Descriptor × descriptor_set_t) (x : Descriptor)
    (h : x ∈ (TreeLocal.entry a).worklist) : x = a.1 := by
  have h0 : x ∈ set_insert Descriptor.eq [] a.1 := h
  rcases (mem_set_insert _ _ _ _).1 h0 with h1 | ⟨h1, -⟩
  · cases h1
  · exact h1

theorem step_forced (mem : Memory) (order : List Descriptor → List Descriptor)
    (horder : ∀ l, (order l).Perm l) (W W2 : TreeWorld) (i : Nat) (hW : W.Forced)
    (h : W.step mem order i = Except.ok W2) : W2.Forced := by
  unfold TreeWorld.step at h
  cases hl : W.workers[i]? with
  | none =>
    rw [hl] at h
    rw [← Except.ok.inj h]
    exact hW
  | some l =>
    rw [hl] at h
    simp only [] at h
    have hlmem : l ∈ W.workers := List.getElem?_mem hl
    split at h
    · rw [← Except.ok.inj h]
      exact hW
    · cases hit : ThreadTreeParser.worker_iteration mem
          (W.parser.with_local { l with worklist := order l.worklist }) with
      | error f =>
        rw [hit] at h
        cases h
      | ok s =>
        rw [hit] at h
        simp only [] at h
        obtain ⟨h1, new, h2, h3⟩ := worker_iteration_forced mem _ s
          (fun x hx => hW l hlmem x ((horder l.worklist).mem_iff.1 hx)) hit
        have hdrop : s.threads.drop l.threads.length = new := by
          rw [h2]
          exact List.drop_left l.threads new
        rw [← Except.ok.inj h]
        intro l2 hl2 x hx
        rcases List.mem_append.1 hl2 with h4 | h4
        · rcases List.mem_or_eq_of_mem_set h4 with h5 | h5
          · exact hW l2 h5 x hx
          · rw [h5] at hx
            exact h1 x hx
        · rw [hdrop] at h4
          obtain ⟨a, ha, hal⟩ := List.mem_map.1 h4
          rw [← hal] at hx
          rw [mem_entry_worklist a x hx]
          exact h3 a ha

theorem run_forced (mem : Memory) (order : List Descriptor → List Descriptor)
    (horder : ∀ l, (order l).Perm l) (schedule : List Nat) :
    ∀ (W W2 : TreeWorld), W.Forced → TreeWorld.run mem order schedule W = Except.ok W2 →
      W2.Forced := by
  induction schedule with
  | nil =>
    intro W W2 hW h
    rw [← Except.ok.inj h]
    exact hW
  | cons i rest ih =>
    intro W W2 hW h
    unfold TreeWorld.run at h
    cases hs : W.step mem order i with
    | error f =>
      rw [hs] at h
      cases h
    | ok W1 =>
      rw [hs] at h
      exact ih W1 W2 (step_forced mem order horder W W1 i hW hs) h

theorem foldl_insert_descriptor_set (l : List Descriptor) :
    ∀ s : ThreadTreeParser,
      (∀ x ∈ (l.foldl
          (fun s descriptor =>
            { s with descriptor_set := set_insert Descriptor.eq s.descriptor_set descriptor })
          s).descriptor_set, x ∈ s.descriptor_set ∨ x ∈ l) ∧
      (l.foldl
          (fun s descriptor =>
            { s with descriptor_set := set_insert Descriptor.eq s.descriptor_set descriptor })
          s).threads = s.threads := by
  induction l with
  | nil => intro s; exact ⟨fun x hx => Or.inl hx, rfl⟩
  | cons d rest ih =>
    intro s
    rw [List.foldl_cons]
    obtain ⟨h1, h2⟩ := ih { s with descriptor_set := set_insert Descriptor.eq s.descriptor_set d }
    refine ⟨fun x hx => ?_, h2⟩
    rcases h1 x hx with h | h
    · rcases (mem_set_insert _ _ _ _).1 h with h3 | ⟨h3, -⟩
      · exact Or.inl h3
      · rw [h3]
        exact Or.inr (List.mem_cons_self _ _)
    · exact Or.inr (List.mem_cons_of_mem _ h)

theorem foldl_add_thread (l : List Descriptor) :
    ∀ s : ThreadTreeParser,
      ∀ a ∈ (l.foldl (fun s descriptor => s.add_thread descriptor) s).threads,
        a ∈ s.threads ∨ a.1 ∈ l := by
  induction l with
  | nil => intro s a ha; exact Or.inl ha
  | cons d rest ih =>
    intro s a ha
    rw [List.foldl_cons] at ha
    rcases ih (s.add_thread d) a ha with h | h
    · have h0 : a ∈ s.threads ++ [(d, s.descriptor_set)] := h
      rcases List.mem_append.1 h0 with h1 | h1
      · exact Or.inl h1
      · rw [List.mem_singleton.1 h1]
        exact Or.inr (List.mem_cons_self _ _)
    · exact Or.inr (List.mem_cons_of_mem _ h)

theorem loop_start_forced (s : ThreadTreeParser) (hw : s.worklist = [])
    (hS : s.descriptor_set = []) (ht : s.threads = []) :
    ∀ a ∈ s.loop_start.threads, a.1.force_process = true := by
  intro a ha
  have hg := tree_extend_worklist_grows s
    (s.grammar.get_production_rules s.grammar.start_symbol) 0 0
  have hins := foldl_insert_descriptor_set
    (s.extend_worklist (s.grammar.get_production_rules s.grammar.start_symbol) 0 0).worklist
    (s.extend_worklist (s.grammar.get_production_rules s.grammar.start_symbol) 0 0)
  rcases foldl_add_thread _ _ a ha with h1 | h1
  · have h2 : a ∈ (s.extend_worklist
        (s.grammar.get_production_rules s.grammar.start_symbol) 0 0).threads := by
      rw [← hins.2]
      exact h1
    rw [hg.threads, ht] at h2
    cases h2
  · rcases hins.1 _ h1 with h2 | h2
    · rw [hg.descriptor_set, hS] at h2
      cases h2
    · rcases hg.worklist _ h2 with h3 | h3
      · rw [hw] at h3
        cases h3
      · exact h3

/-- The workers that `loop` starts on a new parser hold forced descriptors. -/
theorem start_forced (g : Grammar) (w : List String) : (TreeWorld.start g w).Forced := by
  intro l hl x hx
  have hl2 : l ∈ (ThreadTreeParser.loop_start
      { ThreadTreeParser.fresh g with input := w }).threads.map TreeLocal.entry := hl
  obtain ⟨a, ha, hal⟩ := List.mem_map.1 hl2
  rw [← hal] at hx
  rw [mem_entry_worklist a x hx]
  exact loop_start_forced _ rfl rfl rfl a ha

/-- C33. In every run of the shipped tree engine on a new parser, whatever the grammar,
the input, the order of the iterations of the workers and the order in which a
worklist is iterated, an iteration of the worker loop on the picked descriptor `d`
inserts `d` into the global descriptor set and runs `process_descriptor(d)`, and the
force flag of `d` is set; so `d` is processed, and the insert has succeeded or the
force flag is set. No picked descriptor is erased without being processed. -/
theorem tree_global_admission (mem : Memory) (order : List Descriptor → List Descriptor)
    (g : Grammar) (w : List String) (schedule : List Nat) (W : TreeWorld) (i : Nat)
    (l : TreeLocal) (d : Descriptor) (rest : List Descriptor) (s : ThreadTreeParser)
    (horder : ∀ l, (order l).Perm l)
    (hrun : TreeWorld.run mem order schedule (TreeWorld.start g w) = Except.ok W)
    (hl : W.workers[i]? = some l)
    (hspawn : ThreadTreeParser.spawn_step
      (W.parser.with_local { l with worklist := order l.worklist }) = Except.ok (d :: rest, s)) :
    d.force_process = true ∧
    (set_count Descriptor.eq s.descriptor_set_global d = false ∨ d.force_process = true) ∧
    ThreadTreeParser.worker_iteration mem
        (W.parser.with_local { l with worklist := order l.worklist }) =
      ThreadTreeParser.thread_iteration TreeConfig.shipped ThreadTreeParser.process_descriptor
        mem s d ∧
    ThreadTreeParser.thread_iteration TreeConfig.shipped ThreadTreeParser.process_descriptor
        mem s d =
      ThreadTreeParser.process_and_erase ThreadTreeParser.process_descriptor mem
        { s with
          descriptor_set := set_insert Descriptor.eq s.descriptor_set d
          descriptor_set_global := set_insert Descriptor.eq s.descriptor_set_global d }
        d ∧
    (∀ s2, ThreadTreeParser.thread_iteration TreeConfig.shipped
        ThreadTreeParser.process_descriptor mem s d = Except.ok s2 →
      set_count Descriptor.eq s2.descriptor_set_global d = true ∧
      ∃ s1, ThreadTreeParser.process_descriptor mem
          { s with
            descriptor_set := set_insert Descriptor.eq s.descriptor_set d
            descriptor_set_global := set_insert Descriptor.eq s.descriptor_set_global d }
          d = Except.ok s1 ∧
        s2.epn_set = s1.epn_set ∧ s2.num_descriptors = s1.num_descriptors + 1 ∧
        s2.worklist = set_erase Descriptor.eq s1.worklist d) := by
  have hW := run_forced mem order horder schedule _ W (start_forced g w) hrun
  have hlmem : l ∈ W.workers := List.getElem?_mem hl
  obtain ⟨-, h2, -⟩ := spawn_step_grows _ _ s hspawn
  have hd : d.force_process = true :=
    hW l hlmem d ((horder l.worklist).mem_iff.1 (h2 d (List.mem_cons_self _ _)))
  refine ⟨hd, Or.inr hd, ?_, thread_iteration_shipped mem s d, fun s2 h => ?_⟩
  · unfold ThreadTreeParser.worker_iteration
    rw [hspawn]
  · obtain ⟨-, -, hG, -⟩ := thread_iteration_shipped_grows mem s s2 d h
    rw [thread_iteration_shipped] at h
    unfold ThreadTreeParser.process_and_erase at h
    cases hp : ThreadTreeParser.process_descriptor mem
        { s with
          descriptor_set := set_insert Descriptor.eq s.descriptor_set d
          descriptor_set_global := set_insert Descriptor.eq s.descriptor_set_global d } d with
    | error f =>
      rw [hp] at h
      cases h
    | ok s1 =>
      rw [hp] at h
      simp only [] at h
      refine ⟨?_, s1, rfl, ?_, ?_, ?_⟩
      · rw [hG]
        exact set_count_insert_self Descriptor.eq Descriptor.eq_refl _ d
      · rw [← Except.ok.inj h]
      · rw [← Except.ok.inj h]
      · rw [← Except.ok.inj h]

theorem tree_global_admission_witness :
    ((∀ l : List Descriptor, (id l).Perm l) ∧
      TreeWorld.run Memory.strict id [] (TreeWorld.start single_terminal ["a"]) =
        Except.ok (TreeWorld.start single_terminal ["a"]) ∧
      (TreeWorld.start single_terminal ["a"]).workers[0]? =
        some (TreeLocal.entry (forced "S" ["a"] 0 0 0, [forced "S" ["a"] 0 0 0])) ∧
      ThreadTreeParser.spawn_step
        ((TreeWorld.start single_terminal ["a"]).parser.with_local
          (TreeLocal.entry (forced "S" ["a"] 0 0 0, [forced "S" ["a"] 0 0 0]))) =
        Except.ok ([forced "S" ["a"] 0 0 0],
          (TreeWorld.start single_terminal ["a"]).parser.with_local
            (TreeLocal.entry (forced "S" ["a"] 0 0 0, [forced "S" ["a"] 0 0 0])))) ∧
    (forced "S" ["a"] 0 0 0).force_process = true ∧
    ThreadTreeParser.thread_iteration TreeConfig.shipped ThreadTreeParser.process_descriptor
        Memory.strict
        ((TreeWorld.start single_terminal ["a"]).parser.with_local
          (TreeLocal.entry (forced "S" ["a"] 0 0 0, [forced "S" ["a"] 0 0 0])))
        (forced "S" ["a"] 0 0 0) =
      ThreadTreeParser.process_and_erase ThreadTreeParser.process_descriptor Memory.strict
        { (TreeWorld.start single_terminal ["a"]).parser.with_local
            (TreeLocal.entry (forced "S" ["a"] 0 0 0, [forced "S" ["a"] 0 0 0])) with
          descriptor_set := set_insert Descriptor.eq
            ((TreeWorld.start single_terminal ["a"]).parser.with_local
              (TreeLocal.entry (forced "S" ["a"] 0 0 0,
                [forced "S" ["a"] 0 0 0]))).descriptor_set
            (forced "S" ["a"] 0 0 0)
          descriptor_set_global := set_insert Descriptor.eq
            ((TreeWorld.start single_terminal ["a"]).parser.with_local
              (TreeLocal.entry (forced "S" ["a"] 0 0 0,
                [forced "S" ["a"] 0 0 0]))).descriptor_set_global
            (forced "S" ["a"] 0 0 0) }
        (forced "S" ["a"] 0 0 0) :=
  ⟨⟨fun l => List.Perm.refl l, rfl, rfl, rfl⟩,
    (tree_global_admission Memory.strict id single_terminal ["a"] [] _ 0 _ _ [] _
      (fun l => List.Perm.refl l) rfl rfl rfl).1,
    (tree_global_admission Memory.strict id single_terminal ["a"] [] _ 0 _ _ [] _
      (fun l => List.Perm.refl l) rfl rfl rfl).2.2.2.1⟩

end CDS

namespace CDS

/-! ## The tree engine loses descriptors -/

theorem gap_worker_iteration (mem : Memory) (p : ThreadTreeParser)
    (hin : p.input = ["a", "b", "z"]) (hg : p.grammar = tree_gap)
    (a : descriptor_set_t × descriptor_set_t) (ha : a ∈ gap_locals) (x : Descriptor)
    (hx : a.1 = [x]) :
    ∃ s b, ThreadTreeParser.worker_iteration mem
        (p.with_local { worklist := [x], descriptor_set := gap_parent ++ a.2, threads := [] }) =
        Except.ok s ∧
      b ∈ gap_locals ∧ s.worklist = b.1 ∧ s.descriptor_set = gap_parent ++ b.2 ∧
      s.threads = [] ∧ s.input = p.input ∧ s.grammar = p.grammar ∧
      s.descriptor_set_global = set_insert Descriptor.eq p.descriptor_set_global x ∧
      x ∈ gap_processed := by
  obtain ⟨input, grammar, epn_set, num_descriptors, num_threads, worklist, descriptor_set,
    threads, G⟩ := p
  simp only [] at hin hg
  subst hin hg
  simp only [gap_locals, List.mem_cons, List.mem_singleton, List.not_mem_nil, or_false] at ha
  rcases ha with rfl | rfl | rfl | rfl | rfl | rfl | rfl | rfl | rfl
  · cases hx
    exact ⟨_, ([forced "A" ["S", "b"] 0 0 0], []), rfl, by decide, rfl, rfl, rfl, rfl, rfl, rfl,
      by decide⟩
  · cases hx
    exact ⟨_, ([forced "A" ["S", "b"] 1 0 0], [forced "A" ["S", "b"] 0 0 0]), rfl, by decide,
      rfl, rfl, rfl, rfl, rfl, rfl, by decide⟩
  · cases hx
    exact ⟨_, ([], [forced "A" ["S", "b"] 0 0 0, forced "A" ["S", "b"] 1 0 0]), rfl, by decide,
      rfl, rfl, rfl, rfl, rfl, rfl, by decide⟩
  · cases hx
  · cases hx
    exact ⟨_, ([forced "S" ["a"] 1 0 1], []), rfl, by decide, rfl, rfl, rfl, rfl, rfl, rfl,
      by decide⟩
  · cases hx
    exact ⟨_, ([], [forced "S" ["a"] 1 0 1]), rfl, by decide, rfl, rfl, rfl, rfl, rfl, rfl,
      by decide⟩
  · cases hx
  · cases hx
    exact ⟨_, ([], []), rfl, by decide, rfl, rfl, rfl, rfl, rfl, rfl, by decide⟩
  · cases hx

theorem gap_locals_worklist (a : descriptor_set_t × descriptor_set_t) (ha : a ∈ gap_locals) :
    a.1 = [] ∨ ∃ x, a.1 = [x] := by
  simp only [gap_locals, List.mem_cons, List.mem_singleton, List.not_mem_nil, or_false] at ha
  rcases ha with rfl | rfl | rfl | rfl | rfl | rfl | rfl | rfl | rfl
  · exact Or.inr ⟨_, rfl⟩
  · exact Or.inr ⟨_, rfl⟩
  · exact Or.inr ⟨_, rfl⟩
  · exact Or.inl rfl
  · exact Or.inr ⟨_, rfl⟩
  · exact Or.inr ⟨_, rfl⟩
  · exact Or.inl rfl
  · exact Or.inr ⟨_, rfl⟩
  · exact Or.inl rfl

/-- An iteration of any worker keeps the invariant, and it does not fault. -/
theorem gap_step (mem : Memory) (order : List Descriptor → List Descriptor)
    (horder : ∀ l, (order l).Perm l) (W : TreeWorld) (i : Nat) (hW : GapInv W) :
    ∃ W2, W.step mem order i = Except.ok W2 ∧ GapInv W2 := by
  obtain ⟨hin, hg, hworkers, hG⟩ := hW
  unfold TreeWorld.step
  cases hl : W.workers[i]? with
  | none => exact ⟨W, rfl, hin, hg, hworkers, hG⟩
  | some l =>
    simp only []
    have hlmem : l ∈ W.workers := List.getElem?_mem hl
    obtain ⟨a, ha, h1, h2, h3⟩ := hworkers l hlmem
    rcases gap_locals_worklist a ha with h4 | ⟨x, h4⟩
    · have he : l.worklist.isEmpty = true := by
        rw [h1, h4]
        rfl
      rw [if_pos he]
      exact ⟨W, rfl, hin, hg, hworkers, hG⟩
    · have he : ¬ l.worklist.isEmpty = true := by
        rw [h1, h4]
        simp
      rw [if_neg he]
      have hord : order l.worklist = [x] := by
        rw [h1, h4]
        exact List.perm_singleton.1 (horder [x])
      have hloc : ({ l with worklist := order l.worklist } : TreeLocal) =
          { worklist := [x], descriptor_set := gap_parent ++ a.2, threads := [] } := by
        rw [hord, h2, h3]
      rw [hloc]
      obtain ⟨s, b, hs, hb, g1, g2, g3, g4, g5, g6, g7⟩ :=
        gap_worker_iteration mem W.parser hin hg a ha x h4
      rw [hs]
      simp only []
      refine ⟨_, rfl, g4.trans hin, g5.trans hg, fun l2 hl2 => ?_, fun d hd => ?_⟩
      · rw [g3] at hl2
        simp only [List.drop_nil, List.map_nil, List.append_nil] at hl2
        rcases List.mem_or_eq_of_mem_set hl2 with h5 | h5
        · exact hworkers l2 h5
        · rw [h5]
          exact ⟨b, hb, g1, g2, g3⟩
      · have hd2 : d ∈ s.descriptor_set_global := hd
        rw [g6] at hd2
        rcases (mem_set_insert _ _ _ _).1 hd2 with h5 | ⟨h5, -⟩
        · exact hG d h5
        · rw [h5]
          exact g7

theorem gap_run (mem : Memory) (order : List Descriptor → List Descriptor)
    (horder : ∀ l, (order l).Perm l) (schedule : List Nat) :
    ∀ W : TreeWorld, GapInv W →
      ∃ W2, TreeWorld.run mem order schedule W = Except.ok W2 ∧ GapInv W2 := by
  induction schedule with
  | nil => intro W hW; exact ⟨W, rfl, hW⟩
  | cons i rest ih =>
    intro W hW
    obtain ⟨W1, h1, hW1⟩ := gap_step mem order horder W i hW
    obtain ⟨W2, h2, hW2⟩ := ih W1 hW1
    refine ⟨W2, ?_, hW2⟩
    unfold TreeWorld.run
    rw [h1]
    exact h2

theorem gap_start : GapInv (TreeWorld.start tree_gap ["a", "b", "z"]) := by
  refine ⟨rfl, rfl, fun l hl => ?_, fun d hd => by cases hd⟩
  have hw : (TreeWorld.start tree_gap ["a", "b", "z"]).workers =
      [{ worklist := [forced "S" ["A"] 0 0 0], descriptor_set := gap_parent, threads := [] },
       { worklist := [forced "S" ["a"] 0 0 0], descriptor_set := gap_parent, threads := [] },
       { worklist := [forced "S" [] 0 0 0], descriptor_set := gap_parent, threads := [] }] :=
    rfl
  rw [hw] at hl
  simp only [List.mem_cons, List.mem_singleton, List.not_mem_nil, or_false] at hl
  rcases hl with rfl | rfl | rfl
  · exact ⟨([forced "S" ["A"] 0 0 0], []), by decide, rfl, rfl, rfl⟩
  · exact ⟨([forced "S" ["a"] 0 0 0], []), by decide, rfl, rfl, rfl⟩
  · exact ⟨([forced "S" [] 0 0 0], []), by decide, rfl, rfl, rfl⟩

/-- C5. The tree engine does not return what the sequential engine returns. For
`S ::= A | a | ε`, `A ::= S b` and the input `a b z`, every run of the shipped tree
engine, whatever the order of the iterations of its workers and the order in which a
worklist is iterated, ends in no fault and holds only the six descriptors
`gap_processed` in the global descriptor set, so not `(A, [S, b], 1, 0, 1)`; the run
in which the workers follow one another returns these six descriptors and three EPNs.
Every run of the sequential engine that returns holds `(A, [S, b], 1, 0, 1)`, and the
run that picks the first element of the worklist returns ten descriptors, with all
reads inside the input. -/
theorem tree_loses_descriptors :
    (∀ (mem : Memory) (order : List Descriptor → List Descriptor) (schedule : List Nat),
      (∀ l, (order l).Perm l) →
      ∃ W, TreeWorld.run mem order schedule (TreeWorld.start tree_gap ["a", "b", "z"]) =
          Except.ok W ∧
        (∀ d ∈ W.result.1, d ∈ gap_processed) ∧
        set_count Descriptor.eq W.result.1 (Descriptor.make "A" ["S", "b"] 1 0 1) = false) ∧
    (∃ W, TreeWorld.run Memory.strict id [0, 0, 0, 1, 1, 2]
          (TreeWorld.start tree_gap ["a", "b", "z"]) = Except.ok W ∧
        W.finished = true ∧
        W.result =
          ([forced "S" ["A"] 0 0 0, forced "A" ["S", "b"] 0 0 0, forced "A" ["S", "b"] 1 0 0,
            forced "S" ["a"] 0 0 0, forced "S" ["a"] 1 0 1, forced "S" [] 0 0 0],
           [{ lhs := "A", rhs := ["S", "b"], dot_position := 1, left_extent := 0, pivot := 0,
              right_extent := 0 },
            { lhs := "S", rhs := ["a"], dot_position := 1, left_extent := 0, pivot := 0,
              right_extent := 1 },
            { lhs := "S", rhs := [], dot_position := 0, left_extent := 0, pivot := 0,
              right_extent := 0 }])) ∧
    (∀ (mem : Memory) (pick : SequentialParser → Nat) (fuel : Nat) (p2 : SequentialParser),
      SequentialParser.parse mem pick fuel (SequentialParser.fresh tree_gap) ["a", "b", "z"] =
        Except.ok (some p2) →
      set_count Descriptor.eq p2.result.1 (Descriptor.make "A" ["S", "b"] 1 0 1) = true) ∧
    (∃ p2, SequentialParser.parse Memory.strict (fun _ => 0) 20
          (SequentialParser.fresh tree_gap) ["a", "b", "z"] = Except.ok (some p2) ∧
        p2.result.1 =
          [Descriptor.make "S" ["A"] 0 0 0, Descriptor.make "S" ["a"] 0 0 0,
           Descriptor.make "S" [] 0 0 0, Descriptor.make "A" ["S", "b"] 0 0 0,
           Descriptor.make "S" ["a"] 1 0 1, Descriptor.make "A" ["S", "b"] 1 0 0,
           Descriptor.make "A" ["S", "b"] 1 0 1, Descriptor.make "A" ["S", "b"] 2 0 2,
           Descriptor.make "S" ["A"] 1 0 2, Descriptor.make "A" ["S", "b"] 1 0 2]) := by
  refine ⟨fun mem order schedule horder => ?_, ⟨_, rfl, rfl, rfl⟩,
    fun mem pick fuel p2 h => ?_, ⟨_, rfl, rfl⟩⟩
  · obtain ⟨W, h1, -, -, -, hG⟩ := gap_run mem order horder schedule _ gap_start
    refine ⟨W, h1, hG, ?_⟩
    rw [set_count_eq_false_iff]
    intro y hy
    have hy2 := hG y hy
    simp only [gap_processed, List.mem_cons, List.mem_singleton, List.not_mem_nil,
      or_false] at hy2
    rcases hy2 with rfl | rfl | rfl | rfl | rfl | rfl <;> rfl
  · obtain ⟨hS, -⟩ := parse_fresh_characterisation mem pick fuel tree_gap
      ["a", "b", "z"] p2 (by decide) h
    have r1 : Reach tree_gap ["a", "b", "z"] mem (Descriptor.make "S" ["A"] 0 0 0) :=
      Reach.start ["A"] (by decide)
    have r2 : Reach tree_gap ["a", "b", "z"] mem (Descriptor.make "A" ["S", "b"] 0 0 0) :=
      Reach.by_descend _ _ r1 ⟨"A", ["S", "b"], rfl, by decide, by decide, rfl⟩
    have r3 : Reach tree_gap ["a", "b", "z"] mem (Descriptor.make "S" ["a"] 0 0 0) :=
      Reach.start ["a"] (by decide)
    have r4 : Reach tree_gap ["a", "b", "z"] mem (Descriptor.make "S" ["a"] 1 0 1) :=
      Reach.by_match _ _ r3 ⟨"a", rfl, by decide, by decide, rfl, rfl⟩
    have r5 : Reach tree_gap ["a", "b", "z"] mem (Descriptor.make "A" ["S", "b"] 1 0 1) :=
      Reach.by_skip _ _ _ r2 r4 ⟨"S", rfl, by decide, rfl, rfl, rfl, rfl⟩
    exact set_count_of_mem _ _ ((hS _).2 r5)

end CDS

